import Mathlib

/-! # Shortest-path algorithms on a weighted grid

A shallow embedding of `IGraph.h`, `Algorithms.cpp`, `Grid.h` and `Grid.cpp`,
followed by theorems about the embedded code.

Modelling conventions.

* A C++ `int` is a Lean `Int` in the 32-bit range.  The sums of the searches
  (`d + edge.weight`, `gScore[curr] + edge.weight`, the f-score) and the products
  of `Grid::getNeighbors` (`10 * getWeight`, `14 * getWeight`) are computed with
  `wrapInt32`: a result outside the range wraps around, which is what the
  compiled program does (the C++ standard leaves signed overflow undefined).
  Stream extraction fails on a value that does not fit.  Coordinates, node ids,
  the heuristic and the counter `visitedCount` are not wrapped: they stay in
  range on every grid that fits in memory.
* `runDijkstraExact`, `runAStarExact` and the other definitions whose name holds
  `Exact` are copies of the searches with exact sums.  They are no part of the
  program; the theorems use them to reason about the runs in which no sum
  leaves the range of `int`, where the copies and the program agree.
* `std::map<Node, T>` is a finite partial function; only `find`, `count`,
  `at`, `operator[]` and assignment are used by the code, so a map is modelled
  as `Node → Option T`.
* `std::priority_queue<pair<int, Node>, ..., greater<...>>` is a multiset whose
  `top()` is its least pair in the lexicographic order of `(key, id)`; it is
  modelled as a list together with a least-element selection.
* `while` loops are iterated by a step function under a fuel bound; a call
  returns when some fuel is enough.  The theorems prove that enough fuel exists
  whenever they speak of a result, and that no fuel is enough where a call does
  not return.
* The observer receives `onNodeVisited` calls; the sequence of these calls is
  recorded in the field `visited` of each loop state.  The elapsed-time field
  of `AlgoResult` is not modelled.
-/

namespace ShortestPath

/-! ## IGraph.h -/

/-- Node of `IGraph.h`: a struct with the single field `id`, compared by `id`. -/
abbrev Node := Int

/-- Edge of `IGraph.h`. -/
structure Edge where
  target : Node
  weight : Int
deriving DecidableEq, Repr

/-- The two virtual functions of `IGraph`. -/
structure IGraph where
  getNeighbors : Node → List Edge
  getHeuristic : Node → Node → Int

/-- The default `IGraph::getHeuristic`, which returns 0. -/
def IGraph.ofNeighbors (nb : Node → List Edge) : IGraph :=
  { getNeighbors := nb, getHeuristic := fun _ _ => 0 }

/-- Finite partial map keyed by node, standing for `std::map<Node, T>`. -/
abbrev NodeMap (α : Type) := Node → Option α

/-- The empty map. -/
def NodeMap.empty {α : Type} : NodeMap α := fun _ => none

/-- Assignment `m[k] = v`. -/
def NodeMap.insert {α : Type} (m : NodeMap α) (k : Node) (v : α) : NodeMap α :=
  fun x => if x = k then some v else m x

/-- Effect on the map of evaluating `m[k]`: a missing key is value-initialised. -/
def NodeMap.touch (m : NodeMap Int) (k : Node) : NodeMap Int :=
  match m k with
  | some _ => m
  | none => m.insert k 0

/-- The value of an `int` computation whose exact result is `x`: results outside the
32-bit range wrap around (two's complement). -/
def wrapInt32 (x : Int) : Int := (x + 2147483648) % 4294967296 - 2147483648

/-! ## Algorithms.h / Algorithms.cpp -/

/-- Result record of one search (without the elapsed time). -/
structure AlgoResult where
  path : List Node
  visitedCount : Int
  totalCost : Int
  success : Bool
deriving DecidableEq, Repr

/-- Iterate a loop: `Sum.inl` continues with the next state, `Sum.inr` leaves the loop. -/
def iterate {S R : Type} (step : S → S ⊕ R) : Nat → S → Option R
  | 0, _ => none
  | n + 1, s =>
    match step s with
    | Sum.inl s1 => iterate step n s1
    | Sum.inr r => some r

/-- One evaluation of the loop condition and body of `reconstructPathInternal`;
the state is the current node and the vector built so far. -/
def reconstructStep (parent : NodeMap Node) (start : Node) (s : Node × List Node) :
    (Node × List Node) ⊕ List Node :=
  if s.1 = -1 then Sum.inr s.2
  else
    let path := s.2 ++ [s.1]
    if s.1 = start then Sum.inr path
    else
      match parent s.1 with
      | none => Sum.inr path
      | some p => Sum.inl (p, path)

/-- The function `reconstructPathInternal` of `Algorithms.cpp`. -/
def reconstructPathInternal (fuel : Nat) (parent : NodeMap Node) (start endNode : Node) :
    Option (List Node) :=
  match iterate (reconstructStep parent start) fuel (endNode, []) with
  | none => none
  | some walked =>
    let path := walked.reverse
    match path with
    | [] => some []
    | first :: _ => if first ≠ start then some [] else some path

/-- Order of `pair<int, Node>` under `operator<=`: by key, then by node id. -/
def pairLe (a b : Int × Node) : Bool :=
  decide (a.1 < b.1) || (decide (a.1 = b.1) && decide (a.2 ≤ b.2))

/-- The element `top()` of the min-queue, `none` when the queue is empty. -/
def pqTop : List (Int × Node) → Option (Int × Node)
  | [] => none
  | x :: xs =>
    match pqTop xs with
    | none => some x
    | some y => if pairLe x y then some x else some y

/-- Loop state of `runDijkstra`. -/
structure DijkstraState where
  dist : NodeMap Int
  parent : NodeMap Node
  pq : List (Int × Node)
  visitedCount : Int
  visited : List Node
  success : Bool

/-- The inner `for` loop of `runDijkstra` over the edges of `curr`; `newDist` is an
`int`. -/
def dijkstraRelax (d : Int) (curr : Node) : List Edge → DijkstraState → DijkstraState
  | [], s => s
  | edge :: rest, s =>
    let newDist := wrapInt32 (d + edge.weight)
    let improved : DijkstraState :=
      { s with dist := s.dist.insert edge.target newDist,
               parent := s.parent.insert edge.target curr,
               pq := (newDist, edge.target) :: s.pq }
    match s.dist edge.target with
    | none => dijkstraRelax d curr rest improved
    | some old =>
      if newDist < old then dijkstraRelax d curr rest improved
      else dijkstraRelax d curr rest s

/-- The stale-entry guard `dist.count(curr) && d > dist[curr]`. -/
def dijkstraStale (dist : NodeMap Int) (d : Int) (curr : Node) : Bool :=
  match dist curr with
  | none => false
  | some dc => decide (d > dc)

/-- One iteration of the `while (!pq.empty())` loop of `runDijkstra`. -/
def dijkstraStep (graph : IGraph) (endNode : Node) (s : DijkstraState) :
    DijkstraState ⊕ DijkstraState :=
  match pqTop s.pq with
  | none => Sum.inr s
  | some (d, curr) =>
    let s1 := { s with pq := s.pq.erase (d, curr) }
    if dijkstraStale s1.dist d curr then Sum.inl s1
    else
      let s2 := { s1 with visitedCount := s1.visitedCount + 1,
                          visited := s1.visited ++ [curr] }
      if curr = endNode then Sum.inr { s2 with success := true }
      else Sum.inl (dijkstraRelax d curr (graph.getNeighbors curr) s2)

/-- State of `runDijkstra` on entry to its loop. -/
def dijkstraInit (start : Node) : DijkstraState :=
  { dist := NodeMap.empty.insert start 0,
    parent := NodeMap.empty.insert start (-1),
    pq := [(0, start)],
    visitedCount := 0,
    visited := [],
    success := false }

/-- State of `runDijkstra` when its loop is left. -/
def dijkstraFinal (fuel : Nat) (graph : IGraph) (start endNode : Node) :
    Option DijkstraState :=
  iterate (dijkstraStep graph endNode) fuel (dijkstraInit start)

/-- The function `runDijkstra` of `Algorithms.cpp`. -/
def runDijkstra (fuel : Nat) (graph : IGraph) (start endNode : Node) : Option AlgoResult :=
  match dijkstraFinal fuel graph start endNode with
  | none => none
  | some s =>
    match reconstructPathInternal fuel s.parent start endNode with
    | none => none
    | some path =>
      some { path := path,
             visitedCount := s.visitedCount,
             totalCost := if s.success then (s.dist endNode).getD 0 else 0,
             success := s.success }

/-- Loop state of `runBFS`. -/
structure BFSState where
  parent : NodeMap Node
  q : List Node
  visitedCount : Int
  visited : List Node
  success : Bool

/-- The inner `for` loop of `runBFS` over the edges of `curr`. -/
def bfsEnqueue (curr : Node) : List Edge → BFSState → BFSState
  | [], s => s
  | edge :: rest, s =>
    match s.parent edge.target with
    | none =>
      bfsEnqueue curr rest
        { s with parent := s.parent.insert edge.target curr, q := s.q ++ [edge.target] }
    | some _ => bfsEnqueue curr rest s

/-- One iteration of the `while (!q.empty())` loop of `runBFS`. -/
def bfsStep (graph : IGraph) (endNode : Node) (s : BFSState) : BFSState ⊕ BFSState :=
  match s.q with
  | [] => Sum.inr s
  | curr :: rest =>
    let s1 := { s with q := rest, visitedCount := s.visitedCount + 1,
                       visited := s.visited ++ [curr] }
    if curr = endNode then Sum.inr { s1 with success := true }
    else Sum.inl (bfsEnqueue curr (graph.getNeighbors curr) s1)

/-- State of `runBFS` on entry to its loop. -/
def bfsInit (start : Node) : BFSState :=
  { parent := NodeMap.empty.insert start (-1),
    q := [start],
    visitedCount := 0,
    visited := [],
    success := false }

/-- State of `runBFS` when its loop is left. -/
def bfsFinal (fuel : Nat) (graph : IGraph) (start endNode : Node) : Option BFSState :=
  iterate (bfsStep graph endNode) fuel (bfsInit start)

/-- The function `runBFS` of `Algorithms.cpp`. -/
def runBFS (fuel : Nat) (graph : IGraph) (start endNode : Node) : Option AlgoResult :=
  match bfsFinal fuel graph start endNode with
  | none => none
  | some s =>
    match reconstructPathInternal fuel s.parent start endNode with
    | none => none
    | some path =>
      some { path := path,
             visitedCount := s.visitedCount,
             totalCost := if s.success then (path.length : Int) - 1 else 0,
             success := s.success }

/-- Loop state of `runAStar`. -/
structure AStarState where
  gScore : NodeMap Int
  parent : NodeMap Node
  pq : List (Int × Node)
  visitedCount : Int
  visited : List Node
  success : Bool

/-- The inner `for` loop of `runAStar` over the edges of `curr`; `tentative_gScore`
and `fScore` are of type `int`. -/
def aStarRelax (graph : IGraph) (endNode curr : Node) :
    List Edge → AStarState → AStarState
  | [], s => s
  | edge :: rest, s =>
    let g1 := s.gScore.touch curr
    let tentative := wrapInt32 ((g1 curr).getD 0 + edge.weight)
    let improved : AStarState :=
      { s with parent := s.parent.insert edge.target curr,
               gScore := g1.insert edge.target tentative,
               pq := (wrapInt32 (tentative + graph.getHeuristic edge.target endNode),
                      edge.target) :: s.pq }
    match g1 edge.target with
    | none => aStarRelax graph endNode curr rest improved
    | some old =>
      if tentative < old then aStarRelax graph endNode curr rest improved
      else aStarRelax graph endNode curr rest { s with gScore := g1 }

/-- One iteration of the `while (!pq.empty())` loop of `runAStar`. -/
def aStarStep (graph : IGraph) (endNode : Node) (s : AStarState) :
    AStarState ⊕ AStarState :=
  match pqTop s.pq with
  | none => Sum.inr s
  | some (f, curr) =>
    let s1 := { s with pq := s.pq.erase (f, curr),
                       visitedCount := s.visitedCount + 1,
                       visited := s.visited ++ [curr] }
    if curr = endNode then Sum.inr { s1 with success := true }
    else Sum.inl (aStarRelax graph endNode curr (graph.getNeighbors curr) s1)

/-- State of `runAStar` on entry to its loop. -/
def aStarInit (graph : IGraph) (start endNode : Node) : AStarState :=
  { gScore := NodeMap.empty.insert start 0,
    parent := NodeMap.empty.insert start (-1),
    pq := [(graph.getHeuristic start endNode, start)],
    visitedCount := 0,
    visited := [],
    success := false }

/-- State of `runAStar` when its loop is left. -/
def aStarFinal (fuel : Nat) (graph : IGraph) (start endNode : Node) : Option AStarState :=
  iterate (aStarStep graph endNode) fuel (aStarInit graph start endNode)

/-- The function `runAStar` of `Algorithms.cpp`. -/
def runAStar (fuel : Nat) (graph : IGraph) (start endNode : Node) : Option AlgoResult :=
  match aStarFinal fuel graph start endNode with
  | none => none
  | some s =>
    match reconstructPathInternal fuel s.parent start endNode with
    | none => none
    | some path =>
      some { path := path,
             visitedCount := s.visitedCount,
             totalCost := if s.success then (s.gScore endNode).getD 0 else 0,
             success := s.success }

/-! ### The searches with exact sums

The same loops with `+` in place of the 32-bit sums.  They are not part of the
program; the theorems show that the program agrees with them as long as no sum
leaves the range of `int`, and use them to state what holds in that case. -/

/-- The edge loop `dijkstraRelax` with the exact sum in place of the 32-bit sum: what
the code computes as long as no sum leaves the range of `int`. -/
def dijkstraRelaxExact (d : Int) (curr : Node) : List Edge → DijkstraState → DijkstraState
  | [], s => s
  | edge :: rest, s =>
    let newDist := d + edge.weight
    let improved : DijkstraState :=
      { s with dist := s.dist.insert edge.target newDist,
               parent := s.parent.insert edge.target curr,
               pq := (newDist, edge.target) :: s.pq }
    match s.dist edge.target with
    | none => dijkstraRelaxExact d curr rest improved
    | some old =>
      if newDist < old then dijkstraRelaxExact d curr rest improved
      else dijkstraRelaxExact d curr rest s

/-- The iteration `dijkstraStep` with exact sums. -/
def dijkstraStepExact (graph : IGraph) (endNode : Node) (s : DijkstraState) :
    DijkstraState ⊕ DijkstraState :=
  match pqTop s.pq with
  | none => Sum.inr s
  | some (d, curr) =>
    let s1 := { s with pq := s.pq.erase (d, curr) }
    if dijkstraStale s1.dist d curr then Sum.inl s1
    else
      let s2 := { s1 with visitedCount := s1.visitedCount + 1,
                          visited := s1.visited ++ [curr] }
      if curr = endNode then Sum.inr { s2 with success := true }
      else Sum.inl (dijkstraRelaxExact d curr (graph.getNeighbors curr) s2)

/-- The loop of `runDijkstra` with exact sums. -/
def dijkstraFinalExact (fuel : Nat) (graph : IGraph) (start endNode : Node) :
    Option DijkstraState :=
  iterate (dijkstraStepExact graph endNode) fuel (dijkstraInit start)

/-- The function `runDijkstra` with exact sums. -/
def runDijkstraExact (fuel : Nat) (graph : IGraph) (start endNode : Node) : Option AlgoResult :=
  match dijkstraFinalExact fuel graph start endNode with
  | none => none
  | some s =>
    match reconstructPathInternal fuel s.parent start endNode with
    | none => none
    | some path =>
      some { path := path,
             visitedCount := s.visitedCount,
             totalCost := if s.success then (s.dist endNode).getD 0 else 0,
             success := s.success }

/-- The edge loop `aStarRelax` with the exact sums in place of the 32-bit sums. -/
def aStarRelaxExact (graph : IGraph) (endNode curr : Node) :
    List Edge → AStarState → AStarState
  | [], s => s
  | edge :: rest, s =>
    let g1 := s.gScore.touch curr
    let tentative := (g1 curr).getD 0 + edge.weight
    let improved : AStarState :=
      { s with parent := s.parent.insert edge.target curr,
               gScore := g1.insert edge.target tentative,
               pq := (tentative + graph.getHeuristic edge.target endNode, edge.target) :: s.pq }
    match g1 edge.target with
    | none => aStarRelaxExact graph endNode curr rest improved
    | some old =>
      if tentative < old then aStarRelaxExact graph endNode curr rest improved
      else aStarRelaxExact graph endNode curr rest { s with gScore := g1 }

/-- The iteration `aStarStep` with exact sums. -/
def aStarStepExact (graph : IGraph) (endNode : Node) (s : AStarState) :
    AStarState ⊕ AStarState :=
  match pqTop s.pq with
  | none => Sum.inr s
  | some (f, curr) =>
    let s1 := { s with pq := s.pq.erase (f, curr),
                       visitedCount := s.visitedCount + 1,
                       visited := s.visited ++ [curr] }
    if curr = endNode then Sum.inr { s1 with success := true }
    else Sum.inl (aStarRelaxExact graph endNode curr (graph.getNeighbors curr) s1)

/-- The loop of `runAStar` with exact sums. -/
def aStarFinalExact (fuel : Nat) (graph : IGraph) (start endNode : Node) : Option AStarState :=
  iterate (aStarStepExact graph endNode) fuel (aStarInit graph start endNode)

/-- The function `runAStar` with exact sums. -/
def runAStarExact (fuel : Nat) (graph : IGraph) (start endNode : Node) : Option AlgoResult :=
  match aStarFinalExact fuel graph start endNode with
  | none => none
  | some s =>
    match reconstructPathInternal fuel s.parent start endNode with
    | none => none
    | some path =>
      some { path := path,
             visitedCount := s.visitedCount,
             totalCost := if s.success then (s.gScore endNode).getD 0 else 0,
             success := s.success }

/-! ## Grid.h / Grid.cpp -/

/-- Point of `Grid.h`. -/
structure Point where
  x : Int
  y : Int
deriving DecidableEq, Repr

/-- Data members of the class `Grid`. -/
structure Grid where
  width : Int
  height : Int
  map : List (List Char)
  weights : List (List Int)
  source : Point
  destination : Point
  m_allowDiagonals : Bool
deriving DecidableEq, Repr

/-- Read access `m[x][y]` to a matrix. -/
def matGet {α : Type} (m : List (List α)) (x y : Int) (dflt : α) : α :=
  (m.getD x.toNat []).getD y.toNat dflt

/-- Write access `m[x][y] = v` to a matrix. -/
def matSet {α : Type} (m : List (List α)) (x y : Int) (v : α) : List (List α) :=
  m.set x.toNat ((m.getD x.toNat []).set y.toNat v)

/-- The member `Grid::isValid`. -/
def Grid.isValid (g : Grid) (x y : Int) : Bool :=
  decide (x ≥ 0) && decide (x < g.height) && decide (y ≥ 0) && decide (y < g.width)

/-- The cell `map[x][y]`. -/
def Grid.cell (g : Grid) (x y : Int) : Char := matGet g.map x y '.'

/-- The member `Grid::isObstacle`. -/
def Grid.isObstacle (g : Grid) (x y : Int) : Bool :=
  if !g.isValid x y then true else g.cell x y == '#'

/-- The member `Grid::getChar`. -/
def Grid.getChar (g : Grid) (x y : Int) : Char :=
  if g.isValid x y then g.cell x y else '#'

/-- The member `Grid::getWeight`. -/
def Grid.getWeight (g : Grid) (x y : Int) : Int :=
  if g.isValid x y then matGet g.weights x y 1 else 9999

/-- The member `Grid::toNode`. -/
def Grid.toNode (g : Grid) (x y : Int) : Node := x * g.width + y

/-- The member `Grid::toPoint`; `/` and `%` of C++ truncate toward zero.  On a grid of
width 0 the program divides by zero; such a grid has no in-bounds node, and the
theorems apply `toPoint` to grids of width at least 1 or to in-bounds nodes. -/
def Grid.toPoint (g : Grid) (n : Node) : Point :=
  { x := Int.tdiv n g.width, y := Int.tmod n g.width }

/-- The constructor `Grid::Grid(height, width)`.  A negative dimension makes
`resize` throw, so no object is constructed. -/
def Grid.create (height width : Int) : Option Grid :=
  if height < 0 ∨ width < 0 then none
  else
    let g0 : Grid :=
      { width := width, height := height,
        map := List.replicate height.toNat (List.replicate width.toNat '.'),
        weights := List.replicate height.toNat (List.replicate width.toNat 1),
        source := { x := 0, y := 0 },
        destination := { x := height - 1, y := width - 1 },
        m_allowDiagonals := false }
    let g1 := if g0.isValid 0 0 then { g0 with map := matSet g0.map 0 0 'S' } else g0
    let g2 :=
      if g1.isValid (height - 1) (width - 1) then
        { g1 with map := matSet g1.map (height - 1) (width - 1) 'D' }
      else g1
    some g2

/-- The member `Grid::setWeight`. -/
def Grid.setWeight (g : Grid) (x y weight : Int) : Grid :=
  if g.isValid x y then
    let g1 := { g with weights := matSet g.weights x y weight }
    if g1.cell x y = '#' ∨ g1.cell x y = '*' ∨ g1.cell x y = 'v' then
      { g1 with map := matSet g1.map x y '.' }
    else g1
  else g

/-- The member `Grid::setEmpty`. -/
def Grid.setEmpty (g : Grid) (x y : Int) : Grid :=
  if g.isValid x y && g.cell x y != 'S' && g.cell x y != 'D' then
    { g with map := matSet g.map x y '.', weights := matSet g.weights x y 1 }
  else g

/-- The member `Grid::setObstacle`. -/
def Grid.setObstacle (g : Grid) (x y : Int) : Grid :=
  if g.isValid x y then { g with map := matSet g.map x y '#' } else g

/-- The member `Grid::setSource`. -/
def Grid.setSource (g : Grid) (x y : Int) : Grid :=
  if g.isValid x y then
    let g1 :=
      if g.isValid g.source.x g.source.y then
        { g with map := matSet g.map g.source.x g.source.y '.' }
      else g
    { g1 with source := { x := x, y := y }, map := matSet g1.map x y 'S' }
  else g

/-- The member `Grid::setDestination`. -/
def Grid.setDestination (g : Grid) (x y : Int) : Grid :=
  if g.isValid x y then
    let g1 :=
      if g.isValid g.destination.x g.destination.y then
        { g with map := matSet g.map g.destination.x g.destination.y '.' }
      else g
    { g1 with destination := { x := x, y := y }, map := matSet g1.map x y 'D' }
  else g

/-- The member `Grid::setAllowDiagonals`. -/
def Grid.setAllowDiagonals (g : Grid) (allow : Bool) : Grid :=
  { g with m_allowDiagonals := allow }

/-- The loop body shared by the two direction loops of `Grid::getNeighbors`; the
product `10 * getWeight(nx, ny)` (or `14 * ...`) is an `int`. -/
def Grid.scanDirs (g : Grid) (p : Point) (base : Int) (dirs : List (Int × Int)) : List Edge :=
  dirs.filterMap fun d =>
    let nx := p.x + d.1
    let ny := p.y + d.2
    if g.isValid nx ny && !g.isObstacle nx ny then
      some { target := g.toNode nx ny, weight := wrapInt32 (base * g.getWeight nx ny) }
    else none

/-- The member `Grid::getNeighbors`. -/
def Grid.getNeighbors (g : Grid) (n : Node) : List Edge :=
  let p := g.toPoint n
  let neighbors := g.scanDirs p 10 [(-1, 0), (1, 0), (0, -1), (0, 1)]
  if g.m_allowDiagonals then
    neighbors ++ g.scanDirs p 14 [(-1, -1), (-1, 1), (1, -1), (1, 1)]
  else neighbors

/-- The function `abs` on `int`. -/
def cAbs (x : Int) : Int := if x < 0 then -x else x

/-- The member `Grid::getHeuristic`. -/
def Grid.getHeuristic (g : Grid) (startNode targetNode : Node) : Int :=
  let s := g.toPoint startNode
  let t := g.toPoint targetNode
  let dx := cAbs (s.x - t.x)
  let dy := cAbs (s.y - t.y)
  if g.m_allowDiagonals then 10 * (dx + dy) + (14 - 2 * 10) * min dx dy
  else 10 * (dx + dy)

/-- The class `Grid` seen through its base class `IGraph`. -/
def Grid.toGraph (g : Grid) : IGraph :=
  { getNeighbors := g.getNeighbors, getHeuristic := g.getHeuristic }

/-- The inner loop of `Grid::clearPath` on one row: the cells of the columns `j < width`
that hold a path, visited or current mark are emptied; `j` is the column of the first
cell of the list. -/
def clearRow (width : Int) : Int → List Char → List Char
  | _, [] => []
  | j, c :: cs =>
    (if j < width ∧ (c = '*' ∨ c = 'v' ∨ c = 'c') then '.' else c) :: clearRow width (j + 1) cs

/-- The outer loop of `Grid::clearPath`: the rows `i < height` are cleared; `i` is the
index of the first row of the list. -/
def clearRows (height width : Int) : Int → List (List Char) → List (List Char)
  | _, [] => []
  | i, row :: rows =>
    (if i < height then clearRow width 0 row else row) :: clearRows height width (i + 1) rows

/-- The member `Grid::clearPath`; its loops visit the cells `(i, j)` with `i < height` and
`j < width`.  An index beyond the matrix, which the class invariant excludes, is an
access out of bounds in the program and is left out. -/
def Grid.clearPath (g : Grid) : Grid :=
  let cleared := clearRows g.height g.width 0 g.map
  let g1 := { g with map := cleared }
  let g2 :=
    if g1.isValid g1.source.x g1.source.y then
      { g1 with map := matSet g1.map g1.source.x g1.source.y 'S' }
    else g1
  if g2.isValid g2.destination.x g2.destination.y then
    { g2 with map := matSet g2.map g2.destination.x g2.destination.y 'D' }
  else g2

/-- The member `Grid::setVisited`. -/
def Grid.setVisited (g : Grid) (x y : Int) : Grid :=
  if g.isValid x y && g.cell x y != 'S' && g.cell x y != 'D' && g.cell x y != '#' then
    { g with map := matSet g.map x y 'v' }
  else g

/-- The member `Grid::setCurrent`. -/
def Grid.setCurrent (g : Grid) (x y : Int) : Grid :=
  if g.isValid x y && g.cell x y != 'S' && g.cell x y != 'D' then
    { g with map := matSet g.map x y 'c' }
  else g

/-- The member `Grid::markPath`. -/
def Grid.markPath (g : Grid) (path : List Point) : Grid :=
  path.foldl
    (fun acc p =>
      if acc.cell p.x p.y != 'S' && acc.cell p.x p.y != 'D' then
        { acc with map := matSet acc.map p.x p.y '*' }
      else acc)
    g

/-- The editing operations of a grid, as calls with their arguments. -/
inductive GridOp where
  | setObstacle (x y : Int)
  | setSource (x y : Int)
  | setDestination (x y : Int)
  | setWeight (x y weight : Int)
  | setEmpty (x y : Int)
  | clearPath
deriving DecidableEq, Repr

/-- Perform one editing call. -/
def Grid.applyOp (g : Grid) : GridOp → Grid
  | GridOp.setObstacle x y => g.setObstacle x y
  | GridOp.setSource x y => g.setSource x y
  | GridOp.setDestination x y => g.setDestination x y
  | GridOp.setWeight x y weight => g.setWeight x y weight
  | GridOp.setEmpty x y => g.setEmpty x y
  | GridOp.clearPath => g.clearPath

/-- The values of a 32-bit `int`. -/
def IsInt32 (i : Int) : Prop := -2147483648 ≤ i ∧ i ≤ 2147483647

instance (i : Int) : Decidable (IsInt32 i) := by
  unfold IsInt32
  infer_instance

/-- The products `10 * getWeight` and, with diagonals enabled, `14 * getWeight` of
`Grid::getNeighbors` stay in the range of `int` for every terrain weight of the grid. -/
def Grid.ProductsFit (g : Grid) : Prop :=
  ∀ row ∈ g.weights, ∀ v ∈ row,
    IsInt32 (10 * v) ∧ (g.m_allowDiagonals = true → IsInt32 (14 * v))

instance (g : Grid) : Decidable g.ProductsFit := by
  unfold Grid.ProductsFit
  infer_instance

/-- The products of `Grid::getNeighbors` stay in the range of `int` for the terrain weight
of every in-bounds cell. -/
def Grid.EdgesFit (g : Grid) : Prop :=
  ∀ x y, g.isValid x y = true →
    IsInt32 (10 * g.getWeight x y) ∧ (g.m_allowDiagonals = true → IsInt32 (14 * g.getWeight x y))

/-- No sum of a search on the grid leaves the range of `int`: `wmax` is at least 1 and at
least every terrain weight, and 14 times `wmax` times the number of cells, plus the
bound `10 * (height + width)` of the heuristic, is at most the largest `int`. -/
def Grid.SumsFit (g : Grid) (wmax : Int) : Prop :=
  1 ≤ wmax ∧ (∀ row ∈ g.weights, ∀ v ∈ row, v ≤ wmax) ∧
  14 * wmax * (g.height * g.width) + 10 * (g.height + g.width) ≤ 2147483647

instance (g : Grid) (wmax : Int) : Decidable (g.SumsFit wmax) := by
  unfold Grid.SumsFit
  infer_instance

/-- The arguments of an editing call are values of type `int`. -/
def GridOp.ArgsInt32 : GridOp → Prop
  | GridOp.setObstacle x y => IsInt32 x ∧ IsInt32 y
  | GridOp.setSource x y => IsInt32 x ∧ IsInt32 y
  | GridOp.setDestination x y => IsInt32 x ∧ IsInt32 y
  | GridOp.setWeight x y weight => IsInt32 x ∧ IsInt32 y ∧ IsInt32 weight
  | GridOp.setEmpty x y => IsInt32 x ∧ IsInt32 y
  | GridOp.clearPath => True

/-- A grid obtained from the constructor by a sequence of editing calls. -/
def Grid.Edited (g : Grid) : Prop :=
  ∃ (height width : Int) (g0 : Grid) (ops : List GridOp),
    IsInt32 height ∧ IsInt32 width ∧ Grid.create height width = some g0 ∧
    (∀ op ∈ ops, op.ArgsInt32) ∧ g = ops.foldl Grid.applyOp g0

/-! ### Text streams (`std::stringstream`) -/

/-- The decimal digit of a number below ten. -/
def digitChar : Nat → Char
  | 0 => '0' | 1 => '1' | 2 => '2' | 3 => '3' | 4 => '4'
  | 5 => '5' | 6 => '6' | 7 => '7' | 8 => '8' | _ => '9'

/-- The value of a decimal digit. -/
def charDigit (c : Char) : Option Nat :=
  if c = '0' then some 0 else if c = '1' then some 1 else if c = '2' then some 2
  else if c = '3' then some 3 else if c = '4' then some 4 else if c = '5' then some 5
  else if c = '6' then some 6 else if c = '7' then some 7 else if c = '8' then some 8
  else if c = '9' then some 9 else none

/-- Digits of a natural number, most significant first. -/
def showNatAux : Nat → Nat → List Char
  | 0, _ => []
  | fuel + 1, n =>
    if n < 10 then [digitChar n] else showNatAux fuel (n / 10) ++ [digitChar (n % 10)]

/-- Output of `os << n` for a non-negative number. -/
def showNat (n : Nat) : List Char := showNatAux (n + 1) n

/-- Output of `os << i` for an `int`. -/
def showInt (i : Int) : List Char :=
  if i < 0 then '-' :: showNat (-i).toNat else showNat i.toNat

/-- White space in the classic locale. -/
def isSpace (c : Char) : Bool :=
  c == ' ' || c == '\t' || c == '\n' || c == '\r' || c == Char.ofNat 11 || c == Char.ofNat 12

/-- Skip leading white space. -/
def skipWs : List Char → List Char
  | [] => []
  | c :: cs => if isSpace c then skipWs cs else c :: cs

/-- Accumulate a run of decimal digits. -/
def readDigits : List Char → Nat → Nat × List Char
  | [], acc => (acc, [])
  | c :: cs, acc =>
    match charDigit c with
    | some d => readDigits cs (acc * 10 + d)
    | none => (acc, c :: cs)

/-- An input string stream: the characters not yet read and the fail state. -/
structure IStream where
  buf : List Char
  failed : Bool
deriving DecidableEq, Repr

/-- The digits of an integer field after its optional sign; `neg` is the sign. -/
def IStream.extractDigits (neg : Bool) (cs : List Char) : IStream × Option Int :=
  match cs with
  | [] => ({ buf := [], failed := true }, some 0)
  | c :: rest =>
    match charDigit c with
    | none => ({ buf := c :: rest, failed := true }, some 0)
    | some _ =>
      let r := readDigits (c :: rest) 0
      let v : Int := if neg then -(r.1 : Int) else (r.1 : Int)
      if v < -2147483648 then ({ buf := r.2, failed := true }, some (-2147483648))
      else if v > 2147483647 then ({ buf := r.2, failed := true }, some 2147483647)
      else ({ buf := r.2, failed := false }, some v)

/-- The extraction `is >> i` into an `int`.  The second component is the value
stored into `i`, or `none` when `i` is left untouched (the stream had already
failed, or only white space was left). -/
def IStream.extractInt (s : IStream) : IStream × Option Int :=
  if s.failed then (s, none)
  else
    match skipWs s.buf with
    | [] => ({ buf := [], failed := true }, none)
    | c :: cs =>
      if c = '-' then IStream.extractDigits true cs
      else if c = '+' then IStream.extractDigits false cs
      else IStream.extractDigits false (c :: cs)

/-- The extraction `is >> c` into a `char`. -/
def IStream.extractChar (s : IStream) : IStream × Option Char :=
  if s.failed then (s, none)
  else
    match skipWs s.buf with
    | [] => ({ buf := [], failed := true }, none)
    | c :: cs => ({ buf := cs, failed := false }, some c)

/-- Index of the first occurrence of `c`. -/
def findIdx (c : Char) : List Char → Option Nat
  | [] => none
  | x :: xs => if x = c then some 0 else (findIdx c xs).map (· + 1)

/-- The call `data.find(c, pos)`; `none` stands for `npos`. -/
def strFind (data : List Char) (c : Char) (pos : Nat) : Option Nat :=
  (findIdx c (data.drop pos)).map (· + pos)

/-- The cells of a matrix in row-major order, by the index loops
`for i < height, for j < width`. -/
def rowMajor {α : Type} (height width : Int) (cellAt : Int → Int → α) : List (List α) :=
  (List.range height.toNat).map fun (i : Nat) =>
    (List.range width.toNat).map fun (j : Nat) => cellAt (Int.ofNat i) (Int.ofNat j)

/-- The member `Grid::serialize`. -/
def Grid.serialize (g : Grid) : List Char :=
  showInt g.height ++ [','] ++ showInt g.width ++ [','] ++
  showInt g.source.x ++ [','] ++ showInt g.source.y ++ [','] ++
  showInt g.destination.x ++ [','] ++ showInt g.destination.y ++ ['|'] ++
  (rowMajor g.height g.width fun i j => g.cell i j).flatten ++ ['|'] ++
  ((rowMajor g.height g.width fun i j => showInt (matGet g.weights i j 1) ++ [' ']).map
    List.flatten).flatten

/-- The header extraction
`ss >> h >> comma >> w >> comma >> sx >> comma >> sy >> comma >> dx >> comma >> dy`
of `Grid::load`; `none` when the stream has failed afterwards. -/
def parseHeader (header : List Char) : Option (Int × Int × Int × Int × Int × Int) :=
  let ss : IStream := { buf := header, failed := false }
  let r1 := ss.extractInt
  let c1 := r1.1.extractChar
  let r2 := c1.1.extractInt
  let c2 := r2.1.extractChar
  let r3 := c2.1.extractInt
  let c3 := r3.1.extractChar
  let r4 := c3.1.extractInt
  let c4 := r4.1.extractChar
  let r5 := c4.1.extractInt
  let c5 := r5.1.extractChar
  let r6 := c5.1.extractInt
  if r6.1.failed then none
  else some (r1.2.getD 0, r2.2.getD 0, r3.2.getD 0, r4.2.getD 0, r5.2.getD 0, r6.2.getD 0)

/-- The inner weight loop of `Grid::load` over one row:
`if (!(wss >> weights[i][j])) break;`. -/
def loadWeightsRow : IStream → List Int → IStream × List Int
  | s, [] => (s, [])
  | s, old :: rest =>
    let r := s.extractInt
    let cellValue := r.2.getD old
    if r.1.failed then (r.1, cellValue :: rest)
    else
      let t := loadWeightsRow r.1 rest
      (t.1, cellValue :: t.2)

/-- The outer weight loop of `Grid::load`; the `break` leaves the inner loop only. -/
def loadWeights : IStream → List (List Int) → List (List Int)
  | _, [] => []
  | s, row :: rows =>
    let t := loadWeightsRow s row
    t.2 :: loadWeights t.1 rows

/-- The member `Grid::load`: the returned flag and the grid afterwards.
A negative height or width makes the vector construction throw after `height`
and `width` have been assigned; the handler returns `false`. -/
def Grid.load (g : Grid) (data : List Char) : Bool × Grid :=
  let pipe1 := strFind data '|' 0
  let pipe2 := strFind data '|' (match pipe1 with | some p => p + 1 | none => 0)
  match pipe1, pipe2 with
  | some p1, some p2 =>
    let header := data.take p1
    let mapData := (data.drop (p1 + 1)).take (p2 - p1 - 1)
    let weightData := data.drop (p2 + 1)
    match parseHeader header with
    | none => (false, g)
    | some (h, w, sx, sy, dx, dy) =>
      let g1 := { g with height := h, width := w }
      if h < 0 ∨ w < 0 then (false, g1)
      else
        let g2 := { g1 with
          map := List.replicate h.toNat (List.replicate w.toNat '.'),
          weights := List.replicate h.toNat (List.replicate w.toNat 1) }
        if mapData.length < (h * w).toNat then (false, g2)
        else
          let g3 := { g2 with
            map := rowMajor h w fun i j => mapData.getD (i * w + j).toNat '.' }
          let g4 := { g3 with
            weights := loadWeights { buf := weightData, failed := false } g3.weights }
          (true, { g4 with source := { x := sx, y := sy },
                           destination := { x := dx, y := dy } })
  | _, _ => (false, g)

/-- Class invariant of `Grid`: both matrices are `height × width`. -/
structure Grid.WellFormed (g : Grid) : Prop where
  height_nonneg : 0 ≤ g.height
  width_nonneg : 0 ≤ g.width
  map_rows : g.map.length = g.height.toNat
  map_cols : ∀ row ∈ g.map, row.length = g.width.toNat
  weights_rows : g.weights.length = g.height.toNat
  weights_cols : ∀ row ∈ g.weights, row.length = g.width.toNat

/-- What the constructor establishes and the editing calls keep: the matrices are
`height × width`, every number is a 32-bit `int`, and no cell holds the section
separator of the text format. -/
def GridInv (g : Grid) : Prop :=
  0 ≤ g.height ∧ 0 ≤ g.width ∧ IsInt32 g.height ∧ IsInt32 g.width ∧
  (IsInt32 g.source.x ∧ IsInt32 g.source.y) ∧
  (IsInt32 g.destination.x ∧ IsInt32 g.destination.y) ∧
  g.map.length = g.height.toNat ∧
  (∀ row ∈ g.map, row.length = g.width.toNat ∧ ∀ c ∈ row, c ≠ '|') ∧
  g.weights.length = g.height.toNat ∧
  (∀ row ∈ g.weights, row.length = g.width.toNat ∧ ∀ v ∈ row, IsInt32 v)

/-- The grid built by `Grid(3,3)`. -/
def grid3x3 : Grid :=
  { width := 3, height := 3,
    map := [['S', '.', '.'], ['.', '.', '.'], ['.', '.', 'D']],
    weights := [[1, 1, 1], [1, 1, 1], [1, 1, 1]],
    source := { x := 0, y := 0 },
    destination := { x := 2, y := 2 },
    m_allowDiagonals := false }

/-- The grid built by `Grid(3,3)` followed by `setObstacle(1,1)` and `setWeight(0,1,7)`. -/
def grid3x3Edited : Grid :=
  { width := 3, height := 3,
    map := [['S', '.', '.'], ['.', '#', '.'], ['.', '.', 'D']],
    weights := [[1, 7, 1], [1, 1, 1], [1, 1, 1]],
    source := { x := 0, y := 0 },
    destination := { x := 2, y := 2 },
    m_allowDiagonals := false }

/-- The grid built by `Grid(3,3)` followed by `setWeight(0,1,300000000)`. -/
def gridHeavyEdge : Grid :=
  { width := 3, height := 3,
    map := [['S', '.', '.'], ['.', '.', '.'], ['.', '.', 'D']],
    weights := [[1, 300000000, 1], [1, 1, 1], [1, 1, 1]],
    source := { x := 0, y := 0 },
    destination := { x := 2, y := 2 },
    m_allowDiagonals := false }

/-- The grid built by `Grid(3,3)` followed by `setWeight(1,1,300000000)`. -/
def gridHeavyCentre : Grid :=
  { width := 3, height := 3,
    map := [['S', '.', '.'], ['.', '.', '.'], ['.', '.', 'D']],
    weights := [[1, 1, 1], [1, 300000000, 1], [1, 1, 1]],
    source := { x := 0, y := 0 },
    destination := { x := 2, y := 2 },
    m_allowDiagonals := false }

/-! ## Walks, reachability and the specification vocabulary -/

/-- A walk from `u`: every edge is returned by `getNeighbors` of the node reached so far. -/
def isWalk (graph : IGraph) : Node → List Edge → Bool
  | _, [] => true
  | u, e :: es => decide (e ∈ graph.getNeighbors u) && isWalk graph e.target es

/-- The node at which a walk from `u` ends. -/
def walkEnd : Node → List Edge → Node
  | u, [] => u
  | _, e :: es => walkEnd e.target es

/-- Sum of the edge weights of a walk. -/
def walkCost (es : List Edge) : Int := (es.map Edge.weight).sum

/-- The node `t` can be reached from `s` by following `getNeighbors` edges. -/
def Reachable (graph : IGraph) (s t : Node) : Prop :=
  ∃ es : List Edge, isWalk graph s es = true ∧ walkEnd s es = t

/-- The node list `V` is closed under `getNeighbors`. -/
def ClosedUnder (graph : IGraph) (V : List Node) : Prop :=
  ∀ u ∈ V, ∀ e ∈ graph.getNeighbors u, e.target ∈ V

/-- Every edge leaving a node of `V` has a non-negative weight. -/
def NonNegWeights (graph : IGraph) (V : List Node) : Prop :=
  ∀ u ∈ V, ∀ e ∈ graph.getNeighbors u, 0 ≤ e.weight

/-- Every node after the first is the target of an edge of the node before it. -/
def IsPath (graph : IGraph) (path : List Node) : Prop :=
  List.Chain' (fun a b => ∃ e ∈ graph.getNeighbors a, e.target = b) path

/-- Number of nodes of `V` without an entry in a map. -/
def absentCount {α : Type} (V : List Node) (m : NodeMap α) : Nat :=
  (V.filter fun v => (m v).isNone).length

/-- Sum over `V` of the values of a map. -/
def valueTotal (V : List Node) (m : NodeMap Int) : Nat :=
  (V.map fun v => ((m v).getD 0).toNat).sum

/-- Lexicographic order on triples of natural numbers. -/
def Lex3 (a b : Nat × Nat × Nat) : Prop :=
  Prod.Lex (fun x y : Nat => x < y) (Prod.Lex (fun x y : Nat => x < y) (fun x y : Nat => x < y)) a b

/-- A parent chain from `start` to a node: the list of nodes that
`reconstructPathInternal` walks, in path order.  The map `g` gives every node on the
chain a value that does not decrease along the chain; `cost` is the step cost. -/
inductive ParentChain (graph : IGraph) (cost : Edge → Int) (start : Node)
    (parent : NodeMap Node) (g : NodeMap Int) : Node → List Node → Prop where
  | base (d0 : Int) : g start = some d0 → ParentChain graph cost start parent g start [start]
  | step (u v : Node) (l : List Node) (e : Edge) (du dv : Int) :
      v ≠ start → parent v = some u → e ∈ graph.getNeighbors u → e.target = v →
      g u = some du → g v = some dv → 0 ≤ cost e → du + cost e ≤ dv →
      ParentChain graph cost start parent g u l →
      ParentChain graph cost start parent g v (l ++ [v])

/-- The part of the loop invariant of `runDijkstra` that also holds inside the edge loop. -/
structure DijkstraCore (graph : IGraph) (V : List Node) (start endNode : Node)
    (s : DijkstraState) : Prop where
  start_dist : s.dist start = some 0
  dom_V : ∀ v d, s.dist v = some d → v ∈ V
  nonneg : ∀ v d, s.dist v = some d → 0 ≤ d
  achieved : ∀ v d, s.dist v = some d →
    ∃ es, isWalk graph start es = true ∧ walkEnd start es = v ∧ walkCost es = d
  pq_sound : ∀ p ∈ s.pq, ∃ dv, s.dist p.2 = some dv ∧ dv ≤ p.1
  end_queued : ∀ d, s.dist endNode = some d → (d, endNode) ∈ s.pq
  chain : ∀ v dv, s.dist v = some dv →
    ∃ l, ParentChain graph Edge.weight start s.parent s.dist v l
  parent_dom : ∀ v, s.dist v = none → s.parent v = none
  not_done : s.success = false

/-- The edges of `v` cannot improve any distance. -/
def RelaxedAt (graph : IGraph) (dist : NodeMap Int) (v : Node) (dv : Int) : Prop :=
  ∀ e ∈ graph.getNeighbors v, ∃ dx, dist e.target = some dx ∧ dx ≤ dv + e.weight

/-- The loop invariant of `runDijkstra`, at the head of the `while` loop. -/
structure DijkstraInv (graph : IGraph) (V : List Node) (start endNode : Node)
    (s : DijkstraState) : Prop where
  core : DijkstraCore graph V start endNode s
  settled : ∀ v dv, s.dist v = some dv → (dv, v) ∈ s.pq ∨ RelaxedAt graph s.dist v dv

/-- The invariant of the edge loop of `runDijkstra` while it relaxes the edges of
`curr`, popped with key `d`; `done` holds the edges already handled. -/
structure DijkstraRelaxInv (graph : IGraph) (V : List Node) (start endNode : Node)
    (d : Int) (curr : Node) (done : List Edge) (s : DijkstraState) : Prop where
  core : DijkstraCore graph V start endNode s
  curr_dist : s.dist curr = some d
  settled : ∀ v dv, s.dist v = some dv →
    v = curr ∨ (dv, v) ∈ s.pq ∨ RelaxedAt graph s.dist v dv
  curr_done : ∀ e ∈ done, ∃ dx, s.dist e.target = some dx ∧ dx ≤ d + e.weight

/-- The termination measure of the loops of `runDijkstra` and `runAStar`. -/
def searchMeasure (V : List Node) (m : NodeMap Int) (pq : List (Int × Node)) : Nat × Nat × Nat :=
  (absentCount V m, valueTotal V m, pq.length)

/-- Progress of an edge loop: the map has improved, or nothing has changed. -/
def Progress (V : List Node) (m : NodeMap Int) (pq : List (Int × Node))
    (m2 : NodeMap Int) (pq2 : List (Int × Node)) : Prop :=
  (absentCount V m2 < absentCount V m ∨
    (absentCount V m2 = absentCount V m ∧ valueTotal V m2 < valueTotal V m)) ∨
  (absentCount V m2 = absentCount V m ∧ valueTotal V m2 = valueTotal V m ∧ pq2 = pq)

/-- The part of the loop invariant of `runAStar` that also holds inside the edge loop. -/
structure AStarCore (graph : IGraph) (V : List Node) (start endNode : Node)
    (s : AStarState) : Prop where
  start_g : s.gScore start = some 0
  dom_V : ∀ v d, s.gScore v = some d → v ∈ V
  nonneg : ∀ v d, s.gScore v = some d → 0 ≤ d
  achieved : ∀ v d, s.gScore v = some d →
    ∃ es, isWalk graph start es = true ∧ walkEnd start es = v ∧ walkCost es = d
  pq_sound : ∀ p ∈ s.pq, ∃ gv, s.gScore p.2 = some gv ∧
    gv + graph.getHeuristic p.2 endNode ≤ p.1
  end_queued : ∀ d, s.gScore endNode = some d → ∃ f, (f, endNode) ∈ s.pq
  chain : ∀ v dv, s.gScore v = some dv →
    ∃ l, ParentChain graph Edge.weight start s.parent s.gScore v l
  parent_dom : ∀ v, s.gScore v = none → s.parent v = none
  not_done : s.success = false

/-- The loop invariant of `runAStar`, at the head of the `while` loop. -/
structure AStarInv (graph : IGraph) (V : List Node) (start endNode : Node)
    (s : AStarState) : Prop where
  core : AStarCore graph V start endNode s
  settled : ∀ v gv, s.gScore v = some gv →
    (gv + graph.getHeuristic v endNode, v) ∈ s.pq ∨ RelaxedAt graph s.gScore v gv

/-- The invariant of the edge loop of `runAStar` while it relaxes the edges of
`curr`, whose score is `gc`; `done` holds the edges already handled. -/
structure AStarRelaxInv (graph : IGraph) (V : List Node) (start endNode : Node)
    (gc : Int) (curr : Node) (done : List Edge) (s : AStarState) : Prop where
  core : AStarCore graph V start endNode s
  curr_g : s.gScore curr = some gc
  settled : ∀ v gv, s.gScore v = some gv →
    v = curr ∨ (gv + graph.getHeuristic v endNode, v) ∈ s.pq ∨ RelaxedAt graph s.gScore v gv
  curr_done : ∀ e ∈ done, ∃ dx, s.gScore e.target = some dx ∧ dx ≤ gc + e.weight

/-- The heuristic never exceeds the cost of a walk to the target. -/
def Admissible (graph : IGraph) (V : List Node) (endNode : Node) : Prop :=
  ∀ y ∈ V, ∀ es : List Edge, isWalk graph y es = true → walkEnd y es = endNode →
    graph.getHeuristic y endNode ≤ walkCost es

/-- The part of the loop invariant of `runBFS` that also holds inside the edge loop.
The map `dep` is a ghost: the depth at which a node was discovered. -/
structure BFSCore (graph : IGraph) (V : List Node) (start endNode : Node)
    (dep : NodeMap Int) (s : BFSState) : Prop where
  start_dep : dep start = some 0
  dom_V : ∀ v d, dep v = some d → v ∈ V
  achieved : ∀ v d, dep v = some d →
    ∃ es, isWalk graph start es = true ∧ walkEnd start es = v ∧ (es.length : Int) = d
  dom_parent : ∀ v, dep v = none ↔ s.parent v = none
  q_dom : ∀ v ∈ s.q, ∃ d, dep v = some d
  end_queued : ∀ d, dep endNode = some d → endNode ∈ s.q
  chain : ∀ v dv, dep v = some dv →
    ∃ l, ParentChain graph (fun _ => 1) start s.parent dep v l
  sorted : s.q.Pairwise fun a b => ∀ da db, dep a = some da → dep b = some db → da ≤ db
  not_done : s.success = false

/-- Every neighbour of `v` has been discovered, at most one level below `v`. -/
def RelaxedHop (graph : IGraph) (dep : NodeMap Int) (v : Node) (dv : Int) : Prop :=
  ∀ e ∈ graph.getNeighbors v, ∃ dx, dep e.target = some dx ∧ dx ≤ dv + 1

/-- The loop invariant of `runBFS` for a given depth map, at the head of the loop. -/
structure BFSInvAt (graph : IGraph) (V : List Node) (start endNode : Node)
    (dep : NodeMap Int) (s : BFSState) : Prop where
  core : BFSCore graph V start endNode dep s
  spread : ∀ v dv, dep v = some dv → ∀ y ∈ s.q, ∀ dy, dep y = some dy → dv ≤ dy + 1
  settled : ∀ v dv, dep v = some dv → v ∈ s.q ∨ RelaxedHop graph dep v dv

/-- The loop invariant of `runBFS`. -/
def BFSInv (graph : IGraph) (V : List Node) (start endNode : Node) (s : BFSState) : Prop :=
  ∃ dep : NodeMap Int, BFSInvAt graph V start endNode dep s

/-- The invariant of the edge loop of `runBFS` while it handles the edges of `curr`,
found at depth `dc`; `done` holds the edges already handled. -/
structure BFSLoopInv (graph : IGraph) (V : List Node) (start endNode : Node)
    (dc : Int) (curr : Node) (done : List Edge) (dep : NodeMap Int) (s : BFSState) : Prop where
  core : BFSCore graph V start endNode dep s
  curr_dep : dep curr = some dc
  upper : ∀ v dv, dep v = some dv → dv ≤ dc + 1
  lower : ∀ y ∈ s.q, ∀ dy, dep y = some dy → dc ≤ dy
  settled : ∀ v dv, dep v = some dv → v = curr ∨ v ∈ s.q ∨ RelaxedHop graph dep v dv
  curr_done : ∀ e ∈ done, ∃ dx, dep e.target = some dx ∧ dx ≤ dc + 1

/-- The termination measure of the loop of `runBFS`. -/
def bfsMeasure (V : List Node) (s : BFSState) : Nat × Nat × Nat :=
  (absentCount V s.parent, 0, s.q.length)

/-- The in-bounds node ids of a grid: `0 .. height*width - 1`. -/
def Grid.nodes (g : Grid) : List Node :=
  (List.range (g.height * g.width).toNat).map Int.ofNat

instance (graph : IGraph) (V : List Node) : Decidable (ClosedUnder graph V) := by
  unfold ClosedUnder
  infer_instance

instance (graph : IGraph) (V : List Node) : Decidable (NonNegWeights graph V) := by
  unfold NonNegWeights
  infer_instance

instance (graph : IGraph) (path : List Node) : Decidable (IsPath graph path) := by
  unfold IsPath
  infer_instance

/-- A small graph with a zero-weight edge: 0→1 (4), 0→2 (1), 2→1 (2), 1→3 (0); the
node 5 has no edges. -/
def sampleGraph : IGraph :=
  IGraph.ofNeighbors fun n =>
    if n = 0 then [{ target := 1, weight := 4 }, { target := 2, weight := 1 }]
    else if n = 2 then [{ target := 1, weight := 2 }]
    else if n = 1 then [{ target := 3, weight := 0 }]
    else []

/-- A graph one of whose nodes carries the id −1: the single edge 0→−1 (1). -/
def sentinelGraph : IGraph :=
  IGraph.ofNeighbors fun n => if n = 0 then [{ target := -1, weight := 1 }] else []

/-- A 3×3 grid whose middle column is a wall of obstacles. -/
def gridWall : Grid :=
  { width := 3, height := 3,
    map := [['S', '#', '.'], ['.', '#', '.'], ['.', '#', 'D']],
    weights := [[1, 1, 1], [1, 1, 1], [1, 1, 1]],
    source := { x := 0, y := 0 },
    destination := { x := 2, y := 2 },
    m_allowDiagonals := true }

/-- Number of cells of the cell matrix that hold the character `c`. -/
def Grid.countCells (g : Grid) (c : Char) : Nat := List.count c g.map.flatten

/-- Written after the specification: the cells next to `(r, c)` in the order up,
down, left, right and then, with diagonals, up-left, up-right, down-left,
down-right, each with the base cost of the step (10 orthogonal, 14 diagonal). -/
def specOffsets (r c : Int) (diagonals : Bool) : List (Int × Int × Int) :=
  [(r - 1, c, 10), (r + 1, c, 10), (r, c - 1, 10), (r, c + 1, 10)] ++
  (if diagonals then
    [(r - 1, c - 1, 14), (r - 1, c + 1, 14), (r + 1, c - 1, 14), (r + 1, c + 1, 14)]
  else [])

/-- Written after the specification: the neighbour list of the cell `(r, c)`.  A cell
of `specOffsets` is kept if and only if it is in bounds and not an obstacle; its edge
leads to the row-major id of that cell and weighs the base cost times the terrain
weight of that cell. -/
def Grid.specNeighbors (g : Grid) (r c : Int) : List Edge :=
  (specOffsets r c g.m_allowDiagonals).filterMap fun cell =>
    if 0 ≤ cell.1 ∧ cell.1 < g.height ∧ 0 ≤ cell.2.1 ∧ cell.2.1 < g.width ∧
        matGet g.map cell.1 cell.2.1 '.' ≠ '#' then
      some { target := cell.1 * g.width + cell.2.1,
             weight := cell.2.2 * matGet g.weights cell.1 cell.2.1 1 }
    else none

/-- The remainder of the header extraction of `Grid::load` after an integer has been
read: `k` more times a separator character and an integer. -/
def headerTail : Nat → IStream → IStream
  | 0, s => s
  | k + 1, s => headerTail k (s.extractChar.1.extractInt).1


/-- The backward walk of `reconstructPathInternal` from `v` arrives at `x`: every node
passed before `x` is neither the sentinel −1 nor `start` and has a parent entry, which
is the next node of the walk. -/
inductive BackWalk (parent : NodeMap Node) (start : Node) : Node → Node → Prop where
  | here (v : Node) : BackWalk parent start v v
  | next (v p x : Node) : v ≠ -1 → v ≠ start → parent v = some p →
      BackWalk parent start p x → BackWalk parent start v x

/-- A parent map with the entries 0 ↦ −1, 1 ↦ 0, 2 ↦ 1 and 7 ↦ 6. -/
def sampleParent : NodeMap Node :=
  (((NodeMap.empty.insert 0 (-1)).insert 1 0).insert 2 1).insert 7 6

/-- The weight of the `getNeighbors` edge that leads from `a` to `b` (the first such
edge of the list; 0 when there is none). -/
def stepWeight (graph : IGraph) (a b : Node) : Int :=
  match (graph.getNeighbors a).find? fun e => decide (e.target = b) with
  | some e => e.weight
  | none => 0

/-- Sum of the step weights over the consecutive nodes of a path. -/
def pathCost (graph : IGraph) : List Node → Int
  | [] => 0
  | [_] => 0
  | a :: b :: rest => stepWeight graph a b + pathCost graph (b :: rest)

/-- No node has two edges to the same target. -/
def UniqueTargets (graph : IGraph) : Prop :=
  ∀ u : Node, ∀ e1 ∈ graph.getNeighbors u, ∀ e2 ∈ graph.getNeighbors u,
    e1.target = e2.target → e1 = e2

/-- The grid built by `Grid(2,3)`, `setAllowDiagonals(true)`, `setWeight(0,2,4)`,
`setWeight(1,0,4)`, `setWeight(1,1,3)` and `setWeight(1,2,3)`. -/
def gridDetour : Grid :=
  { width := 3, height := 2,
    map := [['S', '.', '.'], ['.', '.', 'D']],
    weights := [[1, 1, 4], [4, 3, 3]],
    source := { x := 0, y := 0 },
    destination := { x := 1, y := 2 },
    m_allowDiagonals := true }

/-- The state at the head of a loop after `n` iterations, when the loop has not been
left before. -/
def loopState {S R : Type} (step : S → S ⊕ R) : Nat → S → Option S
  | 0, s => some s
  | n + 1, s =>
    match step s with
    | Sum.inl s1 => loopState step n s1
    | Sum.inr _ => none

/-- Strict order of `pair<int, Node>` under `operator<`: by key, then by node id. -/
def pairLt (a b : Int × Node) : Prop := a.1 < b.1 ∨ (a.1 = b.1 ∧ a.2 < b.2)

/-- The number `d` is the least cost of a walk from `start` to `v`. -/
def IsShortestDist (graph : IGraph) (start v : Node) (d : Int) : Prop :=
  (∃ es, isWalk graph start es = true ∧ walkEnd start es = v ∧ walkCost es = d) ∧
  ∀ es, isWalk graph start es = true → walkEnd start es = v → d ≤ walkCost es

/-- Every edge leaving a node of `V` has a positive weight. -/
def PosWeights (graph : IGraph) (V : List Node) : Prop :=
  ∀ u ∈ V, ∀ e ∈ graph.getNeighbors u, 0 < e.weight

/-- The invariant of `runDijkstra` about the nodes visited so far.  The list `ks` is a
ghost: the queue entries with which the visited nodes were dequeued, in order.  The
fields `lex` and `sorted` hold when the edge weights are positive (`pos`). -/
structure DijkstraVisitInv (graph : IGraph) (V : List Node) (start : Node) (pos : Prop)
    (ks : List (Int × Node)) (s : DijkstraState) : Prop where
  keys : ks.map Prod.snd = s.visited
  count : s.visitedCount = (s.visited.length : Int)
  nodup : s.visited.Nodup
  dom_V : ∀ v d, s.dist v = some d → v ∈ V
  pq_sound : ∀ p ∈ s.pq, ∃ dv, s.dist p.2 = some dv ∧ dv ≤ p.1
  fresh_once : ∀ v dv, s.dist v = some dv → List.count (dv, v) s.pq ≤ 1
  frozen : ∀ k ∈ ks, s.dist k.2 = some k.1
  later : ∀ k ∈ ks, ∀ p ∈ s.pq, k.1 ≤ p.1
  stale : ∀ k ∈ ks, ∀ p ∈ s.pq, p.2 = k.2 → k.1 < p.1
  shortest : ∀ k ∈ ks, IsShortestDist graph start k.2 k.1
  lex : pos → ∀ k ∈ ks, ∀ p ∈ s.pq, pairLt k p
  sorted : pos → ks.Pairwise pairLt

instance (graph : IGraph) (V : List Node) : Decidable (PosWeights graph V) := by
  unfold PosWeights
  infer_instance

/-- The loop states of `runDijkstra` and `runAStar` agree in the maps, the queue and
the success flag. -/
def SameSearch (sd : DijkstraState) (sa : AStarState) : Prop :=
  sa.gScore = sd.dist ∧ sa.parent = sd.parent ∧ sa.pq = sd.pq ∧ sa.success = sd.success

/-- The text `b` holds the integers `vs`, separated by white space, and nothing else:
after leading white space stands the decimal form of the first integer, then the end of
the text or a white-space character, and what follows holds the other integers. -/
inductive WeightText : List Int → List Char → Prop where
  | done (ws : List Char) : (∀ c ∈ ws, isSpace c = true) → WeightText [] ws
  | more (v : Int) (vs : List Int) (b tail : List Char) :
      IsInt32 v → skipWs b = showInt v ++ tail →
      (∀ c ∈ tail.head?, isSpace c = true) →
      WeightText vs tail → WeightText (v :: vs) b

/-- Every node with a recorded distance has the queue entry of that distance or has
been visited. -/
def DijkstraQueued (s : DijkstraState) : Prop :=
  ∀ v dv, s.dist v = some dv → (dv, v) ∈ s.pq ∨ v ∈ s.visited

/-- The invariant of `runBFS` about the nodes visited so far: the count, no node is
visited or queued twice, and the nodes with a parent entry are the visited and the
queued nodes. -/
structure BFSVisitInv (s : BFSState) : Prop where
  count : s.visitedCount = (s.visited.length : Int)
  nodup : (s.visited ++ s.q).Nodup
  covered : ∀ v, s.parent v ≠ none ↔ v ∈ s.visited ∨ v ∈ s.q

/-- Every edge out of a node of `V` weighs at most `W`. -/
def WeightsAtMost (graph : IGraph) (V : List Node) (W : Int) : Prop :=
  ∀ u ∈ V, ∀ e ∈ graph.getNeighbors u, e.weight ≤ W

instance (graph : IGraph) (V : List Node) (W : Int) : Decidable (WeightsAtMost graph V W) := by
  unfold WeightsAtMost
  infer_instance

/-- The f-scores fit: the heuristic from the target of any edge toward `endNode` is an
`int` that can be added to any sum of at most `V.length` weights without leaving the
range of `int`. -/
def HeuristicFits (graph : IGraph) (V : List Node) (W : Int) (endNode : Node) : Prop :=
  ∀ u ∈ V, ∀ e ∈ graph.getNeighbors u,
    -2147483648 ≤ graph.getHeuristic e.target endNode ∧
    (V.length : Int) * W + graph.getHeuristic e.target endNode ≤ 2147483647

instance (graph : IGraph) (V : List Node) (W : Int) (endNode : Node) :
    Decidable (HeuristicFits graph V W endNode) := by
  unfold HeuristicFits
  infer_instance

/-- Bound on the recorded values of a search: a value is the sum of at most as many
weights as there are nodes of `V` with an entry, less one. -/
def ScoreBound (V : List Node) (W : Int) (m : NodeMap Int) : Prop :=
  ∀ v d, m v = some d → 0 ≤ d ∧ d + W * ((absentCount V m : Int) + 1) ≤ (V.length : Int) * W

/-- The loop states of `runDijkstra` in which no sum leaves the range of `int`. -/
structure DijkstraFits (V : List Node) (W : Int) (s : DijkstraState) : Prop where
  dist : ScoreBound V W s.dist
  pq_V : ∀ p ∈ s.pq, p.2 ∈ V
  pq_bound : ∀ p ∈ s.pq,
    0 ≤ p.1 ∧ p.1 + W * ((absentCount V s.dist : Int) + 1) ≤ (V.length : Int) * W

/-- The loop states of `runAStar` in which no sum leaves the range of `int`. -/
structure AStarFits (V : List Node) (W : Int) (s : AStarState) : Prop where
  g : ScoreBound V W s.gScore
  pq_V : ∀ p ∈ s.pq, p.2 ∈ V

/-- The values of a map moved up by 2^31, which turns `int` values into natural
numbers. -/
def shiftMap (m : NodeMap Int) : NodeMap Int := fun v => (m v).map fun d => d + 2147483648

/-- What the loop of `runDijkstra` keeps whatever the edge weights are: the nodes with a
distance are nodes of `V` that can be reached from `start`, the distances are `int`
values, every queued node has a distance, and only nodes with a distance have a
parent. -/
structure DijkstraWeak (graph : IGraph) (V : List Node) (start : Node)
    (s : DijkstraState) : Prop where
  dom : ∀ v d, s.dist v = some d → v ∈ V ∧ Reachable graph start v ∧ IsInt32 d
  pq_dom : ∀ p ∈ s.pq, ∃ d, s.dist p.2 = some d
  parent_dom : ∀ v, s.dist v = none → s.parent v = none
  not_done : s.success = false

/-- What the loop of `runAStar` keeps whatever the edge weights and the heuristic are. -/
structure AStarWeak (graph : IGraph) (V : List Node) (start : Node)
    (s : AStarState) : Prop where
  dom : ∀ v d, s.gScore v = some d → v ∈ V ∧ Reachable graph start v ∧ IsInt32 d
  pq_dom : ∀ p ∈ s.pq, ∃ d, s.gScore p.2 = some d
  parent_dom : ∀ v, s.gScore v = none → s.parent v = none
  not_done : s.success = false

/-- The grid built by `Grid(1,4)` followed by `setWeight(0,c,100000000)` for each of the
four cells. -/
def gridHeavyRow : Grid :=
  { width := 4, height := 1,
    map := [['S', '.', '.', 'D']],
    weights := [[100000000, 100000000, 100000000, 100000000]],
    source := { x := 0, y := 0 },
    destination := { x := 0, y := 3 },
    m_allowDiagonals := false }

/-- The grid built by `Grid(2,2)` followed by `setWeight(1,0,150000000)` and
`setWeight(1,1,150000000)`. -/
def gridHeavyPair : Grid :=
  { width := 2, height := 2,
    map := [['S', '.'], ['.', 'D']],
    weights := [[1, 1], [150000000, 150000000]],
    source := { x := 0, y := 0 },
    destination := { x := 1, y := 1 },
    m_allowDiagonals := false }

/-- The grid built by `Grid(1,3)` followed by `setWeight(0,1,150000000)` and
`setWeight(0,2,150000000)`. -/
def gridHeavyTriple : Grid :=
  { width := 3, height := 1,
    map := [['S', '.', 'D']],
    weights := [[1, 150000000, 150000000]],
    source := { x := 0, y := 0 },
    destination := { x := 0, y := 2 },
    m_allowDiagonals := false }

/-- The wall grid after `setWeight(0,0,100000000)`, `setWeight(1,0,100000000)` and
`setWeight(2,0,100000000)`. -/
def gridWallHeavy : Grid :=
  { width := 3, height := 3,
    map := [['S', '#', '.'], ['.', '#', '.'], ['.', '#', 'D']],
    weights := [[100000000, 1, 1], [100000000, 1, 1], [100000000, 1, 1]],
    source := { x := 0, y := 0 },
    destination := { x := 2, y := 2 },
    m_allowDiagonals := true }

/-- A chain 0→1→2 whose two edges weigh 2^30 each. -/
def chainGraph : IGraph :=
  IGraph.ofNeighbors fun n =>
    if n = 0 then [{ target := 1, weight := 1073741824 }]
    else if n = 1 then [{ target := 2, weight := 1073741824 }]
    else []

/-- A graph with heavy edges and a cycle: 0→1 (2^30), 1→2 (2^30), 1→3 (5), 2→1 (0). -/
def wrapCycleGraph : IGraph :=
  IGraph.ofNeighbors fun n =>
    if n = 0 then [{ target := 1, weight := 1073741824 }]
    else if n = 1 then [{ target := 2, weight := 1073741824 }, { target := 3, weight := 5 }]
    else if n = 2 then [{ target := 1, weight := 0 }]
    else []

/-- A graph with positive weights, heavy edges and a cycle: 0→1 (2^30), 1→2 (2^30),
2→1 (1). -/
def wrapCyclePosGraph : IGraph :=
  IGraph.ofNeighbors fun n =>
    if n = 0 then [{ target := 1, weight := 1073741824 }]
    else if n = 1 then [{ target := 2, weight := 1073741824 }]
    else if n = 2 then [{ target := 1, weight := 1 }]
    else []

/-- A graph with a heavy loop edge: 0→0 (2^31 − 1), 0→1 (2^31 − 1), 1→0 (5), 1→2 (5). -/
def selfLoopGraph : IGraph :=
  IGraph.ofNeighbors fun n =>
    if n = 0 then [{ target := 0, weight := 2147483647 }, { target := 1, weight := 2147483647 }]
    else if n = 1 then [{ target := 0, weight := 5 }, { target := 2, weight := 5 }]
    else []

/-- The invariant of `runAStar` about the queue entries dequeued so far.  The list `ks` is
a ghost: the entries in the order in which they were dequeued.  No entry has been
queued twice, and the f-score of every entry is at least the present score of its node
plus the heuristic. -/
structure AStarDequeued (graph : IGraph) (endNode : Node) (ks : List (Int × Node))
    (s : AStarState) : Prop where
  keys : ks.map Prod.snd = s.visited
  count : s.visitedCount = (ks.length : Int)
  nodup : (ks ++ s.pq).Nodup
  sound : ∀ p ∈ ks ++ s.pq, ∃ gv, s.gScore p.2 = some gv ∧
    gv + graph.getHeuristic p.2 endNode ≤ p.1

/-- The entries of `ks` are the entries on top of the queue at the heads of the first
iterations of a loop. -/
def DequeueTrace {S R : Type} (step : S → S ⊕ R) (pq : S → List (Int × Node)) (s0 : S)
    (ks : List (Int × Node)) : Prop :=
  ∀ (i : Nat) (hi : i < ks.length),
    ∃ si, loopState step i s0 = some si ∧ pqTop (pq si) = some (ks.get ⟨i, hi⟩)

/-- The number written by a run of decimal digits. -/
def decimalValue (digits : List Char) : Nat :=
  digits.foldl (fun acc c => acc * 10 + (charDigit c).getD 0) 0

/-- Written after the rules of formatted input: the text `cs` begins, after optional
white space, with a decimal integer, that is an optional sign and a non-empty run of
digits that ends where `rest` begins, and the number written is in the range of `int`. -/
def IntegerField (cs rest : List Char) : Prop :=
  ∃ (ws sign digits : List Char),
    cs = ws ++ (sign ++ (digits ++ rest)) ∧
    (∀ c ∈ ws, isSpace c = true) ∧
    (sign = [] ∨ sign = ['-'] ∨ sign = ['+']) ∧
    digits ≠ [] ∧ (∀ c ∈ digits, charDigit c ≠ none) ∧
    (∀ c ∈ rest.head?, charDigit c = none) ∧
    IsInt32 (if sign = ['-'] then -(decimalValue digits : Int) else (decimalValue digits : Int))

/-- The text `cs` begins, after optional white space, with one character that is not
white space, after which `rest` follows. -/
def SeparatorChar (cs rest : List Char) : Prop :=
  ∃ (ws : List Char) (c : Char),
    cs = ws ++ c :: rest ∧ (∀ w ∈ ws, isSpace w = true) ∧ isSpace c = false

/-- The text begins with `k` times a separator character and an integer field. -/
def LooseTail : Nat → List Char → Prop
  | 0, _ => True
  | k + 1, cs => ∃ s r, SeparatorChar cs s ∧ IntegerField s r ∧ LooseTail k r

/-- The headers that `Grid::load` takes: six integer fields, each two of them separated by
one character that is not white space; white space may stand before every field and
every separator, and any text may follow the sixth field. -/
def LooseHeader (hd : List Char) : Prop := ∃ r, IntegerField hd r ∧ LooseTail 5 r

end ShortestPath

namespace ShortestPath

/-! ## Loops and fuel -/

/-- A loop that has left with a result leaves with the same result under more fuel. -/
theorem iterate_mono {S R : Type} (step : S → S ⊕ R) :
    ∀ (n : Nat) (s : S) (r : R), iterate step n s = some r →
      ∀ m, n ≤ m → iterate step m s = some r := by
  intro n
  induction n with
  | zero => intro s r h; simp [iterate] at h
  | succ k ih =>
    intro s r h m hm
    obtain ⟨j, rfl⟩ : ∃ j, m = j + 1 := ⟨m - 1, by omega⟩
    simp only [iterate] at h ⊢
    cases hs : step s with
    | inl s1 =>
      rw [hs] at h
      exact ih s1 r h j (by omega)
    | inr r1 =>
      rw [hs] at h
      exact h

/-- More fuel does not change the value of `reconstructPathInternal`. -/
theorem reconstructPathInternal_mono (parent : NodeMap Node) (start endNode : Node)
    (n m : Nat) (p : List Node) (h : reconstructPathInternal n parent start endNode = some p)
    (hm : n ≤ m) : reconstructPathInternal m parent start endNode = some p := by
  unfold reconstructPathInternal at h ⊢
  cases hi : iterate (reconstructStep parent start) n (endNode, []) with
  | none => rw [hi] at h; simp at h
  | some walked =>
    rw [hi] at h
    rw [iterate_mono _ n _ walked hi m hm]
    exact h

/-- More fuel does not change the value of `runDijkstraExact`. -/
theorem runDijkstraExact_mono (graph : IGraph) (start endNode : Node) (n m : Nat) (r : AlgoResult)
    (h : runDijkstraExact n graph start endNode = some r) (hm : n ≤ m) :
    runDijkstraExact m graph start endNode = some r := by
  unfold runDijkstraExact dijkstraFinalExact at h ⊢
  cases hi : iterate (dijkstraStepExact graph endNode) n (dijkstraInit start) with
  | none => rw [hi] at h; simp at h
  | some s =>
    rw [hi] at h
    rw [iterate_mono _ n _ s hi m hm]
    dsimp only at h ⊢
    cases hp : reconstructPathInternal n s.parent start endNode with
    | none => rw [hp] at h; simp at h
    | some p =>
      rw [hp] at h
      rw [reconstructPathInternal_mono _ _ _ n m p hp hm]
      exact h

/-- More fuel does not change the value of `runBFS`. -/
theorem runBFS_mono (graph : IGraph) (start endNode : Node) (n m : Nat) (r : AlgoResult)
    (h : runBFS n graph start endNode = some r) (hm : n ≤ m) :
    runBFS m graph start endNode = some r := by
  unfold runBFS bfsFinal at h ⊢
  cases hi : iterate (bfsStep graph endNode) n (bfsInit start) with
  | none => rw [hi] at h; simp at h
  | some s =>
    rw [hi] at h
    rw [iterate_mono _ n _ s hi m hm]
    dsimp only at h ⊢
    cases hp : reconstructPathInternal n s.parent start endNode with
    | none => rw [hp] at h; simp at h
    | some p =>
      rw [hp] at h
      rw [reconstructPathInternal_mono _ _ _ n m p hp hm]
      exact h

/-- More fuel does not change the value of `runAStarExact`. -/
theorem runAStarExact_mono (graph : IGraph) (start endNode : Node) (n m : Nat) (r : AlgoResult)
    (h : runAStarExact n graph start endNode = some r) (hm : n ≤ m) :
    runAStarExact m graph start endNode = some r := by
  unfold runAStarExact aStarFinalExact at h ⊢
  cases hi : iterate (aStarStepExact graph endNode) n (aStarInit graph start endNode) with
  | none => rw [hi] at h; simp at h
  | some s =>
    rw [hi] at h
    rw [iterate_mono _ n _ s hi m hm]
    dsimp only at h ⊢
    cases hp : reconstructPathInternal n s.parent start endNode with
    | none => rw [hp] at h; simp at h
    | some p =>
      rw [hp] at h
      rw [reconstructPathInternal_mono _ _ _ n m p hp hm]
      exact h

/-- More fuel does not change the value of `runDijkstra`. -/
theorem runDijkstra_mono (graph : IGraph) (start endNode : Node) (n m : Nat) (r : AlgoResult)
    (h : runDijkstra n graph start endNode = some r) (hm : n ≤ m) :
    runDijkstra m graph start endNode = some r := by
  unfold runDijkstra dijkstraFinal at h ⊢
  cases hi : iterate (dijkstraStep graph endNode) n (dijkstraInit start) with
  | none => rw [hi] at h; simp at h
  | some s =>
    rw [hi] at h
    rw [iterate_mono _ n _ s hi m hm]
    dsimp only at h ⊢
    cases hp : reconstructPathInternal n s.parent start endNode with
    | none => rw [hp] at h; simp at h
    | some p =>
      rw [hp] at h
      rw [reconstructPathInternal_mono _ _ _ n m p hp hm]
      exact h

/-- More fuel does not change the value of `runAStar`. -/
theorem runAStar_mono (graph : IGraph) (start endNode : Node) (n m : Nat) (r : AlgoResult)
    (h : runAStar n graph start endNode = some r) (hm : n ≤ m) :
    runAStar m graph start endNode = some r := by
  unfold runAStar aStarFinal at h ⊢
  cases hi : iterate (aStarStep graph endNode) n (aStarInit graph start endNode) with
  | none => rw [hi] at h; simp at h
  | some s =>
    rw [hi] at h
    rw [iterate_mono _ n _ s hi m hm]
    dsimp only at h ⊢
    cases hp : reconstructPathInternal n s.parent start endNode with
    | none => rw [hp] at h; simp at h
    | some p =>
      rw [hp] at h
      rw [reconstructPathInternal_mono _ _ _ n m p hp hm]
      exact h

/-! ## The 3×3 scenarios -/

/-- C6: on a freshly constructed `Grid(3,3)` (node 0 is cell (0,0), node 8 is cell
(2,2), the source and the destination), `runDijkstra` from 0 to 8 returns, for every
fuel of at least 10, success with total cost 40 and a path of 5 nodes while
diagonals are disabled, and success with total cost 28 and a path of 3 nodes after
`setAllowDiagonals(true)`. -/
theorem dijkstra_fresh_3x3 :
    ∃ g : Grid, Grid.create 3 3 = some g ∧
      g.toNode g.source.x g.source.y = 0 ∧
      g.toNode g.destination.x g.destination.y = 8 ∧
      ∀ fuel, 10 ≤ fuel →
        (∃ r, runDijkstra fuel g.toGraph 0 8 = some r ∧
          r.success = true ∧ r.totalCost = 40 ∧ r.path.length = 5) ∧
        (∃ r, runDijkstra fuel (g.setAllowDiagonals true).toGraph 0 8 = some r ∧
          r.success = true ∧ r.totalCost = 28 ∧ r.path.length = 3) := by
  refine ⟨_, rfl, by decide, by decide, ?_⟩
  intro fuel hfuel
  constructor
  · refine ⟨{ path := [0, 1, 2, 5, 8], visitedCount := 9, totalCost := 40, success := true },
      runDijkstra_mono _ _ _ 10 fuel _ (by decide) hfuel, rfl, rfl, rfl⟩
  · refine ⟨{ path := [0, 4, 8], visitedCount := 9, totalCost := 28, success := true },
      runDijkstra_mono _ _ _ 10 fuel _ (by decide) hfuel, rfl, rfl, rfl⟩

/-- C7: on a `Grid(3,3)` with diagonals disabled, after `setWeight(1,1,5)`,
`runDijkstra` from node 0 to node 8 returns, for every fuel of at least 10, success
with total cost 40 and a path that does not contain node 4 (the cell (1,1)). -/
theorem dijkstra_3x3_heavy_centre :
    ∃ g : Grid, Grid.create 3 3 = some g ∧
      g.m_allowDiagonals = false ∧ g.toNode 1 1 = 4 ∧
      ∀ fuel, 10 ≤ fuel →
        ∃ r, runDijkstra fuel (g.setWeight 1 1 5).toGraph 0 8 = some r ∧
          r.success = true ∧ r.totalCost = 40 ∧ 4 ∉ r.path := by
  refine ⟨_, rfl, by decide, by decide, ?_⟩
  intro fuel hfuel
  refine ⟨{ path := [0, 1, 2, 5, 8], visitedCount := 8, totalCost := 40, success := true },
    runDijkstra_mono _ _ _ 10 fuel _ (by decide) hfuel, rfl, rfl, by decide⟩

/-! ## `Grid::load` on malformed input -/

theorem findIdx_count (c : Char) :
    ∀ (l : List Char) (i : Nat), findIdx c l = some i →
      1 + List.count c (l.drop (i + 1)) ≤ List.count c l := by
  intro l
  induction l with
  | nil => intro i h; simp [findIdx] at h
  | cons x xs ih =>
    intro i h
    unfold findIdx at h
    by_cases hx : x = c
    · simp only [hx, if_true, Option.some.injEq] at h
      subst h
      subst hx
      simp
      omega
    · simp only [hx, if_false, Option.map_eq_some'] at h
      obtain ⟨j, hj, rfl⟩ := h
      have := ih j hj
      simp only [List.drop_succ_cons]
      rw [List.count_cons_of_ne (Ne.symm hx)]
      exact this

theorem strFind_two_count (data : List Char) (c : Char) (p1 p2 : Nat)
    (h1 : strFind data c 0 = some p1) (h2 : strFind data c (p1 + 1) = some p2) :
    2 ≤ List.count c data := by
  unfold strFind at h1 h2
  simp only [List.drop_zero, Option.map_eq_some', Nat.add_zero] at h1
  obtain ⟨i, hi, rfl⟩ := h1
  simp only [Option.map_eq_some'] at h2
  obtain ⟨j, hj, _⟩ := h2
  have a := findIdx_count c data i hi
  have b := findIdx_count c _ j hj
  omega

/-- C10: an input with fewer than two `|` characters makes `load` return false and
leaves every field of the grid unchanged. -/
theorem load_fewer_than_two_pipes (g : Grid) (data : List Char)
    (h : List.count '|' data < 2) : g.load data = (false, g) := by
  unfold Grid.load
  cases h1 : strFind data '|' 0 with
  | none => simp
  | some p1 =>
    cases h2 : strFind data '|' (p1 + 1) with
    | none => simp [h2]
    | some p2 =>
      have := strFind_two_count data '|' p1 p2 h1 h2
      omega

/-- C10 at a concrete input: a serialized 3×3 grid with its second `|` removed. -/
theorem load_fewer_than_two_pipes_witness :
    List.count '|' "3,3,0,0,2,2|S.......D1 1 1 1 1 1 1 1 1 ".toList < 2 ∧
    grid3x3Edited.load "3,3,0,0,2,2|S.......D1 1 1 1 1 1 1 1 1 ".toList
      = (false, grid3x3Edited) :=
  ⟨by decide, load_fewer_than_two_pipes grid3x3Edited _ (by decide)⟩

/-- C9 (the code at a failing input): loading `2,2,0,0,1,1|..|`, whose map section
has two characters where four are needed, into a fresh `Grid(3,3)` returns false, yet
the grid has been resized to 2×2, its cells and weights are reset, and its
destination (2,2) now lies outside the grid. -/
theorem load_short_map_mutates :
    ∃ g : Grid, Grid.create 3 3 = some g ∧
      (g.load "2,2,0,0,1,1|..|".toList).1 = false ∧
      (g.load "2,2,0,0,1,1|..|".toList).2 =
        { width := 2, height := 2, map := [['.', '.'], ['.', '.']],
          weights := [[1, 1], [1, 1]], source := { x := 0, y := 0 },
          destination := { x := 2, y := 2 }, m_allowDiagonals := false } ∧
      (g.load "2,2,0,0,1,1|..|".toList).2 ≠ g := by
  refine ⟨_, rfl, by decide, by decide, by decide⟩

/-! ## Serialization round trip -/

theorem charDigit_digitChar (n : Nat) (h : n < 10) : charDigit (digitChar n) = some n := by
  interval_cases n <;> decide

theorem digitChar_ne_pipe (n : Nat) : digitChar n ≠ '|' := by
  unfold digitChar
  split <;> decide

theorem readDigits_showNatAux :
    ∀ (fuel n : Nat), n < fuel → ∃ k : Nat, ∀ (acc : Nat) (tail : List Char),
      readDigits (showNatAux fuel n ++ tail) acc = readDigits tail (acc * k + n) := by
  intro fuel
  induction fuel with
  | zero => intro n h; omega
  | succ f ih =>
    intro n h
    unfold showNatAux
    by_cases h10 : n < 10
    · refine ⟨10, fun acc tail => ?_⟩
      simp only [h10, if_true, List.singleton_append]
      rw [readDigits, charDigit_digitChar n h10]
    · obtain ⟨k, hk⟩ := ih (n / 10) (by omega)
      refine ⟨k * 10, fun acc tail => ?_⟩
      simp only [h10, if_false, List.append_assoc, List.singleton_append]
      rw [hk, readDigits, charDigit_digitChar _ (Nat.mod_lt _ (by norm_num))]
      dsimp only
      have e : (acc * k + n / 10) * 10 + n % 10 = acc * (k * 10) + (10 * (n / 10) + n % 10) := by
        ring
      rw [e, Nat.div_add_mod]

theorem readDigits_showNat (n : Nat) (tail : List Char)
    (ht : ∀ c ∈ tail.head?, charDigit c = none) :
    readDigits (showNat n ++ tail) 0 = (n, tail) := by
  obtain ⟨k, hk⟩ := readDigits_showNatAux (n + 1) n (by omega)
  unfold showNat
  rw [hk]
  cases tail with
  | nil => simp [readDigits]
  | cons c cs =>
    have := ht c (by simp)
    simp [readDigits, this]

theorem showNatAux_head (fuel n : Nat) (h : n < fuel) :
    ∃ d ds, showNatAux fuel n = digitChar d :: ds ∧ d < 10 := by
  induction fuel generalizing n with
  | zero => omega
  | succ f ih =>
    unfold showNatAux
    by_cases h10 : n < 10
    · exact ⟨n, [], by simp [h10], h10⟩
    · obtain ⟨d, ds, e, hd⟩ := ih (n / 10) (by omega)
      exact ⟨d, ds ++ [digitChar (n % 10)], by simp [h10, e], hd⟩

theorem showNat_head (n : Nat) : ∃ d ds, showNat n = digitChar d :: ds ∧ d < 10 :=
  showNatAux_head (n + 1) n (by omega)

theorem isSpace_digitChar (d : Nat) : isSpace (digitChar d) = false := by
  unfold digitChar
  split <;> decide

theorem digitChar_ne_minus (d : Nat) : digitChar d ≠ '-' := by
  unfold digitChar
  split <;> decide

theorem digitChar_ne_plus (d : Nat) : digitChar d ≠ '+' := by
  unfold digitChar
  split <;> decide

/-- Extraction of an integer written by `showInt` gives the integer back. -/
theorem extractInt_showInt (b : List Char) (v : Int) (tail : List Char)
    (hv : IsInt32 v) (hb : skipWs b = showInt v ++ tail)
    (ht : ∀ c ∈ tail.head?, charDigit c = none) :
    IStream.extractInt { buf := b, failed := false } = ({ buf := tail, failed := false }, some v) := by
  unfold IsInt32 at hv
  unfold IStream.extractInt
  simp only [Bool.false_eq_true, if_false]
  rw [hb]
  unfold showInt
  by_cases hneg : v < 0
  · simp only [hneg, if_true, List.cons_append]
    obtain ⟨d, ds, e, hd⟩ := showNat_head (-v).toNat
    unfold IStream.extractDigits
    simp only [e, List.cons_append, charDigit_digitChar d hd]
    rw [← List.cons_append, ← e, readDigits_showNat _ _ ht]
    have e2 : ((-v).toNat : Int) = -v := Int.toNat_of_nonneg (by omega)
    simp only [if_true, e2, neg_neg]
    rw [if_neg (by omega), if_neg (by omega)]
  · simp only [hneg, if_false]
    obtain ⟨d, ds, e, hd⟩ := showNat_head v.toNat
    simp only [e, List.cons_append, digitChar_ne_minus, digitChar_ne_plus, if_false]
    unfold IStream.extractDigits
    simp only [charDigit_digitChar d hd]
    rw [← List.cons_append, ← e, readDigits_showNat _ _ ht]
    have e2 : (v.toNat : Int) = v := Int.toNat_of_nonneg (by omega)
    simp only [Bool.false_eq_true, if_false, e2]
    rw [if_neg (by omega), if_neg (by omega)]

theorem skipWs_showInt (v : Int) (tail : List Char) :
    skipWs (showInt v ++ tail) = showInt v ++ tail := by
  unfold showInt
  by_cases hneg : v < 0
  · simp only [hneg, if_true, List.cons_append]
    rw [skipWs, if_neg (by decide)]
  · simp only [hneg, if_false]
    obtain ⟨d, ds, e, _⟩ := showNat_head v.toNat
    rw [e, List.cons_append, skipWs, if_neg (by simp [isSpace_digitChar])]

theorem showNatAux_ne_pipe (fuel n : Nat) : ∀ c ∈ showNatAux fuel n, c ≠ '|' := by
  induction fuel generalizing n with
  | zero => intro c hc; simp [showNatAux] at hc
  | succ f ih =>
    intro c hc
    unfold showNatAux at hc
    by_cases h10 : n < 10
    · simp only [h10, if_true, List.mem_singleton] at hc
      rw [hc]; exact digitChar_ne_pipe n
    · simp only [h10, if_false, List.mem_append, List.mem_singleton] at hc
      rcases hc with hc | hc
      · exact ih _ c hc
      · rw [hc]; exact digitChar_ne_pipe _

theorem showInt_ne_pipe (v : Int) : ∀ c ∈ showInt v, c ≠ '|' := by
  intro c hc
  unfold showInt at hc
  by_cases hneg : v < 0
  · simp only [hneg, if_true, List.mem_cons] at hc
    rcases hc with hc | hc
    · rw [hc]; decide
    · exact showNatAux_ne_pipe _ _ c hc
  · simp only [hneg, if_false] at hc
    exact showNatAux_ne_pipe _ _ c hc

/-- The header text written by `serialize`. -/
theorem parseHeader_show (a b c d e f : Int) (ha : IsInt32 a) (hb : IsInt32 b)
    (hc : IsInt32 c) (hd : IsInt32 d) (he : IsInt32 e) (hf : IsInt32 f) :
    parseHeader (showInt a ++ ',' :: (showInt b ++ ',' :: (showInt c ++ ',' ::
      (showInt d ++ ',' :: (showInt e ++ ',' :: showInt f))))) = some (a, b, c, d, e, f) := by
  have comma : ∀ rest : List Char,
      IStream.extractChar { buf := ',' :: rest, failed := false }
        = ({ buf := rest, failed := false }, some ',') := by
    intro rest
    unfold IStream.extractChar
    simp only [Bool.false_eq_true, if_false]
    rw [skipWs, if_neg (by decide)]
  have hcomma : ∀ rest : List Char, ∀ x ∈ (',' :: rest).head?, charDigit x = none := by
    intro rest x hx
    simp only [List.head?_cons, Option.mem_def, Option.some.injEq] at hx
    subst hx
    decide
  unfold parseHeader
  simp only []
  rw [extractInt_showInt _ a _ ha (skipWs_showInt _ _) (hcomma _)]
  simp only [comma]
  rw [extractInt_showInt _ b _ hb (skipWs_showInt _ _) (hcomma _)]
  simp only [comma]
  rw [extractInt_showInt _ c _ hc (skipWs_showInt _ _) (hcomma _)]
  simp only [comma]
  rw [extractInt_showInt _ d _ hd (skipWs_showInt _ _) (hcomma _)]
  simp only [comma]
  rw [extractInt_showInt _ e _ he (skipWs_showInt _ _) (hcomma _)]
  simp only [comma]
  have hlast := extractInt_showInt (showInt f) f [] hf
    (by simpa using skipWs_showInt f []) (by simp)
  rw [hlast]
  simp

theorem findIdx_append (c : Char) (pre post : List Char) (h : c ∉ pre) :
    findIdx c (pre ++ c :: post) = some pre.length := by
  induction pre with
  | nil => simp [findIdx]
  | cons x xs ih =>
    have hx : x ≠ c := fun e => h (by simp [e])
    have hxs : c ∉ xs := fun e => h (by simp [e])
    simp [findIdx, hx, ih hxs]

/-- Shape of `load` on a text with a well-formed header and a map section free of `|`. -/
theorem load_sections (g : Grid) (h w sx sy dx dy : Int) (hd : List Char) (M W : List Char)
    (hhd : parseHeader hd = some (h, w, sx, sy, dx, dy))
    (hpipe : '|' ∉ hd) (hM : '|' ∉ M) (hh : 0 ≤ h) (hw : 0 ≤ w) :
    g.load (hd ++ '|' :: (M ++ '|' :: W)) =
      if M.length < (h * w).toNat then
        (false, { g with height := h, width := w,
                         map := List.replicate h.toNat (List.replicate w.toNat '.'),
                         weights := List.replicate h.toNat (List.replicate w.toNat 1) })
      else
        (true, { g with height := h, width := w,
                        map := rowMajor h w fun i j => M.getD (i * w + j).toNat '.',
                        weights := loadWeights { buf := W, failed := false }
                          (List.replicate h.toNat (List.replicate w.toNat 1)),
                        source := { x := sx, y := sy },
                        destination := { x := dx, y := dy } }) := by
  have p1 : strFind (hd ++ '|' :: (M ++ '|' :: W)) '|' 0 = some hd.length := by
    unfold strFind
    simp [findIdx_append _ _ _ hpipe]
  have p2 : strFind (hd ++ '|' :: (M ++ '|' :: W)) '|' (hd.length + 1)
      = some (M.length + (hd.length + 1)) := by
    unfold strFind
    have : List.drop (hd.length + 1) (hd ++ '|' :: (M ++ '|' :: W)) = M ++ '|' :: W := by
      rw [List.drop_append_eq_append_drop]
      simp
    rw [this, findIdx_append _ _ _ hM]
    simp
  unfold Grid.load
  simp only [p1, p2]
  have t1 : List.take hd.length (hd ++ '|' :: (M ++ '|' :: W)) = hd := by simp
  have t2 : List.take (M.length + (hd.length + 1) - hd.length - 1)
      (List.drop (hd.length + 1) (hd ++ '|' :: (M ++ '|' :: W))) = M := by
    have : List.drop (hd.length + 1) (hd ++ '|' :: (M ++ '|' :: W)) = M ++ '|' :: W := by
      rw [List.drop_append_eq_append_drop]
      simp
    rw [this]
    have e : M.length + (hd.length + 1) - hd.length - 1 = M.length := by omega
    rw [e]; simp
  have t3 : List.drop (M.length + (hd.length + 1) + 1) (hd ++ '|' :: (M ++ '|' :: W)) = W := by
    have e : M.length + (hd.length + 1) + 1 = hd.length + (1 + (M.length + 1)) := by omega
    rw [e, List.drop_append]
    have e2 : 1 + (M.length + 1) = (M.length + 1) + 1 := by omega
    rw [e2, List.drop_succ_cons]
    rw [List.drop_append]
    rfl
  rw [t1, t2, t3, hhd]
  simp only []
  rw [if_neg (by omega)]


theorem flatten_getD {α : Type} (w : Nat) (d : α) :
    ∀ (m : List (List α)), (∀ row ∈ m, row.length = w) → ∀ i j, i < m.length → j < w →
      m.flatten.getD (i * w + j) d = (m.getD i []).getD j d := by
  intro m
  induction m with
  | nil => intro _ i j hi; simp at hi
  | cons r rs ih =>
    intro hm i j hi hj
    have hr : r.length = w := hm r (by simp)
    have hrs : ∀ row ∈ rs, row.length = w := fun row h => hm row (by simp [h])
    cases i with
    | zero =>
      simp only [List.flatten, Nat.zero_mul, Nat.zero_add, List.getD_cons_zero]
      rw [List.getD_append _ _ _ _ (by omega)]
    | succ k =>
      simp only [List.flatten, List.getD_cons_succ]
      have e : (k + 1) * w + j = r.length + (k * w + j) := by rw [hr]; ring
      rw [e, List.getD_append_right _ _ _ _ (by omega)]
      simp only [Nat.add_sub_cancel_left]
      exact ih hrs k j (by simpa using hi) hj

theorem flatten_length_uniform {α : Type} (w : Nat) :
    ∀ (m : List (List α)), (∀ row ∈ m, row.length = w) → m.flatten.length = m.length * w := by
  intro m
  induction m with
  | nil => intro _; simp
  | cons r rs ih =>
    intro hm
    have hr : r.length = w := hm r (by simp)
    have hrs : ∀ row ∈ rs, row.length = w := fun row h => hm row (by simp [h])
    simp only [List.flatten, List.length_append, List.length_cons, ih hrs, hr]
    ring

theorem matGet_natCast {α : Type} (m : List (List α)) (i j : Nat) (d : α) :
    matGet m (Int.ofNat i) (Int.ofNat j) d = (m.getD i []).getD j d := by
  simp [matGet]

theorem rowMajor_matGet {α β : Type} (m : List (List α)) (H W : Int) (d : α) (F : α → β)
    (hr : m.length = H.toNat) (hc : ∀ row ∈ m, row.length = W.toNat) :
    rowMajor H W (fun i j => F (matGet m i j d)) = m.map (List.map F) := by
  unfold rowMajor
  apply List.ext_getElem
  · simp [hr]
  · intro i h1 h2
    simp only [List.getElem_map, List.getElem_range]
    have hi : i < m.length := by simpa using h2
    apply List.ext_getElem
    · simp [hc m[i] (List.getElem_mem _)]
    · intro j h3 h4
      simp only [List.getElem_map, List.getElem_range, matGet_natCast]
      have hj : j < m[i].length := by simpa using h4
      rw [List.getD_eq_getElem _ _ hi, List.getD_eq_getElem _ _ hj]

theorem rowMajor_congr {α : Type} (H W : Int) (f f2 : Int → Int → α)
    (h : ∀ i j : Nat, i < H.toNat → j < W.toNat →
      f (Int.ofNat i) (Int.ofNat j) = f2 (Int.ofNat i) (Int.ofNat j)) :
    rowMajor H W f = rowMajor H W f2 := by
  unfold rowMajor
  apply List.map_congr_left
  intro i hi
  apply List.map_congr_left
  intro j hj
  exact h i j (List.mem_range.mp hi) (List.mem_range.mp hj)

/-- Text of one row of weights, as written by `serialize`. -/
theorem loadWeightsRow_text :
    ∀ (vs olds : List Int) (b tail : List Char), vs.length = olds.length →
      (∀ v ∈ vs, IsInt32 v) →
      skipWs b = skipWs ((vs.map fun v => showInt v ++ [' ']).flatten ++ tail) →
      ∃ b2, loadWeightsRow { buf := b, failed := false } olds = ({ buf := b2, failed := false }, vs)
        ∧ skipWs b2 = skipWs tail := by
  intro vs
  induction vs with
  | nil =>
    intro olds b tail hlen _ hb
    cases olds with
    | nil => exact ⟨b, by simp [loadWeightsRow], by simpa using hb⟩
    | cons o os => simp at hlen
  | cons v vs ih =>
    intro olds b tail hlen hv hb
    cases olds with
    | nil => simp at hlen
    | cons o os =>
      have hb2 : skipWs b = showInt v ++ ' ' :: ((vs.map fun v => showInt v ++ [' ']).flatten ++ tail) := by
        rw [hb]
        simp only [List.map_cons, List.flatten, List.append_assoc, List.singleton_append]
        exact skipWs_showInt _ _
      have hx := extractInt_showInt b v _ (hv v (by simp)) hb2 (by
        intro c hc
        simp only [List.head?_cons, Option.mem_def, Option.some.injEq] at hc
        subst hc; decide)
      obtain ⟨b2, e2, hs2⟩ := ih os (' ' :: ((vs.map fun v => showInt v ++ [' ']).flatten ++ tail))
        tail (by simpa using hlen) (fun x hx => hv x (by simp [hx]))
        (by rw [skipWs, if_pos (by decide)])
      refine ⟨b2, ?_, hs2⟩
      rw [loadWeightsRow, hx]
      simp only [Bool.false_eq_true, if_false, Option.getD_some, e2]

theorem loadWeights_text :
    ∀ (ws olds : List (List Int)) (b : List Char),
      List.Forall₂ (fun r o => r.length = o.length) ws olds →
      (∀ row ∈ ws, ∀ v ∈ row, IsInt32 v) →
      skipWs b = skipWs ((ws.map fun row => (row.map fun v => showInt v ++ [' ']).flatten).flatten) →
      loadWeights { buf := b, failed := false } olds = ws := by
  intro ws
  induction ws with
  | nil =>
    intro olds b hf _ _
    cases hf
    simp [loadWeights]
  | cons r rs ih =>
    intro olds b hf hv hb
    cases hf with
    | cons hlen hrest =>
      rename_i o os
      obtain ⟨b2, e2, hs2⟩ := loadWeightsRow_text r o b
        ((rs.map fun row => (row.map fun v => showInt v ++ [' ']).flatten).flatten) hlen
        (hv r (by simp)) (by simpa [List.flatten] using hb)
      rw [loadWeights, e2]
      simp only [List.cons.injEq, true_and]
      exact ih os b2 hrest (fun row hrow => hv row (by simp [hrow])) hs2


theorem matSet_length {α : Type} (m : List (List α)) (x y : Int) (v : α) :
    (matSet m x y v).length = m.length := by
  simp [matSet]

theorem matSet_rows {α : Type} (m : List (List α)) (x y : Int) (v : α) (w : Nat)
    (P : α → Prop) (hm : ∀ row ∈ m, row.length = w ∧ ∀ c ∈ row, P c) (hv : P v) :
    ∀ row ∈ matSet m x y v, row.length = w ∧ ∀ c ∈ row, P c := by
  intro row hrow
  unfold matSet at hrow
  by_cases hx : x.toNat < m.length
  · rcases List.mem_or_eq_of_mem_set hrow with h | h
    · exact hm row h
    · have hmem : m.getD x.toNat [] ∈ m := by
        rw [List.getD_eq_getElem _ _ hx]
        exact List.getElem_mem _
      obtain ⟨h1, h2⟩ := hm _ hmem
      subst h
      refine ⟨by simpa using h1, fun c hc => ?_⟩
      rcases List.mem_or_eq_of_mem_set hc with h3 | h3
      · exact h2 c h3
      · rw [h3]; exact hv
  · rw [List.set_eq_of_length_le (by omega)] at hrow
    exact hm row hrow

theorem isValid_int32 (g : Grid) (x y : Int) (hh : IsInt32 g.height) (hw : IsInt32 g.width)
    (h : g.isValid x y = true) : IsInt32 x ∧ IsInt32 y := by
  unfold Grid.isValid at h
  unfold IsInt32 at *
  simp only [Bool.and_eq_true, decide_eq_true_eq] at h
  omega

theorem GridInv_map_set (g : Grid) (x y : Int) (c : Char) (hg : GridInv g) (hc : c ≠ '|') :
    GridInv { g with map := matSet g.map x y c } := by
  obtain ⟨a1, a2, a3, a4, a5, a6, a7, a8, a9, a10⟩ := hg
  exact ⟨a1, a2, a3, a4, a5, a6, (matSet_length _ _ _ _).trans a7,
    matSet_rows _ _ _ _ _ _ a8 hc, a9, a10⟩

theorem GridInv_weights_set (g : Grid) (x y : Int) (v : Int) (hg : GridInv g) (hv : IsInt32 v) :
    GridInv { g with weights := matSet g.weights x y v } := by
  obtain ⟨a1, a2, a3, a4, a5, a6, a7, a8, a9, a10⟩ := hg
  exact ⟨a1, a2, a3, a4, a5, a6, a7, a8, (matSet_length _ _ _ _).trans a9,
    matSet_rows _ _ _ _ _ _ a10 hv⟩

theorem GridInv_source (g : Grid) (x y : Int) (hg : GridInv g) (hx : IsInt32 x ∧ IsInt32 y) :
    GridInv { g with source := { x := x, y := y } } := by
  obtain ⟨a1, a2, a3, a4, a5, a6, a7, a8, a9, a10⟩ := hg
  exact ⟨a1, a2, a3, a4, hx, a6, a7, a8, a9, a10⟩

theorem GridInv_destination (g : Grid) (x y : Int) (hg : GridInv g)
    (hx : IsInt32 x ∧ IsInt32 y) :
    GridInv { g with destination := { x := x, y := y } } := by
  obtain ⟨a1, a2, a3, a4, a5, a6, a7, a8, a9, a10⟩ := hg
  exact ⟨a1, a2, a3, a4, a5, hx, a7, a8, a9, a10⟩

theorem GridInv_ite (c : Prop) [Decidable c] (a b : Grid) (ha : GridInv a) (hb : GridInv b) :
    GridInv (if c then a else b) := by
  split
  · exact ha
  · exact hb

theorem GridInv_create (height width : Int) (g : Grid) (hh : IsInt32 height)
    (hw : IsInt32 width) (hg : Grid.create height width = some g) : GridInv g := by
  unfold Grid.create at hg
  by_cases hneg : height < 0 ∨ width < 0
  · simp [hneg] at hg
  · simp only [hneg, if_false, Option.some.injEq] at hg
    have hrep : ∀ (β : Type) (d : β) (P : β → Prop), P d →
        ∀ row ∈ List.replicate height.toNat (List.replicate width.toNat d),
          row.length = width.toNat ∧ ∀ c ∈ row, P c := by
      intro β d P hd row hrow
      rw [List.eq_of_mem_replicate hrow]
      refine ⟨by simp, fun c hc => ?_⟩
      rw [List.eq_of_mem_replicate hc]; exact hd
    have h1 : IsInt32 (height - 1) ∧ IsInt32 (width - 1) := by
      unfold IsInt32 at *; omega
    have h0 : IsInt32 (0 : Int) := by decide
    have base : GridInv
        { width := width, height := height,
          map := List.replicate height.toNat (List.replicate width.toNat '.'),
          weights := List.replicate height.toNat (List.replicate width.toNat 1),
          source := { x := 0, y := 0 },
          destination := { x := height - 1, y := width - 1 },
          m_allowDiagonals := false } :=
      ⟨by simp only []; omega, by simp only []; omega, hh, hw, ⟨h0, h0⟩, h1, by simp,
        hrep Char '.' _ (by decide), by simp, hrep Int 1 _ (by decide)⟩
    subst hg
    apply GridInv_ite
    · exact GridInv_map_set _ _ _ _ (GridInv_ite _ _ _ (GridInv_map_set _ _ _ _ base (by decide)) base) (by decide)
    · exact GridInv_ite _ _ _ (GridInv_map_set _ _ _ _ base (by decide)) base

/-- The inner loop of `clearPath` keeps the length of a row and writes only `.`. -/
theorem clearRow_spec (width : Int) : ∀ (cs : List Char) (j : Int),
    (clearRow width j cs).length = cs.length ∧
    ∀ c ∈ clearRow width j cs, c = '.' ∨ c ∈ cs := by
  intro cs
  induction cs with
  | nil => intro j; simp [clearRow]
  | cons a cs ih =>
    intro j
    obtain ⟨h1, h2⟩ := ih (j + 1)
    refine ⟨by simp [clearRow, h1], fun c hc => ?_⟩
    simp only [clearRow, List.mem_cons] at hc
    rcases hc with rfl | hc
    · split
      · exact Or.inl rfl
      · exact Or.inr (by simp)
    · rcases h2 c hc with h | h
      · exact Or.inl h
      · exact Or.inr (by simp [h])

/-- The loops of `clearPath` keep the shape of the matrix and write only `.`. -/
theorem clearRows_spec (height width : Int) : ∀ (rows : List (List Char)) (i : Int),
    (clearRows height width i rows).length = rows.length ∧
    ∀ row ∈ clearRows height width i rows, ∃ r ∈ rows,
      row.length = r.length ∧ ∀ c ∈ row, c = '.' ∨ c ∈ r := by
  intro rows
  induction rows with
  | nil => intro i; simp [clearRows]
  | cons a rows ih =>
    intro i
    obtain ⟨h1, h2⟩ := ih (i + 1)
    refine ⟨by simp [clearRows, h1], fun row hrow => ?_⟩
    simp only [clearRows, List.mem_cons] at hrow
    rcases hrow with rfl | hrow
    · refine ⟨a, by simp, ?_⟩
      split
      · exact clearRow_spec width a 0
      · exact ⟨rfl, fun c hc => Or.inr hc⟩
    · obtain ⟨r, hr, h⟩ := h2 row hrow
      exact ⟨r, by simp [hr], h⟩

theorem GridInv_applyOp (g : Grid) (op : GridOp) (hg : GridInv g) (hop : op.ArgsInt32) :
    GridInv (g.applyOp op) := by
  have hh := hg.2.2.1
  have hw := hg.2.2.2.1
  cases op with
  | setObstacle x y =>
    exact GridInv_ite _ _ _ (GridInv_map_set _ _ _ _ hg (by decide)) hg
  | setSource x y =>
    show GridInv (g.setSource x y)
    unfold Grid.setSource
    by_cases hv : g.isValid x y = true
    · rw [if_pos hv]
      have hi := isValid_int32 g x y hh hw hv
      exact GridInv_map_set _ _ _ _ (GridInv_source _ _ _
        (GridInv_ite _ _ _ (GridInv_map_set _ _ _ _ hg (by decide)) hg) hi) (by decide)
    · rw [if_neg hv]; exact hg
  | setDestination x y =>
    show GridInv (g.setDestination x y)
    unfold Grid.setDestination
    by_cases hv : g.isValid x y = true
    · rw [if_pos hv]
      have hi := isValid_int32 g x y hh hw hv
      exact GridInv_map_set _ _ _ _ (GridInv_destination _ _ _
        (GridInv_ite _ _ _ (GridInv_map_set _ _ _ _ hg (by decide)) hg) hi) (by decide)
    · rw [if_neg hv]; exact hg
  | setWeight x y weight =>
    show GridInv (g.setWeight x y weight)
    unfold Grid.setWeight
    apply GridInv_ite _ _ _ _ hg
    have h2 := GridInv_weights_set g x y weight hg hop.2.2
    exact GridInv_ite _ _ _ (GridInv_map_set _ _ _ _ h2 (by decide)) h2
  | setEmpty x y =>
    show GridInv (g.setEmpty x y)
    unfold Grid.setEmpty
    apply GridInv_ite _ _ _ _ hg
    exact GridInv_weights_set _ x y 1 (GridInv_map_set g x y '.' hg (by decide)) (by decide)
  | clearPath =>
    show GridInv g.clearPath
    unfold Grid.clearPath
    have hc : GridInv { g with map := clearRows g.height g.width 0 g.map } := by
      obtain ⟨a1, a2, a3, a4, a5, a6, a7, a8, a9, a10⟩ := hg
      refine ⟨a1, a2, a3, a4, a5, a6, ?_, ?_, a9, a10⟩
      · show (clearRows g.height g.width 0 g.map).length = g.height.toNat
        rw [(clearRows_spec g.height g.width g.map 0).1]
        exact a7
      intro row hrow
      obtain ⟨r, hr, hlen, hch⟩ := (clearRows_spec g.height g.width g.map 0).2 row hrow
      refine ⟨by rw [hlen]; exact (a8 r hr).1, fun c hc => ?_⟩
      rcases hch c hc with rfl | h
      · decide
      · exact (a8 r hr).2 c h
    simp only []
    apply GridInv_ite
    · exact GridInv_map_set _ _ _ _ (GridInv_ite _ _ _ (GridInv_map_set _ _ _ _ hc (by decide)) hc) (by decide)
    · exact GridInv_ite _ _ _ (GridInv_map_set _ _ _ _ hc (by decide)) hc

theorem GridInv_edited (g : Grid) (hg : g.Edited) : GridInv g := by
  obtain ⟨height, width, g0, ops, hh, hw, hc, hops, rfl⟩ := hg
  have h0 := GridInv_create height width g0 hh hw hc
  clear hc
  induction ops generalizing g0 with
  | nil => exact h0
  | cons op ops ih =>
    simp only [List.foldl_cons]
    exact ih (g0.applyOp op) (fun o ho => hops o (by simp [ho]))
      (GridInv_applyOp g0 op h0 (hops op (by simp)))


/-- Loading the text written by `serialize`. -/
theorem load_serialize_eq (g g2 : Grid) (hg : GridInv g) :
    g2.load g.serialize =
      (true, { g with m_allowDiagonals := g2.m_allowDiagonals }) := by
  obtain ⟨a1, a2, a3, a4, a5, a6, a7, a8, a9, a10⟩ := hg
  have hmapc : ∀ row ∈ g.map, row.length = g.width.toNat := fun r hr => (a8 r hr).1
  have hwc : ∀ row ∈ g.weights, row.length = g.width.toNat := fun r hr => (a10 r hr).1
  have eM : (rowMajor g.height g.width fun i j => g.cell i j) = g.map := by
    have := rowMajor_matGet g.map g.height g.width '.' id a7 hmapc
    simpa [Grid.cell] using this
  have eW : ((rowMajor g.height g.width fun i j => showInt (matGet g.weights i j 1) ++ [' ']).map
      List.flatten).flatten
      = (g.weights.map fun row => (row.map fun v => showInt v ++ [' ']).flatten).flatten := by
    rw [rowMajor_matGet g.weights g.height g.width 1 (fun v => showInt v ++ [' ']) a9 hwc]
    simp [List.map_map, Function.comp_def]
  have hser : g.serialize =
      (showInt g.height ++ ',' :: (showInt g.width ++ ',' :: (showInt g.source.x ++ ',' ::
        (showInt g.source.y ++ ',' :: (showInt g.destination.x ++ ',' ::
          showInt g.destination.y))))) ++ '|' :: (g.map.flatten ++ '|' ::
        (g.weights.map fun row => (row.map fun v => showInt v ++ [' ']).flatten).flatten) := by
    unfold Grid.serialize
    rw [eM, eW]
    simp [List.append_assoc]
  have hpipeH : '|' ∉ (showInt g.height ++ ',' :: (showInt g.width ++ ',' ::
      (showInt g.source.x ++ ',' :: (showInt g.source.y ++ ',' ::
        (showInt g.destination.x ++ ',' :: showInt g.destination.y))))) := by
    intro hmem
    simp only [List.mem_append, List.mem_cons] at hmem
    have hc : ('|' : Char) ≠ ',' := by decide
    rcases hmem with h | h | h | h | h | h | h | h | h | h | h
    all_goals first
      | exact hc h
      | exact showInt_ne_pipe _ _ h rfl
  have hpipeM : '|' ∉ g.map.flatten := by
    intro hmem
    simp only [List.mem_flatten] at hmem
    obtain ⟨row, hrow, hc⟩ := hmem
    exact (a8 row hrow).2 _ hc rfl
  rw [hser, load_sections g2 _ _ _ _ _ _ _ _ _
    (parseHeader_show _ _ _ _ _ _ a3 a4 a5.1 a5.2 a6.1 a6.2) hpipeH hpipeM a1 a2]
  have hlen : g.map.flatten.length = g.height.toNat * g.width.toNat := by
    rw [flatten_length_uniform g.width.toNat g.map hmapc, a7]
  have hprod : (g.height * g.width).toNat = g.height.toNat * g.width.toNat := by
    have e1 : (g.height.toNat : Int) = g.height := Int.toNat_of_nonneg a1
    have e2 : (g.width.toNat : Int) = g.width := Int.toNat_of_nonneg a2
    have : g.height * g.width = ((g.height.toNat * g.width.toNat : Nat) : Int) := by
      push_cast; rw [e1, e2]
    rw [this, Int.toNat_natCast]
  rw [if_neg (by omega)]
  have emap : (rowMajor g.height g.width fun i j => g.map.flatten.getD (i * g.width + j).toNat '.')
      = g.map := by
    have hid := rowMajor_matGet g.map g.height g.width '.' id a7 hmapc
    simp only [List.map_id_fun, List.map_id, id_eq] at hid
    refine Eq.trans ?_ hid
    apply rowMajor_congr
    intro i j hi hj
    have e2 : (g.width.toNat : Int) = g.width := Int.toNat_of_nonneg a2
    have eidx : (Int.ofNat i * g.width + Int.ofNat j).toNat = i * g.width.toNat + j := by
      have : Int.ofNat i * g.width + Int.ofNat j = ((i * g.width.toNat + j : Nat) : Int) := by
        push_cast; rw [e2]; rfl
      rw [this, Int.toNat_natCast]
    rw [eidx, flatten_getD g.width.toNat '.' g.map hmapc i j (by omega) hj, matGet_natCast]
  have ewts : loadWeights { buf := (g.weights.map fun row =>
        (row.map fun v => showInt v ++ [' ']).flatten).flatten, failed := false }
      (List.replicate g.height.toNat (List.replicate g.width.toNat 1)) = g.weights := by
    apply loadWeights_text _ _ _ _ (fun row hrow => (a10 row hrow).2) rfl
    rw [← a9]
    clear eW hser a9 a7 eM hlen emap
    have hcols := hwc
    generalize g.weights = ws at hcols
    induction ws with
    | nil => exact List.Forall₂.nil
    | cons r rs ih =>
      simp only [List.length_cons, List.replicate_succ]
      refine List.Forall₂.cons (by simp [hcols r (by simp)]) (ih fun row h => hcols row (by simp [h]))
  rw [emap, ewts]

/-- C8: for a grid `g` obtained from the constructor by editing calls and a grid
`g2` in any state, `g2.load(g.serialize())` returns true and afterwards `g2` has the
height, width, source, destination, cell matrix and weight matrix of `g`. -/
theorem load_serialize_roundtrip (g g2 : Grid) (hg : g.Edited) :
    (g2.load g.serialize).1 = true ∧
    (g2.load g.serialize).2.height = g.height ∧
    (g2.load g.serialize).2.width = g.width ∧
    (g2.load g.serialize).2.source = g.source ∧
    (g2.load g.serialize).2.destination = g.destination ∧
    (g2.load g.serialize).2.map = g.map ∧
    (g2.load g.serialize).2.weights = g.weights := by
  rw [load_serialize_eq g g2 (GridInv_edited g hg)]
  exact ⟨rfl, rfl, rfl, rfl, rfl, rfl, rfl⟩

theorem grid3x3Edited_edited : grid3x3Edited.Edited :=
  ⟨3, 3, grid3x3, [GridOp.setObstacle 1 1, GridOp.setWeight 0 1 7], by decide, by decide,
    by decide, by
      intro op hop
      simp only [List.mem_cons, List.mem_singleton, List.not_mem_nil, or_false] at hop
      rcases hop with rfl | rfl
      · exact ⟨by decide, by decide⟩
      · exact ⟨by decide, by decide, by decide⟩,
    by decide⟩

/-- C8 at a concrete input: an edited 3×3 grid loaded into a fresh 3×3 grid. -/
theorem load_serialize_roundtrip_witness :
    grid3x3Edited.Edited ∧
    (grid3x3.load grid3x3Edited.serialize).1 = true ∧
    (grid3x3.load grid3x3Edited.serialize).2.height = grid3x3Edited.height ∧
    (grid3x3.load grid3x3Edited.serialize).2.width = grid3x3Edited.width ∧
    (grid3x3.load grid3x3Edited.serialize).2.source = grid3x3Edited.source ∧
    (grid3x3.load grid3x3Edited.serialize).2.destination = grid3x3Edited.destination ∧
    (grid3x3.load grid3x3Edited.serialize).2.map = grid3x3Edited.map ∧
    (grid3x3.load grid3x3Edited.serialize).2.weights = grid3x3Edited.weights :=
  ⟨grid3x3Edited_edited, load_serialize_roundtrip grid3x3Edited grid3x3 grid3x3Edited_edited⟩


/-! ## Loops: invariants and termination -/

theorem lex3_wf : WellFounded Lex3 :=
  WellFounded.prod_lex wellFounded_lt (WellFounded.prod_lex wellFounded_lt wellFounded_lt)

theorem lex3_iff (a b : Nat × Nat × Nat) :
    Lex3 a b ↔ a.1 < b.1 ∨ (a.1 = b.1 ∧ (a.2.1 < b.2.1 ∨ (a.2.1 = b.2.1 ∧ a.2.2 < b.2.2))) := by
  unfold Lex3
  rw [Prod.lex_def, Prod.lex_def]

/-- A loop whose step keeps an invariant leaves, if it leaves, from a state that
satisfies the invariant. -/
theorem iterate_invariant {S R : Type} (step : S → S ⊕ R) (Inv : S → Prop)
    (hstep : ∀ s s1, Inv s → step s = Sum.inl s1 → Inv s1) :
    ∀ (n : Nat) (s : S) (r : R), Inv s → iterate step n s = some r →
      ∃ sl, Inv sl ∧ step sl = Sum.inr r := by
  intro n
  induction n with
  | zero => intro s r _ h; simp [iterate] at h
  | succ k ih =>
    intro s r hs h
    simp only [iterate] at h
    cases hst : step s with
    | inl s1 =>
      rw [hst] at h
      exact ih s1 r (hstep s s1 hs hst) h
    | inr r1 =>
      rw [hst] at h
      simp only [Option.some.injEq] at h
      subst h
      exact ⟨s, hs, hst⟩

/-- A loop whose step keeps an invariant and decreases a measure leaves. -/
theorem iterate_terminates {S R : Type} (step : S → S ⊕ R) (Inv : S → Prop)
    (mu : S → Nat × Nat × Nat)
    (hstep : ∀ s s1, Inv s → step s = Sum.inl s1 → Inv s1 ∧ Lex3 (mu s1) (mu s)) :
    ∀ s : S, Inv s → ∃ (n : Nat) (r : R), iterate step n s = some r := by
  have key : ∀ m : Nat × Nat × Nat, ∀ s : S, mu s = m → Inv s →
      ∃ (n : Nat) (r : R), iterate step n s = some r := by
    intro m
    induction m using lex3_wf.induction with
    | _ m ih =>
      intro s hm hs
      cases hst : step s with
      | inl s1 =>
        obtain ⟨h1, h2⟩ := hstep s s1 hs hst
        obtain ⟨n, r, hn⟩ := ih (mu s1) (hm ▸ h2) s1 rfl h1
        exact ⟨n + 1, r, by simp only [iterate, hst]; exact hn⟩
      | inr r => exact ⟨1, r, by simp [iterate, hst]⟩
  intro s hs
  exact key (mu s) s rfl hs


/-! ## The order in which `runDijkstraExact` visits nodes -/

theorem loopState_invariant {S R : Type} (step : S → S ⊕ R) (Inv : S → Prop)
    (hstep : ∀ s s1, Inv s → step s = Sum.inl s1 → Inv s1) :
    ∀ (n : Nat) (s0 s : S), Inv s0 → loopState step n s0 = some s → Inv s := by
  intro n
  induction n with
  | zero =>
    intro s0 s h0 h
    simp only [loopState, Option.some.injEq] at h
    rw [← h]; exact h0
  | succ k ih =>
    intro s0 s h0 h
    unfold loopState at h
    cases hs : step s0 with
    | inl s1 =>
      rw [hs] at h
      exact ih s1 s (hstep s0 s1 h0 hs) h
    | inr r =>
      rw [hs] at h
      cases h

/-! ## 32-bit sums and products -/

/-- A value in the range of `int` is not changed by the wrap-around. -/
theorem wrapInt32_of_isInt32 (x : Int) (h : IsInt32 x) : wrapInt32 x = x := by
  unfold IsInt32 at h
  unfold wrapInt32
  omega

/-- A wrapped value is in the range of `int`. -/
theorem wrapInt32_isInt32 (x : Int) : IsInt32 (wrapInt32 x) := by
  unfold IsInt32 wrapInt32
  omega

/-! ## The priority queue -/

theorem pqTop_mem : ∀ (pq : List (Int × Node)) (t : Int × Node), pqTop pq = some t → t ∈ pq := by
  intro pq
  induction pq with
  | nil => intro t h; simp [pqTop] at h
  | cons x xs ih =>
    intro t h
    unfold pqTop at h
    cases hxs : pqTop xs with
    | none =>
      rw [hxs] at h
      simp only [Option.some.injEq] at h
      simp [h]
    | some y =>
      rw [hxs] at h
      simp only at h
      split at h
      · simp only [Option.some.injEq] at h; simp [h]
      · simp only [Option.some.injEq] at h
        subst h
        exact List.mem_cons_of_mem _ (ih y hxs)

theorem pairLe_trans (a b c : Int × Node) (h1 : pairLe a b = true) (h2 : pairLe b c = true) :
    pairLe a c = true := by
  unfold pairLe at *
  simp only [Bool.or_eq_true, Bool.and_eq_true, decide_eq_true_eq] at *
  unfold Node at *
  omega

theorem pairLe_total (a b : Int × Node) (h : ¬ pairLe a b = true) : pairLe b a = true := by
  unfold pairLe at *
  simp only [Bool.or_eq_true, Bool.and_eq_true, decide_eq_true_eq] at *
  unfold Node at *
  omega

theorem pqTop_le : ∀ (pq : List (Int × Node)) (t : Int × Node), pqTop pq = some t →
    ∀ p ∈ pq, pairLe t p = true := by
  intro pq
  induction pq with
  | nil => intro t h; simp [pqTop] at h
  | cons x xs ih =>
    intro t h p hp
    unfold pqTop at h
    have hxx : pairLe x x = true := by
      unfold pairLe
      simp
    cases hxs : pqTop xs with
    | none =>
      rw [hxs] at h
      simp only [Option.some.injEq] at h
      subst h
      cases xs with
      | nil =>
        simp only [List.mem_singleton] at hp
        subst hp
        exact hxx
      | cons y ys =>
        exfalso
        unfold pqTop at hxs
        cases h2 : pqTop ys with
        | none => rw [h2] at hxs; simp at hxs
        | some z => rw [h2] at hxs; simp only at hxs; split at hxs <;> simp at hxs
    | some y =>
      rw [hxs] at h
      simp only at h
      rcases List.mem_cons.mp hp with hp | hp
      · subst hp
        split at h
        · simp only [Option.some.injEq] at h; subst h; exact hxx
        · rename_i hle
          simp only [Option.some.injEq] at h; subst h
          exact pairLe_total _ _ hle
      · split at h
        · rename_i hle
          simp only [Option.some.injEq] at h; subst h
          exact pairLe_trans _ _ _ hle (ih y hxs p hp)
        · simp only [Option.some.injEq] at h; subst h
          exact ih _ hxs p hp

theorem pqTop_key_le (pq : List (Int × Node)) (t : Int × Node) (h : pqTop pq = some t)
    (p : Int × Node) (hp : p ∈ pq) : t.1 ≤ p.1 := by
  have := pqTop_le pq t h p hp
  unfold pairLe at this
  simp only [Bool.or_eq_true, Bool.and_eq_true, decide_eq_true_eq] at this
  omega

theorem pqTop_none (pq : List (Int × Node)) (h : pqTop pq = none) : pq = [] := by
  cases pq with
  | nil => rfl
  | cons x xs =>
    unfold pqTop at h
    cases h2 : pqTop xs with
    | none => rw [h2] at h; simp at h
    | some z => rw [h2] at h; simp only at h; split at h <;> simp at h

theorem mem_erase_of_ne_top (pq : List (Int × Node)) (t p : Int × Node) (hp : p ∈ pq)
    (hne : p ≠ t) : p ∈ pq.erase t :=
  (List.mem_erase_of_ne hne).mpr hp

theorem length_erase_top (pq : List (Int × Node)) (t : Int × Node) (h : pqTop pq = some t) :
    (pq.erase t).length + 1 = pq.length := by
  have hm := pqTop_mem pq t h
  rw [List.length_erase_of_mem hm]
  have : 0 < pq.length := List.length_pos_of_mem hm
  omega

/-! ## Walks -/

theorem isWalk_append (graph : IGraph) :
    ∀ (es fs : List Edge) (u : Node),
      isWalk graph u (es ++ fs) = (isWalk graph u es && isWalk graph (walkEnd u es) fs) := by
  intro es
  induction es with
  | nil => intro fs u; simp [isWalk, walkEnd]
  | cons e es ih => intro fs u; simp [isWalk, walkEnd, ih, Bool.and_assoc]

theorem walkEnd_append :
    ∀ (es fs : List Edge) (u : Node), walkEnd u (es ++ fs) = walkEnd (walkEnd u es) fs := by
  intro es
  induction es with
  | nil => intro fs u; simp [walkEnd]
  | cons e es ih => intro fs u; simp [walkEnd, ih]

theorem walkCost_nil : walkCost [] = 0 := by simp [walkCost]

theorem walkCost_cons (e : Edge) (es : List Edge) :
    walkCost (e :: es) = e.weight + walkCost es := by simp [walkCost]

theorem walkCost_append (es fs : List Edge) :
    walkCost (es ++ fs) = walkCost es + walkCost fs := by simp [walkCost]

theorem walkEnd_mem (graph : IGraph) (V : List Node) (hV : ClosedUnder graph V) :
    ∀ (es : List Edge) (u : Node), u ∈ V → isWalk graph u es = true → walkEnd u es ∈ V := by
  intro es
  induction es with
  | nil => intro u hu _; simpa [walkEnd] using hu
  | cons e es ih =>
    intro u hu hw
    simp only [isWalk, Bool.and_eq_true, decide_eq_true_eq] at hw
    exact ih e.target (hV u hu e hw.1) hw.2

theorem walkCost_nonneg (graph : IGraph) (V : List Node) (hV : ClosedUnder graph V)
    (hw : NonNegWeights graph V) :
    ∀ (es : List Edge) (u : Node), u ∈ V → isWalk graph u es = true → 0 ≤ walkCost es := by
  intro es
  induction es with
  | nil => intro u _ _; simp [walkCost]
  | cons e es ih =>
    intro u hu h
    simp only [isWalk, Bool.and_eq_true, decide_eq_true_eq] at h
    have h1 := hw u hu e h.1
    have h2 := ih e.target (hV u hu e h.1) h.2
    rw [walkCost_cons]
    omega

/-! ## Parent chains and path reconstruction -/

theorem ParentChain.value {graph : IGraph} {cost : Edge → Int} {start : Node}
    {parent : NodeMap Node} {g : NodeMap Int} {v : Node} {l : List Node}
    (h : ParentChain graph cost start parent g v l) : ∃ dv, g v = some dv := by
  cases h with
  | base d0 h0 => exact ⟨d0, h0⟩
  | step u _ l e du dv _ _ _ _ _ hv _ _ _ => exact ⟨dv, hv⟩

theorem ParentChain.last_mem {graph : IGraph} {cost : Edge → Int} {start : Node}
    {parent : NodeMap Node} {g : NodeMap Int} {v : Node} {l : List Node}
    (h : ParentChain graph cost start parent g v l) : v ∈ l := by
  cases h with
  | base d0 h0 => simp
  | step u _ l e du dv _ _ _ _ _ hv _ _ _ => simp

theorem ParentChain.getLast {graph : IGraph} {cost : Edge → Int} {start : Node}
    {parent : NodeMap Node} {g : NodeMap Int} {v : Node} {l : List Node}
    (h : ParentChain graph cost start parent g v l) : l.getLast? = some v := by
  cases h with
  | base d0 h0 => simp
  | step u _ l e du dv _ _ _ _ _ hv _ _ _ => simp

theorem ParentChain.head {graph : IGraph} {cost : Edge → Int} {start : Node}
    {parent : NodeMap Node} {g : NodeMap Int} {v : Node} {l : List Node}
    (h : ParentChain graph cost start parent g v l) : l.head? = some start := by
  induction h with
  | base d0 h0 => simp
  | step u v l e du dv _ _ _ _ _ _ _ _ hl ih =>
    cases l with
    | nil => simp at ih
    | cons a as => simpa using ih

theorem ParentChain.isPath {graph : IGraph} {cost : Edge → Int} {start : Node}
    {parent : NodeMap Node} {g : NodeMap Int} {v : Node} {l : List Node}
    (h : ParentChain graph cost start parent g v l) : IsPath graph l := by
  induction h with
  | base d0 h0 => simp [IsPath]
  | step u v l e du dv _ _ he het _ _ _ _ hl ih =>
    unfold IsPath at *
    apply List.Chain'.append ih (List.chain'_singleton v)
    intro x hx y hy
    rw [hl.getLast] at hx
    simp only [Option.mem_def, Option.some.injEq, List.head?_cons] at hx hy
    subst hx; subst hy
    exact ⟨e, he, het⟩

/-- Values do not decrease along a chain. -/
theorem ParentChain.mem_le {graph : IGraph} {cost : Edge → Int} {start : Node}
    {parent : NodeMap Node} {g : NodeMap Int} {v : Node} {l : List Node}
    (h : ParentChain graph cost start parent g v l) :
    ∀ dv, g v = some dv → ∀ y ∈ l, ∃ dy, g y = some dy ∧ dy ≤ dv := by
  induction h with
  | base d0 h0 =>
    intro dv hdv y hy
    simp only [List.mem_singleton] at hy
    subst hy
    exact ⟨dv, hdv, le_refl _⟩
  | step u v l e du dv0 _ _ _ _ hu hv hc hle hl ih =>
    intro dv hdv y hy
    rw [hv] at hdv
    simp only [Option.some.injEq] at hdv
    subst hdv
    simp only [List.mem_append, List.mem_singleton] at hy
    rcases hy with hy | hy
    · obtain ⟨dy, h1, h2⟩ := ih du hu y hy
      exact ⟨dy, h1, by omega⟩
    · subst hy
      exact ⟨dv0, hv, le_refl _⟩

/-- A chain only depends on the maps at its own nodes. -/
theorem ParentChain.congr {graph : IGraph} {cost : Edge → Int} {start : Node}
    {parent parent2 : NodeMap Node} {g g2 : NodeMap Int} {v : Node} {l : List Node}
    (h : ParentChain graph cost start parent g v l)
    (hsame : ∀ y ∈ l, parent2 y = parent y ∧ g2 y = g y) :
    ParentChain graph cost start parent2 g2 v l := by
  induction h with
  | base d0 h0 =>
    exact ParentChain.base d0 (by rw [(hsame start (by simp)).2]; exact h0)
  | step u v l e du dv hne hp he het hu hv hc hle hl ih =>
    have hl2 := ih (fun y hy => hsame y (by simp [hy]))
    have hu2 := (hsame u (by simp [hl.last_mem])).2
    have hv2 := hsame v (by simp)
    exact ParentChain.step u v l e du dv hne (by rw [hv2.1]; exact hp) he het
      (by rw [hu2]; exact hu) (by rw [hv2.2]; exact hv) hc hle hl2

/-- Recording an improvement for `x` through `u` keeps a chain for every node. -/
theorem ParentChain.update {graph : IGraph} {cost : Edge → Int} {start : Node}
    {parent : NodeMap Node} {g : NodeMap Int} (x u : Node) (e : Edge) (nd du : Int)
    (lu : List Node) (hx : x ≠ start) (he : e ∈ graph.getNeighbors u) (het : e.target = x)
    (hgu : g u = some du) (hc0 : 0 ≤ cost e) (hle : du + cost e ≤ nd)
    (hold : ∀ old, g x = some old → nd < old)
    (hlu : ParentChain graph cost start parent g u lu) :
    ∀ v l, ParentChain graph cost start parent g v l →
      ∃ l2, ParentChain graph cost start (parent.insert x u) (g.insert x nd) v l2 := by
  have hxlu : x ∉ lu := by
    intro hmem
    obtain ⟨dx, h1, h2⟩ := hlu.mem_le du hgu x hmem
    have := hold dx h1
    omega
  have hux : u ≠ x := fun h => hxlu (h ▸ hlu.last_mem)
  have hlu2 : ParentChain graph cost start (parent.insert x u) (g.insert x nd) u lu := by
    apply hlu.congr
    intro y hy
    have hyx : y ≠ x := fun h => hxlu (h ▸ hy)
    simp [NodeMap.insert, hyx]
  have hxchain : ParentChain graph cost start (parent.insert x u) (g.insert x nd) x (lu ++ [x]) :=
    ParentChain.step u x lu e du nd hx (by simp [NodeMap.insert]) he het
      (by simp [NodeMap.insert, hux, hgu]) (by simp [NodeMap.insert]) hc0 hle hlu2
  intro v l h
  induction h with
  | base d0 h0 =>
    refine ⟨[start], ParentChain.base d0 ?_⟩
    simp [NodeMap.insert, Ne.symm hx, h0]
  | step u0 v0 l0 e0 du0 dv0 hne hp he0 het0 hu0 hv0 hc hle0 hl0 ih =>
    by_cases hv0x : v0 = x
    · subst hv0x
      exact ⟨lu ++ [v0], hxchain⟩
    · obtain ⟨l2, hl2⟩ := ih
      by_cases hu0x : u0 = x
      · subst hu0x
        have hlt := hold du0 hu0
        exact ⟨l2 ++ [v0], ParentChain.step u0 v0 l2 e0 nd dv0 hne
          (by simp [NodeMap.insert, hv0x, hp]) he0 het0 (by simp [NodeMap.insert])
          (by simp [NodeMap.insert, hv0x, hv0]) hc (by omega) hl2⟩
      · exact ⟨l2 ++ [v0], ParentChain.step u0 v0 l2 e0 du0 dv0 hne
          (by simp [NodeMap.insert, hv0x, hp]) he0 het0 (by simp [NodeMap.insert, hu0x, hu0])
          (by simp [NodeMap.insert, hv0x, hv0]) hc hle0 hl2⟩

/-- The walk of `reconstructPathInternal` along a chain leaves the loop. -/
theorem ParentChain.walk_terminates {graph : IGraph} {cost : Edge → Int} {start : Node}
    {parent : NodeMap Node} {g : NodeMap Int} {v : Node} {l : List Node}
    (h : ParentChain graph cost start parent g v l) :
    ∀ acc : List Node, ∃ (n : Nat) (walked : List Node),
      iterate (reconstructStep parent start) n (v, acc) = some walked := by
  induction h with
  | base d0 h0 =>
    intro acc
    by_cases h1 : start = -1
    · exact ⟨1, acc, by simp [iterate, reconstructStep, h1]⟩
    · exact ⟨1, acc ++ [start], by simp [iterate, reconstructStep, h1]⟩
  | step u v l e du dv hne hp he het hu hv hc hle hl ih =>
    intro acc
    by_cases h1 : v = -1
    · exact ⟨1, acc, by simp [iterate, reconstructStep, h1]⟩
    · obtain ⟨n, walked, hn⟩ := ih (acc ++ [v])
      exact ⟨n + 1, walked, by simp [iterate, reconstructStep, h1, hne, hp, hn]⟩

/-- Along a chain free of the sentinel id, the walk collects the chain backwards. -/
theorem ParentChain.walk_eq {graph : IGraph} {cost : Edge → Int} {start : Node}
    {parent : NodeMap Node} {g : NodeMap Int} {v : Node} {l : List Node}
    (h : ParentChain graph cost start parent g v l) (hs : (-1 : Node) ∉ l) :
    ∀ acc : List Node, ∃ n : Nat,
      iterate (reconstructStep parent start) n (v, acc) = some (acc ++ l.reverse) := by
  induction h with
  | base d0 h0 =>
    intro acc
    have h1 : start ≠ -1 := fun h => hs (by simp [h])
    exact ⟨1, by simp [iterate, reconstructStep, h1]⟩
  | step u v l e du dv hne hp he het hu hv hc hle hl ih =>
    intro acc
    have h1 : v ≠ -1 := fun h => hs (by simp [h])
    obtain ⟨n, hn⟩ := ih (fun h => hs (by simp [h])) (acc ++ [v])
    exact ⟨n + 1, by simp [iterate, reconstructStep, h1, hne, hp, hn]⟩

/-- With unit step cost the value of a node bounds the length of its chain. -/
theorem ParentChain.length_le {graph : IGraph} {start : Node}
    {parent : NodeMap Node} {g : NodeMap Int} {v : Node} {l : List Node}
    (h : ParentChain graph (fun _ => 1) start parent g v l) (hs : g start = some 0) :
    ∀ dv, g v = some dv → (l.length : Int) - 1 ≤ dv := by
  induction h with
  | base d0 h0 =>
    intro dv hdv
    rw [hs] at hdv
    simp only [Option.some.injEq] at hdv
    simp
    omega
  | step u v l e du dv0 hne hp he het hu hv hc hle hl ih =>
    intro dv hdv
    rw [hv] at hdv
    simp only [Option.some.injEq] at hdv
    have := ih du hu
    simp only [List.length_append, List.length_singleton, Nat.cast_add, Nat.cast_one]
    omega


/-! ## The termination measure -/

theorem absentCount_insert_le {α : Type} (V : List Node) (m : NodeMap α) (x : Node) (a : α) :
    absentCount V (m.insert x a) ≤ absentCount V m := by
  unfold absentCount
  induction V with
  | nil => simp
  | cons v vs ih =>
    simp only [List.filter_cons]
    by_cases hv : v = x
    · subst hv
      simp only [NodeMap.insert, if_true, Option.isNone_some, Bool.false_eq_true, if_false]
      split
      · simp only [List.length_cons]; unfold NodeMap.insert at ih; omega
      · unfold NodeMap.insert at ih; exact ih
    · have e : (m.insert x a) v = m v := by simp [NodeMap.insert, hv]
      rw [e]
      split
      · simp only [List.length_cons]; omega
      · exact ih

theorem absentCount_insert_lt {α : Type} (V : List Node) (m : NodeMap α) (x : Node) (a : α)
    (hx : x ∈ V) (hm : m x = none) : absentCount V (m.insert x a) < absentCount V m := by
  induction V with
  | nil => simp at hx
  | cons v vs ih =>
    have hle := absentCount_insert_le vs m x a
    unfold absentCount at *
    simp only [List.filter_cons]
    by_cases hv : v = x
    · subst hv
      simp only [NodeMap.insert, if_true, Option.isNone_some, Bool.false_eq_true, if_false, hm,
        Option.isNone_none, List.length_cons]
      unfold NodeMap.insert at hle
      omega
    · have e : (m.insert x a) v = m v := by simp [NodeMap.insert, hv]
      have hx2 : x ∈ vs := by
        rcases List.mem_cons.mp hx with h | h
        · exact absurd h.symm hv
        · exact h
      have := ih hx2
      rw [e]
      split
      · simp only [List.length_cons]; omega
      · exact this

theorem absentCount_insert_eq {α : Type} (V : List Node) (m : NodeMap α) (x : Node) (a old : α)
    (hm : m x = some old) : absentCount V (m.insert x a) = absentCount V m := by
  unfold absentCount
  congr 1
  apply List.filter_congr
  intro v _
  by_cases hv : v = x
  · subst hv; simp [NodeMap.insert, hm]
  · simp [NodeMap.insert, hv]

theorem valueTotal_insert_le (V : List Node) (m : NodeMap Int) (x : Node) (nd old : Int)
    (hm : m x = some old) (hlt : nd < old) :
    valueTotal V (m.insert x nd) ≤ valueTotal V m := by
  unfold valueTotal
  induction V with
  | nil => simp
  | cons v vs ih =>
    simp only [List.map_cons, List.sum_cons]
    by_cases hv : v = x
    · subst hv
      simp only [NodeMap.insert, if_true, Option.getD_some, hm]
      unfold NodeMap.insert at ih
      omega
    · have e : (m.insert x nd) v = m v := by simp [NodeMap.insert, hv]
      rw [e]
      omega

theorem valueTotal_insert_lt (V : List Node) (m : NodeMap Int) (x : Node) (nd old : Int)
    (hx : x ∈ V) (hm : m x = some old) (h0 : 0 ≤ nd) (hlt : nd < old) :
    valueTotal V (m.insert x nd) < valueTotal V m := by
  induction V with
  | nil => simp at hx
  | cons v vs ih =>
    have hle := valueTotal_insert_le vs m x nd old hm hlt
    unfold valueTotal at *
    simp only [List.map_cons, List.sum_cons]
    by_cases hv : v = x
    · subst hv
      simp only [NodeMap.insert, if_true, Option.getD_some, hm]
      unfold NodeMap.insert at hle
      omega
    · have e : (m.insert x nd) v = m v := by simp [NodeMap.insert, hv]
      have hx2 : x ∈ vs := by
        rcases List.mem_cons.mp hx with h | h
        · exact absurd h.symm hv
        · exact h
      have := ih hx2
      rw [e]
      omega

theorem Progress.refl (V : List Node) (m : NodeMap Int) (pq : List (Int × Node)) :
    Progress V m pq m pq := Or.inr ⟨rfl, rfl, rfl⟩

theorem Progress.trans {V : List Node} {m m2 m3 : NodeMap Int} {pq pq2 pq3 : List (Int × Node)}
    (h1 : Progress V m pq m2 pq2) (h2 : Progress V m2 pq2 m3 pq3) : Progress V m pq m3 pq3 := by
  unfold Progress at *
  rcases h1 with h1 | ⟨a1, b1, c1⟩
  · rcases h2 with h2 | ⟨a2, b2, c2⟩
    · left; omega
    · left; omega
  · rcases h2 with h2 | ⟨a2, b2, c2⟩
    · left; omega
    · right; exact ⟨by omega, by omega, by rw [c2, c1]⟩

/-- An improvement of the entry of `x` is progress, whatever happens to the queue. -/
theorem Progress.insert (V : List Node) (m : NodeMap Int) (pq pq2 : List (Int × Node))
    (x : Node) (nd : Int) (hx : x ∈ V) (h0 : 0 ≤ nd) (hold : ∀ old, m x = some old → nd < old) :
    Progress V m pq (m.insert x nd) pq2 := by
  unfold Progress
  left
  cases hm : m x with
  | none => left; exact absentCount_insert_lt V m x nd hx hm
  | some old =>
    right
    exact ⟨absentCount_insert_eq V m x nd old hm,
      valueTotal_insert_lt V m x nd old hx hm h0 (hold old hm)⟩

theorem Progress.lex3 {V : List Node} {m m2 : NodeMap Int} {pq pq0 pq2 : List (Int × Node)}
    (h : Progress V m pq m2 pq2) (hlen : pq.length < pq0.length) :
    Lex3 (searchMeasure V m2 pq2) (searchMeasure V m pq0) := by
  rw [lex3_iff]
  unfold searchMeasure
  unfold Progress at h
  simp only
  rcases h with h | ⟨a, b, c⟩
  · omega
  · subst c; omega

/-! ## The loop of `runDijkstraExact` -/

theorem bounded_insert (dist : NodeMap Int) (x : Node) (nd : Int)
    (hold : ∀ old, dist x = some old → nd < old) (t : Node) (B : Int)
    (h : ∃ dx, dist t = some dx ∧ dx ≤ B) : ∃ dx, (dist.insert x nd) t = some dx ∧ dx ≤ B := by
  obtain ⟨dx, h1, h2⟩ := h
  by_cases ht : t = x
  · subst ht
    have := hold dx h1
    exact ⟨nd, by simp [NodeMap.insert], by omega⟩
  · exact ⟨dx, by simp [NodeMap.insert, ht, h1], h2⟩

theorem relaxedAt_insert (graph : IGraph) (dist : NodeMap Int) (x : Node) (nd : Int)
    (hold : ∀ old, dist x = some old → nd < old) (v : Node) (dv : Int)
    (h : RelaxedAt graph dist v dv) : RelaxedAt graph (dist.insert x nd) v dv :=
  fun e he => bounded_insert dist x nd hold e.target _ (h e he)

/-- An edge that improves the distance of its target keeps the edge-loop invariant. -/
theorem dijkstra_improve (graph : IGraph) (V : List Node) (start endNode : Node)
    (hV : ClosedUnder graph V) (hw : NonNegWeights graph V)
    (d : Int) (curr : Node) (done : List Edge) (s : DijkstraState) (e : Edge)
    (he : e ∈ graph.getNeighbors curr)
    (inv : DijkstraRelaxInv graph V start endNode d curr done s)
    (hold : ∀ old, s.dist e.target = some old → d + e.weight < old) :
    DijkstraRelaxInv graph V start endNode d curr (e :: done)
      { s with dist := s.dist.insert e.target (d + e.weight),
               parent := s.parent.insert e.target curr,
               pq := (d + e.weight, e.target) :: s.pq } ∧
    Progress V s.dist s.pq (s.dist.insert e.target (d + e.weight))
      ((d + e.weight, e.target) :: s.pq) := by
  have hcurrV : curr ∈ V := inv.core.dom_V curr d inv.curr_dist
  have hd0 : 0 ≤ d := inv.core.nonneg curr d inv.curr_dist
  have hw0 : 0 ≤ e.weight := hw curr hcurrV e he
  have hxV : e.target ∈ V := hV curr hcurrV e he
  have hxcurr : e.target ≠ curr := by
    intro h
    have := hold d (h ▸ inv.curr_dist)
    omega
  have hxstart : e.target ≠ start := by
    intro h
    have := hold 0 (h ▸ inv.core.start_dist)
    omega
  obtain ⟨lc, hlc⟩ := inv.core.chain curr d inv.curr_dist
  have hchain := ParentChain.update e.target curr e (d + e.weight) d lc hxstart he rfl
    inv.curr_dist hw0 (le_refl _) hold hlc
  refine ⟨⟨⟨?_, ?_, ?_, ?_, ?_, ?_, ?_, ?_, ?_⟩, ?_, ?_, ?_⟩, ?_⟩
  · simp [NodeMap.insert, Ne.symm hxstart, inv.core.start_dist]
  · intro v dv hv
    by_cases hvx : v = e.target
    · rw [hvx]; exact hxV
    · simp only [NodeMap.insert, hvx, if_false] at hv
      exact inv.core.dom_V v dv hv
  · intro v dv hv
    by_cases hvx : v = e.target
    · simp only [NodeMap.insert, hvx, if_true, Option.some.injEq] at hv
      omega
    · simp only [NodeMap.insert, hvx, if_false] at hv
      exact inv.core.nonneg v dv hv
  · intro v dv hv
    by_cases hvx : v = e.target
    · simp only [NodeMap.insert, hvx, if_true, Option.some.injEq] at hv
      obtain ⟨es, h1, h2, h3⟩ := inv.core.achieved curr d inv.curr_dist
      refine ⟨es ++ [e], ?_, ?_, ?_⟩
      · rw [isWalk_append, h1, h2]
        simp [isWalk, he]
      · rw [walkEnd_append, hvx]
        simp [walkEnd]
      · rw [walkCost_append, h3, walkCost_cons, walkCost_nil]
        omega
    · simp only [NodeMap.insert, hvx, if_false] at hv
      exact inv.core.achieved v dv hv
  · intro p hp
    simp only [List.mem_cons] at hp
    rcases hp with hp | hp
    · subst hp
      exact ⟨d + e.weight, by simp [NodeMap.insert], le_refl _⟩
    · exact bounded_insert s.dist e.target _ hold p.2 p.1 (inv.core.pq_sound p hp)
  · intro de hde
    by_cases hex : endNode = e.target
    · simp only [NodeMap.insert, hex, if_true, Option.some.injEq] at hde
      subst hde
      rw [hex]
      exact List.mem_cons_self _ _
    · simp only [NodeMap.insert, hex, if_false] at hde
      exact List.mem_cons_of_mem _ (inv.core.end_queued de hde)
  · intro v dv hv
    by_cases hvx : v = e.target
    · obtain ⟨l2, hl2⟩ := hchain curr lc hlc
      rw [hvx]
      exact ⟨l2 ++ [e.target], ParentChain.step curr e.target l2 e d (d + e.weight) hxstart
        (by simp [NodeMap.insert]) he rfl
        (by simp [NodeMap.insert, Ne.symm hxcurr, inv.curr_dist]) (by simp [NodeMap.insert])
        hw0 (le_refl _) hl2⟩
    · simp only [NodeMap.insert, hvx, if_false] at hv
      obtain ⟨l, hl⟩ := inv.core.chain v dv hv
      exact hchain v l hl
  · intro v hv
    by_cases hvx : v = e.target
    · simp [NodeMap.insert, hvx] at hv
    · simp only [NodeMap.insert, hvx, if_false] at hv ⊢
      exact inv.core.parent_dom v hv
  · exact inv.core.not_done
  · simp [NodeMap.insert, Ne.symm hxcurr, inv.curr_dist]
  · intro v dv hv
    by_cases hvx : v = e.target
    · simp only [NodeMap.insert, hvx, if_true, Option.some.injEq] at hv
      subst hv
      right; left
      rw [hvx]
      exact List.mem_cons_self _ _
    · simp only [NodeMap.insert, hvx, if_false] at hv
      rcases inv.settled v dv hv with h | h | h
      · exact Or.inl h
      · exact Or.inr (Or.inl (List.mem_cons_of_mem _ h))
      · exact Or.inr (Or.inr (relaxedAt_insert graph s.dist e.target _ hold v dv h))
  · intro e2 he2
    simp only [List.mem_cons] at he2
    rcases he2 with he2 | he2
    · subst he2
      exact ⟨d + e2.weight, by simp [NodeMap.insert], le_refl _⟩
    · exact bounded_insert s.dist e.target _ hold e2.target _ (inv.curr_done e2 he2)
  · exact Progress.insert V s.dist s.pq _ e.target _ hxV (by omega) hold

/-- An edge that does not improve the distance of its target keeps the invariant. -/
theorem dijkstra_keep (graph : IGraph) (V : List Node) (start endNode : Node)
    (d : Int) (curr : Node) (done : List Edge) (s : DijkstraState) (e : Edge) (old : Int)
    (inv : DijkstraRelaxInv graph V start endNode d curr done s)
    (hx : s.dist e.target = some old) (hge : ¬ d + e.weight < old) :
    DijkstraRelaxInv graph V start endNode d curr (e :: done) s := by
  refine ⟨inv.core, inv.curr_dist, inv.settled, ?_⟩
  intro e2 he2
  simp only [List.mem_cons] at he2
  rcases he2 with he2 | he2
  · subst he2
    exact ⟨old, hx, by omega⟩
  · exact inv.curr_done e2 he2

/-- The edge loop of `runDijkstraExact` keeps its invariant and makes progress. -/
theorem dijkstraRelaxExact_spec (graph : IGraph) (V : List Node) (start endNode : Node)
    (hV : ClosedUnder graph V) (hw : NonNegWeights graph V) (d : Int) (curr : Node) :
    ∀ (rest done : List Edge) (s : DijkstraState),
      (∀ e ∈ rest, e ∈ graph.getNeighbors curr) →
      DijkstraRelaxInv graph V start endNode d curr done s →
      DijkstraRelaxInv graph V start endNode d curr (rest.reverse ++ done)
          (dijkstraRelaxExact d curr rest s) ∧
        Progress V s.dist s.pq (dijkstraRelaxExact d curr rest s).dist
          (dijkstraRelaxExact d curr rest s).pq := by
  intro rest
  induction rest with
  | nil =>
    intro done s _ inv
    exact ⟨by simpa [dijkstraRelaxExact] using inv, Progress.refl _ _ _⟩
  | cons e rest ih =>
    intro done s hrest inv
    have he : e ∈ graph.getNeighbors curr := hrest e (by simp)
    have hrest2 : ∀ e2 ∈ rest, e2 ∈ graph.getNeighbors curr := fun e2 h => hrest e2 (by simp [h])
    have elist : (e :: rest).reverse ++ done = rest.reverse ++ (e :: done) := by simp
    rw [elist]
    simp only [dijkstraRelaxExact]
    cases hx : s.dist e.target with
    | none =>
      simp only []
      obtain ⟨i1, p1⟩ := dijkstra_improve graph V start endNode hV hw d curr done s e he inv
        (by intro old h; rw [hx] at h; cases h)
      obtain ⟨i2, p2⟩ := ih (e :: done) _ hrest2 i1
      exact ⟨i2, p1.trans p2⟩
    | some old =>
      simp only []
      by_cases hlt : d + e.weight < old
      · rw [if_pos hlt]
        obtain ⟨i1, p1⟩ := dijkstra_improve graph V start endNode hV hw d curr done s e he inv
          (by intro o h; rw [hx] at h; simp only [Option.some.injEq] at h; omega)
        obtain ⟨i2, p2⟩ := ih (e :: done) _ hrest2 i1
        exact ⟨i2, p1.trans p2⟩
      · rw [if_neg hlt]
        exact ih (e :: done) s hrest2
          (dijkstra_keep graph V start endNode d curr done s e old inv hx hlt)

theorem dijkstraInit_inv (graph : IGraph) (V : List Node) (start endNode : Node)
    (hs : start ∈ V) : DijkstraInv graph V start endNode (dijkstraInit start) := by
  have hdist : ∀ v d, (dijkstraInit start).dist v = some d → v = start ∧ d = 0 := by
    intro v d h
    unfold dijkstraInit NodeMap.insert NodeMap.empty at h
    simp only at h
    split at h
    · rename_i hv
      simp only [Option.some.injEq] at h
      exact ⟨hv, h.symm⟩
    · cases h
  have hstart : (dijkstraInit start).dist start = some 0 := by
    simp [dijkstraInit, NodeMap.insert]
  refine ⟨⟨hstart, ?_, ?_, ?_, ?_, ?_, ?_, ?_, rfl⟩, ?_⟩
  · intro v d h
    rw [(hdist v d h).1]; exact hs
  · intro v d h
    rw [(hdist v d h).2]
  · intro v d h
    obtain ⟨rfl, rfl⟩ := hdist v d h
    exact ⟨[], rfl, rfl, rfl⟩
  · intro p hp
    simp only [dijkstraInit, List.mem_singleton] at hp
    subst hp
    exact ⟨0, hstart, le_refl _⟩
  · intro d h
    obtain ⟨h1, rfl⟩ := hdist endNode d h
    rw [h1]
    simp [dijkstraInit]
  · intro v d h
    obtain ⟨rfl, rfl⟩ := hdist v d h
    exact ⟨[v], ParentChain.base 0 hstart⟩
  · intro v h
    unfold dijkstraInit NodeMap.insert NodeMap.empty at h ⊢
    simp only at h ⊢
    split at h
    · cases h
    · rename_i hv
      simp [hv]
  · intro v d h
    obtain ⟨rfl, rfl⟩ := hdist v d h
    left
    simp [dijkstraInit]

theorem dijkstraStale_iff (dist : NodeMap Int) (d : Int) (curr : Node) :
    dijkstraStale dist d curr = true ↔ ∃ dc, dist curr = some dc ∧ dc < d := by
  unfold dijkstraStale
  cases h : dist curr with
  | none => simp
  | some dc => simp

/-- One iteration of the loop of `runDijkstraExact` keeps the invariant and decreases the
measure. -/
theorem dijkstraStepExact_inv (graph : IGraph) (V : List Node) (start endNode : Node)
    (hV : ClosedUnder graph V) (hw : NonNegWeights graph V) (s s1 : DijkstraState)
    (inv : DijkstraInv graph V start endNode s)
    (hstep : dijkstraStepExact graph endNode s = Sum.inl s1) :
    DijkstraInv graph V start endNode s1 ∧
      Lex3 (searchMeasure V s1.dist s1.pq) (searchMeasure V s.dist s.pq) := by
  unfold dijkstraStepExact at hstep
  cases htop : pqTop s.pq with
  | none => rw [htop] at hstep; cases hstep
  | some top =>
    obtain ⟨d, curr⟩ := top
    rw [htop] at hstep
    simp only at hstep
    have hmem := pqTop_mem s.pq (d, curr) htop
    have hlen := length_erase_top s.pq (d, curr) htop
    obtain ⟨dc, hdc, hdcle⟩ := inv.core.pq_sound (d, curr) hmem
    simp only at hdc hdcle
    by_cases hstale : dijkstraStale s.dist d curr = true
    · rw [if_pos hstale] at hstep
      simp only [Sum.inl.injEq] at hstep
      subst hstep
      obtain ⟨dc2, hdc2, hlt⟩ := (dijkstraStale_iff _ _ _).mp hstale
      rw [hdc] at hdc2
      simp only [Option.some.injEq] at hdc2
      subst hdc2
      have hkeep : ∀ v dv, s.dist v = some dv → (dv, v) ∈ s.pq → (dv, v) ∈ s.pq.erase (d, curr) := by
        intro v dv hv hin
        apply mem_erase_of_ne_top _ _ _ hin
        intro heq
        simp only [Prod.mk.injEq] at heq
        obtain ⟨h1, h2⟩ := heq
        subst h2
        rw [hdc] at hv
        simp only [Option.some.injEq] at hv
        omega
      refine ⟨⟨⟨inv.core.start_dist, inv.core.dom_V, inv.core.nonneg, inv.core.achieved, ?_, ?_,
        inv.core.chain, inv.core.parent_dom, inv.core.not_done⟩, ?_⟩, ?_⟩
      · intro p hp
        exact inv.core.pq_sound p (List.mem_of_mem_erase hp)
      · intro de hde
        exact hkeep endNode de hde (inv.core.end_queued de hde)
      · intro v dv hv
        rcases inv.settled v dv hv with h | h
        · exact Or.inl (hkeep v dv hv h)
        · exact Or.inr h
      · exact Progress.lex3 (Progress.refl V s.dist (s.pq.erase (d, curr))) (by omega)
    · rw [if_neg hstale] at hstep
      have hdeq : dc = d := by
        by_contra hne
        exact hstale ((dijkstraStale_iff _ _ _).mpr ⟨dc, hdc, by omega⟩)
      subst hdeq
      by_cases hend : curr = endNode
      · rw [if_pos hend] at hstep; cases hstep
      · rw [if_neg hend] at hstep
        simp only [Sum.inl.injEq] at hstep
        have hkeep : ∀ v dv, v ≠ curr → (dv, v) ∈ s.pq → (dv, v) ∈ s.pq.erase (dc, curr) := by
          intro v dv hv hin
          apply mem_erase_of_ne_top _ _ _ hin
          intro heq
          simp only [Prod.mk.injEq] at heq
          exact hv heq.2
        have inv0 : DijkstraRelaxInv graph V start endNode dc curr []
            { s with pq := s.pq.erase (dc, curr), visitedCount := s.visitedCount + 1,
                     visited := s.visited ++ [curr] } := by
          refine ⟨⟨inv.core.start_dist, inv.core.dom_V, inv.core.nonneg, inv.core.achieved, ?_, ?_,
            inv.core.chain, inv.core.parent_dom, inv.core.not_done⟩, hdc, ?_, ?_⟩
          · intro p hp
            exact inv.core.pq_sound p (List.mem_of_mem_erase hp)
          · intro de hde
            exact hkeep endNode de (Ne.symm hend) (inv.core.end_queued de hde)
          · intro v dv hv
            by_cases hvc : v = curr
            · exact Or.inl hvc
            · rcases inv.settled v dv hv with h | h
              · exact Or.inr (Or.inl (hkeep v dv hvc h))
              · exact Or.inr (Or.inr h)
          · intro e he; simp at he
        obtain ⟨i2, p2⟩ := dijkstraRelaxExact_spec graph V start endNode hV hw dc curr
          (graph.getNeighbors curr) [] _ (fun e h => h) inv0
        rw [hstep] at i2 p2
        refine ⟨⟨i2.core, ?_⟩, Progress.lex3 p2 (by simp only; omega)⟩
        intro v dv hv
        rcases i2.settled v dv hv with h | h | h
        · subst h
          right
          rw [i2.curr_dist] at hv
          simp only [Option.some.injEq] at hv
          subst hv
          intro e he
          exact i2.curr_done e (by simp [he])
        · exact Or.inl h
        · exact Or.inr h

/-- The two ways in which the loop of `runDijkstraExact` is left. -/
theorem dijkstraStepExact_exit (graph : IGraph) (V : List Node) (start endNode : Node)
    (s r : DijkstraState) (inv : DijkstraInv graph V start endNode s)
    (hstep : dijkstraStepExact graph endNode s = Sum.inr r) :
    (s.pq = [] ∧ r = s) ∨
    (∃ d, pqTop s.pq = some (d, endNode) ∧ s.dist endNode = some d ∧
      r.dist = s.dist ∧ r.parent = s.parent ∧ r.success = true ∧
      r.visitedCount = s.visitedCount + 1 ∧ r.visited = s.visited ++ [endNode]) := by
  unfold dijkstraStepExact at hstep
  cases htop : pqTop s.pq with
  | none =>
    rw [htop] at hstep
    simp only [Sum.inr.injEq] at hstep
    exact Or.inl ⟨pqTop_none _ htop, hstep.symm⟩
  | some top =>
    obtain ⟨d, curr⟩ := top
    rw [htop] at hstep
    simp only at hstep
    obtain ⟨dc, hdc, hdcle⟩ := inv.core.pq_sound (d, curr) (pqTop_mem s.pq (d, curr) htop)
    simp only at hdc hdcle
    by_cases hstale : dijkstraStale s.dist d curr = true
    · rw [if_pos hstale] at hstep; cases hstep
    · rw [if_neg hstale] at hstep
      have hdeq : dc = d := by
        by_contra hne
        exact hstale ((dijkstraStale_iff _ _ _).mpr ⟨dc, hdc, by omega⟩)
      subst hdeq
      by_cases hend : curr = endNode
      · rw [if_pos hend] at hstep
        simp only [Sum.inr.injEq] at hstep
        subst hend
        subst hstep
        exact Or.inr ⟨dc, rfl, hdc, rfl, rfl, rfl, rfl, rfl⟩
      · rw [if_neg hend] at hstep; cases hstep


/-! ## Results of `reconstructPathInternal` -/

theorem iterate_unique {S R : Type} (step : S → S ⊕ R) (n m : Nat) (s : S) (r1 r2 : R)
    (h1 : iterate step n s = some r1) (h2 : iterate step m s = some r2) : r1 = r2 := by
  have a := iterate_mono step n s r1 h1 (max n m) (le_max_left _ _)
  have b := iterate_mono step m s r2 h2 (max n m) (le_max_right _ _)
  rw [a] at b
  exact Option.some.inj b

theorem reconstruct_unique (parent : NodeMap Node) (start endNode : Node) (n m : Nat)
    (p q : List Node) (h1 : reconstructPathInternal n parent start endNode = some p)
    (h2 : reconstructPathInternal m parent start endNode = some q) : p = q := by
  have a := reconstructPathInternal_mono parent start endNode n (max n m) p h1 (le_max_left _ _)
  have b := reconstructPathInternal_mono parent start endNode m (max n m) q h2 (le_max_right _ _)
  rw [a] at b
  exact Option.some.inj b

/-- A target without a parent entry, other than the start, gives the empty path. -/
theorem reconstruct_no_parent (parent : NodeMap Node) (start endNode : Node)
    (hp : parent endNode = none) (hne : endNode ≠ start) (n : Nat) (hn : 1 ≤ n) :
    reconstructPathInternal n parent start endNode = some [] := by
  obtain ⟨k, rfl⟩ : ∃ k, n = k + 1 := ⟨n - 1, by omega⟩
  unfold reconstructPathInternal
  by_cases h1 : endNode = -1
  · simp [iterate, reconstructStep, h1]
  · simp [iterate, reconstructStep, h1, hne, hp]

/-- Along a parent chain the reconstruction returns. -/
theorem reconstruct_terminates {graph : IGraph} {cost : Edge → Int} {start : Node}
    {parent : NodeMap Node} {g : NodeMap Int} {v : Node} {l : List Node}
    (h : ParentChain graph cost start parent g v l) :
    ∃ (n : Nat) (p : List Node), reconstructPathInternal n parent start v = some p := by
  obtain ⟨n, walked, hn⟩ := h.walk_terminates []
  refine ⟨n, ?_⟩
  unfold reconstructPathInternal
  rw [hn]
  simp only
  split
  · exact ⟨_, rfl⟩
  · split
    · exact ⟨_, rfl⟩
    · exact ⟨_, rfl⟩

/-- Along a parent chain free of the sentinel id the reconstruction returns the chain. -/
theorem reconstruct_chain {graph : IGraph} {cost : Edge → Int} {start : Node}
    {parent : NodeMap Node} {g : NodeMap Int} {v : Node} {l : List Node}
    (h : ParentChain graph cost start parent g v l) (hs : (-1 : Node) ∉ l) :
    ∃ n : Nat, reconstructPathInternal n parent start v = some l := by
  obtain ⟨n, hn⟩ := h.walk_eq hs []
  refine ⟨n, ?_⟩
  unfold reconstructPathInternal
  rw [hn]
  simp only [List.nil_append, List.reverse_reverse]
  have hh := h.head
  cases l with
  | nil => simp at hh
  | cons a as =>
    simp only [List.head?_cons, Option.some.injEq] at hh
    simp [hh]

/-! ## Correctness of the loop of `runDijkstraExact` -/

/-- Every walk from the start either ends at a node whose recorded distance is at
most the cost of the walk, or some queue entry has a key of at most that cost. -/
theorem dijkstra_frontier (graph : IGraph) (V : List Node) (start endNode : Node)
    (hV : ClosedUnder graph V) (hw : NonNegWeights graph V) (hs : start ∈ V)
    (s : DijkstraState) (inv : DijkstraInv graph V start endNode s) :
    ∀ es : List Edge, isWalk graph start es = true →
      (∃ dx, s.dist (walkEnd start es) = some dx ∧ dx ≤ walkCost es) ∨
      (∃ p ∈ s.pq, p.1 ≤ walkCost es) := by
  intro es
  induction es using List.reverseRecOn with
  | nil =>
    intro _
    left
    exact ⟨0, by simpa [walkEnd] using inv.core.start_dist, by simp [walkCost]⟩
  | append_singleton es e ih =>
    intro hwalk
    rw [isWalk_append] at hwalk
    simp only [Bool.and_eq_true, isWalk, decide_eq_true_eq, and_true] at hwalk
    obtain ⟨h1, h2⟩ := hwalk
    have hy : walkEnd start es ∈ V := walkEnd_mem graph V hV es start hs h1
    have hw0 : 0 ≤ e.weight := hw _ hy e h2
    rw [walkCost_append, walkCost_cons, walkCost_nil, walkEnd_append]
    simp only [walkEnd]
    rcases ih h1 with ⟨dy, hdy, hle⟩ | ⟨p, hp, hle⟩
    · rcases inv.settled _ dy hdy with h | h
      · right
        exact ⟨_, h, by simp only; omega⟩
      · left
        obtain ⟨dx, hdx, hle2⟩ := h e h2
        exact ⟨dx, hdx, by omega⟩
    · right
      exact ⟨p, hp, by omega⟩

/-- What the loop of `runDijkstraExact` has established when it is left. -/
theorem dijkstra_exit_spec (graph : IGraph) (V : List Node) (start endNode : Node)
    (hV : ClosedUnder graph V) (hw : NonNegWeights graph V) (hs : start ∈ V)
    (s r : DijkstraState) (inv : DijkstraInv graph V start endNode s)
    (hstep : dijkstraStepExact graph endNode s = Sum.inr r) :
    (¬ Reachable graph start endNode ∧ r.success = false ∧ r.parent endNode = none) ∨
    (r.success = true ∧ ∃ d, r.dist endNode = some d ∧
      (∃ es, isWalk graph start es = true ∧ walkEnd start es = endNode ∧ walkCost es = d) ∧
      (∀ es, isWalk graph start es = true → walkEnd start es = endNode → d ≤ walkCost es) ∧
      ∃ l, ParentChain graph Edge.weight start r.parent r.dist endNode l ∧ ∀ y ∈ l, y ∈ V) := by
  rcases dijkstraStepExact_exit graph V start endNode s r inv hstep with ⟨hpq, hr⟩ | ⟨d, htop, hd, h1, h2, h3, _, _⟩
  · left
    rw [hr]
    have hnone : s.dist endNode = none := by
      cases h : s.dist endNode with
      | none => rfl
      | some de =>
        have := inv.core.end_queued de h
        rw [hpq] at this
        simp at this
    refine ⟨?_, inv.core.not_done, inv.core.parent_dom endNode hnone⟩
    rintro ⟨es, hwalk, hend⟩
    rcases dijkstra_frontier graph V start endNode hV hw hs s inv es hwalk with ⟨dx, hdx, _⟩ | ⟨p, hp, _⟩
    · rw [hend, hnone] at hdx
      cases hdx
    · rw [hpq] at hp
      simp at hp
  · right
    refine ⟨h3, d, by rw [h1]; exact hd, inv.core.achieved endNode d hd, ?_, ?_⟩
    · intro es hwalk hend
      rcases dijkstra_frontier graph V start endNode hV hw hs s inv es hwalk with ⟨dx, hdx, hle⟩ | ⟨p, hp, hle⟩
      · rw [hend, hd] at hdx
        simp only [Option.some.injEq] at hdx
        omega
      · have := pqTop_key_le s.pq _ htop p hp
        simp only at this
        omega
    · rw [h1, h2]
      obtain ⟨l, hl⟩ := inv.core.chain endNode d hd
      refine ⟨l, hl, fun y hy => ?_⟩
      obtain ⟨dy, hdy, _⟩ := hl.mem_le d hd y hy
      exact inv.core.dom_V y dy hdy

/-- The loop of `runDijkstraExact` is left, and what holds whenever it is left. -/
theorem dijkstraFinalExact_spec (graph : IGraph) (V : List Node) (start endNode : Node)
    (hV : ClosedUnder graph V) (hw : NonNegWeights graph V) (hs : start ∈ V) :
    (∃ (n : Nat) (r : DijkstraState), dijkstraFinalExact n graph start endNode = some r) ∧
    ∀ (n : Nat) (r : DijkstraState), dijkstraFinalExact n graph start endNode = some r →
      (¬ Reachable graph start endNode ∧ r.success = false ∧ r.parent endNode = none) ∨
      (r.success = true ∧ ∃ d, r.dist endNode = some d ∧
        (∃ es, isWalk graph start es = true ∧ walkEnd start es = endNode ∧ walkCost es = d) ∧
        (∀ es, isWalk graph start es = true → walkEnd start es = endNode → d ≤ walkCost es) ∧
        ∃ l, ParentChain graph Edge.weight start r.parent r.dist endNode l ∧ ∀ y ∈ l, y ∈ V) := by
  have h0 := dijkstraInit_inv graph V start endNode hs
  constructor
  · exact iterate_terminates (dijkstraStepExact graph endNode) (DijkstraInv graph V start endNode)
      (fun s => searchMeasure V s.dist s.pq)
      (fun s s1 inv hstep => dijkstraStepExact_inv graph V start endNode hV hw s s1 inv hstep)
      (dijkstraInit start) h0
  · intro n r hr
    obtain ⟨sl, hinv, hexit⟩ := iterate_invariant (dijkstraStepExact graph endNode)
      (DijkstraInv graph V start endNode)
      (fun s s1 inv hstep => (dijkstraStepExact_inv graph V start endNode hV hw s s1 inv hstep).1)
      n (dijkstraInit start) r h0 hr
    exact dijkstra_exit_spec graph V start endNode hV hw hs sl r hinv hexit

theorem reachable_self (graph : IGraph) (v : Node) : Reachable graph v v :=
  ⟨[], rfl, rfl⟩

/-- How the result of `runDijkstraExact` is assembled from its two loops. -/
theorem runDijkstraExact_eq_some (graph : IGraph) (start endNode : Node) (fuel : Nat)
    (r : AlgoResult) (h : runDijkstraExact fuel graph start endNode = some r) :
    ∃ s p, dijkstraFinalExact fuel graph start endNode = some s ∧
      reconstructPathInternal fuel s.parent start endNode = some p ∧
      r = { path := p, visitedCount := s.visitedCount,
            totalCost := if s.success then (s.dist endNode).getD 0 else 0,
            success := s.success } := by
  unfold runDijkstraExact at h
  cases h1 : dijkstraFinalExact fuel graph start endNode with
  | none => rw [h1] at h; cases h
  | some s =>
    rw [h1] at h
    simp only at h
    cases h2 : reconstructPathInternal fuel s.parent start endNode with
    | none => rw [h2] at h; cases h
    | some p =>
      rw [h2] at h
      simp only [Option.some.injEq] at h
      exact ⟨s, p, rfl, h2, h.symm⟩

theorem runDijkstraExact_of_parts (graph : IGraph) (start endNode : Node) (n1 n2 : Nat)
    (s : DijkstraState) (p : List Node)
    (h1 : dijkstraFinalExact n1 graph start endNode = some s)
    (h2 : reconstructPathInternal n2 s.parent start endNode = some p) :
    ∃ r, runDijkstraExact (max n1 n2) graph start endNode = some r := by
  unfold runDijkstraExact
  have a : dijkstraFinalExact (max n1 n2) graph start endNode = some s :=
    iterate_mono _ n1 _ s h1 _ (le_max_left _ _)
  have b := reconstructPathInternal_mono s.parent start endNode n2 (max n1 n2) p h2
    (le_max_right _ _)
  rw [a]
  simp only
  rw [b]
  exact ⟨_, rfl⟩

/-- The result of `runDijkstraExact` on a finite graph with non-negative weights. -/
theorem runDijkstraExact_spec (graph : IGraph) (V : List Node) (start endNode : Node)
    (hs : start ∈ V) (hV : ClosedUnder graph V) (hw : NonNegWeights graph V) :
    (∃ (fuel : Nat) (r : AlgoResult), runDijkstraExact fuel graph start endNode = some r) ∧
    ∀ (fuel : Nat) (r : AlgoResult), runDijkstraExact fuel graph start endNode = some r →
      (¬ Reachable graph start endNode ∧ r.success = false ∧ r.path = [] ∧ r.totalCost = 0) ∨
      (Reachable graph start endNode ∧ r.success = true ∧
        (∃ es, isWalk graph start es = true ∧ walkEnd start es = endNode ∧
          walkCost es = r.totalCost) ∧
        (∀ es, isWalk graph start es = true → walkEnd start es = endNode →
          r.totalCost ≤ walkCost es) ∧
        ((-1 : Node) ∉ V → r.path ≠ [] ∧ r.path.head? = some start ∧
          r.path.getLast? = some endNode ∧ IsPath graph r.path)) := by
  obtain ⟨⟨n1, s1, hfin⟩, hall⟩ := dijkstraFinalExact_spec graph V start endNode hV hw hs
  constructor
  · rcases hall n1 s1 hfin with ⟨hunr, _, hpar⟩ | ⟨_, d, _, _, _, l, hl, _⟩
    · have hne : endNode ≠ start := fun h => hunr (h ▸ reachable_self graph start)
      exact ⟨_, runDijkstraExact_of_parts graph start endNode n1 1 s1 []
        hfin (reconstruct_no_parent _ _ _ hpar hne 1 (le_refl _))⟩
    · obtain ⟨n2, p, hp⟩ := reconstruct_terminates hl
      exact ⟨_, runDijkstraExact_of_parts graph start endNode n1 n2 s1 p hfin hp⟩
  · intro fuel r hr
    obtain ⟨s, p, h1, h2, rfl⟩ := runDijkstraExact_eq_some graph start endNode fuel r hr
    rcases hall fuel s h1 with ⟨hunr, hsucc, hpar⟩ | ⟨hsucc, d, hd, hach, hmin, l, hl, hlV⟩
    · left
      have hne : endNode ≠ start := fun h => hunr (h ▸ reachable_self graph start)
      have hp := reconstruct_unique _ _ _ _ _ _ _ h2
        (reconstruct_no_parent _ _ _ hpar hne 1 (le_refl _))
      exact ⟨hunr, hsucc, hp, by simp [hsucc]⟩
    · right
      obtain ⟨es, e1, e2, e3⟩ := hach
      refine ⟨⟨es, e1, e2⟩, hsucc, ⟨es, e1, e2, by simp [hsucc, hd, e3]⟩, ?_, ?_⟩
      · intro es2 w1 w2
        simpa [hsucc, hd] using hmin es2 w1 w2
      · intro hsent
        have hl1 : (-1 : Node) ∉ l := fun h => hsent (hlV _ h)
        obtain ⟨n2, hn2⟩ := reconstruct_chain hl hl1
        have hp := reconstruct_unique _ _ _ _ _ _ _ h2 hn2
        subst hp
        refine ⟨?_, hl.head, hl.getLast, hl.isPath⟩
        intro hnil
        have := hl.last_mem
        simp only at hnil
        rw [hnil] at this
        simp at this


/-! ## The loop of `runAStarExact` -/

theorem touch_of_some (m : NodeMap Int) (k : Node) (v : Int) (h : m k = some v) :
    m.touch k = m := by
  unfold NodeMap.touch
  rw [h]

/-- An edge that improves the score of its target keeps the edge-loop invariant. -/
theorem aStar_improve (graph : IGraph) (V : List Node) (start endNode : Node)
    (hV : ClosedUnder graph V) (hw : NonNegWeights graph V)
    (gc : Int) (curr : Node) (done : List Edge) (s : AStarState) (e : Edge)
    (he : e ∈ graph.getNeighbors curr)
    (inv : AStarRelaxInv graph V start endNode gc curr done s)
    (hold : ∀ old, s.gScore e.target = some old → gc + e.weight < old) :
    AStarRelaxInv graph V start endNode gc curr (e :: done)
      { s with parent := s.parent.insert e.target curr,
               gScore := s.gScore.insert e.target (gc + e.weight),
               pq := (gc + e.weight + graph.getHeuristic e.target endNode, e.target) :: s.pq } ∧
    Progress V s.gScore s.pq (s.gScore.insert e.target (gc + e.weight))
      ((gc + e.weight + graph.getHeuristic e.target endNode, e.target) :: s.pq) := by
  have hcurrV : curr ∈ V := inv.core.dom_V curr gc inv.curr_g
  have hd0 : 0 ≤ gc := inv.core.nonneg curr gc inv.curr_g
  have hw0 : 0 ≤ e.weight := hw curr hcurrV e he
  have hxV : e.target ∈ V := hV curr hcurrV e he
  have hxcurr : e.target ≠ curr := by
    intro h
    have := hold gc (h ▸ inv.curr_g)
    omega
  have hxstart : e.target ≠ start := by
    intro h
    have := hold 0 (h ▸ inv.core.start_g)
    omega
  obtain ⟨lc, hlc⟩ := inv.core.chain curr gc inv.curr_g
  have hchain := ParentChain.update e.target curr e (gc + e.weight) gc lc hxstart he rfl
    inv.curr_g hw0 (le_refl _) hold hlc
  refine ⟨⟨⟨?_, ?_, ?_, ?_, ?_, ?_, ?_, ?_, ?_⟩, ?_, ?_, ?_⟩, ?_⟩
  · simp [NodeMap.insert, Ne.symm hxstart, inv.core.start_g]
  · intro v dv hv
    by_cases hvx : v = e.target
    · rw [hvx]; exact hxV
    · simp only [NodeMap.insert, hvx, if_false] at hv
      exact inv.core.dom_V v dv hv
  · intro v dv hv
    by_cases hvx : v = e.target
    · simp only [NodeMap.insert, hvx, if_true, Option.some.injEq] at hv
      omega
    · simp only [NodeMap.insert, hvx, if_false] at hv
      exact inv.core.nonneg v dv hv
  · intro v dv hv
    by_cases hvx : v = e.target
    · simp only [NodeMap.insert, hvx, if_true, Option.some.injEq] at hv
      obtain ⟨es, h1, h2, h3⟩ := inv.core.achieved curr gc inv.curr_g
      refine ⟨es ++ [e], ?_, ?_, ?_⟩
      · rw [isWalk_append, h1, h2]
        simp [isWalk, he]
      · rw [walkEnd_append, hvx]
        simp [walkEnd]
      · rw [walkCost_append, h3, walkCost_cons, walkCost_nil]
        omega
    · simp only [NodeMap.insert, hvx, if_false] at hv
      exact inv.core.achieved v dv hv
  · intro p hp
    simp only [List.mem_cons] at hp
    rcases hp with hp | hp
    · subst hp
      exact ⟨gc + e.weight, by simp [NodeMap.insert], le_refl _⟩
    · obtain ⟨gv, h1, h2⟩ := inv.core.pq_sound p hp
      by_cases hpx : p.2 = e.target
      · have := hold gv (hpx ▸ h1)
        exact ⟨gc + e.weight, by simp [NodeMap.insert, hpx], by rw [hpx] at h2 ⊢; omega⟩
      · exact ⟨gv, by simp [NodeMap.insert, hpx, h1], h2⟩
  · intro de hde
    by_cases hex : endNode = e.target
    · exact ⟨_, by rw [hex]; exact List.mem_cons_self _ _⟩
    · simp only [NodeMap.insert, hex, if_false] at hde
      obtain ⟨f, hf⟩ := inv.core.end_queued de hde
      exact ⟨f, List.mem_cons_of_mem _ hf⟩
  · intro v dv hv
    by_cases hvx : v = e.target
    · obtain ⟨l2, hl2⟩ := hchain curr lc hlc
      rw [hvx]
      exact ⟨l2 ++ [e.target], ParentChain.step curr e.target l2 e gc (gc + e.weight) hxstart
        (by simp [NodeMap.insert]) he rfl
        (by simp [NodeMap.insert, Ne.symm hxcurr, inv.curr_g]) (by simp [NodeMap.insert])
        hw0 (le_refl _) hl2⟩
    · simp only [NodeMap.insert, hvx, if_false] at hv
      obtain ⟨l, hl⟩ := inv.core.chain v dv hv
      exact hchain v l hl
  · intro v hv
    by_cases hvx : v = e.target
    · simp [NodeMap.insert, hvx] at hv
    · simp only [NodeMap.insert, hvx, if_false] at hv ⊢
      exact inv.core.parent_dom v hv
  · exact inv.core.not_done
  · simp [NodeMap.insert, Ne.symm hxcurr, inv.curr_g]
  · intro v dv hv
    by_cases hvx : v = e.target
    · simp only [NodeMap.insert, hvx, if_true, Option.some.injEq] at hv
      subst hv
      right; left
      rw [hvx]
      exact List.mem_cons_self _ _
    · simp only [NodeMap.insert, hvx, if_false] at hv
      rcases inv.settled v dv hv with h | h | h
      · exact Or.inl h
      · exact Or.inr (Or.inl (List.mem_cons_of_mem _ h))
      · exact Or.inr (Or.inr (relaxedAt_insert graph s.gScore e.target _ hold v dv h))
  · intro e2 he2
    simp only [List.mem_cons] at he2
    rcases he2 with he2 | he2
    · subst he2
      exact ⟨gc + e2.weight, by simp [NodeMap.insert], le_refl _⟩
    · exact bounded_insert s.gScore e.target _ hold e2.target _ (inv.curr_done e2 he2)
  · exact Progress.insert V s.gScore s.pq _ e.target _ hxV (by omega) hold

/-- The edge loop of `runAStarExact` keeps its invariant and makes progress. -/
theorem aStarRelaxExact_spec (graph : IGraph) (V : List Node) (start endNode : Node)
    (hV : ClosedUnder graph V) (hw : NonNegWeights graph V) (gc : Int) (curr : Node) :
    ∀ (rest done : List Edge) (s : AStarState),
      (∀ e ∈ rest, e ∈ graph.getNeighbors curr) →
      AStarRelaxInv graph V start endNode gc curr done s →
      AStarRelaxInv graph V start endNode gc curr (rest.reverse ++ done)
          (aStarRelaxExact graph endNode curr rest s) ∧
        Progress V s.gScore s.pq (aStarRelaxExact graph endNode curr rest s).gScore
          (aStarRelaxExact graph endNode curr rest s).pq := by
  intro rest
  induction rest with
  | nil =>
    intro done s _ inv
    exact ⟨by simpa [aStarRelaxExact] using inv, Progress.refl _ _ _⟩
  | cons e rest ih =>
    intro done s hrest inv
    have he : e ∈ graph.getNeighbors curr := hrest e (by simp)
    have hrest2 : ∀ e2 ∈ rest, e2 ∈ graph.getNeighbors curr := fun e2 h => hrest e2 (by simp [h])
    have elist : (e :: rest).reverse ++ done = rest.reverse ++ (e :: done) := by simp
    rw [elist]
    simp only [aStarRelaxExact]
    rw [touch_of_some s.gScore curr gc inv.curr_g, inv.curr_g]
    simp only [Option.getD_some]
    cases hx : s.gScore e.target with
    | none =>
      simp only []
      obtain ⟨i1, p1⟩ := aStar_improve graph V start endNode hV hw gc curr done s e he inv
        (by intro old h; rw [hx] at h; cases h)
      obtain ⟨i2, p2⟩ := ih (e :: done) _ hrest2 i1
      exact ⟨i2, p1.trans p2⟩
    | some old =>
      simp only []
      by_cases hlt : gc + e.weight < old
      · rw [if_pos hlt]
        obtain ⟨i1, p1⟩ := aStar_improve graph V start endNode hV hw gc curr done s e he inv
          (by intro o h; rw [hx] at h; simp only [Option.some.injEq] at h; omega)
        obtain ⟨i2, p2⟩ := ih (e :: done) _ hrest2 i1
        exact ⟨i2, p1.trans p2⟩
      · rw [if_neg hlt]
        have keep : AStarRelaxInv graph V start endNode gc curr (e :: done) s := by
          refine ⟨inv.core, inv.curr_g, inv.settled, ?_⟩
          intro e2 he2
          simp only [List.mem_cons] at he2
          rcases he2 with he2 | he2
          · subst he2
            exact ⟨old, hx, by omega⟩
          · exact inv.curr_done e2 he2
        exact ih (e :: done) s hrest2 keep

theorem aStarInit_inv (graph : IGraph) (V : List Node) (start endNode : Node)
    (hs : start ∈ V) : AStarInv graph V start endNode (aStarInit graph start endNode) := by
  have hg : ∀ v d, (aStarInit graph start endNode).gScore v = some d → v = start ∧ d = 0 := by
    intro v d h
    unfold aStarInit NodeMap.insert NodeMap.empty at h
    simp only at h
    split at h
    · rename_i hv
      simp only [Option.some.injEq] at h
      exact ⟨hv, h.symm⟩
    · cases h
  have hstart : (aStarInit graph start endNode).gScore start = some 0 := by
    simp [aStarInit, NodeMap.insert]
  refine ⟨⟨hstart, ?_, ?_, ?_, ?_, ?_, ?_, ?_, rfl⟩, ?_⟩
  · intro v d h
    rw [(hg v d h).1]; exact hs
  · intro v d h
    rw [(hg v d h).2]
  · intro v d h
    obtain ⟨rfl, rfl⟩ := hg v d h
    exact ⟨[], rfl, rfl, rfl⟩
  · intro p hp
    simp only [aStarInit, List.mem_singleton] at hp
    subst hp
    exact ⟨0, hstart, by simp⟩
  · intro d h
    obtain ⟨h1, rfl⟩ := hg endNode d h
    exact ⟨graph.getHeuristic start endNode, by simp [aStarInit, h1]⟩
  · intro v d h
    obtain ⟨rfl, rfl⟩ := hg v d h
    exact ⟨[v], ParentChain.base 0 hstart⟩
  · intro v h
    unfold aStarInit NodeMap.insert NodeMap.empty at h ⊢
    simp only at h ⊢
    split at h
    · cases h
    · rename_i hv
      simp [hv]
  · intro v d h
    obtain ⟨rfl, rfl⟩ := hg v d h
    left
    simp [aStarInit]

/-- One iteration of the loop of `runAStarExact` keeps the invariant and decreases the
measure. -/
theorem aStarStepExact_inv (graph : IGraph) (V : List Node) (start endNode : Node)
    (hV : ClosedUnder graph V) (hw : NonNegWeights graph V) (s s1 : AStarState)
    (inv : AStarInv graph V start endNode s)
    (hstep : aStarStepExact graph endNode s = Sum.inl s1) :
    AStarInv graph V start endNode s1 ∧
      Lex3 (searchMeasure V s1.gScore s1.pq) (searchMeasure V s.gScore s.pq) := by
  unfold aStarStepExact at hstep
  cases htop : pqTop s.pq with
  | none => rw [htop] at hstep; cases hstep
  | some top =>
    obtain ⟨f, curr⟩ := top
    rw [htop] at hstep
    simp only at hstep
    have hmem := pqTop_mem s.pq (f, curr) htop
    have hlen := length_erase_top s.pq (f, curr) htop
    obtain ⟨gc, hgc, _⟩ := inv.core.pq_sound (f, curr) hmem
    simp only at hgc
    by_cases hend : curr = endNode
    · rw [if_pos hend] at hstep; cases hstep
    · rw [if_neg hend] at hstep
      simp only [Sum.inl.injEq] at hstep
      have hkeep : ∀ (k : Int) (v : Node), v ≠ curr → (k, v) ∈ s.pq →
          (k, v) ∈ s.pq.erase (f, curr) := by
        intro k v hv hin
        apply mem_erase_of_ne_top _ _ _ hin
        intro heq
        simp only [Prod.mk.injEq] at heq
        exact hv heq.2
      have inv0 : AStarRelaxInv graph V start endNode gc curr []
          { s with pq := s.pq.erase (f, curr), visitedCount := s.visitedCount + 1,
                   visited := s.visited ++ [curr] } := by
        refine ⟨⟨inv.core.start_g, inv.core.dom_V, inv.core.nonneg, inv.core.achieved, ?_, ?_,
          inv.core.chain, inv.core.parent_dom, inv.core.not_done⟩, hgc, ?_, ?_⟩
        · intro p hp
          exact inv.core.pq_sound p (List.mem_of_mem_erase hp)
        · intro de hde
          obtain ⟨k, hk⟩ := inv.core.end_queued de hde
          exact ⟨k, hkeep k endNode (Ne.symm hend) hk⟩
        · intro v dv hv
          by_cases hvc : v = curr
          · exact Or.inl hvc
          · rcases inv.settled v dv hv with h | h
            · exact Or.inr (Or.inl (hkeep _ v hvc h))
            · exact Or.inr (Or.inr h)
        · intro e he; simp at he
      obtain ⟨i2, p2⟩ := aStarRelaxExact_spec graph V start endNode hV hw gc curr
        (graph.getNeighbors curr) [] _ (fun e h => h) inv0
      rw [hstep] at i2 p2
      refine ⟨⟨i2.core, ?_⟩, Progress.lex3 p2 (by simp only; omega)⟩
      intro v dv hv
      rcases i2.settled v dv hv with h | h | h
      · subst h
        right
        rw [i2.curr_g] at hv
        simp only [Option.some.injEq] at hv
        subst hv
        intro e he
        exact i2.curr_done e (by simp [he])
      · exact Or.inl h
      · exact Or.inr h

/-- The two ways in which the loop of `runAStarExact` is left. -/
theorem aStarStepExact_exit (graph : IGraph) (V : List Node) (start endNode : Node)
    (s r : AStarState) (inv : AStarInv graph V start endNode s)
    (hstep : aStarStepExact graph endNode s = Sum.inr r) :
    (s.pq = [] ∧ r = s) ∨
    (∃ f ge, pqTop s.pq = some (f, endNode) ∧ s.gScore endNode = some ge ∧
      ge + graph.getHeuristic endNode endNode ≤ f ∧
      r.gScore = s.gScore ∧ r.parent = s.parent ∧ r.success = true ∧
      r.visitedCount = s.visitedCount + 1 ∧ r.visited = s.visited ++ [endNode]) := by
  unfold aStarStepExact at hstep
  cases htop : pqTop s.pq with
  | none =>
    rw [htop] at hstep
    simp only [Sum.inr.injEq] at hstep
    exact Or.inl ⟨pqTop_none _ htop, hstep.symm⟩
  | some top =>
    obtain ⟨f, curr⟩ := top
    rw [htop] at hstep
    simp only at hstep
    obtain ⟨gc, hgc, hle⟩ := inv.core.pq_sound (f, curr) (pqTop_mem s.pq (f, curr) htop)
    simp only at hgc hle
    by_cases hend : curr = endNode
    · rw [if_pos hend] at hstep
      simp only [Sum.inr.injEq] at hstep
      subst hend
      subst hstep
      exact Or.inr ⟨f, gc, rfl, hgc, hle, rfl, rfl, rfl, rfl, rfl⟩
    · rw [if_neg hend] at hstep; cases hstep

/-- With an empty queue every walk from the start ends at a node that has a score. -/
theorem aStar_closed (graph : IGraph) (V : List Node) (start endNode : Node)
    (s : AStarState) (inv : AStarInv graph V start endNode s) (hpq : s.pq = []) :
    ∀ es : List Edge, isWalk graph start es = true →
      ∃ gx, s.gScore (walkEnd start es) = some gx := by
  intro es
  induction es using List.reverseRecOn with
  | nil => intro _; exact ⟨0, by simpa [walkEnd] using inv.core.start_g⟩
  | append_singleton es e ih =>
    intro hwalk
    rw [isWalk_append] at hwalk
    simp only [Bool.and_eq_true, isWalk, decide_eq_true_eq, and_true] at hwalk
    obtain ⟨h1, h2⟩ := hwalk
    obtain ⟨gy, hgy⟩ := ih h1
    rw [walkEnd_append]
    simp only [walkEnd]
    rcases inv.settled _ gy hgy with h | h
    · rw [hpq] at h; simp at h
    · obtain ⟨dx, hdx, _⟩ := h e h2
      exact ⟨dx, hdx⟩

/-- Under an admissible heuristic, every walk from the start either ends at a node
whose score is at most the cost of the walk, or some queue entry has a key that is at
most the cost of the walk continued to the target in any way. -/
theorem aStar_frontier (graph : IGraph) (V : List Node) (start endNode : Node)
    (hV : ClosedUnder graph V) (hw : NonNegWeights graph V) (hs : start ∈ V)
    (hadm : Admissible graph V endNode)
    (s : AStarState) (inv : AStarInv graph V start endNode s) :
    ∀ es : List Edge, isWalk graph start es = true →
      (∃ gx, s.gScore (walkEnd start es) = some gx ∧ gx ≤ walkCost es) ∨
      (∃ p ∈ s.pq, ∀ fs : List Edge, isWalk graph (walkEnd start es) fs = true →
        walkEnd (walkEnd start es) fs = endNode → p.1 ≤ walkCost es + walkCost fs) := by
  intro es
  induction es using List.reverseRecOn with
  | nil =>
    intro _
    left
    exact ⟨0, by simpa [walkEnd] using inv.core.start_g, by simp [walkCost]⟩
  | append_singleton es e ih =>
    intro hwalk
    rw [isWalk_append] at hwalk
    simp only [Bool.and_eq_true, isWalk, decide_eq_true_eq, and_true] at hwalk
    obtain ⟨h1, h2⟩ := hwalk
    have hy : walkEnd start es ∈ V := walkEnd_mem graph V hV es start hs h1
    have hw0 : 0 ≤ e.weight := hw _ hy e h2
    have hcost : walkCost (es ++ [e]) = walkCost es + e.weight := by
      rw [walkCost_append, walkCost_cons, walkCost_nil]; omega
    have hendw : walkEnd start (es ++ [e]) = e.target := by
      rw [walkEnd_append]; simp [walkEnd]
    rw [hcost, hendw]
    have extend : ∀ fs : List Edge, isWalk graph e.target fs = true →
        walkEnd e.target fs = endNode →
        isWalk graph (walkEnd start es) (e :: fs) = true ∧
        walkEnd (walkEnd start es) (e :: fs) = endNode ∧
        walkCost (e :: fs) = e.weight + walkCost fs := by
      intro fs f1 f2
      exact ⟨by simp [isWalk, h2, f1], by simpa [walkEnd] using f2, walkCost_cons e fs⟩
    rcases ih h1 with ⟨gy, hgy, hle⟩ | ⟨p, hp, hle⟩
    · rcases inv.settled _ gy hgy with h | h
      · right
        refine ⟨_, h, fun fs f1 f2 => ?_⟩
        obtain ⟨x1, x2, x3⟩ := extend fs f1 f2
        have := hadm _ hy (e :: fs) x1 x2
        simp only
        omega
      · left
        obtain ⟨dx, hdx, hle2⟩ := h e h2
        exact ⟨dx, hdx, by omega⟩
    · right
      refine ⟨p, hp, fun fs f1 f2 => ?_⟩
      obtain ⟨x1, x2, x3⟩ := extend fs f1 f2
      have := hle (e :: fs) x1 x2
      omega

/-- What the loop of `runAStarExact` has established when it is left. -/
theorem aStar_exit_spec (graph : IGraph) (V : List Node) (start endNode : Node)
    (hV : ClosedUnder graph V) (hw : NonNegWeights graph V) (hs : start ∈ V)
    (s r : AStarState) (inv : AStarInv graph V start endNode s)
    (hstep : aStarStepExact graph endNode s = Sum.inr r) :
    (¬ Reachable graph start endNode ∧ r.success = false ∧ r.parent endNode = none) ∨
    (r.success = true ∧ ∃ d, r.gScore endNode = some d ∧
      (∃ es, isWalk graph start es = true ∧ walkEnd start es = endNode ∧ walkCost es = d) ∧
      (Admissible graph V endNode → 0 ≤ graph.getHeuristic endNode endNode →
        ∀ es, isWalk graph start es = true → walkEnd start es = endNode → d ≤ walkCost es) ∧
      ∃ l, ParentChain graph Edge.weight start r.parent r.gScore endNode l ∧ ∀ y ∈ l, y ∈ V) := by
  rcases aStarStepExact_exit graph V start endNode s r inv hstep with
    ⟨hpq, hr⟩ | ⟨f, ge, htop, hge, hkey, h1, h2, h3, _, _⟩
  · left
    rw [hr]
    have hnone : s.gScore endNode = none := by
      cases h : s.gScore endNode with
      | none => rfl
      | some de =>
        obtain ⟨k, hk⟩ := inv.core.end_queued de h
        rw [hpq] at hk
        simp at hk
    refine ⟨?_, inv.core.not_done, inv.core.parent_dom endNode hnone⟩
    rintro ⟨es, hwalk, hend⟩
    obtain ⟨gx, hgx⟩ := aStar_closed graph V start endNode s inv hpq es hwalk
    rw [hend, hnone] at hgx
    cases hgx
  · right
    refine ⟨h3, ge, by rw [h1]; exact hge, inv.core.achieved endNode ge hge, ?_, ?_⟩
    · intro hadm hh0 es hwalk hend
      rcases aStar_frontier graph V start endNode hV hw hs hadm s inv es hwalk with
        ⟨dx, hdx, hle⟩ | ⟨p, hp, hle⟩
      · rw [hend, hge] at hdx
        simp only [Option.some.injEq] at hdx
        omega
      · have h5 := pqTop_key_le s.pq _ htop p hp
        have h6 := hle [] rfl (by simpa [walkEnd] using hend)
        simp only [walkCost_nil] at h5 h6
        omega
    · rw [h1, h2]
      obtain ⟨l, hl⟩ := inv.core.chain endNode ge hge
      refine ⟨l, hl, fun y hy => ?_⟩
      obtain ⟨dy, hdy, _⟩ := hl.mem_le ge hge y hy
      exact inv.core.dom_V y dy hdy

/-- The loop of `runAStarExact` is left, and what holds whenever it is left. -/
theorem aStarFinalExact_spec (graph : IGraph) (V : List Node) (start endNode : Node)
    (hV : ClosedUnder graph V) (hw : NonNegWeights graph V) (hs : start ∈ V) :
    (∃ (n : Nat) (r : AStarState), aStarFinalExact n graph start endNode = some r) ∧
    ∀ (n : Nat) (r : AStarState), aStarFinalExact n graph start endNode = some r →
      (¬ Reachable graph start endNode ∧ r.success = false ∧ r.parent endNode = none) ∨
      (r.success = true ∧ ∃ d, r.gScore endNode = some d ∧
        (∃ es, isWalk graph start es = true ∧ walkEnd start es = endNode ∧ walkCost es = d) ∧
        (Admissible graph V endNode → 0 ≤ graph.getHeuristic endNode endNode →
          ∀ es, isWalk graph start es = true → walkEnd start es = endNode → d ≤ walkCost es) ∧
        ∃ l, ParentChain graph Edge.weight start r.parent r.gScore endNode l ∧
          ∀ y ∈ l, y ∈ V) := by
  have h0 := aStarInit_inv graph V start endNode hs
  constructor
  · exact iterate_terminates (aStarStepExact graph endNode) (AStarInv graph V start endNode)
      (fun s => searchMeasure V s.gScore s.pq)
      (fun s s1 inv hstep => aStarStepExact_inv graph V start endNode hV hw s s1 inv hstep)
      (aStarInit graph start endNode) h0
  · intro n r hr
    obtain ⟨sl, hinv, hexit⟩ := iterate_invariant (aStarStepExact graph endNode)
      (AStarInv graph V start endNode)
      (fun s s1 inv hstep => (aStarStepExact_inv graph V start endNode hV hw s s1 inv hstep).1)
      n (aStarInit graph start endNode) r h0 hr
    exact aStar_exit_spec graph V start endNode hV hw hs sl r hinv hexit

/-- How the result of `runAStarExact` is assembled from its two loops. -/
theorem runAStarExact_eq_some (graph : IGraph) (start endNode : Node) (fuel : Nat)
    (r : AlgoResult) (h : runAStarExact fuel graph start endNode = some r) :
    ∃ s p, aStarFinalExact fuel graph start endNode = some s ∧
      reconstructPathInternal fuel s.parent start endNode = some p ∧
      r = { path := p, visitedCount := s.visitedCount,
            totalCost := if s.success then (s.gScore endNode).getD 0 else 0,
            success := s.success } := by
  unfold runAStarExact at h
  cases h1 : aStarFinalExact fuel graph start endNode with
  | none => rw [h1] at h; cases h
  | some s =>
    rw [h1] at h
    simp only at h
    cases h2 : reconstructPathInternal fuel s.parent start endNode with
    | none => rw [h2] at h; cases h
    | some p =>
      rw [h2] at h
      simp only [Option.some.injEq] at h
      exact ⟨s, p, rfl, h2, h.symm⟩

theorem runAStarExact_of_parts (graph : IGraph) (start endNode : Node) (n1 n2 : Nat)
    (s : AStarState) (p : List Node)
    (h1 : aStarFinalExact n1 graph start endNode = some s)
    (h2 : reconstructPathInternal n2 s.parent start endNode = some p) :
    ∃ r, runAStarExact (max n1 n2) graph start endNode = some r := by
  unfold runAStarExact
  have a : aStarFinalExact (max n1 n2) graph start endNode = some s :=
    iterate_mono _ n1 _ s h1 _ (le_max_left _ _)
  have b := reconstructPathInternal_mono s.parent start endNode n2 (max n1 n2) p h2
    (le_max_right _ _)
  rw [a]
  simp only
  rw [b]
  exact ⟨_, rfl⟩

/-- The result of `runAStarExact` on a finite graph with non-negative weights. -/
theorem runAStarExact_spec (graph : IGraph) (V : List Node) (start endNode : Node)
    (hs : start ∈ V) (hV : ClosedUnder graph V) (hw : NonNegWeights graph V) :
    (∃ (fuel : Nat) (r : AlgoResult), runAStarExact fuel graph start endNode = some r) ∧
    ∀ (fuel : Nat) (r : AlgoResult), runAStarExact fuel graph start endNode = some r →
      (¬ Reachable graph start endNode ∧ r.success = false ∧ r.path = [] ∧ r.totalCost = 0) ∨
      (Reachable graph start endNode ∧ r.success = true ∧
        (∃ es, isWalk graph start es = true ∧ walkEnd start es = endNode ∧
          walkCost es = r.totalCost) ∧
        (Admissible graph V endNode → 0 ≤ graph.getHeuristic endNode endNode →
          ∀ es, isWalk graph start es = true → walkEnd start es = endNode →
            r.totalCost ≤ walkCost es) ∧
        ((-1 : Node) ∉ V → r.path ≠ [] ∧ r.path.head? = some start ∧
          r.path.getLast? = some endNode ∧ IsPath graph r.path)) := by
  obtain ⟨⟨n1, s1, hfin⟩, hall⟩ := aStarFinalExact_spec graph V start endNode hV hw hs
  constructor
  · rcases hall n1 s1 hfin with ⟨hunr, _, hpar⟩ | ⟨_, d, _, _, _, l, hl, _⟩
    · have hne : endNode ≠ start := fun h => hunr (h ▸ reachable_self graph start)
      exact ⟨_, runAStarExact_of_parts graph start endNode n1 1 s1 []
        hfin (reconstruct_no_parent _ _ _ hpar hne 1 (le_refl _))⟩
    · obtain ⟨n2, p, hp⟩ := reconstruct_terminates hl
      exact ⟨_, runAStarExact_of_parts graph start endNode n1 n2 s1 p hfin hp⟩
  · intro fuel r hr
    obtain ⟨s, p, h1, h2, rfl⟩ := runAStarExact_eq_some graph start endNode fuel r hr
    rcases hall fuel s h1 with ⟨hunr, hsucc, hpar⟩ | ⟨hsucc, d, hd, hach, hmin, l, hl, hlV⟩
    · left
      have hne : endNode ≠ start := fun h => hunr (h ▸ reachable_self graph start)
      have hp := reconstruct_unique _ _ _ _ _ _ _ h2
        (reconstruct_no_parent _ _ _ hpar hne 1 (le_refl _))
      exact ⟨hunr, hsucc, hp, by simp [hsucc]⟩
    · right
      obtain ⟨es, e1, e2, e3⟩ := hach
      refine ⟨⟨es, e1, e2⟩, hsucc, ⟨es, e1, e2, by simp [hsucc, hd, e3]⟩, ?_, ?_⟩
      · intro hadm hh0 es2 w1 w2
        simpa [hsucc, hd] using hmin hadm hh0 es2 w1 w2
      · intro hsent
        have hl1 : (-1 : Node) ∉ l := fun h => hsent (hlV _ h)
        obtain ⟨n2, hn2⟩ := reconstruct_chain hl hl1
        have hp := reconstruct_unique _ _ _ _ _ _ _ h2 hn2
        subst hp
        refine ⟨?_, hl.head, hl.getLast, hl.isPath⟩
        intro hnil
        have := hl.last_mem
        simp only at hnil
        rw [hnil] at this
        simp at this


/-! ## The searches while no sum leaves the range of `int` -/

theorem iterate_congr {S R : Type} (f f2 : S → S ⊕ R) (I : S → Prop)
    (hI : ∀ s s1, I s → f2 s = Sum.inl s1 → I s1) (heq : ∀ s, I s → f s = f2 s) :
    ∀ (n : Nat) (s : S), I s → iterate f n s = iterate f2 n s := by
  intro n
  induction n with
  | zero => intro s _; rfl
  | succ k ih =>
    intro s hs
    simp only [iterate]
    rw [heq s hs]
    cases h : f2 s with
    | inl s1 => exact ih s1 (hI s s1 hs h)
    | inr r => rfl

theorem loopState_congr {S R : Type} (f f2 : S → S ⊕ R) (I : S → Prop)
    (hI : ∀ s s1, I s → f2 s = Sum.inl s1 → I s1) (heq : ∀ s, I s → f s = f2 s) :
    ∀ (n : Nat) (s : S), I s → loopState f n s = loopState f2 n s := by
  intro n
  induction n with
  | zero => intro s _; rfl
  | succ k ih =>
    intro s hs
    simp only [loopState]
    rw [heq s hs]
    cases h : f2 s with
    | inl s1 => exact ih s1 (hI s s1 hs h)
    | inr r => rfl

theorem absentCount_le_length {α : Type} (V : List Node) (m : NodeMap α) :
    absentCount V m ≤ V.length := by
  unfold absentCount
  exact List.length_filter_le _ _

/-- An improved entry keeps the bound on the recorded values. -/
theorem scoreBound_improve (V : List Node) (W : Int) (m : NodeMap Int) (x : Node) (nd : Int)
    (h0 : 0 ≤ W) (inv : ScoreBound V W m) (hx : x ∈ V) (hnd : 0 ≤ nd)
    (hold : ∀ old, m x = some old → nd < old)
    (hnew : m x = none → nd + W * (absentCount V m : Int) ≤ (V.length : Int) * W) :
    ScoreBound V W (m.insert x nd) := by
  have hle := absentCount_insert_le V m x nd
  have hmono : W * ((absentCount V (m.insert x nd) : Int) + 1)
      ≤ W * ((absentCount V m : Int) + 1) :=
    mul_le_mul_of_nonneg_left (by exact_mod_cast Nat.succ_le_succ hle) h0
  intro v d hv
  by_cases hvx : v = x
  · subst hvx
    have hd : d = nd := by
      simp only [NodeMap.insert, if_true, Option.some.injEq] at hv
      exact hv.symm
    subst hd
    refine ⟨hnd, ?_⟩
    cases hm : m v with
    | none =>
      have hlt := absentCount_insert_lt V m v d hx hm
      have h1 : W * ((absentCount V (m.insert v d) : Int) + 1) ≤ W * (absentCount V m : Int) :=
        mul_le_mul_of_nonneg_left (by exact_mod_cast hlt) h0
      have := hnew hm
      omega
    | some old =>
      have h1 := (inv v old hm).2
      have h2 := hold old hm
      omega
  · have hv2 : m v = some d := by
      simpa [NodeMap.insert, hvx] using hv
    have h1 := inv v d hv2
    exact ⟨h1.1, by omega⟩

theorem scoreBound_touch (V : List Node) (W : Int) (m : NodeMap Int) (x : Node)
    (h0 : 0 ≤ W) (inv : ScoreBound V W m) (hx : x ∈ V) : ScoreBound V W (m.touch x) := by
  unfold NodeMap.touch
  cases hm : m x with
  | some _ => exact inv
  | none =>
    simp only
    refine scoreBound_improve V W m x 0 h0 inv hx (le_refl 0) (fun old h => ?_) (fun _ => ?_)
    · rw [hm] at h; cases h
    · have h1 : W * (absentCount V m : Int) ≤ W * (V.length : Int) :=
        mul_le_mul_of_nonneg_left (by exact_mod_cast absentCount_le_length V m) h0
      have h2 : W * (V.length : Int) = (V.length : Int) * W := mul_comm _ _
      omega

theorem absentCount_touch_le (V : List Node) (m : NodeMap Int) (x : Node) :
    absentCount V (m.touch x) ≤ absentCount V m := by
  unfold NodeMap.touch
  cases hm : m x with
  | some _ => exact le_refl _
  | none => exact absentCount_insert_le V m x 0

/-- While the bound holds, the edge loop of `runDijkstra` computes exact sums. -/
theorem dijkstraRelax_exact (V : List Node) (W : Int) (h0 : 0 ≤ W)
    (hfit : (V.length : Int) * W ≤ 2147483647) (d : Int) (curr : Node) (hd : 0 ≤ d) :
    ∀ (es : List Edge) (s : DijkstraState),
      (∀ e ∈ es, 0 ≤ e.weight ∧ e.weight ≤ W ∧ e.target ∈ V) →
      DijkstraFits V W s →
      d + W * ((absentCount V s.dist : Int) + 1) ≤ (V.length : Int) * W →
      dijkstraRelax d curr es s = dijkstraRelaxExact d curr es s ∧
        DijkstraFits V W (dijkstraRelaxExact d curr es s) := by
  intro es
  induction es with
  | nil => intro s _ inv _; exact ⟨rfl, inv⟩
  | cons e rest ih =>
    intro s hes inv hdb
    obtain ⟨hw0, hwW, htV⟩ := hes e (List.mem_cons_self _ _)
    have hrest : ∀ e2 ∈ rest, 0 ≤ e2.weight ∧ e2.weight ≤ W ∧ e2.target ∈ V :=
      fun e2 h2 => hes e2 (List.mem_cons_of_mem _ h2)
    have hA : 0 ≤ W * (absentCount V s.dist : Int) :=
      mul_nonneg h0 (by exact_mod_cast Nat.zero_le _)
    have hexp : W * ((absentCount V s.dist : Int) + 1) = W * (absentCount V s.dist : Int) + W := by
      ring
    have hwrap : wrapInt32 (d + e.weight) = d + e.weight := by
      apply wrapInt32_of_isInt32
      unfold IsInt32
      constructor <;> omega
    have himp : ∀ (hold : ∀ old, s.dist e.target = some old → d + e.weight < old),
        DijkstraFits V W
          { s with dist := s.dist.insert e.target (d + e.weight),
                   parent := s.parent.insert e.target curr,
                   pq := (d + e.weight, e.target) :: s.pq } ∧
        d + W * ((absentCount V (s.dist.insert e.target (d + e.weight)) : Int) + 1)
          ≤ (V.length : Int) * W := by
      intro hold
      have hle := absentCount_insert_le V s.dist e.target (d + e.weight)
      have hmono : W * ((absentCount V (s.dist.insert e.target (d + e.weight)) : Int) + 1)
          ≤ W * ((absentCount V s.dist : Int) + 1) :=
        mul_le_mul_of_nonneg_left (by exact_mod_cast Nat.succ_le_succ hle) h0
      have hsb : ScoreBound V W (s.dist.insert e.target (d + e.weight)) :=
        scoreBound_improve V W s.dist e.target (d + e.weight) h0 inv.dist htV (by omega) hold
          (fun _ => by omega)
      clear hwrap
      refine ⟨⟨hsb, ?_, ?_⟩, by omega⟩
      · intro p hp
        rcases List.mem_cons.mp hp with rfl | hp
        · exact htV
        · exact inv.pq_V p hp
      · intro p hp
        rcases List.mem_cons.mp hp with rfl | hp
        · exact hsb e.target (d + e.weight) (by simp [NodeMap.insert])
        · have := inv.pq_bound p hp
          refine ⟨this.1, ?_⟩
          show p.1 + W * ((absentCount V (s.dist.insert e.target (d + e.weight)) : Int) + 1)
            ≤ (V.length : Int) * W
          omega
    simp only [dijkstraRelax, dijkstraRelaxExact, hwrap]
    cases hm : s.dist e.target with
    | none =>
      simp only
      obtain ⟨h1, h2⟩ := himp (fun old h => by rw [hm] at h; cases h)
      exact ih _ hrest h1 h2
    | some old =>
      simp only
      by_cases hlt : d + e.weight < old
      · rw [if_pos hlt, if_pos hlt]
        obtain ⟨h1, h2⟩ := himp (fun old2 h => by
          rw [hm] at h
          simp only [Option.some.injEq] at h
          omega)
        exact ih _ hrest h1 h2
      · rw [if_neg hlt, if_neg hlt]
        exact ih s hrest inv hdb

/-- While the bound holds, an iteration of the loop of `runDijkstra` computes exact sums,
and the bound holds again afterwards. -/
theorem dijkstraStep_exact (graph : IGraph) (V : List Node) (W : Int) (endNode : Node)
    (hV : ClosedUnder graph V) (hw : NonNegWeights graph V) (h0 : 0 ≤ W)
    (hW : WeightsAtMost graph V W) (hfit : (V.length : Int) * W ≤ 2147483647)
    (s : DijkstraState) (inv : DijkstraFits V W s) :
    dijkstraStep graph endNode s = dijkstraStepExact graph endNode s ∧
    ∀ s1, dijkstraStepExact graph endNode s = Sum.inl s1 → DijkstraFits V W s1 := by
  unfold dijkstraStep dijkstraStepExact
  cases htop : pqTop s.pq with
  | none => exact ⟨rfl, fun s1 h => by cases h⟩
  | some top =>
    obtain ⟨d, curr⟩ := top
    have hmem := pqTop_mem _ _ htop
    have hcV : curr ∈ V := inv.pq_V _ hmem
    have hb := inv.pq_bound _ hmem
    simp only at hb
    have inv1 : DijkstraFits V W { s with pq := s.pq.erase (d, curr) } :=
      ⟨inv.dist, fun p hp => inv.pq_V p (List.mem_of_mem_erase hp),
        fun p hp => inv.pq_bound p (List.mem_of_mem_erase hp)⟩
    simp only
    by_cases hst : dijkstraStale s.dist d curr = true
    · simp only [hst, if_true, true_and]
      intro s1 h
      simp only [Sum.inl.injEq] at h
      rw [← h]; exact inv1
    · simp only [hst, Bool.false_eq_true, if_false]
      by_cases hce : curr = endNode
      · simp only [hce, if_true, true_and]
        intro s1 h
        cases h
      · simp only [hce, if_false]
        have hes : ∀ e ∈ graph.getNeighbors curr, 0 ≤ e.weight ∧ e.weight ≤ W ∧ e.target ∈ V :=
          fun e he => ⟨hw curr hcV e he, hW curr hcV e he, hV curr hcV e he⟩
        obtain ⟨h1, h2⟩ := dijkstraRelax_exact V W h0 hfit d curr hb.1
          (graph.getNeighbors curr)
          { s with pq := s.pq.erase (d, curr), visitedCount := s.visitedCount + 1,
                   visited := s.visited ++ [curr] } hes
          ⟨inv1.dist, inv1.pq_V, inv1.pq_bound⟩ hb.2
        refine ⟨by rw [h1], fun s1 h => ?_⟩
        simp only [Sum.inl.injEq] at h
        rw [← h]; exact h2

theorem dijkstraInit_fits (V : List Node) (W : Int) (start : Node) (h0 : 0 ≤ W)
    (hs : start ∈ V) : DijkstraFits V W (dijkstraInit start) := by
  have hsb : ScoreBound V W (NodeMap.empty.insert start 0) := by
    refine scoreBound_improve V W NodeMap.empty start 0 h0 (fun v d h => by cases h) hs
      (le_refl 0) (fun old h => by cases h) (fun _ => ?_)
    have h1 : W * (absentCount V (NodeMap.empty : NodeMap Int) : Int) ≤ W * (V.length : Int) :=
      mul_le_mul_of_nonneg_left (by exact_mod_cast absentCount_le_length V _) h0
    have h2 : W * (V.length : Int) = (V.length : Int) * W := mul_comm _ _
    omega
  refine ⟨hsb, ?_, ?_⟩
  · intro p hp
    simp only [dijkstraInit, List.mem_singleton] at hp
    subst hp; exact hs
  · intro p hp
    simp only [dijkstraInit, List.mem_singleton] at hp
    subst hp
    exact hsb start 0 (by simp [NodeMap.insert])

/-- On a finite graph with non-negative edge weights of at most `W`, where `V.length * W`
fits in an `int`, the loop of `runDijkstra` is the loop with exact sums. -/
theorem dijkstraFinal_exact (graph : IGraph) (V : List Node) (W : Int) (start endNode : Node)
    (hs : start ∈ V) (hV : ClosedUnder graph V) (hw : NonNegWeights graph V) (h0 : 0 ≤ W)
    (hW : WeightsAtMost graph V W) (hfit : (V.length : Int) * W ≤ 2147483647) (fuel : Nat) :
    dijkstraFinal fuel graph start endNode = dijkstraFinalExact fuel graph start endNode :=
  iterate_congr (dijkstraStep graph endNode) (dijkstraStepExact graph endNode)
    (DijkstraFits V W)
    (fun s s1 i h => (dijkstraStep_exact graph V W endNode hV hw h0 hW hfit s i).2 s1 h)
    (fun s i => (dijkstraStep_exact graph V W endNode hV hw h0 hW hfit s i).1)
    fuel (dijkstraInit start) (dijkstraInit_fits V W start h0 hs)

theorem dijkstraLoop_exact (graph : IGraph) (V : List Node) (W : Int) (start endNode : Node)
    (hs : start ∈ V) (hV : ClosedUnder graph V) (hw : NonNegWeights graph V) (h0 : 0 ≤ W)
    (hW : WeightsAtMost graph V W) (hfit : (V.length : Int) * W ≤ 2147483647) (n : Nat) :
    loopState (dijkstraStep graph endNode) n (dijkstraInit start)
      = loopState (dijkstraStepExact graph endNode) n (dijkstraInit start) :=
  loopState_congr (dijkstraStep graph endNode) (dijkstraStepExact graph endNode)
    (DijkstraFits V W)
    (fun s s1 i h => (dijkstraStep_exact graph V W endNode hV hw h0 hW hfit s i).2 s1 h)
    (fun s i => (dijkstraStep_exact graph V W endNode hV hw h0 hW hfit s i).1)
    n (dijkstraInit start) (dijkstraInit_fits V W start h0 hs)

/-- At every head of the exact loop the iteration of `runDijkstra` is the exact one. -/
theorem dijkstraStep_exact_at (graph : IGraph) (V : List Node) (W : Int)
    (start endNode : Node)
    (hs : start ∈ V) (hV : ClosedUnder graph V) (hw : NonNegWeights graph V) (h0 : 0 ≤ W)
    (hW : WeightsAtMost graph V W) (hfit : (V.length : Int) * W ≤ 2147483647) (n : Nat)
    (s : DijkstraState)
    (h : loopState (dijkstraStepExact graph endNode) n (dijkstraInit start) = some s) :
    dijkstraStep graph endNode s = dijkstraStepExact graph endNode s :=
  (dijkstraStep_exact graph V W endNode hV hw h0 hW hfit s
    (loopState_invariant (dijkstraStepExact graph endNode) (DijkstraFits V W)
      (fun s s1 i h => (dijkstraStep_exact graph V W endNode hV hw h0 hW hfit s i).2 s1 h)
      n (dijkstraInit start) s (dijkstraInit_fits V W start h0 hs) h)).1

/-- On a finite graph with non-negative edge weights of at most `W`, where `V.length * W`
fits in an `int`, `runDijkstra` is the function with exact sums. -/
theorem runDijkstra_exact (graph : IGraph) (V : List Node) (W : Int) (start endNode : Node)
    (hs : start ∈ V) (hV : ClosedUnder graph V) (hw : NonNegWeights graph V) (h0 : 0 ≤ W)
    (hW : WeightsAtMost graph V W) (hfit : (V.length : Int) * W ≤ 2147483647) (fuel : Nat) :
    runDijkstra fuel graph start endNode = runDijkstraExact fuel graph start endNode := by
  unfold runDijkstra runDijkstraExact
  rw [dijkstraFinal_exact graph V W start endNode hs hV hw h0 hW hfit fuel]

theorem touch_self_some (m : NodeMap Int) (x : Node) : ∃ gc, (m.touch x) x = some gc := by
  unfold NodeMap.touch
  cases hm : m x with
  | some v => exact ⟨v, by simp only [hm]⟩
  | none => exact ⟨0, by simp [NodeMap.insert]⟩

/-- While the bound holds, the edge loop of `runAStar` computes exact sums. -/
theorem aStarRelax_exact (graph : IGraph) (V : List Node) (W : Int) (endNode curr : Node)
    (h0 : 0 ≤ W) (hfit : (V.length : Int) * W ≤ 2147483647) (hcV : curr ∈ V) :
    ∀ (es : List Edge) (s : AStarState),
      (∀ e ∈ es, 0 ≤ e.weight ∧ e.weight ≤ W ∧ e.target ∈ V ∧
        -2147483648 ≤ graph.getHeuristic e.target endNode ∧
        (V.length : Int) * W + graph.getHeuristic e.target endNode ≤ 2147483647) →
      AStarFits V W s →
      aStarRelax graph endNode curr es s = aStarRelaxExact graph endNode curr es s ∧
        AStarFits V W (aStarRelaxExact graph endNode curr es s) := by
  intro es
  induction es with
  | nil => intro s _ inv; exact ⟨rfl, inv⟩
  | cons e rest ih =>
    intro s hes inv
    obtain ⟨hw0, hwW, htV, hhe⟩ := hes e (List.mem_cons_self _ _)
    have hrest : ∀ e2 ∈ rest, 0 ≤ e2.weight ∧ e2.weight ≤ W ∧ e2.target ∈ V ∧
        -2147483648 ≤ graph.getHeuristic e2.target endNode ∧
        (V.length : Int) * W + graph.getHeuristic e2.target endNode ≤ 2147483647 :=
      fun e2 h2 => hes e2 (List.mem_cons_of_mem _ h2)
    have hg1 : ScoreBound V W (s.gScore.touch curr) :=
      scoreBound_touch V W s.gScore curr h0 inv.g hcV
    obtain ⟨gc, hgc⟩ := touch_self_some s.gScore curr
    have hb := hg1 curr gc hgc
    have hA : 0 ≤ W * (absentCount V (s.gScore.touch curr) : Int) :=
      mul_nonneg h0 (by exact_mod_cast Nat.zero_le _)
    have hexp : W * ((absentCount V (s.gScore.touch curr) : Int) + 1)
        = W * (absentCount V (s.gScore.touch curr) : Int) + W := by
      ring
    have hwrap : wrapInt32 (((s.gScore.touch curr) curr).getD 0 + e.weight)
        = ((s.gScore.touch curr) curr).getD 0 + e.weight := by
      apply wrapInt32_of_isInt32
      rw [hgc]
      simp only [Option.getD_some]
      unfold IsInt32
      constructor <;> omega
    have hwrap2 : wrapInt32 (((s.gScore.touch curr) curr).getD 0 + e.weight
          + graph.getHeuristic e.target endNode)
        = ((s.gScore.touch curr) curr).getD 0 + e.weight
          + graph.getHeuristic e.target endNode := by
      apply wrapInt32_of_isInt32
      rw [hgc]
      simp only [Option.getD_some]
      unfold IsInt32
      constructor <;> omega
    have himp : ∀ (hold : ∀ old, (s.gScore.touch curr) e.target = some old →
          ((s.gScore.touch curr) curr).getD 0 + e.weight < old),
        AStarFits V W
          { s with parent := s.parent.insert e.target curr,
                   gScore := (s.gScore.touch curr).insert e.target
                     (((s.gScore.touch curr) curr).getD 0 + e.weight),
                   pq := (((s.gScore.touch curr) curr).getD 0 + e.weight
                     + graph.getHeuristic e.target endNode, e.target) :: s.pq } := by
      intro hold
      refine ⟨?_, ?_⟩
      · refine scoreBound_improve V W (s.gScore.touch curr) e.target _ h0 hg1 htV ?_ hold
          (fun _ => ?_)
        · rw [hgc]; simp only [Option.getD_some]; omega
        · rw [hgc]; simp only [Option.getD_some]; omega
      · intro p hp
        rcases List.mem_cons.mp hp with rfl | hp
        · exact htV
        · exact inv.pq_V p hp
    simp only [aStarRelax, aStarRelaxExact, hwrap, hwrap2]
    cases hm : (s.gScore.touch curr) e.target with
    | none =>
      simp only
      exact ih _ hrest (himp (fun old h => by rw [hm] at h; cases h))
    | some old =>
      simp only
      by_cases hlt : ((s.gScore.touch curr) curr).getD 0 + e.weight < old
      · rw [if_pos hlt, if_pos hlt]
        exact ih _ hrest (himp (fun old2 h => by
          rw [hm] at h
          simp only [Option.some.injEq] at h
          omega))
      · rw [if_neg hlt, if_neg hlt]
        exact ih _ hrest ⟨hg1, inv.pq_V⟩

/-- While the bound holds, an iteration of the loop of `runAStar` computes exact sums,
and the bound holds again afterwards. -/
theorem aStarStep_exact (graph : IGraph) (V : List Node) (W : Int) (endNode : Node)
    (hV : ClosedUnder graph V) (hw : NonNegWeights graph V) (h0 : 0 ≤ W)
    (hW : WeightsAtMost graph V W) (hfit : (V.length : Int) * W ≤ 2147483647)
    (hh : HeuristicFits graph V W endNode)
    (s : AStarState) (inv : AStarFits V W s) :
    aStarStep graph endNode s = aStarStepExact graph endNode s ∧
    ∀ s1, aStarStepExact graph endNode s = Sum.inl s1 → AStarFits V W s1 := by
  unfold aStarStep aStarStepExact
  cases htop : pqTop s.pq with
  | none => exact ⟨rfl, fun s1 h => by cases h⟩
  | some top =>
    obtain ⟨f, curr⟩ := top
    have hmem := pqTop_mem _ _ htop
    have hcV : curr ∈ V := inv.pq_V _ hmem
    simp only
    by_cases hce : curr = endNode
    · simp only [hce, if_true, true_and]
      intro s1 h
      cases h
    · simp only [hce, if_false]
      have hes : ∀ e ∈ graph.getNeighbors curr, 0 ≤ e.weight ∧ e.weight ≤ W ∧ e.target ∈ V ∧
          -2147483648 ≤ graph.getHeuristic e.target endNode ∧
          (V.length : Int) * W + graph.getHeuristic e.target endNode ≤ 2147483647 :=
        fun e he => ⟨hw curr hcV e he, hW curr hcV e he, hV curr hcV e he, hh curr hcV e he⟩
      obtain ⟨h1, h2⟩ := aStarRelax_exact graph V W endNode curr h0 hfit hcV
        (graph.getNeighbors curr)
        { s with pq := s.pq.erase (f, curr), visitedCount := s.visitedCount + 1,
                 visited := s.visited ++ [curr] } hes
        ⟨inv.g, fun p hp => inv.pq_V p (List.mem_of_mem_erase hp)⟩
      refine ⟨by rw [h1], fun s1 h => ?_⟩
      simp only [Sum.inl.injEq] at h
      rw [← h]; exact h2

theorem aStarInit_fits (graph : IGraph) (V : List Node) (W : Int) (start endNode : Node)
    (h0 : 0 ≤ W) (hs : start ∈ V) : AStarFits V W (aStarInit graph start endNode) :=
  ⟨(dijkstraInit_fits V W start h0 hs).dist, fun p hp => by
    simp only [aStarInit, List.mem_singleton] at hp
    subst hp; exact hs⟩

/-- On a finite graph with non-negative edge weights of at most `W`, where `V.length * W`
plus any value of the heuristic fits in an `int`, the loop of `runAStar` is the loop
with exact sums. -/
theorem aStarFinal_exact (graph : IGraph) (V : List Node) (W : Int) (start endNode : Node)
    (hs : start ∈ V) (hV : ClosedUnder graph V) (hw : NonNegWeights graph V) (h0 : 0 ≤ W)
    (hW : WeightsAtMost graph V W) (hfit : (V.length : Int) * W ≤ 2147483647)
    (hh : HeuristicFits graph V W endNode) (fuel : Nat) :
    aStarFinal fuel graph start endNode = aStarFinalExact fuel graph start endNode :=
  iterate_congr (aStarStep graph endNode) (aStarStepExact graph endNode)
    (AStarFits V W)
    (fun s s1 i h => (aStarStep_exact graph V W endNode hV hw h0 hW hfit hh s i).2 s1 h)
    (fun s i => (aStarStep_exact graph V W endNode hV hw h0 hW hfit hh s i).1)
    fuel (aStarInit graph start endNode) (aStarInit_fits graph V W start endNode h0 hs)

theorem aStarLoop_exact (graph : IGraph) (V : List Node) (W : Int) (start endNode : Node)
    (hs : start ∈ V) (hV : ClosedUnder graph V) (hw : NonNegWeights graph V) (h0 : 0 ≤ W)
    (hW : WeightsAtMost graph V W) (hfit : (V.length : Int) * W ≤ 2147483647)
    (hh : HeuristicFits graph V W endNode) (n : Nat) :
    loopState (aStarStep graph endNode) n (aStarInit graph start endNode)
      = loopState (aStarStepExact graph endNode) n (aStarInit graph start endNode) :=
  loopState_congr (aStarStep graph endNode) (aStarStepExact graph endNode)
    (AStarFits V W)
    (fun s s1 i h => (aStarStep_exact graph V W endNode hV hw h0 hW hfit hh s i).2 s1 h)
    (fun s i => (aStarStep_exact graph V W endNode hV hw h0 hW hfit hh s i).1)
    n (aStarInit graph start endNode) (aStarInit_fits graph V W start endNode h0 hs)

/-- On a finite graph with non-negative edge weights of at most `W`, where `V.length * W`
plus any value of the heuristic fits in an `int`, `runAStar` is the function with exact
sums. -/
theorem runAStar_exact (graph : IGraph) (V : List Node) (W : Int) (start endNode : Node)
    (hs : start ∈ V) (hV : ClosedUnder graph V) (hw : NonNegWeights graph V) (h0 : 0 ≤ W)
    (hW : WeightsAtMost graph V W) (hfit : (V.length : Int) * W ≤ 2147483647)
    (hh : HeuristicFits graph V W endNode) (fuel : Nat) :
    runAStar fuel graph start endNode = runAStarExact fuel graph start endNode := by
  unfold runAStar runAStarExact
  rw [aStarFinal_exact graph V W start endNode hs hV hw h0 hW hfit hh fuel]

/-- The default heuristic fits. -/
theorem heuristicFits_of_zero (graph : IGraph) (V : List Node) (W : Int) (endNode : Node)
    (hh : ∀ a b, graph.getHeuristic a b = 0) (hfit : (V.length : Int) * W ≤ 2147483647) :
    HeuristicFits graph V W endNode := by
  intro u _ e _
  rw [hh]
  omega

/-! ## The searches whatever the weights are: termination, and failure when the end
cannot be reached -/

/-- How the result of `runDijkstra` is assembled from its two loops. -/
theorem runDijkstra_eq_some (graph : IGraph) (start endNode : Node) (fuel : Nat)
    (r : AlgoResult) (h : runDijkstra fuel graph start endNode = some r) :
    ∃ s p, dijkstraFinal fuel graph start endNode = some s ∧
      reconstructPathInternal fuel s.parent start endNode = some p ∧
      r = { path := p, visitedCount := s.visitedCount,
            totalCost := if s.success then (s.dist endNode).getD 0 else 0,
            success := s.success } := by
  unfold runDijkstra at h
  cases h1 : dijkstraFinal fuel graph start endNode with
  | none => rw [h1] at h; cases h
  | some s =>
    rw [h1] at h
    simp only at h
    cases h2 : reconstructPathInternal fuel s.parent start endNode with
    | none => rw [h2] at h; cases h
    | some p =>
      rw [h2] at h
      simp only [Option.some.injEq] at h
      exact ⟨s, p, rfl, h2, h.symm⟩

theorem runDijkstra_of_parts (graph : IGraph) (start endNode : Node) (n1 n2 : Nat)
    (s : DijkstraState) (p : List Node)
    (h1 : dijkstraFinal n1 graph start endNode = some s)
    (h2 : reconstructPathInternal n2 s.parent start endNode = some p) :
    ∃ r, runDijkstra (max n1 n2) graph start endNode = some r := by
  unfold runDijkstra
  have a : dijkstraFinal (max n1 n2) graph start endNode = some s :=
    iterate_mono _ n1 _ s h1 _ (le_max_left _ _)
  have b := reconstructPathInternal_mono s.parent start endNode n2 (max n1 n2) p h2
    (le_max_right _ _)
  rw [a]
  simp only
  rw [b]
  exact ⟨_, rfl⟩

/-- How the result of `runAStar` is assembled from its two loops. -/
theorem runAStar_eq_some (graph : IGraph) (start endNode : Node) (fuel : Nat)
    (r : AlgoResult) (h : runAStar fuel graph start endNode = some r) :
    ∃ s p, aStarFinal fuel graph start endNode = some s ∧
      reconstructPathInternal fuel s.parent start endNode = some p ∧
      r = { path := p, visitedCount := s.visitedCount,
            totalCost := if s.success then (s.gScore endNode).getD 0 else 0,
            success := s.success } := by
  unfold runAStar at h
  cases h1 : aStarFinal fuel graph start endNode with
  | none => rw [h1] at h; cases h
  | some s =>
    rw [h1] at h
    simp only at h
    cases h2 : reconstructPathInternal fuel s.parent start endNode with
    | none => rw [h2] at h; cases h
    | some p =>
      rw [h2] at h
      simp only [Option.some.injEq] at h
      exact ⟨s, p, rfl, h2, h.symm⟩

theorem runAStar_of_parts (graph : IGraph) (start endNode : Node) (n1 n2 : Nat)
    (s : AStarState) (p : List Node)
    (h1 : aStarFinal n1 graph start endNode = some s)
    (h2 : reconstructPathInternal n2 s.parent start endNode = some p) :
    ∃ r, runAStar (max n1 n2) graph start endNode = some r := by
  unfold runAStar
  have a : aStarFinal (max n1 n2) graph start endNode = some s :=
    iterate_mono _ n1 _ s h1 _ (le_max_left _ _)
  have b := reconstructPathInternal_mono s.parent start endNode n2 (max n1 n2) p h2
    (le_max_right _ _)
  rw [a]
  simp only
  rw [b]
  exact ⟨_, rfl⟩

theorem reachable_edge (graph : IGraph) (s u : Node) (e : Edge)
    (h : Reachable graph s u) (he : e ∈ graph.getNeighbors u) : Reachable graph s e.target := by
  obtain ⟨es, hwalk, hend⟩ := h
  refine ⟨es ++ [e], ?_, ?_⟩
  · rw [isWalk_append, hwalk, hend]
    simp [isWalk, he]
  · rw [walkEnd_append]
    simp [walkEnd]

theorem shiftMap_insert (m : NodeMap Int) (x : Node) (nd : Int) :
    shiftMap (m.insert x nd) = (shiftMap m).insert x (nd + 2147483648) := by
  funext v
  unfold shiftMap NodeMap.insert
  by_cases hv : v = x
  · simp [hv]
  · simp [hv]

/-- An improvement of the entry of `x` by an `int` value is progress. -/
theorem progress_insert32 (V : List Node) (m : NodeMap Int) (pq pq2 : List (Int × Node))
    (x : Node) (nd : Int) (hx : x ∈ V) (hnd : IsInt32 nd)
    (hold : ∀ old, m x = some old → nd < old) :
    Progress V (shiftMap m) pq (shiftMap (m.insert x nd)) pq2 := by
  rw [shiftMap_insert]
  unfold IsInt32 at hnd
  refine Progress.insert V (shiftMap m) pq pq2 x (nd + 2147483648) hx (by omega) ?_
  intro old h
  unfold shiftMap at h
  cases hm : m x with
  | none => rw [hm] at h; cases h
  | some o =>
    rw [hm] at h
    simp only [Option.map_some', Option.some.injEq] at h
    have := hold o hm
    omega

/-- The edge loop of `runDijkstra`, whatever the weights are. -/
theorem dijkstraRelax_weak (graph : IGraph) (V : List Node) (start : Node)
    (hV : ClosedUnder graph V) (d : Int) (curr : Node) (hcV : curr ∈ V)
    (hcr : Reachable graph start curr) :
    ∀ (es : List Edge) (s : DijkstraState),
      (∀ e ∈ es, e ∈ graph.getNeighbors curr) →
      DijkstraWeak graph V start s →
      DijkstraWeak graph V start (dijkstraRelax d curr es s) ∧
        Progress V (shiftMap s.dist) s.pq (shiftMap (dijkstraRelax d curr es s).dist)
          (dijkstraRelax d curr es s).pq := by
  intro es
  induction es with
  | nil => intro s _ inv; exact ⟨inv, Progress.refl _ _ _⟩
  | cons e rest ih =>
    intro s hes inv
    have he : e ∈ graph.getNeighbors curr := hes e (List.mem_cons_self _ _)
    have hrest : ∀ e2 ∈ rest, e2 ∈ graph.getNeighbors curr :=
      fun e2 h2 => hes e2 (List.mem_cons_of_mem _ h2)
    have htV : e.target ∈ V := hV curr hcV e he
    have himp : DijkstraWeak graph V start
        { s with dist := s.dist.insert e.target (wrapInt32 (d + e.weight)),
                 parent := s.parent.insert e.target curr,
                 pq := (wrapInt32 (d + e.weight), e.target) :: s.pq } := by
      refine ⟨?_, ?_, ?_, inv.not_done⟩
      · intro v dv hv
        by_cases hvt : v = e.target
        · subst hvt
          simp only [NodeMap.insert, if_true, Option.some.injEq] at hv
          subst hv
          exact ⟨htV, reachable_edge graph start curr e hcr he, wrapInt32_isInt32 _⟩
        · exact inv.dom v dv (by simpa [NodeMap.insert, hvt] using hv)
      · intro p hp
        rcases List.mem_cons.mp hp with rfl | hp
        · exact ⟨wrapInt32 (d + e.weight), by simp [NodeMap.insert]⟩
        · obtain ⟨dp, hdp⟩ := inv.pq_dom p hp
          by_cases hpt : p.2 = e.target
          · exact ⟨wrapInt32 (d + e.weight), by simp [NodeMap.insert, hpt]⟩
          · exact ⟨dp, by simp [NodeMap.insert, hpt, hdp]⟩
      · intro v hv
        by_cases hvt : v = e.target
        · subst hvt
          simp [NodeMap.insert] at hv
        · have h1 : s.dist v = none := by simpa [NodeMap.insert, hvt] using hv
          simp only [NodeMap.insert, hvt, if_false]
          exact inv.parent_dom v h1
    simp only [dijkstraRelax]
    cases hm : s.dist e.target with
    | none =>
      simp only
      obtain ⟨i2, p2⟩ := ih _ hrest himp
      exact ⟨i2, (progress_insert32 V s.dist s.pq _ e.target _ htV (wrapInt32_isInt32 _)
        (fun old h => by rw [hm] at h; cases h)).trans p2⟩
    | some old =>
      simp only
      by_cases hlt : wrapInt32 (d + e.weight) < old
      · rw [if_pos hlt]
        obtain ⟨i2, p2⟩ := ih _ hrest himp
        exact ⟨i2, (progress_insert32 V s.dist s.pq _ e.target _ htV (wrapInt32_isInt32 _)
          (fun old2 h => by
            rw [hm] at h
            simp only [Option.some.injEq] at h
            omega)).trans p2⟩
      · rw [if_neg hlt]
        exact ih s hrest inv

theorem dijkstraInit_weak (graph : IGraph) (V : List Node) (start : Node) (hs : start ∈ V) :
    DijkstraWeak graph V start (dijkstraInit start) := by
  refine ⟨?_, ?_, ?_, rfl⟩
  · intro v d h
    unfold dijkstraInit NodeMap.insert NodeMap.empty at h
    simp only at h
    by_cases hv : v = start
    · subst hv
      simp only [if_true, Option.some.injEq] at h
      subst h
      exact ⟨hs, reachable_self graph v, by decide⟩
    · simp [hv] at h
  · intro p hp
    simp only [dijkstraInit, List.mem_singleton] at hp
    subst hp
    exact ⟨0, by simp [dijkstraInit, NodeMap.insert]⟩
  · intro v h
    unfold dijkstraInit NodeMap.insert NodeMap.empty at h ⊢
    simp only at h ⊢
    by_cases hv : v = start
    · simp [hv] at h
    · simp [hv]

/-- An iteration of the loop of `runDijkstra`, whatever the weights are: the measure
decreases. -/
theorem dijkstraStep_weak (graph : IGraph) (V : List Node) (start endNode : Node)
    (hV : ClosedUnder graph V) (s s1 : DijkstraState)
    (inv : DijkstraWeak graph V start s)
    (hstep : dijkstraStep graph endNode s = Sum.inl s1) :
    DijkstraWeak graph V start s1 ∧
      Lex3 (searchMeasure V (shiftMap s1.dist) s1.pq) (searchMeasure V (shiftMap s.dist) s.pq) := by
  unfold dijkstraStep at hstep
  cases htop : pqTop s.pq with
  | none => rw [htop] at hstep; cases hstep
  | some top =>
    obtain ⟨d, curr⟩ := top
    rw [htop] at hstep
    simp only at hstep
    have hmem := pqTop_mem s.pq (d, curr) htop
    have hlen := length_erase_top s.pq (d, curr) htop
    obtain ⟨dc, hdc⟩ := inv.pq_dom (d, curr) hmem
    simp only at hdc
    obtain ⟨hcV, hcr, _⟩ := inv.dom curr dc hdc
    have inv1 : DijkstraWeak graph V start { s with pq := s.pq.erase (d, curr) } :=
      ⟨inv.dom, fun p hp => inv.pq_dom p (List.mem_of_mem_erase hp), inv.parent_dom,
        inv.not_done⟩
    by_cases hstale : dijkstraStale s.dist d curr = true
    · rw [if_pos hstale] at hstep
      simp only [Sum.inl.injEq] at hstep
      subst hstep
      exact ⟨inv1, Progress.lex3 (Progress.refl V (shiftMap s.dist) (s.pq.erase (d, curr)))
        (by omega)⟩
    · rw [if_neg hstale] at hstep
      by_cases hend : curr = endNode
      · rw [if_pos hend] at hstep; cases hstep
      · rw [if_neg hend] at hstep
        simp only [Sum.inl.injEq] at hstep
        obtain ⟨i2, p2⟩ := dijkstraRelax_weak graph V start hV d curr hcV hcr
          (graph.getNeighbors curr)
          { s with pq := s.pq.erase (d, curr), visitedCount := s.visitedCount + 1,
                   visited := s.visited ++ [curr] } (fun e h => h)
          ⟨inv1.dom, inv1.pq_dom, inv1.parent_dom, inv1.not_done⟩
        rw [hstep] at i2 p2
        exact ⟨i2, Progress.lex3 p2 (by simp only; omega)⟩

/-- The loop of `runDijkstra` ends whatever the weights are, and when the end node cannot
be reached it ends without success and without a parent entry for the end node. -/
theorem dijkstraFinal_weak (graph : IGraph) (V : List Node) (start endNode : Node)
    (hs : start ∈ V) (hV : ClosedUnder graph V) :
    (∃ (n : Nat) (r : DijkstraState), dijkstraFinal n graph start endNode = some r) ∧
    ∀ (n : Nat) (r : DijkstraState), dijkstraFinal n graph start endNode = some r →
      ¬ Reachable graph start endNode → r.success = false ∧ r.parent endNode = none := by
  constructor
  · exact iterate_terminates (dijkstraStep graph endNode) (DijkstraWeak graph V start)
      (fun s => searchMeasure V (shiftMap s.dist) s.pq)
      (fun s s1 i h => dijkstraStep_weak graph V start endNode hV s s1 i h)
      (dijkstraInit start) (dijkstraInit_weak graph V start hs)
  · intro n r h hunr
    obtain ⟨sl, inv, hexit⟩ := iterate_invariant (dijkstraStep graph endNode)
      (DijkstraWeak graph V start)
      (fun s s1 i hst => (dijkstraStep_weak graph V start endNode hV s s1 i hst).1)
      n (dijkstraInit start) r (dijkstraInit_weak graph V start hs) h
    have hnone : sl.dist endNode = none := by
      cases hd : sl.dist endNode with
      | none => rfl
      | some d => exact absurd (inv.dom endNode d hd).2.1 hunr
    unfold dijkstraStep at hexit
    cases htop : pqTop sl.pq with
    | none =>
      rw [htop] at hexit
      simp only [Sum.inr.injEq] at hexit
      subst hexit
      exact ⟨inv.not_done, inv.parent_dom endNode hnone⟩
    | some top =>
      obtain ⟨d, curr⟩ := top
      rw [htop] at hexit
      simp only at hexit
      obtain ⟨dc, hdc⟩ := inv.pq_dom (d, curr) (pqTop_mem _ _ htop)
      simp only at hdc
      split at hexit
      · cases hexit
      · split at hexit
        · rename_i hce
          rw [hce, hnone] at hdc
          cases hdc
        · cases hexit

/-- `runDijkstra` returns when the end node cannot be reached, whatever the weights are,
with success false, an empty path and total cost 0. -/
theorem runDijkstra_unreachable (graph : IGraph) (V : List Node) (start endNode : Node)
    (hs : start ∈ V) (hV : ClosedUnder graph V) (hunr : ¬ Reachable graph start endNode) :
    (∃ (fuel : Nat) (r : AlgoResult), runDijkstra fuel graph start endNode = some r) ∧
    ∀ (fuel : Nat) (r : AlgoResult), runDijkstra fuel graph start endNode = some r →
      r.success = false ∧ r.path = [] ∧ r.totalCost = 0 := by
  obtain ⟨⟨n, s, hfin⟩, hall⟩ := dijkstraFinal_weak graph V start endNode hs hV
  have hne : endNode ≠ start := fun h => hunr (h ▸ reachable_self graph start)
  constructor
  · obtain ⟨_, hpar⟩ := hall n s hfin hunr
    exact ⟨_, runDijkstra_of_parts graph start endNode n 1 s []
      hfin (reconstruct_no_parent s.parent start endNode hpar hne 1 (le_refl 1))⟩
  · intro fuel r hr
    obtain ⟨s2, p, hfin2, hp, rfl⟩ := runDijkstra_eq_some graph start endNode fuel r hr
    obtain ⟨hsucc, hpar⟩ := hall fuel s2 hfin2 hunr
    have hfuel : 1 ≤ fuel := by
      cases fuel with
      | zero => simp [dijkstraFinal, iterate] at hfin2
      | succ k => omega
    have hp2 := reconstruct_no_parent s2.parent start endNode hpar hne fuel hfuel
    rw [hp2] at hp
    simp only [Option.some.injEq] at hp
    subst hp
    simp [hsucc]

/-- The edge loop of `runAStar`, whatever the weights and the heuristic are. -/
theorem aStarRelax_weak (graph : IGraph) (V : List Node) (start endNode : Node)
    (hV : ClosedUnder graph V) (curr : Node) (hcV : curr ∈ V)
    (hcr : Reachable graph start curr) :
    ∀ (es : List Edge) (s : AStarState),
      (∀ e ∈ es, e ∈ graph.getNeighbors curr) →
      AStarWeak graph V start s → (∃ gc, s.gScore curr = some gc) →
      AStarWeak graph V start (aStarRelax graph endNode curr es s) ∧
        Progress V (shiftMap s.gScore) s.pq (shiftMap (aStarRelax graph endNode curr es s).gScore)
          (aStarRelax graph endNode curr es s).pq := by
  intro es
  induction es with
  | nil => intro s _ inv _; exact ⟨inv, Progress.refl _ _ _⟩
  | cons e rest ih =>
    intro s hes inv hcurr
    obtain ⟨gc, hgc⟩ := hcurr
    have he : e ∈ graph.getNeighbors curr := hes e (List.mem_cons_self _ _)
    have hrest : ∀ e2 ∈ rest, e2 ∈ graph.getNeighbors curr :=
      fun e2 h2 => hes e2 (List.mem_cons_of_mem _ h2)
    have htV : e.target ∈ V := hV curr hcV e he
    have htouch : s.gScore.touch curr = s.gScore := touch_of_some s.gScore curr gc hgc
    have himp : ∀ (nd f : Int), IsInt32 nd → AStarWeak graph V start
        { s with parent := s.parent.insert e.target curr,
                 gScore := s.gScore.insert e.target nd,
                 pq := (f, e.target) :: s.pq } ∧
        ∃ gc2, (s.gScore.insert e.target nd) curr = some gc2 := by
      intro nd f hnd
      refine ⟨⟨?_, ?_, ?_, inv.not_done⟩, ?_⟩
      · intro v dv hv
        by_cases hvt : v = e.target
        · subst hvt
          simp only [NodeMap.insert, if_true, Option.some.injEq] at hv
          subst hv
          exact ⟨htV, reachable_edge graph start curr e hcr he, hnd⟩
        · exact inv.dom v dv (by simpa [NodeMap.insert, hvt] using hv)
      · intro p hp
        rcases List.mem_cons.mp hp with rfl | hp
        · exact ⟨nd, by simp [NodeMap.insert]⟩
        · obtain ⟨dp, hdp⟩ := inv.pq_dom p hp
          by_cases hpt : p.2 = e.target
          · exact ⟨nd, by simp [NodeMap.insert, hpt]⟩
          · exact ⟨dp, by simp [NodeMap.insert, hpt, hdp]⟩
      · intro v hv
        by_cases hvt : v = e.target
        · subst hvt
          simp [NodeMap.insert] at hv
        · have h1 : s.gScore v = none := by simpa [NodeMap.insert, hvt] using hv
          simp only [NodeMap.insert, hvt, if_false]
          exact inv.parent_dom v h1
      · by_cases hct : curr = e.target
        · exact ⟨nd, by simp [NodeMap.insert, hct]⟩
        · exact ⟨gc, by simp [NodeMap.insert, hct, hgc]⟩
    simp only [aStarRelax, htouch]
    cases hm : s.gScore e.target with
    | none =>
      simp only
      obtain ⟨h1, h2⟩ := himp (wrapInt32 ((s.gScore curr).getD 0 + e.weight))
        (wrapInt32 (wrapInt32 ((s.gScore curr).getD 0 + e.weight)
          + graph.getHeuristic e.target endNode)) (wrapInt32_isInt32 _)
      obtain ⟨i2, p2⟩ := ih _ hrest h1 h2
      exact ⟨i2, (progress_insert32 V s.gScore s.pq _ e.target _ htV (wrapInt32_isInt32 _)
        (fun old h => by rw [hm] at h; cases h)).trans p2⟩
    | some old =>
      simp only
      by_cases hlt : wrapInt32 ((s.gScore curr).getD 0 + e.weight) < old
      · rw [if_pos hlt]
        obtain ⟨h1, h2⟩ := himp (wrapInt32 ((s.gScore curr).getD 0 + e.weight))
          (wrapInt32 (wrapInt32 ((s.gScore curr).getD 0 + e.weight)
            + graph.getHeuristic e.target endNode)) (wrapInt32_isInt32 _)
        obtain ⟨i2, p2⟩ := ih _ hrest h1 h2
        exact ⟨i2, (progress_insert32 V s.gScore s.pq _ e.target _ htV (wrapInt32_isInt32 _)
          (fun old2 h => by
            rw [hm] at h
            simp only [Option.some.injEq] at h
            omega)).trans p2⟩
      · rw [if_neg hlt]
        exact ih s hrest inv ⟨gc, hgc⟩

theorem aStarInit_weak (graph : IGraph) (V : List Node) (start endNode : Node)
    (hs : start ∈ V) : AStarWeak graph V start (aStarInit graph start endNode) := by
  have h := dijkstraInit_weak graph V start hs
  refine ⟨h.dom, ?_, h.parent_dom, rfl⟩
  intro p hp
  simp only [aStarInit, List.mem_singleton] at hp
  subst hp
  exact ⟨0, by simp [aStarInit, NodeMap.insert]⟩

/-- An iteration of the loop of `runAStar`, whatever the weights and the heuristic are:
the measure decreases. -/
theorem aStarStep_weak (graph : IGraph) (V : List Node) (start endNode : Node)
    (hV : ClosedUnder graph V) (s s1 : AStarState)
    (inv : AStarWeak graph V start s)
    (hstep : aStarStep graph endNode s = Sum.inl s1) :
    AStarWeak graph V start s1 ∧
      Lex3 (searchMeasure V (shiftMap s1.gScore) s1.pq)
        (searchMeasure V (shiftMap s.gScore) s.pq) := by
  unfold aStarStep at hstep
  cases htop : pqTop s.pq with
  | none => rw [htop] at hstep; cases hstep
  | some top =>
    obtain ⟨f, curr⟩ := top
    rw [htop] at hstep
    simp only at hstep
    have hmem := pqTop_mem s.pq (f, curr) htop
    have hlen := length_erase_top s.pq (f, curr) htop
    obtain ⟨gc, hgc⟩ := inv.pq_dom (f, curr) hmem
    simp only at hgc
    obtain ⟨hcV, hcr, _⟩ := inv.dom curr gc hgc
    by_cases hend : curr = endNode
    · rw [if_pos hend] at hstep; cases hstep
    · rw [if_neg hend] at hstep
      simp only [Sum.inl.injEq] at hstep
      obtain ⟨i2, p2⟩ := aStarRelax_weak graph V start endNode hV curr hcV hcr
        (graph.getNeighbors curr)
        { s with pq := s.pq.erase (f, curr), visitedCount := s.visitedCount + 1,
                 visited := s.visited ++ [curr] } (fun e h => h)
        ⟨inv.dom, fun p hp => inv.pq_dom p (List.mem_of_mem_erase hp), inv.parent_dom,
          inv.not_done⟩ ⟨gc, hgc⟩
      rw [hstep] at i2 p2
      exact ⟨i2, Progress.lex3 p2 (by simp only; omega)⟩

/-- The loop of `runAStar` ends whatever the weights and the heuristic are, and when the
end node cannot be reached it ends without success and without a parent entry for the
end node. -/
theorem aStarFinal_weak (graph : IGraph) (V : List Node) (start endNode : Node)
    (hs : start ∈ V) (hV : ClosedUnder graph V) :
    (∃ (n : Nat) (r : AStarState), aStarFinal n graph start endNode = some r) ∧
    ∀ (n : Nat) (r : AStarState), aStarFinal n graph start endNode = some r →
      ¬ Reachable graph start endNode → r.success = false ∧ r.parent endNode = none := by
  constructor
  · exact iterate_terminates (aStarStep graph endNode) (AStarWeak graph V start)
      (fun s => searchMeasure V (shiftMap s.gScore) s.pq)
      (fun s s1 i h => aStarStep_weak graph V start endNode hV s s1 i h)
      (aStarInit graph start endNode) (aStarInit_weak graph V start endNode hs)
  · intro n r h hunr
    obtain ⟨sl, inv, hexit⟩ := iterate_invariant (aStarStep graph endNode)
      (AStarWeak graph V start)
      (fun s s1 i hst => (aStarStep_weak graph V start endNode hV s s1 i hst).1)
      n (aStarInit graph start endNode) r (aStarInit_weak graph V start endNode hs) h
    have hnone : sl.gScore endNode = none := by
      cases hd : sl.gScore endNode with
      | none => rfl
      | some d => exact absurd (inv.dom endNode d hd).2.1 hunr
    unfold aStarStep at hexit
    cases htop : pqTop sl.pq with
    | none =>
      rw [htop] at hexit
      simp only [Sum.inr.injEq] at hexit
      subst hexit
      exact ⟨inv.not_done, inv.parent_dom endNode hnone⟩
    | some top =>
      obtain ⟨f, curr⟩ := top
      rw [htop] at hexit
      simp only at hexit
      obtain ⟨gc, hgc⟩ := inv.pq_dom (f, curr) (pqTop_mem _ _ htop)
      simp only at hgc
      split at hexit
      · rename_i hce
        rw [hce, hnone] at hgc
        cases hgc
      · cases hexit

/-- `runAStar` returns when the end node cannot be reached, whatever the weights and the
heuristic are, with success false, an empty path and total cost 0. -/
theorem runAStar_unreachable (graph : IGraph) (V : List Node) (start endNode : Node)
    (hs : start ∈ V) (hV : ClosedUnder graph V) (hunr : ¬ Reachable graph start endNode) :
    (∃ (fuel : Nat) (r : AlgoResult), runAStar fuel graph start endNode = some r) ∧
    ∀ (fuel : Nat) (r : AlgoResult), runAStar fuel graph start endNode = some r →
      r.success = false ∧ r.path = [] ∧ r.totalCost = 0 := by
  obtain ⟨⟨n, s, hfin⟩, hall⟩ := aStarFinal_weak graph V start endNode hs hV
  have hne : endNode ≠ start := fun h => hunr (h ▸ reachable_self graph start)
  constructor
  · obtain ⟨_, hpar⟩ := hall n s hfin hunr
    exact ⟨_, runAStar_of_parts graph start endNode n 1 s []
      hfin (reconstruct_no_parent s.parent start endNode hpar hne 1 (le_refl 1))⟩
  · intro fuel r hr
    obtain ⟨s2, p, hfin2, hp, rfl⟩ := runAStar_eq_some graph start endNode fuel r hr
    obtain ⟨hsucc, hpar⟩ := hall fuel s2 hfin2 hunr
    have hfuel : 1 ≤ fuel := by
      cases fuel with
      | zero => simp [aStarFinal, iterate] at hfin2
      | succ k => omega
    have hp2 := reconstruct_no_parent s2.parent start endNode hpar hne fuel hfuel
    rw [hp2] at hp
    simp only [Option.some.injEq] at hp
    subst hp
    simp [hsucc]

/-! ## Runs that do not return -/

/-- A loop that cannot leave from the states of an invariant never returns. -/
theorem iterate_never {S R : Type} (step : S → S ⊕ R) (I : S → Prop)
    (h : ∀ s, I s → ∃ s1, step s = Sum.inl s1 ∧ I s1) :
    ∀ (n : Nat) (s : S), I s → iterate step n s = none := by
  intro n
  induction n with
  | zero => intro s _; rfl
  | succ k ih =>
    intro s hs
    obtain ⟨s1, h1, h2⟩ := h s hs
    simp only [iterate, h1]
    exact ih s1 h2

/-- The backward walk of `reconstructPathInternal` never ends when it starts in a set of
nodes, none of them the start node or −1, each of which has its parent in the set. -/
theorem reconstruct_never (parent : NodeMap Node) (start endNode : Node) (C : List Node)
    (hend : endNode ∈ C)
    (hC : ∀ c ∈ C, c ≠ -1 ∧ c ≠ start ∧ ∃ p ∈ C, parent c = some p) (fuel : Nat) :
    reconstructPathInternal fuel parent start endNode = none := by
  unfold reconstructPathInternal
  rw [iterate_never (reconstructStep parent start) (fun s => s.1 ∈ C) ?_ fuel (endNode, []) hend]
  intro s hs
  obtain ⟨h1, h2, p, hp, hpar⟩ := hC s.1 hs
  refine ⟨(p, s.2 ++ [s.1]), ?_, hp⟩
  simp only [reconstructStep, h1, h2, if_false, hpar]

/-- `runDijkstra` does not return when the parent map left by its loop holds such a set
around the end node. -/
theorem runDijkstra_never (graph : IGraph) (start endNode : Node) (n : Nat) (C : List Node)
    (hend : endNode ∈ C)
    (hC : (dijkstraFinal n graph start endNode).map (fun s =>
      decide (∀ c ∈ C, c ≠ -1 ∧ c ≠ start ∧ ∃ p ∈ C, s.parent c = some p)) = some true)
    (fuel : Nat) : runDijkstra fuel graph start endNode = none := by
  cases hr : runDijkstra fuel graph start endNode with
  | none => rfl
  | some r =>
    exfalso
    obtain ⟨s, p, hfin, hp, _⟩ := runDijkstra_eq_some graph start endNode fuel r hr
    cases h0 : dijkstraFinal n graph start endNode with
    | none => rw [h0] at hC; cases hC
    | some s0 =>
      rw [h0] at hC
      simp only [Option.map_some', Option.some.injEq, decide_eq_true_eq] at hC
      have hs : s = s0 := iterate_unique _ fuel n _ s s0 hfin h0
      subst hs
      rw [reconstruct_never s.parent start endNode C hend hC fuel] at hp
      cases hp

/-- `runAStar` does not return when the parent map left by its loop holds such a set
around the end node. -/
theorem runAStar_never (graph : IGraph) (start endNode : Node) (n : Nat) (C : List Node)
    (hend : endNode ∈ C)
    (hC : (aStarFinal n graph start endNode).map (fun s =>
      decide (∀ c ∈ C, c ≠ -1 ∧ c ≠ start ∧ ∃ p ∈ C, s.parent c = some p)) = some true)
    (fuel : Nat) : runAStar fuel graph start endNode = none := by
  cases hr : runAStar fuel graph start endNode with
  | none => rfl
  | some r =>
    exfalso
    obtain ⟨s, p, hfin, hp, _⟩ := runAStar_eq_some graph start endNode fuel r hr
    cases h0 : aStarFinal n graph start endNode with
    | none => rw [h0] at hC; cases hC
    | some s0 =>
      rw [h0] at hC
      simp only [Option.map_some', Option.some.injEq, decide_eq_true_eq] at hC
      have hs : s = s0 := iterate_unique _ fuel n _ s s0 hfin h0
      subst hs
      rw [reconstruct_never s.parent start endNode C hend hC fuel] at hp
      cases hp

/-! ## The loop of `runBFS` -/

theorem hop_insert (dep : NodeMap Int) (x : Node) (nd : Int) (hx : dep x = none)
    (t : Node) (B : Int) (h : ∃ dx, dep t = some dx ∧ dx ≤ B) :
    ∃ dx, (dep.insert x nd) t = some dx ∧ dx ≤ B := by
  obtain ⟨dx, h1, h2⟩ := h
  have ht : t ≠ x := fun h => by rw [h, hx] at h1; cases h1
  exact ⟨dx, by simp [NodeMap.insert, ht, h1], h2⟩

/-- Discovering the target of an edge keeps the edge-loop invariant. -/
theorem bfs_discover (graph : IGraph) (V : List Node) (start endNode : Node)
    (hV : ClosedUnder graph V) (dc : Int) (curr : Node) (done : List Edge)
    (dep : NodeMap Int) (s : BFSState) (e : Edge) (he : e ∈ graph.getNeighbors curr)
    (inv : BFSLoopInv graph V start endNode dc curr done dep s)
    (hx : s.parent e.target = none) :
    BFSLoopInv graph V start endNode dc curr (e :: done) (dep.insert e.target (dc + 1))
      { s with parent := s.parent.insert e.target curr, q := s.q ++ [e.target] } ∧
    absentCount V (s.parent.insert e.target curr) < absentCount V s.parent := by
  have hdx : dep e.target = none := (inv.core.dom_parent e.target).mpr hx
  have hcurrV : curr ∈ V := inv.core.dom_V curr dc inv.curr_dep
  have hxV : e.target ∈ V := hV curr hcurrV e he
  have hxcurr : e.target ≠ curr := by
    intro h
    rw [h, inv.curr_dep] at hdx
    cases hdx
  have hxstart : e.target ≠ start := by
    intro h
    rw [h, inv.core.start_dep] at hdx
    cases hdx
  have hother : ∀ v d, dep v = some d → v ≠ e.target := by
    intro v d hv h
    rw [h, hdx] at hv
    cases hv
  obtain ⟨lc, hlc⟩ := inv.core.chain curr dc inv.curr_dep
  have hchain : ∀ v l, ParentChain graph (fun _ => 1) start s.parent dep v l →
      ∃ l2, ParentChain graph (fun _ => 1) start (s.parent.insert e.target curr)
        (dep.insert e.target (dc + 1)) v l2 :=
    ParentChain.update e.target curr e (dc + 1) dc lc
      hxstart he rfl inv.curr_dep (by simp) (le_refl _)
      (by intro old h; rw [hdx] at h; cases h) hlc
  refine ⟨⟨⟨?_, ?_, ?_, ?_, ?_, ?_, ?_, ?_, ?_⟩, ?_, ?_, ?_, ?_, ?_⟩, ?_⟩
  · simp [NodeMap.insert, Ne.symm hxstart, inv.core.start_dep]
  · intro v dv hv
    by_cases hvx : v = e.target
    · rw [hvx]; exact hxV
    · simp only [NodeMap.insert, hvx, if_false] at hv
      exact inv.core.dom_V v dv hv
  · intro v dv hv
    by_cases hvx : v = e.target
    · simp only [NodeMap.insert, hvx, if_true, Option.some.injEq] at hv
      obtain ⟨es, h1, h2, h3⟩ := inv.core.achieved curr dc inv.curr_dep
      refine ⟨es ++ [e], ?_, ?_, ?_⟩
      · rw [isWalk_append, h1, h2]
        simp [isWalk, he]
      · rw [walkEnd_append, hvx]
        simp [walkEnd]
      · simp only [List.length_append, List.length_singleton, Nat.cast_add, Nat.cast_one]
        omega
    · simp only [NodeMap.insert, hvx, if_false] at hv
      exact inv.core.achieved v dv hv
  · intro v
    by_cases hvx : v = e.target
    · simp [NodeMap.insert, hvx]
    · simp only [NodeMap.insert, hvx, if_false]
      exact inv.core.dom_parent v
  · intro v hv
    simp only [List.mem_append, List.mem_singleton] at hv
    rcases hv with hv | hv
    · obtain ⟨d, hd⟩ := inv.core.q_dom v hv
      exact ⟨d, by simp [NodeMap.insert, hother v d hd, hd]⟩
    · exact ⟨dc + 1, by simp [NodeMap.insert, hv]⟩
  · intro de hde
    by_cases hex : endNode = e.target
    · simp [hex]
    · simp only [NodeMap.insert, hex, if_false] at hde
      simp [inv.core.end_queued de hde]
  · intro v dv hv
    by_cases hvx : v = e.target
    · obtain ⟨l2, hl2⟩ := hchain curr lc hlc
      rw [hvx]
      exact ⟨l2 ++ [e.target], ParentChain.step curr e.target l2 e dc (dc + 1) hxstart
        (by simp [NodeMap.insert]) he rfl
        (by simp [NodeMap.insert, Ne.symm hxcurr, inv.curr_dep]) (by simp [NodeMap.insert])
        (by simp) (le_refl _) hl2⟩
    · simp only [NodeMap.insert, hvx, if_false] at hv
      obtain ⟨l, hl⟩ := inv.core.chain v dv hv
      exact hchain v l hl
  · rw [List.pairwise_append]
    refine ⟨?_, List.pairwise_singleton _ _, ?_⟩
    · refine inv.core.sorted.imp_of_mem ?_
      intro a b ha hb hab da db h1 h2
      obtain ⟨da0, hda0⟩ := inv.core.q_dom a ha
      obtain ⟨db0, hdb0⟩ := inv.core.q_dom b hb
      simp only [NodeMap.insert, hother a da0 hda0, hother b db0 hdb0, if_false] at h1 h2
      exact hab da db h1 h2
    · intro a ha b hb da db h1 h2
      simp only [List.mem_singleton] at hb
      subst hb
      obtain ⟨da0, hda0⟩ := inv.core.q_dom a ha
      simp only [NodeMap.insert, hother a da0 hda0, if_false, if_true, Option.some.injEq] at h1 h2
      have := inv.upper a da h1
      omega
  · exact inv.core.not_done
  · simp [NodeMap.insert, Ne.symm hxcurr, inv.curr_dep]
  · intro v dv hv
    by_cases hvx : v = e.target
    · simp only [NodeMap.insert, hvx, if_true, Option.some.injEq] at hv
      omega
    · simp only [NodeMap.insert, hvx, if_false] at hv
      exact inv.upper v dv hv
  · intro y hy dy hdy
    simp only [List.mem_append, List.mem_singleton] at hy
    by_cases hyx : y = e.target
    · simp only [NodeMap.insert, hyx, if_true, Option.some.injEq] at hdy
      omega
    · simp only [NodeMap.insert, hyx, if_false] at hdy
      rcases hy with hy | hy
      · exact inv.lower y hy dy hdy
      · exact absurd hy hyx
  · intro v dv hv
    by_cases hvx : v = e.target
    · right; left
      simp [hvx]
    · simp only [NodeMap.insert, hvx, if_false] at hv
      rcases inv.settled v dv hv with h | h | h
      · exact Or.inl h
      · exact Or.inr (Or.inl (by simp [h]))
      · exact Or.inr (Or.inr (fun e2 he2 => hop_insert dep e.target _ hdx _ _ (h e2 he2)))
  · intro e2 he2
    simp only [List.mem_cons] at he2
    rcases he2 with he2 | he2
    · subst he2
      exact ⟨dc + 1, by simp [NodeMap.insert], le_refl _⟩
    · exact hop_insert dep e.target _ hdx _ _ (inv.curr_done e2 he2)
  · exact absentCount_insert_lt V s.parent e.target curr hxV hx

/-- The edge loop of `runBFS` keeps its invariant; it discovers a node or leaves the
queue as it is. -/
theorem bfsEnqueue_spec (graph : IGraph) (V : List Node) (start endNode : Node)
    (hV : ClosedUnder graph V) (dc : Int) (curr : Node) :
    ∀ (rest done : List Edge) (dep : NodeMap Int) (s : BFSState),
      (∀ e ∈ rest, e ∈ graph.getNeighbors curr) →
      BFSLoopInv graph V start endNode dc curr done dep s →
      (∃ dep2, BFSLoopInv graph V start endNode dc curr (rest.reverse ++ done) dep2
          (bfsEnqueue curr rest s)) ∧
        (absentCount V (bfsEnqueue curr rest s).parent < absentCount V s.parent ∨
          (absentCount V (bfsEnqueue curr rest s).parent = absentCount V s.parent ∧
            (bfsEnqueue curr rest s).q = s.q)) := by
  intro rest
  induction rest with
  | nil =>
    intro done dep s _ inv
    exact ⟨⟨dep, by simpa [bfsEnqueue] using inv⟩, Or.inr ⟨rfl, rfl⟩⟩
  | cons e rest ih =>
    intro done dep s hrest inv
    have he : e ∈ graph.getNeighbors curr := hrest e (by simp)
    have hrest2 : ∀ e2 ∈ rest, e2 ∈ graph.getNeighbors curr := fun e2 h => hrest e2 (by simp [h])
    have elist : (e :: rest).reverse ++ done = rest.reverse ++ (e :: done) := by simp
    rw [elist]
    simp only [bfsEnqueue]
    cases hx : s.parent e.target with
    | none =>
      simp only []
      obtain ⟨i1, p1⟩ := bfs_discover graph V start endNode hV dc curr done dep s e he inv hx
      obtain ⟨i2, p2⟩ := ih (e :: done) _ _ hrest2 i1
      refine ⟨i2, Or.inl ?_⟩
      simp only at p2
      rcases p2 with p2 | ⟨p2, _⟩ <;> omega
    | some par =>
      simp only []
      have hdep : ∃ dx, dep e.target = some dx := by
        cases h : dep e.target with
        | none =>
          have := (inv.core.dom_parent e.target).mp h
          rw [hx] at this
          cases this
        | some dx => exact ⟨dx, rfl⟩
      obtain ⟨dx, hdx⟩ := hdep
      have keep : BFSLoopInv graph V start endNode dc curr (e :: done) dep s := by
        refine ⟨inv.core, inv.curr_dep, inv.upper, inv.lower, inv.settled, ?_⟩
        intro e2 he2
        simp only [List.mem_cons] at he2
        rcases he2 with he2 | he2
        · subst he2
          exact ⟨dx, hdx, inv.upper _ dx hdx⟩
        · exact inv.curr_done e2 he2
      exact ih (e :: done) dep s hrest2 keep

theorem bfsInit_inv (graph : IGraph) (V : List Node) (start endNode : Node)
    (hs : start ∈ V) : BFSInv graph V start endNode (bfsInit start) := by
  refine ⟨NodeMap.empty.insert start 0, ?_⟩
  have hdep : ∀ v d, (NodeMap.empty.insert start (0 : Int)) v = some d → v = start ∧ d = 0 := by
    intro v d h
    unfold NodeMap.insert NodeMap.empty at h
    split at h
    · rename_i hv
      simp only [Option.some.injEq] at h
      exact ⟨hv, h.symm⟩
    · cases h
  have hstart : (NodeMap.empty.insert start (0 : Int)) start = some 0 := by
    simp [NodeMap.insert]
  refine ⟨⟨hstart, ?_, ?_, ?_, ?_, ?_, ?_, ?_, rfl⟩, ?_, ?_⟩
  · intro v d h
    rw [(hdep v d h).1]; exact hs
  · intro v d h
    obtain ⟨rfl, rfl⟩ := hdep v d h
    exact ⟨[], rfl, rfl, rfl⟩
  · intro v
    unfold bfsInit NodeMap.insert NodeMap.empty
    by_cases hv : v = start <;> simp [hv]
  · intro v hv
    simp only [bfsInit, List.mem_singleton] at hv
    exact ⟨0, by rw [hv]; exact hstart⟩
  · intro d h
    obtain ⟨h1, rfl⟩ := hdep endNode d h
    simp [bfsInit, h1]
  · intro v d h
    obtain ⟨rfl, rfl⟩ := hdep v d h
    exact ⟨[v], ParentChain.base 0 hstart⟩
  · simp [bfsInit]
  · intro v dv hv y hy dy hdy
    obtain ⟨_, rfl⟩ := hdep v dv hv
    obtain ⟨_, rfl⟩ := hdep y dy hdy
    decide
  · intro v d h
    obtain ⟨rfl, rfl⟩ := hdep v d h
    left
    simp [bfsInit]

/-- One iteration of the loop of `runBFS` keeps the invariant and decreases the measure. -/
theorem bfsStep_inv (graph : IGraph) (V : List Node) (start endNode : Node)
    (hV : ClosedUnder graph V) (s s1 : BFSState)
    (inv : BFSInv graph V start endNode s)
    (hstep : bfsStep graph endNode s = Sum.inl s1) :
    BFSInv graph V start endNode s1 ∧ Lex3 (bfsMeasure V s1) (bfsMeasure V s) := by
  obtain ⟨dep, inv⟩ := inv
  unfold bfsStep at hstep
  cases hq : s.q with
  | nil => rw [hq] at hstep; cases hstep
  | cons curr rest =>
    rw [hq] at hstep
    simp only at hstep
    by_cases hend : curr = endNode
    · rw [if_pos hend] at hstep; cases hstep
    · rw [if_neg hend] at hstep
      simp only [Sum.inl.injEq] at hstep
      obtain ⟨dc, hdc⟩ := inv.core.q_dom curr (by simp [hq])
      have hsorted := inv.core.sorted
      rw [hq, List.pairwise_cons] at hsorted
      have inv0 : BFSLoopInv graph V start endNode dc curr [] dep
          { s with q := rest, visitedCount := s.visitedCount + 1,
                   visited := s.visited ++ [curr] } := by
        refine ⟨⟨inv.core.start_dep, inv.core.dom_V, inv.core.achieved, inv.core.dom_parent,
          ?_, ?_, inv.core.chain, hsorted.2, inv.core.not_done⟩, hdc, ?_, ?_, ?_, ?_⟩
        · intro v hv
          exact inv.core.q_dom v (by simp [hq, hv])
        · intro de hde
          have := inv.core.end_queued de hde
          rw [hq] at this
          rcases List.mem_cons.mp this with h | h
          · exact absurd h.symm hend
          · exact h
        · intro v dv hv
          exact inv.spread v dv hv curr (by simp [hq]) dc hdc
        · intro y hy dy hdy
          exact hsorted.1 y hy dc dy hdc hdy
        · intro v dv hv
          rcases inv.settled v dv hv with h | h
          · rw [hq] at h
            rcases List.mem_cons.mp h with h | h
            · exact Or.inl h
            · exact Or.inr (Or.inl h)
          · exact Or.inr (Or.inr h)
        · intro e he; simp at he
      obtain ⟨⟨dep2, i2⟩, p2⟩ := bfsEnqueue_spec graph V start endNode hV dc curr
        (graph.getNeighbors curr) [] dep _ (fun e h => h) inv0
      rw [hstep] at i2 p2
      refine ⟨⟨dep2, i2.core, ?_, ?_⟩, ?_⟩
      · intro v dv hv y hy dy hdy
        have h1 := i2.upper v dv hv
        have h2 := i2.lower y hy dy hdy
        omega
      · intro v dv hv
        rcases i2.settled v dv hv with h | h | h
        · subst h
          right
          rw [i2.curr_dep] at hv
          simp only [Option.some.injEq] at hv
          subst hv
          intro e he
          exact i2.curr_done e (by simp [he])
        · exact Or.inl h
        · exact Or.inr h
      · rw [lex3_iff]
        unfold bfsMeasure
        simp only at p2 ⊢
        rcases p2 with p2 | ⟨p2, p3⟩
        · exact Or.inl p2
        · right
          refine ⟨p2, Or.inr ⟨trivial, ?_⟩⟩
          rw [p3, hq]
          simp

/-- Every walk from the start either ends at a node discovered at a depth of at most
the length of the walk, or some queued node has such a depth. -/
theorem bfs_frontier (graph : IGraph) (V : List Node) (start endNode : Node)
    (dep : NodeMap Int) (s : BFSState) (inv : BFSInvAt graph V start endNode dep s) :
    ∀ es : List Edge, isWalk graph start es = true →
      (∃ dx, dep (walkEnd start es) = some dx ∧ dx ≤ (es.length : Int)) ∨
      (∃ y ∈ s.q, ∃ dy, dep y = some dy ∧ dy ≤ (es.length : Int)) := by
  intro es
  induction es using List.reverseRecOn with
  | nil =>
    intro _
    left
    exact ⟨0, by simpa [walkEnd] using inv.core.start_dep, by simp⟩
  | append_singleton es e ih =>
    intro hwalk
    rw [isWalk_append] at hwalk
    simp only [Bool.and_eq_true, isWalk, decide_eq_true_eq, and_true] at hwalk
    obtain ⟨h1, h2⟩ := hwalk
    rw [walkEnd_append]
    simp only [walkEnd, List.length_append, List.length_singleton, Nat.cast_add, Nat.cast_one]
    rcases ih h1 with ⟨dy, hdy, hle⟩ | ⟨y, hy, dy, hdy, hle⟩
    · rcases inv.settled _ dy hdy with h | h
      · right
        exact ⟨_, h, dy, hdy, by omega⟩
      · left
        obtain ⟨dx, hdx, hle2⟩ := h e h2
        exact ⟨dx, hdx, by omega⟩
    · right
      exact ⟨y, hy, dy, hdy, by omega⟩

/-- A parent chain is a walk with one edge less than it has nodes. -/
theorem ParentChain.toWalk {graph : IGraph} {cost : Edge → Int} {start : Node}
    {parent : NodeMap Node} {g : NodeMap Int} {v : Node} {l : List Node}
    (h : ParentChain graph cost start parent g v l) :
    ∃ es, isWalk graph start es = true ∧ walkEnd start es = v ∧ es.length + 1 = l.length := by
  induction h with
  | base d0 h0 => exact ⟨[], rfl, rfl, rfl⟩
  | step u v l e du dv hne hp he het hu hv hc hle hl ih =>
    obtain ⟨es, h1, h2, h3⟩ := ih
    refine ⟨es ++ [e], ?_, ?_, ?_⟩
    · rw [isWalk_append, h1, h2]
      simp [isWalk, he]
    · rw [walkEnd_append]
      simpa [walkEnd] using het
    · simp only [List.length_append, List.length_singleton]
      omega

/-- What the loop of `runBFS` has established when it is left. -/
theorem bfs_exit_spec (graph : IGraph) (V : List Node) (start endNode : Node)
    (s r : BFSState) (inv : BFSInv graph V start endNode s)
    (hstep : bfsStep graph endNode s = Sum.inr r) :
    (¬ Reachable graph start endNode ∧ r.success = false ∧ r.parent endNode = none) ∨
    (r.success = true ∧ ∃ l,
      (∃ g, ParentChain graph (fun _ => 1) start r.parent g endNode l) ∧
      (∀ y ∈ l, y ∈ V) ∧
      (∀ es, isWalk graph start es = true → walkEnd start es = endNode →
        (l.length : Int) - 1 ≤ (es.length : Int))) := by
  obtain ⟨dep, inv⟩ := inv
  unfold bfsStep at hstep
  cases hq : s.q with
  | nil =>
    rw [hq] at hstep
    simp only [Sum.inr.injEq] at hstep
    left
    rw [← hstep]
    have hnone : dep endNode = none := by
      cases h : dep endNode with
      | none => rfl
      | some de =>
        have := inv.core.end_queued de h
        rw [hq] at this
        simp at this
    refine ⟨?_, inv.core.not_done, (inv.core.dom_parent endNode).mp hnone⟩
    rintro ⟨es, hwalk, hend⟩
    rcases bfs_frontier graph V start endNode dep s inv es hwalk with
      ⟨dx, hdx, _⟩ | ⟨y, hy, _⟩
    · rw [hend, hnone] at hdx
      cases hdx
    · rw [hq] at hy
      simp at hy
  | cons curr rest =>
    rw [hq] at hstep
    simp only at hstep
    by_cases hend : curr = endNode
    · rw [if_pos hend] at hstep
      simp only [Sum.inr.injEq] at hstep
      right
      rw [← hstep]
      subst hend
      obtain ⟨dc, hdc⟩ := inv.core.q_dom curr (by simp [hq])
      obtain ⟨l, hl⟩ := inv.core.chain curr dc hdc
      refine ⟨rfl, l, ⟨dep, hl⟩, ?_, ?_⟩
      · intro y hy
        obtain ⟨dy, hdy, _⟩ := hl.mem_le dc hdc y hy
        exact inv.core.dom_V y dy hdy
      · intro es hwalk hendw
        have hlen := hl.length_le inv.core.start_dep dc hdc
        have hsorted := inv.core.sorted
        rw [hq, List.pairwise_cons] at hsorted
        rcases bfs_frontier graph V start curr dep s inv es hwalk with
          ⟨dx, hdx, hle⟩ | ⟨y, hy, dy, hdy, hle⟩
        · rw [hendw, hdc] at hdx
          simp only [Option.some.injEq] at hdx
          omega
        · rw [hq] at hy
          rcases List.mem_cons.mp hy with h | h
          · rw [h, hdc] at hdy
            simp only [Option.some.injEq] at hdy
            omega
          · have := hsorted.1 y h dc dy hdc hdy
            omega
    · rw [if_neg hend] at hstep; cases hstep

/-- The loop of `runBFS` is left, and what holds whenever it is left. -/
theorem bfsFinal_spec (graph : IGraph) (V : List Node) (start endNode : Node)
    (hV : ClosedUnder graph V) (hs : start ∈ V) :
    (∃ (n : Nat) (r : BFSState), bfsFinal n graph start endNode = some r) ∧
    ∀ (n : Nat) (r : BFSState), bfsFinal n graph start endNode = some r →
      (¬ Reachable graph start endNode ∧ r.success = false ∧ r.parent endNode = none) ∨
      (r.success = true ∧ ∃ l,
        (∃ g, ParentChain graph (fun _ => 1) start r.parent g endNode l) ∧
        (∀ y ∈ l, y ∈ V) ∧
        (∀ es, isWalk graph start es = true → walkEnd start es = endNode →
          (l.length : Int) - 1 ≤ (es.length : Int))) := by
  have h0 := bfsInit_inv graph V start endNode hs
  constructor
  · exact iterate_terminates (bfsStep graph endNode) (BFSInv graph V start endNode)
      (bfsMeasure V)
      (fun s s1 inv hstep => bfsStep_inv graph V start endNode hV s s1 inv hstep)
      (bfsInit start) h0
  · intro n r hr
    obtain ⟨sl, hinv, hexit⟩ := iterate_invariant (bfsStep graph endNode)
      (BFSInv graph V start endNode)
      (fun s s1 inv hstep => (bfsStep_inv graph V start endNode hV s s1 inv hstep).1)
      n (bfsInit start) r h0 hr
    exact bfs_exit_spec graph V start endNode sl r hinv hexit

/-- How the result of `runBFS` is assembled from its two loops. -/
theorem runBFS_eq_some (graph : IGraph) (start endNode : Node) (fuel : Nat)
    (r : AlgoResult) (h : runBFS fuel graph start endNode = some r) :
    ∃ s p, bfsFinal fuel graph start endNode = some s ∧
      reconstructPathInternal fuel s.parent start endNode = some p ∧
      r = { path := p, visitedCount := s.visitedCount,
            totalCost := if s.success then (p.length : Int) - 1 else 0,
            success := s.success } := by
  unfold runBFS at h
  cases h1 : bfsFinal fuel graph start endNode with
  | none => rw [h1] at h; cases h
  | some s =>
    rw [h1] at h
    simp only at h
    cases h2 : reconstructPathInternal fuel s.parent start endNode with
    | none => rw [h2] at h; cases h
    | some p =>
      rw [h2] at h
      simp only [Option.some.injEq] at h
      exact ⟨s, p, rfl, h2, h.symm⟩

theorem runBFS_of_parts (graph : IGraph) (start endNode : Node) (n1 n2 : Nat)
    (s : BFSState) (p : List Node)
    (h1 : bfsFinal n1 graph start endNode = some s)
    (h2 : reconstructPathInternal n2 s.parent start endNode = some p) :
    ∃ r, runBFS (max n1 n2) graph start endNode = some r := by
  unfold runBFS
  have a : bfsFinal (max n1 n2) graph start endNode = some s :=
    iterate_mono _ n1 _ s h1 _ (le_max_left _ _)
  have b := reconstructPathInternal_mono s.parent start endNode n2 (max n1 n2) p h2
    (le_max_right _ _)
  rw [a]
  simp only
  rw [b]
  exact ⟨_, rfl⟩

/-- The result of `runBFS` on a finite graph. -/
theorem runBFS_spec (graph : IGraph) (V : List Node) (start endNode : Node)
    (hs : start ∈ V) (hV : ClosedUnder graph V) :
    (∃ (fuel : Nat) (r : AlgoResult), runBFS fuel graph start endNode = some r) ∧
    ∀ (fuel : Nat) (r : AlgoResult), runBFS fuel graph start endNode = some r →
      (¬ Reachable graph start endNode ∧ r.success = false ∧ r.path = [] ∧ r.totalCost = 0) ∨
      (Reachable graph start endNode ∧ r.success = true ∧
        r.totalCost = (r.path.length : Int) - 1 ∧
        ((-1 : Node) ∉ V →
          (r.path ≠ [] ∧ r.path.head? = some start ∧ r.path.getLast? = some endNode ∧
            IsPath graph r.path) ∧
          (∃ es, isWalk graph start es = true ∧ walkEnd start es = endNode ∧
            (es.length : Int) = r.totalCost) ∧
          (∀ es, isWalk graph start es = true → walkEnd start es = endNode →
            r.totalCost ≤ (es.length : Int)))) := by
  obtain ⟨⟨n1, s1, hfin⟩, hall⟩ := bfsFinal_spec graph V start endNode hV hs
  constructor
  · rcases hall n1 s1 hfin with ⟨hunr, _, hpar⟩ | ⟨_, l, ⟨g, hl⟩, _, _⟩
    · have hne : endNode ≠ start := fun h => hunr (h ▸ reachable_self graph start)
      exact ⟨_, runBFS_of_parts graph start endNode n1 1 s1 []
        hfin (reconstruct_no_parent _ _ _ hpar hne 1 (le_refl _))⟩
    · obtain ⟨n2, p, hp⟩ := reconstruct_terminates hl
      exact ⟨_, runBFS_of_parts graph start endNode n1 n2 s1 p hfin hp⟩
  · intro fuel r hr
    obtain ⟨s, p, h1, h2, rfl⟩ := runBFS_eq_some graph start endNode fuel r hr
    rcases hall fuel s h1 with ⟨hunr, hsucc, hpar⟩ | ⟨hsucc, l, ⟨g, hl⟩, hlV, hmin⟩
    · left
      have hne : endNode ≠ start := fun h => hunr (h ▸ reachable_self graph start)
      have hp := reconstruct_unique _ _ _ _ _ _ _ h2
        (reconstruct_no_parent _ _ _ hpar hne 1 (le_refl _))
      exact ⟨hunr, hsucc, hp, by simp [hsucc]⟩
    · right
      obtain ⟨es, e1, e2, e3⟩ := hl.toWalk
      refine ⟨⟨es, e1, e2⟩, hsucc, by simp [hsucc], ?_⟩
      intro hsent
      have hl1 : (-1 : Node) ∉ l := fun h => hsent (hlV _ h)
      obtain ⟨n2, hn2⟩ := reconstruct_chain hl hl1
      have hp := reconstruct_unique _ _ _ _ _ _ _ h2 hn2
      subst hp
      refine ⟨⟨?_, hl.head, hl.getLast, hl.isPath⟩, ⟨es, e1, e2, ?_⟩, ?_⟩
      · intro hnil
        have := hl.last_mem
        simp only at hnil
        rw [hnil] at this
        simp at this
      · simp only [hsucc, if_true]
        omega
      · intro es2 w1 w2
        simpa [hsucc] using hmin es2 w1 w2


/-! ## The grid as a graph -/

theorem toPoint_toNode (g : Grid) (x y : Int) (hx : 0 ≤ x) (hy0 : 0 ≤ y) (hy : y < g.width) :
    g.toPoint (g.toNode x y) = { x := x, y := y } := by
  unfold Grid.toPoint Grid.toNode
  have hw : 0 < g.width := by omega
  have hnn : 0 ≤ x * g.width + y := by
    have := Int.mul_nonneg hx (le_of_lt hw)
    omega
  rw [Int.tdiv_eq_ediv hnn (le_of_lt hw), Int.tmod_eq_emod hnn (le_of_lt hw)]
  have e1 : (x * g.width + y) / g.width = x := by
    rw [Int.add_comm, Int.add_mul_ediv_right _ _ (by omega), Int.ediv_eq_zero_of_lt hy0 hy]
    omega
  have e2 : (x * g.width + y) % g.width = y := by
    rw [Int.add_comm, Int.add_mul_emod_self, Int.emod_eq_of_lt hy0 hy]
  rw [e1, e2]

theorem isValid_iff (g : Grid) (x y : Int) :
    g.isValid x y = true ↔ 0 ≤ x ∧ x < g.height ∧ 0 ≤ y ∧ y < g.width := by
  unfold Grid.isValid
  simp only [Bool.and_eq_true, decide_eq_true_eq]
  omega

theorem toNode_mem_nodes (g : Grid) (x y : Int) (h : g.isValid x y = true) :
    g.toNode x y ∈ g.nodes := by
  rw [isValid_iff] at h
  obtain ⟨h1, h2, h3, h4⟩ := h
  unfold Grid.nodes Grid.toNode
  rw [List.mem_map]
  have hle : x * g.width + g.width ≤ g.height * g.width := by
    have : (x + 1) * g.width ≤ g.height * g.width :=
      Int.mul_le_mul_of_nonneg_right (by omega) (by omega)
    rw [Int.add_mul, Int.one_mul] at this
    exact this
  have hnn : 0 ≤ x * g.width := Int.mul_nonneg h1 (by omega)
  refine ⟨(x * g.width + y).toNat, ?_, ?_⟩
  · rw [List.mem_range]
    omega
  · show ((x * g.width + y).toNat : Int) = x * g.width + y
    omega

theorem mem_nodes_iff (g : Grid) (n : Node) :
    n ∈ g.nodes ↔ 0 ≤ n ∧ n < g.height * g.width := by
  unfold Grid.nodes
  rw [List.mem_map]
  constructor
  · rintro ⟨k, hk, rfl⟩
    rw [List.mem_range] at hk
    show 0 ≤ (k : Int) ∧ (k : Int) < g.height * g.width
    omega
  · rintro ⟨h1, h2⟩
    refine ⟨n.toNat, ?_, ?_⟩
    · rw [List.mem_range]
      unfold Node at *
      omega
    · show (n.toNat : Int) = n
      unfold Node at *
      omega

/-- The edges of `getNeighbors`: a step in one of the eight directions to a valid
cell, with the weight of that cell scaled by 10 or, for a diagonal step, by 14. -/
theorem mem_getNeighbors (g : Grid) (n : Node) (e : Edge) (h : e ∈ g.getNeighbors n) :
    ∃ (dx dy base : Int),
      ((base = 10 ∧ ((dx = -1 ∧ dy = 0) ∨ (dx = 1 ∧ dy = 0) ∨ (dx = 0 ∧ dy = -1) ∨
          (dx = 0 ∧ dy = 1))) ∨
        (base = 14 ∧ g.m_allowDiagonals = true ∧ (dx = -1 ∨ dx = 1) ∧ (dy = -1 ∨ dy = 1))) ∧
      g.isValid ((g.toPoint n).x + dx) ((g.toPoint n).y + dy) = true ∧
      g.isObstacle ((g.toPoint n).x + dx) ((g.toPoint n).y + dy) = false ∧
      e.target = g.toNode ((g.toPoint n).x + dx) ((g.toPoint n).y + dy) ∧
      e.weight =
        wrapInt32 (base * g.getWeight ((g.toPoint n).x + dx) ((g.toPoint n).y + dy)) := by
  have scan : ∀ (base : Int) (dirs : List (Int × Int)), e ∈ g.scanDirs (g.toPoint n) base dirs →
      ∃ d ∈ dirs, g.isValid ((g.toPoint n).x + d.1) ((g.toPoint n).y + d.2) = true ∧
        g.isObstacle ((g.toPoint n).x + d.1) ((g.toPoint n).y + d.2) = false ∧
        e.target = g.toNode ((g.toPoint n).x + d.1) ((g.toPoint n).y + d.2) ∧
        e.weight =
          wrapInt32 (base * g.getWeight ((g.toPoint n).x + d.1) ((g.toPoint n).y + d.2)) := by
    intro base dirs he
    unfold Grid.scanDirs at he
    rw [List.mem_filterMap] at he
    obtain ⟨d, hd, hsome⟩ := he
    simp only at hsome
    split at hsome
    · rename_i hc
      simp only [Bool.and_eq_true, Bool.not_eq_true', ] at hc
      simp only [Option.some.injEq] at hsome
      subst hsome
      exact ⟨d, hd, hc.1, hc.2, rfl, rfl⟩
    · cases hsome
  have orth : e ∈ g.scanDirs (g.toPoint n) 10 [(-1, 0), (1, 0), (0, -1), (0, 1)] →
      ∃ (dx dy base : Int),
      ((base = 10 ∧ ((dx = -1 ∧ dy = 0) ∨ (dx = 1 ∧ dy = 0) ∨ (dx = 0 ∧ dy = -1) ∨
          (dx = 0 ∧ dy = 1))) ∨
        (base = 14 ∧ g.m_allowDiagonals = true ∧ (dx = -1 ∨ dx = 1) ∧ (dy = -1 ∨ dy = 1))) ∧
      g.isValid ((g.toPoint n).x + dx) ((g.toPoint n).y + dy) = true ∧
      g.isObstacle ((g.toPoint n).x + dx) ((g.toPoint n).y + dy) = false ∧
      e.target = g.toNode ((g.toPoint n).x + dx) ((g.toPoint n).y + dy) ∧
      e.weight =
        wrapInt32 (base * g.getWeight ((g.toPoint n).x + dx) ((g.toPoint n).y + dy)) := by
    intro he
    obtain ⟨d, hd, h1, h2, h3, h4⟩ := scan 10 _ he
    refine ⟨d.1, d.2, 10, Or.inl ⟨rfl, ?_⟩, h1, h2, h3, h4⟩
    simp only [List.mem_cons, List.mem_singleton, List.not_mem_nil, or_false] at hd
    rcases hd with rfl | rfl | rfl | rfl <;> simp
  unfold Grid.getNeighbors at h
  simp only at h
  by_cases hdiag : g.m_allowDiagonals = true
  · rw [if_pos hdiag, List.mem_append] at h
    rcases h with h | h
    · exact orth h
    · obtain ⟨d, hd, h1, h2, h3, h4⟩ := scan 14 _ h
      refine ⟨d.1, d.2, 14, Or.inr ⟨rfl, hdiag, ?_⟩, h1, h2, h3, h4⟩
      simp only [List.mem_cons, List.mem_singleton, List.not_mem_nil, or_false] at hd
      rcases hd with rfl | rfl | rfl | rfl <;> simp
  · rw [if_neg hdiag] at h
    exact orth h

theorem matGet_weights_ge (m : List (List Int)) (x y : Int)
    (hm : ∀ row ∈ m, ∀ v ∈ row, 1 ≤ v) : 1 ≤ matGet m x y 1 := by
  unfold matGet
  by_cases hx : x.toNat < m.length
  · rw [List.getD_eq_getElem _ _ hx]
    by_cases hy : y.toNat < (m[x.toNat]).length
    · rw [List.getD_eq_getElem _ _ hy]
      exact hm _ (List.getElem_mem _) _ (List.getElem_mem _)
    · rw [List.getD_eq_default _ _ (by omega)]
  · have hrow : m.getD x.toNat [] = [] := List.getD_eq_default _ _ (by omega)
    rw [hrow]
    simp

theorem getWeight_ge (g : Grid) (x y : Int) (hm : ∀ row ∈ g.weights, ∀ v ∈ row, 1 ≤ v) :
    1 ≤ g.getWeight x y := by
  unfold Grid.getWeight
  split
  · exact matGet_weights_ge _ _ _ hm
  · decide

theorem matGet_mem_or_default {α : Type} (m : List (List α)) (x y : Int) (dflt : α) :
    matGet m x y dflt = dflt ∨ ∃ row ∈ m, matGet m x y dflt ∈ row := by
  unfold matGet
  by_cases hx : x.toNat < m.length
  · by_cases hy : y.toNat < (m[x.toNat]).length
    · right
      refine ⟨m[x.toNat], List.getElem_mem _, ?_⟩
      rw [List.getD_eq_getElem _ _ hx, List.getD_eq_getElem _ _ hy]
      exact List.getElem_mem _
    · left
      rw [List.getD_eq_getElem _ _ hx, List.getD_eq_default _ _ (by omega)]
  · left
    have hrow : m.getD x.toNat [] = [] := List.getD_eq_default _ _ (by omega)
    rw [hrow]
    simp

/-- On a grid whose products fit, they fit for every in-bounds cell. -/
theorem productsFit_edgesFit (g : Grid) (hfit : g.ProductsFit) : g.EdgesFit := by
  intro x y hv
  unfold Grid.getWeight
  rw [if_pos hv]
  rcases matGet_mem_or_default g.weights x y 1 with h | ⟨row, hrow, h⟩
  · rw [h]
    exact ⟨by decide, fun _ => by decide⟩
  · exact hfit row hrow _ h

/-- The edges of `getNeighbors` on a grid whose products fit: the weight is the exact
product. -/
theorem mem_getNeighbors_fit (g : Grid) (hfit : g.EdgesFit) (n : Node) (e : Edge)
    (h : e ∈ g.getNeighbors n) :
    ∃ (dx dy base : Int),
      ((base = 10 ∧ ((dx = -1 ∧ dy = 0) ∨ (dx = 1 ∧ dy = 0) ∨ (dx = 0 ∧ dy = -1) ∨
          (dx = 0 ∧ dy = 1))) ∨
        (base = 14 ∧ g.m_allowDiagonals = true ∧ (dx = -1 ∨ dx = 1) ∧ (dy = -1 ∨ dy = 1))) ∧
      g.isValid ((g.toPoint n).x + dx) ((g.toPoint n).y + dy) = true ∧
      g.isObstacle ((g.toPoint n).x + dx) ((g.toPoint n).y + dy) = false ∧
      e.target = g.toNode ((g.toPoint n).x + dx) ((g.toPoint n).y + dy) ∧
      e.weight = base * g.getWeight ((g.toPoint n).x + dx) ((g.toPoint n).y + dy) := by
  obtain ⟨dx, dy, base, hb, hv, ho, ht, hwt⟩ := mem_getNeighbors g n e h
  refine ⟨dx, dy, base, hb, hv, ho, ht, ?_⟩
  rw [hwt]
  have hf := hfit _ _ hv
  rcases hb with ⟨rfl, _⟩ | ⟨rfl, hdiag, _⟩
  · exact wrapInt32_of_isInt32 _ hf.1
  · exact wrapInt32_of_isInt32 _ (hf.2 hdiag)

theorem grid_closed (g : Grid) : ClosedUnder g.toGraph g.nodes := by
  intro u _ e he
  obtain ⟨dx, dy, base, _, hvalid, _, ht, _⟩ := mem_getNeighbors g u e he
  rw [ht]
  exact toNode_mem_nodes g _ _ hvalid

theorem grid_nonneg (g : Grid) (hfit : g.EdgesFit)
    (hm : ∀ row ∈ g.weights, ∀ v ∈ row, 1 ≤ v) : NonNegWeights g.toGraph g.nodes := by
  intro u _ e he
  obtain ⟨dx, dy, base, hb, _, _, _, hwt⟩ := mem_getNeighbors_fit g hfit u e he
  have := getWeight_ge g ((g.toPoint u).x + dx) ((g.toPoint u).y + dy) hm
  rw [hwt]
  rcases hb with ⟨rfl, _⟩ | ⟨rfl, _⟩ <;> omega

/-- The heuristic drops by at most the weight of the edge along any edge. -/
theorem heuristic_step (g : Grid) (hfit : g.EdgesFit)
    (hm : ∀ row ∈ g.weights, ∀ v ∈ row, 1 ≤ v)
    (u t : Node) (e : Edge) (he : e ∈ g.getNeighbors u) :
    g.getHeuristic u t ≤ e.weight + g.getHeuristic e.target t := by
  obtain ⟨dx, dy, base, hb, hvalid, _, ht, hwt⟩ := mem_getNeighbors_fit g hfit u e he
  have hge := getWeight_ge g ((g.toPoint u).x + dx) ((g.toPoint u).y + dy) hm
  have hv := (isValid_iff g _ _).mp hvalid
  have hpt := toPoint_toNode g _ _ hv.1 hv.2.2.1 hv.2.2.2
  unfold Grid.getHeuristic
  rw [ht, hpt, hwt]
  simp only
  generalize g.getWeight ((g.toPoint u).x + dx) ((g.toPoint u).y + dy) = wt at hge
  generalize (g.toPoint u).x = px
  generalize (g.toPoint u).y = py
  generalize (g.toPoint t).x = qx
  generalize (g.toPoint t).y = qy
  unfold cAbs
  rcases hb with ⟨rfl, hd⟩ | ⟨rfl, hdiag, hd1, hd2⟩
  · by_cases hdiag : g.m_allowDiagonals = true
    · simp only [hdiag, if_true]
      rcases hd with ⟨rfl, rfl⟩ | ⟨rfl, rfl⟩ | ⟨rfl, rfl⟩ | ⟨rfl, rfl⟩ <;>
        (split <;> split <;> split <;> split <;> omega)
    · simp only [hdiag, if_false]
      rcases hd with ⟨rfl, rfl⟩ | ⟨rfl, rfl⟩ | ⟨rfl, rfl⟩ | ⟨rfl, rfl⟩ <;>
        (split <;> split <;> split <;> split <;> omega)
  · simp only [hdiag, if_true]
    rcases hd1 with rfl | rfl <;> rcases hd2 with rfl | rfl <;>
      (split <;> split <;> split <;> split <;> omega)

theorem heuristic_self (g : Grid) (t : Node) : g.getHeuristic t t = 0 := by
  unfold Grid.getHeuristic cAbs
  simp

theorem grid_admissible (g : Grid) (hfit : g.EdgesFit)
    (hm : ∀ row ∈ g.weights, ∀ v ∈ row, 1 ≤ v)
    (endNode : Node) : Admissible g.toGraph g.nodes endNode := by
  intro y hy es
  clear hy
  induction es generalizing y with
  | nil =>
    intro _ hend
    simp only [walkEnd] at hend
    subst hend
    show g.getHeuristic y y ≤ walkCost []
    rw [heuristic_self, walkCost_nil]
  | cons e es ih =>
    intro hwalk hend
    simp only [isWalk, Bool.and_eq_true, decide_eq_true_eq] at hwalk
    simp only [walkEnd] at hend
    have h1 := heuristic_step g hfit hm y endNode e hwalk.1
    have h2 := ih e.target hwalk.2 hend
    rw [walkCost_cons]
    show g.getHeuristic y endNode ≤ e.weight + walkCost es
    have h3 : g.getHeuristic e.target endNode ≤ walkCost es := h2
    omega


/-! ## The search functions: the claims -/

theorem not_reachable_of_closed (graph : IGraph) (V : List Node) (s t : Node)
    (hV : ClosedUnder graph V) (hs : s ∈ V) (ht : t ∉ V) : ¬ Reachable graph s t := by
  rintro ⟨es, hwalk, hend⟩
  exact ht (hend ▸ walkEnd_mem graph V hV es s hs hwalk)

/-- With exact sums, on a grid whose terrain weights are all at least 1 and whose
products fit: from an in-bounds start to an in-bounds end node, `runAStarExact` and
`runDijkstraExact` both return, with the same success flag and, when successful, the
same total cost. -/
theorem gridExact_searches_agree (g : Grid) (start endNode : Node)
    (hm : ∀ row ∈ g.weights, ∀ v ∈ row, 1 ≤ v) (hfit : g.EdgesFit)
    (hs : 0 ≤ start ∧ start < g.height * g.width)
    (he : 0 ≤ endNode ∧ endNode < g.height * g.width) :
    (∃ (fuel : Nat) (ra rd : AlgoResult),
      runAStarExact fuel g.toGraph start endNode = some ra ∧
      runDijkstraExact fuel g.toGraph start endNode = some rd) ∧
    ∀ (fa fd : Nat) (ra rd : AlgoResult),
      runAStarExact fa g.toGraph start endNode = some ra →
      runDijkstraExact fd g.toGraph start endNode = some rd →
      ra.success = rd.success ∧ (ra.success = true → ra.totalCost = rd.totalCost) := by
  have hsV : start ∈ g.nodes := (mem_nodes_iff g start).mpr hs
  have heV : endNode ∈ g.nodes := (mem_nodes_iff g endNode).mpr he
  have hV := grid_closed g
  have hw := grid_nonneg g hfit hm
  have hadm := grid_admissible g hfit hm endNode
  have hh0 : 0 ≤ g.toGraph.getHeuristic endNode endNode := by
    show 0 ≤ g.getHeuristic endNode endNode
    rw [heuristic_self]
  obtain ⟨⟨na, ra0, hra0⟩, hA⟩ := runAStarExact_spec g.toGraph g.nodes start endNode hsV hV hw
  obtain ⟨⟨nd, rd0, hrd0⟩, hD⟩ := runDijkstraExact_spec g.toGraph g.nodes start endNode hsV hV hw
  constructor
  · exact ⟨max na nd, ra0, rd0,
      runAStarExact_mono _ _ _ na _ ra0 hra0 (le_max_left _ _),
      runDijkstraExact_mono _ _ _ nd _ rd0 hrd0 (le_max_right _ _)⟩
  · intro fa fd ra rd hra hrd
    rcases hA fa ra hra with ⟨hunr, hsa, _, _⟩ | ⟨hreach, hsa, ⟨esa, a1, a2, a3⟩, hmina, _⟩
    · rcases hD fd rd hrd with ⟨_, hsd, _, _⟩ | ⟨hreach, _⟩
      · exact ⟨by rw [hsa, hsd], by rw [hsa]; intro h; cases h⟩
      · exact absurd hreach hunr
    · rcases hD fd rd hrd with ⟨hunr, _⟩ | ⟨_, hsd, ⟨esd, d1, d2, d3⟩, hmind, _⟩
      · exact absurd hreach hunr
      · refine ⟨by rw [hsa, hsd], fun _ => ?_⟩
        have h1 := hmina hadm hh0 esd d1 d2
        have h2 := hmind esa a1 a2
        omega


/-- With exact sums, on a finite graph with non-negative edge weights: `runDijkstraExact`
returns, and whenever it returns success its total cost is the cost of some walk
from start to end and at most the cost of every such walk. -/
theorem runDijkstraExact_cost_minimal (graph : IGraph) (V : List Node) (start endNode : Node)
    (hs : start ∈ V) (hV : ClosedUnder graph V) (hw : NonNegWeights graph V) :
    (∃ (fuel : Nat) (r : AlgoResult), runDijkstraExact fuel graph start endNode = some r) ∧
    ∀ (fuel : Nat) (r : AlgoResult), runDijkstraExact fuel graph start endNode = some r →
      r.success = true →
      (∃ es, isWalk graph start es = true ∧ walkEnd start es = endNode ∧
        walkCost es = r.totalCost) ∧
      (∀ es, isWalk graph start es = true → walkEnd start es = endNode →
        r.totalCost ≤ walkCost es) := by
  obtain ⟨hex, hall⟩ := runDijkstraExact_spec graph V start endNode hs hV hw
  refine ⟨hex, fun fuel r hr hsucc => ?_⟩
  rcases hall fuel r hr with ⟨_, hf, _⟩ | ⟨_, _, h1, h2, _⟩
  · rw [hf] at hsucc; cases hsucc
  · exact ⟨h1, h2⟩


/-- C3 (as stated, at a graph with a node of id −1): on the graph with the single
edge 0→−1, `runBFS` from 0 to −1 succeeds with an empty path and total cost −1,
which is below the number of edges of every walk from 0 to −1. -/
theorem runBFS_sentinel_cost :
    ClosedUnder sentinelGraph [0, -1] ∧ Reachable sentinelGraph 0 (-1) ∧
    runBFS 5 sentinelGraph 0 (-1)
      = some { path := [], visitedCount := 2, totalCost := -1, success := true } ∧
    ∀ es, isWalk sentinelGraph 0 es = true → walkEnd 0 es = -1 →
      (-1 : Int) < (es.length : Int) := by
  refine ⟨by decide, ⟨[{ target := -1, weight := 1 }], by decide, by decide⟩, by decide, ?_⟩
  intro es _ _
  omega

/-- C3 (amended): on a finite graph none of whose nodes has the id −1, with the end
reachable from the start, `runBFS` returns, its total cost is the length of the
returned path minus one, some walk from start to end has that many edges and no
walk from start to end has fewer, whatever the edge weights are. -/
theorem runBFS_hops_minimal (graph : IGraph) (V : List Node) (start endNode : Node)
    (hs : start ∈ V) (hV : ClosedUnder graph V) (hsent : (-1 : Node) ∉ V)
    (hreach : Reachable graph start endNode) :
    (∃ (fuel : Nat) (r : AlgoResult), runBFS fuel graph start endNode = some r) ∧
    ∀ (fuel : Nat) (r : AlgoResult), runBFS fuel graph start endNode = some r →
      r.totalCost = (r.path.length : Int) - 1 ∧
      (∃ es, isWalk graph start es = true ∧ walkEnd start es = endNode ∧
        (es.length : Int) = r.totalCost) ∧
      (∀ es, isWalk graph start es = true → walkEnd start es = endNode →
        r.totalCost ≤ (es.length : Int)) := by
  obtain ⟨hex, hall⟩ := runBFS_spec graph V start endNode hs hV
  refine ⟨hex, fun fuel r hr => ?_⟩
  rcases hall fuel r hr with ⟨hunr, _⟩ | ⟨_, _, h1, h2⟩
  · exact absurd hreach hunr
  · obtain ⟨_, h3, h4⟩ := h2 hsent
    exact ⟨h1, h3, h4⟩

/-- C3 (amended) at a concrete input: the sample graph, from node 0 to node 3. -/
theorem runBFS_hops_minimal_witness :
    (0 : Node) ∈ [0, 1, 2, 3] ∧ ClosedUnder sampleGraph [0, 1, 2, 3] ∧
    (-1 : Node) ∉ [0, 1, 2, 3] ∧ Reachable sampleGraph 0 3 ∧
    ((∃ (fuel : Nat) (r : AlgoResult), runBFS fuel sampleGraph 0 3 = some r) ∧
    ∀ (fuel : Nat) (r : AlgoResult), runBFS fuel sampleGraph 0 3 = some r →
      r.totalCost = (r.path.length : Int) - 1 ∧
      (∃ es, isWalk sampleGraph 0 es = true ∧ walkEnd 0 es = 3 ∧
        (es.length : Int) = r.totalCost) ∧
      (∀ es, isWalk sampleGraph 0 es = true → walkEnd 0 es = 3 →
        r.totalCost ≤ (es.length : Int))) :=
  ⟨by decide, by decide, by decide,
    ⟨[{ target := 1, weight := 4 }, { target := 3, weight := 0 }], by decide, by decide⟩,
    runBFS_hops_minimal sampleGraph [0, 1, 2, 3] 0 3 (by decide) (by decide) (by decide)
      ⟨[{ target := 1, weight := 4 }, { target := 3, weight := 0 }], by decide, by decide⟩⟩

/-- C4: on a finite graph with non-negative edge weights, when the end is not
reachable from the start, each of `runBFS`, `runDijkstra` and `runAStar` returns, with
success false, an empty path and total cost 0. -/
theorem unreachable_reports_failure (graph : IGraph) (V : List Node) (start endNode : Node)
    (hs : start ∈ V) (hV : ClosedUnder graph V) (hw : NonNegWeights graph V)
    (hunr : ¬ Reachable graph start endNode) :
    ((∃ (fuel : Nat) (r : AlgoResult), runBFS fuel graph start endNode = some r) ∧
      ∀ (fuel : Nat) (r : AlgoResult), runBFS fuel graph start endNode = some r →
        r.success = false ∧ r.path = [] ∧ r.totalCost = 0) ∧
    ((∃ (fuel : Nat) (r : AlgoResult), runDijkstra fuel graph start endNode = some r) ∧
      ∀ (fuel : Nat) (r : AlgoResult), runDijkstra fuel graph start endNode = some r →
        r.success = false ∧ r.path = [] ∧ r.totalCost = 0) ∧
    ((∃ (fuel : Nat) (r : AlgoResult), runAStar fuel graph start endNode = some r) ∧
      ∀ (fuel : Nat) (r : AlgoResult), runAStar fuel graph start endNode = some r →
        r.success = false ∧ r.path = [] ∧ r.totalCost = 0) := by
  obtain ⟨hexB, hallB⟩ := runBFS_spec graph V start endNode hs hV
  refine ⟨⟨hexB, fun fuel r hr => ?_⟩, runDijkstra_unreachable graph V start endNode hs hV hunr,
    runAStar_unreachable graph V start endNode hs hV hunr⟩
  rcases hallB fuel r hr with ⟨_, h⟩ | ⟨hreach, _⟩
  · exact h
  · exact absurd hreach hunr

theorem gridWall_unreachable : ¬ Reachable gridWall.toGraph 0 2 :=
  not_reachable_of_closed gridWall.toGraph [0, 3, 6] 0 2 (by decide) (by decide) (by decide)

/-- C4 at a concrete input: the 3×3 grid whose middle column is a wall, from node 0
(left of the wall) to node 2 (right of it), with diagonals enabled. -/
theorem unreachable_reports_failure_witness :
    (0 : Node) ∈ [0, 3, 6] ∧ ClosedUnder gridWall.toGraph [0, 3, 6] ∧
    NonNegWeights gridWall.toGraph [0, 3, 6] ∧ ¬ Reachable gridWall.toGraph 0 2 ∧
    (((∃ (fuel : Nat) (r : AlgoResult), runBFS fuel gridWall.toGraph 0 2 = some r) ∧
      ∀ (fuel : Nat) (r : AlgoResult), runBFS fuel gridWall.toGraph 0 2 = some r →
        r.success = false ∧ r.path = [] ∧ r.totalCost = 0) ∧
    ((∃ (fuel : Nat) (r : AlgoResult), runDijkstra fuel gridWall.toGraph 0 2 = some r) ∧
      ∀ (fuel : Nat) (r : AlgoResult), runDijkstra fuel gridWall.toGraph 0 2 = some r →
        r.success = false ∧ r.path = [] ∧ r.totalCost = 0) ∧
    ((∃ (fuel : Nat) (r : AlgoResult), runAStar fuel gridWall.toGraph 0 2 = some r) ∧
      ∀ (fuel : Nat) (r : AlgoResult), runAStar fuel gridWall.toGraph 0 2 = some r →
        r.success = false ∧ r.path = [] ∧ r.totalCost = 0)) :=
  ⟨by decide, by decide, by decide, gridWall_unreachable,
    unreachable_reports_failure gridWall.toGraph [0, 3, 6] 0 2 (by decide) (by decide)
      (by decide) gridWall_unreachable⟩


/-- With exact sums, on a finite graph with non-negative edge weights none of whose
nodes has the id −1, with the end reachable from the start: each of `runBFS`,
`runDijkstraExact` and `runAStarExact` returns, with success true and a non-empty path
that starts at the start, ends at the end and follows `getNeighbors` edges. -/
theorem searchesExact_return_path (graph : IGraph) (V : List Node) (start endNode : Node)
    (hs : start ∈ V) (hV : ClosedUnder graph V) (hw : NonNegWeights graph V)
    (hsent : (-1 : Node) ∉ V) (hreach : Reachable graph start endNode) :
    ((∃ (fuel : Nat) (r : AlgoResult), runBFS fuel graph start endNode = some r) ∧
      ∀ (fuel : Nat) (r : AlgoResult), runBFS fuel graph start endNode = some r →
        r.success = true ∧ r.path ≠ [] ∧ r.path.head? = some start ∧
        r.path.getLast? = some endNode ∧ IsPath graph r.path) ∧
    ((∃ (fuel : Nat) (r : AlgoResult), runDijkstraExact fuel graph start endNode = some r) ∧
      ∀ (fuel : Nat) (r : AlgoResult), runDijkstraExact fuel graph start endNode = some r →
        r.success = true ∧ r.path ≠ [] ∧ r.path.head? = some start ∧
        r.path.getLast? = some endNode ∧ IsPath graph r.path) ∧
    ((∃ (fuel : Nat) (r : AlgoResult), runAStarExact fuel graph start endNode = some r) ∧
      ∀ (fuel : Nat) (r : AlgoResult), runAStarExact fuel graph start endNode = some r →
        r.success = true ∧ r.path ≠ [] ∧ r.path.head? = some start ∧
        r.path.getLast? = some endNode ∧ IsPath graph r.path) := by
  obtain ⟨hexB, hallB⟩ := runBFS_spec graph V start endNode hs hV
  obtain ⟨hexD, hallD⟩ := runDijkstraExact_spec graph V start endNode hs hV hw
  obtain ⟨hexA, hallA⟩ := runAStarExact_spec graph V start endNode hs hV hw
  refine ⟨⟨hexB, fun fuel r hr => ?_⟩, ⟨hexD, fun fuel r hr => ?_⟩, ⟨hexA, fun fuel r hr => ?_⟩⟩
  · rcases hallB fuel r hr with ⟨hunr, _⟩ | ⟨_, hsucc, _, h⟩
    · exact absurd hreach hunr
    · exact ⟨hsucc, (h hsent).1⟩
  · rcases hallD fuel r hr with ⟨hunr, _⟩ | ⟨_, hsucc, _, _, h⟩
    · exact absurd hreach hunr
    · exact ⟨hsucc, h hsent⟩
  · rcases hallA fuel r hr with ⟨hunr, _⟩ | ⟨_, hsucc, _, _, h⟩
    · exact absurd hreach hunr
    · exact ⟨hsucc, h hsent⟩

theorem sampleGraph_reachable : Reachable sampleGraph 0 3 :=
  ⟨[{ target := 2, weight := 1 }, { target := 1, weight := 2 }, { target := 3, weight := 0 }],
    by decide, by decide⟩


/-! ## `Grid::load`: the separator and map-length checks -/

/-- C11 (as stated, at an input with three `|`): a well-formed text for a 2×2 grid
followed by one more `|` has three separators, and `load` returns true on it. -/
theorem load_three_pipes_accepted :
    List.count '|' "2,2,0,0,1,1|....|1 1 1 1 |".toList = 3 ∧
    (grid3x3.load "2,2,0,0,1,1|....|1 1 1 1 |".toList).1 = true ∧
    (grid3x3.load "2,2,0,0,1,1|....|1 1 1 1 |".toList).2.weights = [[1, 1], [1, 1]] :=
  ⟨by decide, by decide, by decide⟩

/-- C11 (amended): an input with fewer than two `|` characters makes `load` return
false.  (A third `|` is not looked for: what follows the second one is the weight
section.) -/
theorem load_rejects_missing_pipe (g : Grid) (data : List Char)
    (h : List.count '|' data < 2) : (g.load data).1 = false := by
  unfold Grid.load
  cases h1 : strFind data '|' 0 with
  | none => simp
  | some p1 =>
    cases h2 : strFind data '|' (p1 + 1) with
    | none => simp [h2]
    | some p2 =>
      have := strFind_two_count data '|' p1 p2 h1 h2
      omega

/-- C11 (amended) at a concrete input: a text with a single `|`. -/
theorem load_rejects_missing_pipe_witness :
    List.count '|' "2,2,0,0,1,1|....1 1 1 1 ".toList < 2 ∧
    (grid3x3.load "2,2,0,0,1,1|....1 1 1 1 ".toList).1 = false :=
  ⟨by decide, load_rejects_missing_pipe grid3x3 _ (by decide)⟩

/-- C12: when the header extraction yields six integers with non-negative height
`h` and width `w`, and the map section (the text between the first and the second
`|`) has fewer than `h * w` characters, `load` returns false. -/
theorem load_rejects_short_map (g : Grid) (hd M W : List Char) (h w sx sy dx dy : Int)
    (hpipe : '|' ∉ hd) (hM : '|' ∉ M)
    (hhd : parseHeader hd = some (h, w, sx, sy, dx, dy))
    (hh : 0 ≤ h) (hw : 0 ≤ w) (hlen : (M.length : Int) < h * w) :
    (g.load (hd ++ '|' :: (M ++ '|' :: W))).1 = false := by
  rw [load_sections g h w sx sy dx dy hd M W hhd hpipe hM hh hw]
  have : M.length < (h * w).toNat := by omega
  rw [if_pos this]

/-- C12 at a concrete input: a header for a 2×2 grid and a map section of three
characters. -/
theorem load_rejects_short_map_witness :
    '|' ∉ "2,2,0,0,1,1".toList ∧ '|' ∉ "...".toList ∧
    parseHeader "2,2,0,0,1,1".toList = some (2, 2, 0, 0, 1, 1) ∧
    (0 : Int) ≤ 2 ∧ (0 : Int) ≤ 2 ∧ (("...".toList.length : Nat) : Int) < 2 * 2 ∧
    (grid3x3.load ("2,2,0,0,1,1".toList ++ '|' :: ("...".toList ++ '|' :: "1 1 1 1 ".toList))).1
      = false :=
  ⟨by decide, by decide, by decide, by decide, by decide, by decide,
    load_rejects_short_map grid3x3 _ _ _ 2 2 0 0 1 1 (by decide) (by decide) (by decide)
      (by decide) (by decide) (by decide)⟩

/-! ## Editing calls -/

theorem isValid_false_of_out (g : Grid) (x y : Int)
    (h : x < 0 ∨ x ≥ g.height ∨ y < 0 ∨ y ≥ g.width) : g.isValid x y = false := by
  cases hv : g.isValid x y with
  | false => rfl
  | true =>
    rw [isValid_iff] at hv
    omega

/-- C19: for a coordinate outside the grid, each of `setObstacle`, `setSource`,
`setDestination`, `setWeight` and `setEmpty` returns the grid as it was (so the cell
matrix, the weight matrix, the source, the destination and the dimensions are
unchanged). -/
theorem setters_out_of_bounds (g : Grid) (x y weight : Int)
    (h : x < 0 ∨ x ≥ g.height ∨ y < 0 ∨ y ≥ g.width) :
    g.setObstacle x y = g ∧ g.setSource x y = g ∧ g.setDestination x y = g ∧
    g.setWeight x y weight = g ∧ g.setEmpty x y = g := by
  have hv := isValid_false_of_out g x y h
  refine ⟨?_, ?_, ?_, ?_, ?_⟩
  · unfold Grid.setObstacle; simp [hv]
  · unfold Grid.setSource; simp [hv]
  · unfold Grid.setDestination; simp [hv]
  · unfold Grid.setWeight; simp [hv]
  · unfold Grid.setEmpty; simp [hv]

/-- C19 at a concrete input: the edited 3×3 grid and the coordinate (3, 1). -/
theorem setters_out_of_bounds_witness :
    ((3 : Int) < 0 ∨ (3 : Int) ≥ grid3x3Edited.height ∨ (1 : Int) < 0 ∨
      (1 : Int) ≥ grid3x3Edited.width) ∧
    (grid3x3Edited.setObstacle 3 1 = grid3x3Edited ∧
     grid3x3Edited.setSource 3 1 = grid3x3Edited ∧
     grid3x3Edited.setDestination 3 1 = grid3x3Edited ∧
     grid3x3Edited.setWeight 3 1 9 = grid3x3Edited ∧
     grid3x3Edited.setEmpty 3 1 = grid3x3Edited) :=
  ⟨by decide, setters_out_of_bounds grid3x3Edited 3 1 9 (by decide)⟩

/-- C20 (the code at a failing input): on a fresh `Grid(3,3)`, `setObstacle(0,0)`
overwrites the source marker, after which no cell holds `S` although `getSource()`
is still (0,0); the sibling `setEmpty(0,0)` leaves the marker in place.  Likewise
`setSource(2,2)` overwrites the destination marker. -/
theorem setObstacle_erases_source :
    Grid.create 3 3 = some grid3x3 ∧
    grid3x3.countCells 'S' = 1 ∧
    (grid3x3.applyOp (GridOp.setObstacle 0 0)).countCells 'S' = 0 ∧
    (grid3x3.applyOp (GridOp.setObstacle 0 0)).source = { x := 0, y := 0 } ∧
    (grid3x3.applyOp (GridOp.setObstacle 0 0)).cell 0 0 = '#' ∧
    (grid3x3.applyOp (GridOp.setEmpty 0 0)).countCells 'S' = 1 ∧
    (grid3x3.applyOp (GridOp.setSource 2 2)).countCells 'D' = 0 :=
  ⟨by decide, by decide, by decide, by decide, by decide, by decide, by decide⟩


/-! ## Nodes and cells -/

theorem toNode_toPoint (g : Grid) (n : Node) :
    g.toNode (g.toPoint n).x (g.toPoint n).y = n := by
  unfold Grid.toNode Grid.toPoint
  simp only
  have := Int.tmod_add_tdiv n g.width
  have hc : Int.tdiv n g.width * g.width = g.width * Int.tdiv n g.width := Int.mul_comm _ _
  unfold Node at *
  omega

theorem toPoint_valid (g : Grid) (n : Node) (h0 : 0 ≤ n) (h1 : n < g.height * g.width)
    (hw : 1 ≤ g.width) : g.isValid (g.toPoint n).x (g.toPoint n).y = true := by
  rw [isValid_iff]
  unfold Grid.toPoint
  simp only
  have hwpos : 0 < g.width := by omega
  rw [Int.tdiv_eq_ediv h0 (le_of_lt hwpos), Int.tmod_eq_emod h0 (le_of_lt hwpos)]
  refine ⟨Int.ediv_nonneg h0 (le_of_lt hwpos), ?_, Int.emod_nonneg _ (by omega),
    Int.emod_lt_of_pos _ hwpos⟩
  exact Int.ediv_lt_of_lt_mul hwpos h1

/-- C14: on a grid of width at least 1, `toPoint` undoes `toNode` on in-bounds cells,
`toNode` undoes `toPoint` on the ids `0 .. height*width - 1`, and `toNode` maps the
in-bounds cells one-to-one onto these ids in row-major order (`id = r*width + c`). -/
theorem node_cell_bijection (g : Grid) (hw : 1 ≤ g.width) :
    (∀ r c : Int, g.isValid r c = true →
      g.toPoint (g.toNode r c) = { x := r, y := c } ∧
      g.toNode r c = r * g.width + c ∧
      0 ≤ g.toNode r c ∧ g.toNode r c < g.height * g.width) ∧
    (∀ n : Node, 0 ≤ n → n < g.height * g.width →
      g.isValid (g.toPoint n).x (g.toPoint n).y = true ∧
      g.toNode (g.toPoint n).x (g.toPoint n).y = n) ∧
    (∀ r c r2 c2 : Int, g.isValid r c = true → g.isValid r2 c2 = true →
      g.toNode r c = g.toNode r2 c2 → r = r2 ∧ c = c2) := by
  have first : ∀ r c : Int, g.isValid r c = true →
      g.toPoint (g.toNode r c) = { x := r, y := c } := by
    intro r c hv
    have h := (isValid_iff g r c).mp hv
    exact toPoint_toNode g r c h.1 h.2.2.1 h.2.2.2
  refine ⟨?_, ?_, ?_⟩
  · intro r c hv
    have hm := (mem_nodes_iff g _).mp (toNode_mem_nodes g r c hv)
    exact ⟨first r c hv, rfl, hm.1, hm.2⟩
  · intro n h0 h1
    exact ⟨toPoint_valid g n h0 h1 hw, toNode_toPoint g n⟩
  · intro r c r2 c2 hv hv2 heq
    have a := first r c hv
    have b := first r2 c2 hv2
    rw [heq, b] at a
    simp only [Point.mk.injEq] at a
    exact ⟨a.1.symm, a.2.symm⟩

/-- C14 at a concrete input: the 3×3 grid. -/
theorem node_cell_bijection_witness :
    (1 : Int) ≤ grid3x3.width ∧
    ((∀ r c : Int, grid3x3.isValid r c = true →
      grid3x3.toPoint (grid3x3.toNode r c) = { x := r, y := c } ∧
      grid3x3.toNode r c = r * grid3x3.width + c ∧
      0 ≤ grid3x3.toNode r c ∧ grid3x3.toNode r c < grid3x3.height * grid3x3.width) ∧
    (∀ n : Node, 0 ≤ n → n < grid3x3.height * grid3x3.width →
      grid3x3.isValid (grid3x3.toPoint n).x (grid3x3.toPoint n).y = true ∧
      grid3x3.toNode (grid3x3.toPoint n).x (grid3x3.toPoint n).y = n) ∧
    (∀ r c r2 c2 : Int, grid3x3.isValid r c = true → grid3x3.isValid r2 c2 = true →
      grid3x3.toNode r c = grid3x3.toNode r2 c2 → r = r2 ∧ c = c2)) :=
  ⟨by decide, node_cell_bijection grid3x3 (by decide)⟩


/-! ## The heuristic -/

/-- C16 (as stated, at a terrain weight whose product does not fit in an `int`): on
`Grid(3,3)` after `setWeight(1,1,300000000)` every terrain weight is at least 1, the
nodes 1 and 4 are in bounds, and the edge from node 1 to node 4 returned by
`getNeighbors` weighs `10 * 300000000` wrapped to −1294967296; it is a walk from 1
to 4, and `getHeuristic 1 4 = 10` exceeds its total weight. -/
theorem heuristic_exceeds_wrapped_walk :
    gridHeavyCentre = grid3x3.setWeight 1 1 300000000 ∧
    (∀ row ∈ gridHeavyCentre.weights, ∀ v ∈ row, 1 ≤ v) ∧
    ((0 : Node) ≤ 1 ∧ (1 : Node) < gridHeavyCentre.height * gridHeavyCentre.width) ∧
    ((0 : Node) ≤ 4 ∧ (4 : Node) < gridHeavyCentre.height * gridHeavyCentre.width) ∧
    isWalk gridHeavyCentre.toGraph 1 [{ target := 4, weight := -1294967296 }] = true ∧
    walkEnd 1 [{ target := 4, weight := -1294967296 }] = 4 ∧
    walkCost [{ target := 4, weight := -1294967296 }] = -1294967296 ∧
    gridHeavyCentre.getHeuristic 1 4 = 10 :=
  ⟨by decide, by decide, by decide, by decide, by decide, by decide, by decide, by decide⟩

/-- C16 (amended): on a grid whose terrain weights are all at least 1 and small enough
for the products `10 * weight` (with diagonals also `14 * weight`) to fit in an
`int`, diagonals enabled or not, for in-bounds nodes `n` and `t`, `getHeuristic n t`
is at most the total edge weight of every walk from `n` to `t` along `getNeighbors`
edges. -/
theorem heuristic_never_overestimates (g : Grid) (n t : Node)
    (hm : ∀ row ∈ g.weights, ∀ v ∈ row, 1 ≤ v) (hfit : g.ProductsFit)
    (hn : 0 ≤ n ∧ n < g.height * g.width) (ht : 0 ≤ t ∧ t < g.height * g.width) :
    ∀ es : List Edge, isWalk g.toGraph n es = true → walkEnd n es = t →
      g.getHeuristic n t ≤ walkCost es := by
  intro es hwalk hend
  exact grid_admissible g (productsFit_edgesFit g hfit) hm t n ((mem_nodes_iff g n).mpr hn) es
    hwalk hend

/-- C16 (amended) at a concrete input: the edited 3×3 grid, nodes 0 and 8. -/
theorem heuristic_never_overestimates_witness :
    (∀ row ∈ grid3x3Edited.weights, ∀ v ∈ row, 1 ≤ v) ∧ grid3x3Edited.ProductsFit ∧
    ((0 : Node) ≤ 0 ∧ (0 : Node) < grid3x3Edited.height * grid3x3Edited.width) ∧
    ((0 : Node) ≤ 8 ∧ (8 : Node) < grid3x3Edited.height * grid3x3Edited.width) ∧
    (∀ es : List Edge, isWalk grid3x3Edited.toGraph 0 es = true → walkEnd 0 es = 8 →
      grid3x3Edited.getHeuristic 0 8 ≤ walkCost es) :=
  ⟨by decide, by decide, by decide, by decide,
    heuristic_never_overestimates grid3x3Edited 0 8 (by decide) (by decide) (by decide)
      (by decide)⟩

theorem scan_cell_eq (g : Grid) (nx ny base : Int) :
    (if (g.isValid nx ny && !g.isObstacle nx ny) = true then
        some ({ target := g.toNode nx ny,
                weight := wrapInt32 (base * g.getWeight nx ny) } : Edge)
      else none) =
    (if 0 ≤ nx ∧ nx < g.height ∧ 0 ≤ ny ∧ ny < g.width ∧ matGet g.map nx ny '.' ≠ '#' then
        some ({ target := nx * g.width + ny,
                weight := wrapInt32 (base * matGet g.weights nx ny 1) } : Edge)
      else none) := by
  by_cases hv : g.isValid nx ny = true
  · have hb := (isValid_iff g nx ny).mp hv
    unfold Grid.isObstacle Grid.getWeight Grid.toNode Grid.cell
    simp only [hv, Bool.not_true, Bool.false_eq_true, if_false, if_true, Bool.true_and]
    by_cases hc : matGet g.map nx ny '.' = '#'
    · simp [hc]
    · simp [hc, hb.1, hb.2.1, hb.2.2.1, hb.2.2.2]
  · have hb : ¬ (0 ≤ nx ∧ nx < g.height ∧ 0 ≤ ny ∧ ny < g.width) := by
      intro h
      exact hv ((isValid_iff g nx ny).mpr h)
    have hv2 : g.isValid nx ny = false := by simpa using hv
    rw [if_neg (by simp [hv2]), if_neg (by intro h; exact hb ⟨h.1, h.2.1, h.2.2.1, h.2.2.2.1⟩)]

theorem scanDirs_eq (g : Grid) (p : Point) (base : Int) (dirs : List (Int × Int)) :
    g.scanDirs p base dirs =
      (dirs.map fun d => (p.x + d.1, p.y + d.2, base)).filterMap fun cell =>
        if 0 ≤ cell.1 ∧ cell.1 < g.height ∧ 0 ≤ cell.2.1 ∧ cell.2.1 < g.width ∧
            matGet g.map cell.1 cell.2.1 '.' ≠ '#' then
          some { target := cell.1 * g.width + cell.2.1,
                 weight := wrapInt32 (cell.2.2 * matGet g.weights cell.1 cell.2.1 1) }
        else none := by
  unfold Grid.scanDirs
  rw [List.filterMap_map]
  apply List.filterMap_congr
  intro d _
  exact scan_cell_eq g (p.x + d.1) (p.y + d.2) base

theorem specNeighbors_wrapped (g : Grid) (r c : Int) :
    ((g.specNeighbors r c).map fun e => ({ e with weight := wrapInt32 e.weight } : Edge)) =
      (specOffsets r c g.m_allowDiagonals).filterMap fun cell =>
        if 0 ≤ cell.1 ∧ cell.1 < g.height ∧ 0 ≤ cell.2.1 ∧ cell.2.1 < g.width ∧
            matGet g.map cell.1 cell.2.1 '.' ≠ '#' then
          some { target := cell.1 * g.width + cell.2.1,
                 weight := wrapInt32 (cell.2.2 * matGet g.weights cell.1 cell.2.1 1) }
        else none := by
  unfold Grid.specNeighbors
  rw [List.map_filterMap]
  apply List.filterMap_congr
  intro cell _
  split <;> rfl

/-- `getNeighbors` of the node of an in-bounds cell is the specified neighbour list
with every product taken in `int`. -/
theorem getNeighbors_eq_spec (g : Grid) (r c : Int) (hv : g.isValid r c = true) :
    g.getNeighbors (g.toNode r c) =
      (g.specNeighbors r c).map fun e => ({ e with weight := wrapInt32 e.weight } : Edge) := by
  have hb := (isValid_iff g r c).mp hv
  rw [specNeighbors_wrapped]
  unfold Grid.getNeighbors specOffsets
  rw [toPoint_toNode g r c hb.1 hb.2.2.1 hb.2.2.2]
  simp only [scanDirs_eq]
  have e1 : ∀ x : Int, x + -1 = x - 1 := fun x => by omega
  have e0 : ∀ x : Int, x + 0 = x := fun x => by omega
  cases hd : g.m_allowDiagonals with
  | false =>
    simp only [Bool.false_eq_true, if_false, List.append_nil, List.map_cons, List.map_nil, e1, e0]
  | true =>
    simp only [if_true, List.map_cons, List.map_nil, e1, e0, List.filterMap_append]

theorem matGet_matSet_ne {α : Type} (m : List (List α)) (x y x2 y2 : Int) (v d : α)
    (hx : 0 ≤ x) (hy : 0 ≤ y) (hx2 : 0 ≤ x2) (hy2 : 0 ≤ y2) (hne : x2 ≠ x ∨ y2 ≠ y) :
    matGet (matSet m x y v) x2 y2 d = matGet m x2 y2 d := by
  unfold matGet matSet
  by_cases hxx : x2 = x
  · subst hxx
    have hyy : y2.toNat ≠ y.toNat := by
      rcases hne with h | h
      · exact absurd rfl h
      · omega
    by_cases hlen : x2.toNat < m.length
    · have e : (m.set x2.toNat ((m.getD x2.toNat []).set y.toNat v)).getD x2.toNat []
          = (m.getD x2.toNat []).set y.toNat v := by
        rw [List.getD_eq_getElem?_getD, List.getElem?_set_self (by simpa using hlen)]
        simp
      rw [e, List.getD_eq_getElem?_getD, List.getElem?_set_ne (Ne.symm hyy),
        ← List.getD_eq_getElem?_getD]
    · rw [List.set_eq_of_length_le (by omega)]
  · have hxn : x2.toNat ≠ x.toNat := by omega
    have e : (m.set x.toNat ((m.getD x.toNat []).set y.toNat v)).getD x2.toNat []
        = m.getD x2.toNat [] := by
      rw [List.getD_eq_getElem?_getD, List.getElem?_set_ne (Ne.symm hxn),
        ← List.getD_eq_getElem?_getD]
    rw [e]

/-- C15 (as stated, at a terrain weight whose product does not fit in an `int`): on
`Grid(3,3)` after `setWeight(0,1,300000000)` the list `getNeighbors` of node 0 (the
in-bounds cell (0,0)) holds the edge to node 1 with weight −1294967296, while 10
times the terrain weight of that cell is 3000000000. -/
theorem getNeighbors_product_wraps :
    gridHeavyEdge = grid3x3.setWeight 0 1 300000000 ∧
    gridHeavyEdge.isValid 0 0 = true ∧
    gridHeavyEdge.getNeighbors (gridHeavyEdge.toNode 0 0)
      = [{ target := 3, weight := 10 }, { target := 1, weight := -1294967296 }] ∧
    gridHeavyEdge.specNeighbors 0 0
      = [{ target := 3, weight := 10 }, { target := 1, weight := 3000000000 }] ∧
    10 * gridHeavyEdge.getWeight 0 1 = 3000000000 :=
  ⟨by decide, by decide, by decide, by decide, by decide⟩

/-- C15 (amended): for an in-bounds cell `(r, c)` and its node, `getNeighbors` is exactly
the list of the specification (offsets up, down, left, right, then with diagonals
up-left, up-right, down-left, down-right; a cell is kept if and only if it is in
bounds and not an obstacle) with the weight 10 or 14 times the terrain weight of
that cell taken in `int`: it is that product whenever the product fits in an `int`,
and the product wrapped around otherwise.  The list is the same whatever the cell
type and terrain weight of `(r, c)` itself are. -/
theorem getNeighbors_exact (g : Grid) (r c : Int) (hv : g.isValid r c = true) :
    g.getNeighbors (g.toNode r c) =
      ((g.specNeighbors r c).map fun e => ({ e with weight := wrapInt32 e.weight } : Edge)) ∧
    ((∀ e ∈ g.specNeighbors r c, IsInt32 e.weight) →
      g.getNeighbors (g.toNode r c) = g.specNeighbors r c) ∧
    ∀ (ch : Char) (wt : Int),
      ({ g with map := matSet g.map r c ch, weights := matSet g.weights r c wt } : Grid).getNeighbors
          (g.toNode r c) = g.getNeighbors (g.toNode r c) := by
  refine ⟨getNeighbors_eq_spec g r c hv, fun hfit => ?_, fun ch wt => ?_⟩
  · rw [getNeighbors_eq_spec g r c hv]
    conv_rhs => rw [← List.map_id (g.specNeighbors r c)]
    apply List.map_congr_left
    intro e he
    rw [wrapInt32_of_isInt32 _ (hfit e he)]
    rfl
  have hb := (isValid_iff g r c).mp hv
  have h2 := getNeighbors_eq_spec
    ({ g with map := matSet g.map r c ch, weights := matSet g.weights r c wt } : Grid) r c hv
  have htn : ({ g with map := matSet g.map r c ch, weights := matSet g.weights r c wt } : Grid).toNode
      r c = g.toNode r c := rfl
  rw [htn] at h2
  rw [h2, getNeighbors_eq_spec g r c hv]
  congr 1
  unfold Grid.specNeighbors
  simp only
  apply List.filterMap_congr
  intro cell hcell
  have hcne : cell.1 ≠ r ∨ cell.2.1 ≠ c := by
    unfold specOffsets at hcell
    simp only [List.mem_append, List.mem_cons, List.mem_singleton, List.not_mem_nil,
      or_false] at hcell
    rcases hcell with h | h
    · rcases h with rfl | rfl | rfl | rfl <;> simp
    · split at h
      · simp only [List.mem_cons, List.mem_singleton, List.not_mem_nil, or_false] at h
        rcases h with rfl | rfl | rfl | rfl <;> simp
      · simp at h
  by_cases hin : 0 ≤ cell.1 ∧ cell.1 < g.height ∧ 0 ≤ cell.2.1 ∧ cell.2.1 < g.width
  · rw [matGet_matSet_ne g.map r c cell.1 cell.2.1 ch '.' hb.1 hb.2.2.1 hin.1 hin.2.2.1 hcne,
      matGet_matSet_ne g.weights r c cell.1 cell.2.1 wt 1 hb.1 hb.2.2.1 hin.1 hin.2.2.1 hcne]
  · rw [if_neg (fun h => hin ⟨h.1, h.2.1, h.2.2.1, h.2.2.2.1⟩),
      if_neg (fun h => hin ⟨h.1, h.2.1, h.2.2.1, h.2.2.2.1⟩)]

/-- C15 (amended) at a concrete input: the cell (1,2) of the wall grid, to the right of
the wall. -/
theorem getNeighbors_exact_witness :
    gridWall.isValid 1 2 = true ∧
    (gridWall.getNeighbors (gridWall.toNode 1 2) =
      ((gridWall.specNeighbors 1 2).map
        fun e => ({ e with weight := wrapInt32 e.weight } : Edge)) ∧
    ((∀ e ∈ gridWall.specNeighbors 1 2, IsInt32 e.weight) →
      gridWall.getNeighbors (gridWall.toNode 1 2) = gridWall.specNeighbors 1 2) ∧
    ∀ (ch : Char) (wt : Int),
      ({ gridWall with map := matSet gridWall.map 1 2 ch,
                       weights := matSet gridWall.weights 1 2 wt } : Grid).getNeighbors
          (gridWall.toNode 1 2) = gridWall.getNeighbors (gridWall.toNode 1 2)) :=
  ⟨by decide, getNeighbors_exact gridWall 1 2 (by decide)⟩


/-! ## `Grid::load`: the header -/

theorem parseHeader_none_iff (hd : List Char) :
    parseHeader hd = none ↔
      (headerTail 5 (IStream.extractInt { buf := hd, failed := false }).1).failed = true := by
  unfold parseHeader
  simp only [headerTail]
  split
  · rename_i h; simp [h]
  · rename_i h; simp [h]

theorem extractInt_failed (s : IStream) (h : s.failed = true) :
    (s.extractInt).1.failed = true := by
  unfold IStream.extractInt
  simp [h]

theorem extractChar_failed (s : IStream) (h : s.failed = true) :
    (s.extractChar).1.failed = true := by
  unfold IStream.extractChar
  simp [h]

theorem headerTail_failed : ∀ (k : Nat) (s : IStream), s.failed = true →
    (headerTail k s).failed = true := by
  intro k
  induction k with
  | zero => intro s h; simpa [headerTail] using h
  | succ k ih =>
    intro s h
    unfold headerTail
    exact ih _ (extractInt_failed _ (extractChar_failed _ h))


/-- A header on which the extraction fails makes `load` return false at once. -/
theorem load_header_rejected (g : Grid) (hd rest : List Char) (hpipe : '|' ∉ hd)
    (hnone : parseHeader hd = none) : g.load (hd ++ '|' :: rest) = (false, g) := by
  have p1 : strFind (hd ++ '|' :: rest) '|' 0 = some hd.length := by
    unfold strFind
    simp [findIdx_append _ _ _ hpipe]
  unfold Grid.load
  simp only [p1]
  cases h2 : strFind (hd ++ '|' :: rest) '|' (hd.length + 1) with
  | none => rfl
  | some p2 =>
    simp only [List.take_left', hnone]


/-! ## Source and destination within bounds; terrain weights -/

theorem applyOp_dims (g : Grid) (op : GridOp) :
    (g.applyOp op).height = g.height ∧ (g.applyOp op).width = g.width := by
  cases op <;>
    simp only [Grid.applyOp, Grid.setObstacle, Grid.setSource, Grid.setDestination,
      Grid.setWeight, Grid.setEmpty, Grid.clearPath] <;>
    (repeat' split) <;> exact ⟨rfl, rfl⟩

theorem isValid_of_dims (g g2 : Grid) (hh : g2.height = g.height) (hw : g2.width = g.width)
    (x y : Int) : g2.isValid x y = g.isValid x y := by
  simp [Grid.isValid, hh, hw]

/-- The editing calls keep the source and the destination inside the grid. -/
theorem applyOp_endpoints (g : Grid) (op : GridOp)
    (hs : g.isValid g.source.x g.source.y = true)
    (hd : g.isValid g.destination.x g.destination.y = true) :
    (g.applyOp op).isValid (g.applyOp op).source.x (g.applyOp op).source.y = true ∧
    (g.applyOp op).isValid (g.applyOp op).destination.x (g.applyOp op).destination.y = true := by
  have hd2 := applyOp_dims g op
  rw [isValid_of_dims g _ hd2.1 hd2.2, isValid_of_dims g _ hd2.1 hd2.2]
  cases op with
  | setObstacle x y =>
    simp only [Grid.applyOp, Grid.setObstacle]
    split <;> exact ⟨hs, hd⟩
  | setSource x y =>
    simp only [Grid.applyOp, Grid.setSource]
    split
    · rename_i hv
      exact ⟨hv, hd⟩
    · exact ⟨hs, hd⟩
  | setDestination x y =>
    simp only [Grid.applyOp, Grid.setDestination]
    split
    · rename_i hv
      exact ⟨hs, hv⟩
    · exact ⟨hs, hd⟩
  | setWeight x y weight =>
    simp only [Grid.applyOp, Grid.setWeight]
    split
    · first | exact ⟨hs, hd⟩ | (split <;> exact ⟨hs, hd⟩)
    · exact ⟨hs, hd⟩
  | setEmpty x y =>
    simp only [Grid.applyOp, Grid.setEmpty]
    split <;> exact ⟨hs, hd⟩
  | clearPath =>
    simp only [Grid.applyOp, Grid.clearPath]
    first | exact ⟨hs, hd⟩ | (split <;> first | exact ⟨hs, hd⟩ | (split <;> exact ⟨hs, hd⟩))

theorem create_endpoints (height width : Int) (g : Grid) (hh : 1 ≤ height) (hw : 1 ≤ width)
    (hg : Grid.create height width = some g) :
    g.isValid g.source.x g.source.y = true ∧
    g.isValid g.destination.x g.destination.y = true := by
  unfold Grid.create at hg
  rw [if_neg (by omega)] at hg
  simp only [Option.some.injEq] at hg
  subst hg
  constructor
  · split <;> split <;> (simp [Grid.isValid]; omega)
  · split <;> split <;> (simp [Grid.isValid]; omega)

/-- Without `load`: a grid constructed with both dimensions at least 1 and modified by
editing calls has its source and destination inside the grid. -/
theorem edited_endpoints_in_bounds (height width : Int) (g0 : Grid) (ops : List GridOp)
    (hh : 1 ≤ height) (hw : 1 ≤ width) (hg : Grid.create height width = some g0) :
    (ops.foldl Grid.applyOp g0).isValid (ops.foldl Grid.applyOp g0).source.x
        (ops.foldl Grid.applyOp g0).source.y = true ∧
    (ops.foldl Grid.applyOp g0).isValid (ops.foldl Grid.applyOp g0).destination.x
        (ops.foldl Grid.applyOp g0).destination.y = true := by
  have h0 := create_endpoints height width g0 hh hw hg
  clear hg
  induction ops generalizing g0 with
  | nil => exact h0
  | cons op rest ih =>
    simp only [List.foldl_cons]
    exact ih _ (applyOp_endpoints g0 op h0.1 h0.2)

/-- C21 (the code at failing inputs): on a fresh `Grid(3,3)`, `load` of a text whose
header names the source (5,5) for a 2×2 grid returns true and stores that source, which
is outside the grid; and a `load` that returns false for a map section that is too short
has already resized the grid to 1×1, so that the old destination (2,2) is outside. -/
theorem load_endpoints_out_of_bounds :
    Grid.create 3 3 = some grid3x3 ∧
    (grid3x3.load "2,2,5,5,1,1|....|1 1 1 1 ".toList).1 = true ∧
    (grid3x3.load "2,2,5,5,1,1|....|1 1 1 1 ".toList).2.height = 2 ∧
    (grid3x3.load "2,2,5,5,1,1|....|1 1 1 1 ".toList).2.width = 2 ∧
    (grid3x3.load "2,2,5,5,1,1|....|1 1 1 1 ".toList).2.source = { x := 5, y := 5 } ∧
    (grid3x3.load "2,2,5,5,1,1|....|1 1 1 1 ".toList).2.isValid 5 5 = false ∧
    (grid3x3.load "1,1,0,0,0,0||".toList).1 = false ∧
    (grid3x3.load "1,1,0,0,0,0||".toList).2.height = 1 ∧
    (grid3x3.load "1,1,0,0,0,0||".toList).2.width = 1 ∧
    (grid3x3.load "1,1,0,0,0,0||".toList).2.destination = { x := 2, y := 2 } ∧
    (grid3x3.load "1,1,0,0,0,0||".toList).2.isValid 2 2 = false := by
  refine ⟨by decide, by decide, by decide, by decide, by decide, by decide, by decide,
    by decide, by decide, by decide, by decide⟩

theorem matSet_mem_weights (m : List (List Int)) (x y : Int) (v : Int) (P : Int → Prop)
    (hm : ∀ row ∈ m, ∀ c ∈ row, P c) (hv : P v) :
    ∀ row ∈ matSet m x y v, ∀ c ∈ row, P c := by
  intro row hrow c hc
  unfold matSet at hrow
  rcases List.mem_or_eq_of_mem_set hrow with h | h
  · exact hm row h c hc
  · rw [h] at hc
    rcases List.mem_or_eq_of_mem_set hc with h2 | h2
    · by_cases hx : x.toNat < m.length
      · have : m.getD x.toNat [] ∈ m := by
          rw [List.getD_eq_getElem _ _ hx]; exact List.getElem_mem _
        exact hm _ this c h2
      · rw [List.getD_eq_default _ _ (by omega)] at h2
        simp at h2
    · rw [h2]; exact hv

/-- An editing call whose weight argument, if it has one, is at least 1 keeps every
terrain weight at least 1. -/
theorem applyOp_weights (g : Grid) (op : GridOp)
    (hop : ∀ x y weight, op = GridOp.setWeight x y weight → 1 ≤ weight)
    (hg : ∀ row ∈ g.weights, ∀ v ∈ row, 1 ≤ v) :
    ∀ row ∈ (g.applyOp op).weights, ∀ v ∈ row, 1 ≤ v := by
  cases op with
  | setObstacle x y =>
    simp only [Grid.applyOp, Grid.setObstacle]
    split <;> exact hg
  | setSource x y =>
    simp only [Grid.applyOp, Grid.setSource]
    split
    · split <;> exact hg
    · exact hg
  | setDestination x y =>
    simp only [Grid.applyOp, Grid.setDestination]
    split
    · split <;> exact hg
    · exact hg
  | setWeight x y weight =>
    have hwt := hop x y weight rfl
    simp only [Grid.applyOp, Grid.setWeight]
    split
    · split <;> exact matSet_mem_weights _ _ _ _ _ hg hwt
    · exact hg
  | setEmpty x y =>
    simp only [Grid.applyOp, Grid.setEmpty]
    split
    · exact matSet_mem_weights _ _ _ _ _ hg (le_refl 1)
    · exact hg
  | clearPath =>
    simp only [Grid.applyOp, Grid.clearPath]
    split <;> split <;> exact hg

theorem create_weights (height width : Int) (g : Grid)
    (hg : Grid.create height width = some g) : ∀ row ∈ g.weights, ∀ v ∈ row, 1 ≤ v := by
  unfold Grid.create at hg
  split at hg
  · cases hg
  · simp only [Option.some.injEq] at hg
    subst hg
    intro row hrow v hv
    have hrow2 : row ∈ List.replicate height.toNat (List.replicate width.toNat (1 : Int)) := by
      revert hrow
      split <;> split <;> exact id
    rw [List.eq_of_mem_replicate hrow2] at hv
    rw [List.eq_of_mem_replicate hv]

/-- C22 (as stated, at a weight argument below 1): on the fresh `Grid(3,3)`,
`setWeight(1,1,0)` stores 0 and `setWeight(1,1,-5)` stores −5 as the terrain weight of
the cell (1,1). -/
theorem setWeight_stores_nonpositive :
    Grid.create 3 3 = some grid3x3 ∧
    (grid3x3.applyOp (GridOp.setWeight 1 1 0)).weights = [[1, 1, 1], [1, 0, 1], [1, 1, 1]] ∧
    (grid3x3.applyOp (GridOp.setWeight 1 1 0)).getWeight 1 1 = 0 ∧
    (grid3x3.applyOp (GridOp.setWeight 1 1 (-5))).getWeight 1 1 = -5 := by
  refine ⟨by decide, by decide, by decide, by decide⟩

/-- C22 (amended): a grid produced by the constructor and modified by editing calls in
which every `setWeight` has a weight argument of at least 1 has every terrain weight at
least 1. -/
theorem edited_weights_ge_one (height width : Int) (g0 : Grid) (ops : List GridOp)
    (hg : Grid.create height width = some g0)
    (hops : ∀ op ∈ ops, ∀ x y weight, op = GridOp.setWeight x y weight → 1 ≤ weight) :
    ∀ row ∈ (ops.foldl Grid.applyOp g0).weights, ∀ v ∈ row, 1 ≤ v := by
  have h0 := create_weights height width g0 hg
  clear hg
  revert g0 hops
  induction ops with
  | nil => intro g0 _ h0; exact h0
  | cons op rest ih =>
    intro g0 hops h0
    simp only [List.foldl_cons]
    exact ih _ (fun o ho => hops o (List.mem_cons_of_mem _ ho))
      (applyOp_weights g0 op (hops op (List.mem_cons_self _ _)) h0)

/-- C22 (amended) at a concrete input: `Grid(3,3)` followed by `setObstacle(1,1)`,
`setWeight(0,1,7)`, `setEmpty(2,0)`, `setSource(1,0)` and `clearPath()`. -/
theorem edited_weights_ge_one_witness :
    Grid.create 3 3 = some grid3x3 ∧
    (∀ op ∈ [GridOp.setObstacle 1 1, GridOp.setWeight 0 1 7, GridOp.setEmpty 2 0,
        GridOp.setSource 1 0, GridOp.clearPath],
      ∀ x y weight, op = GridOp.setWeight x y weight → 1 ≤ weight) ∧
    ∀ row ∈ ([GridOp.setObstacle 1 1, GridOp.setWeight 0 1 7, GridOp.setEmpty 2 0,
        GridOp.setSource 1 0, GridOp.clearPath].foldl Grid.applyOp grid3x3).weights,
      ∀ v ∈ row, 1 ≤ v :=
  ⟨by decide, by simp,
   edited_weights_ge_one 3 3 grid3x3 _ (by decide) (by simp)⟩

/-! ## Presentation marks and `getNeighbors` -/

theorem matGet_matSet_self {α : Type} (m : List (List α)) (x y : Int) (v d : α) :
    matGet (matSet m x y v) x y d = v ∨ matGet (matSet m x y v) x y d = d := by
  unfold matGet matSet
  by_cases hlen : x.toNat < m.length
  · have e : (m.set x.toNat ((m.getD x.toNat []).set y.toNat v)).getD x.toNat []
        = (m.getD x.toNat []).set y.toNat v := by
      rw [List.getD_eq_getElem?_getD, List.getElem?_set_self (by simpa using hlen)]
      simp
    rw [e]
    by_cases hy : y.toNat < (m.getD x.toNat []).length
    · left
      rw [List.getD_eq_getElem?_getD, List.getElem?_set_self (by simpa using hy)]
      simp
    · right
      rw [List.getD_eq_default]
      simp only [List.length_set]
      omega
  · right
    rw [List.set_eq_of_length_le (by omega), List.getD_eq_default m _ (by omega)]
    simp

/-- The neighbour lists of two grids agree when the grids have the same dimensions,
weights and diagonal flag and the same obstacles. -/
theorem getNeighbors_congr (g g2 : Grid) (hh : g2.height = g.height) (hw : g2.width = g.width)
    (hwt : g2.weights = g.weights) (hd : g2.m_allowDiagonals = g.m_allowDiagonals)
    (hob : ∀ x y, g.isValid x y = true → (g2.cell x y = '#' ↔ g.cell x y = '#')) (n : Node) :
    g2.getNeighbors n = g.getNeighbors n := by
  have scan : ∀ (p : Point) (base : Int) (dirs : List (Int × Int)),
      g2.scanDirs p base dirs = g.scanDirs p base dirs := by
    intro p base dirs
    unfold Grid.scanDirs
    apply List.filterMap_congr
    intro d _
    have hv := isValid_of_dims g g2 hh hw (p.x + d.1) (p.y + d.2)
    by_cases hvv : g.isValid (p.x + d.1) (p.y + d.2) = true
    · have ho := hob _ _ hvv
      have hobs : g2.isObstacle (p.x + d.1) (p.y + d.2) = g.isObstacle (p.x + d.1) (p.y + d.2) := by
        unfold Grid.isObstacle
        rw [hv, hvv]
        simp only [Bool.not_true, Bool.false_eq_true, if_false]
        by_cases hc : g.cell (p.x + d.1) (p.y + d.2) = '#'
        · rw [hc, ho.mpr hc]
        · have hc2 : ¬ g2.cell (p.x + d.1) (p.y + d.2) = '#' := fun h => hc (ho.mp h)
          simp [hc, hc2]
      simp only [hv, hobs, Grid.toNode, Grid.getWeight, hw, hwt]
    · simp only [hv, hvv, Bool.false_and, Bool.false_eq_true, if_false]
  unfold Grid.getNeighbors
  have htp : g2.toPoint n = g.toPoint n := by simp [Grid.toPoint, hw]
  simp only [htp, scan, hd]

/-- The call `setVisited` never changes a neighbour list. -/
theorem setVisited_getNeighbors (g : Grid) (x y : Int) (n : Node) :
    (g.setVisited x y).getNeighbors n = g.getNeighbors n := by
  unfold Grid.setVisited
  split
  · rename_i hc
    simp only [Bool.and_eq_true, bne_iff_ne, ne_eq] at hc
    obtain ⟨⟨⟨hv, _⟩, _⟩, hno⟩ := hc
    have hb := (isValid_iff g x y).mp hv
    refine getNeighbors_congr g { g with map := matSet g.map x y 'v' } rfl rfl rfl rfl ?_ n
    intro x2 y2 hv2
    have hb2 := (isValid_iff g x2 y2).mp hv2
    show matGet (matSet g.map x y 'v') x2 y2 '.' = '#' ↔ g.cell x2 y2 = '#'
    by_cases hsame : x2 = x ∧ y2 = y
    · obtain ⟨rfl, rfl⟩ := hsame
      constructor
      · intro h
        rcases matGet_matSet_self g.map x2 y2 'v' '.' with e | e
        · rw [e] at h; exact absurd h (by decide)
        · rw [e] at h; exact absurd h (by decide)
      · intro h; exact absurd h hno
    · have hne : x2 ≠ x ∨ y2 ≠ y := by
        by_cases hx : x2 = x
        · right; intro hy; exact hsame ⟨hx, hy⟩
        · left; exact hx
      rw [matGet_matSet_ne g.map x y x2 y2 'v' '.' hb.1 hb.2.2.1 hb2.1 hb2.2.2.1 hne]
      rfl
  · rfl

/-- C23 (the code at a failing input): on the 3×3 grid with an obstacle at (1,1),
`setCurrent(1,1)` replaces the obstacle by the mark `c`, and `markPath` of the list
holding (1,1) replaces it by `*`; either way the node 4 appears in the neighbour list of
the node 1, and `clearPath` then leaves the cell empty.  The sibling `setVisited(1,1)`
leaves the grid as it is. -/
theorem setCurrent_opens_obstacle :
    grid3x3Edited.cell 1 1 = '#' ∧
    grid3x3Edited.getNeighbors 1
      = [{ target := 0, weight := 10 }, { target := 2, weight := 10 }] ∧
    (grid3x3Edited.setCurrent 1 1).cell 1 1 = 'c' ∧
    (grid3x3Edited.setCurrent 1 1).getNeighbors 1
      = [{ target := 4, weight := 10 }, { target := 0, weight := 10 },
         { target := 2, weight := 10 }] ∧
    (grid3x3Edited.markPath [{ x := 1, y := 1 }]).cell 1 1 = '*' ∧
    (grid3x3Edited.markPath [{ x := 1, y := 1 }]).getNeighbors 1
      = [{ target := 4, weight := 10 }, { target := 0, weight := 10 },
         { target := 2, weight := 10 }] ∧
    ((grid3x3Edited.setCurrent 1 1).clearPath).cell 1 1 = '.' ∧
    grid3x3Edited.setVisited 1 1 = grid3x3Edited := by
  refine ⟨by decide, by decide, by decide, by decide, by decide, by decide, by decide,
    by decide⟩

/-! ## `reconstructPathInternal` -/

theorem reconstruct_walk_shape (parent : NodeMap Node) (start endNode : Node) (fuel : Nat)
    (walked : List Node)
    (h : iterate (reconstructStep parent start) fuel (endNode, []) = some walked) :
    walked = [] ∨ (walked.head? = some endNode ∧
      List.Chain' (fun a b => parent a = some b) walked) := by
  have key := iterate_invariant (reconstructStep parent start)
    (fun s : Node × List Node =>
      (s.2 ++ [s.1]).head? = some endNode ∧
        List.Chain' (fun a b => parent a = some b) (s.2 ++ [s.1]))
    (by
      intro s s1 inv hstep
      unfold reconstructStep at hstep
      split at hstep
      · cases hstep
      · simp only at hstep
        split at hstep
        · cases hstep
        · split at hstep
          · cases hstep
          · rename_i p hp
            simp only [Sum.inl.injEq] at hstep
            subst hstep
            simp only
            constructor
            · rw [List.head?_append_of_ne_nil _ (by simp)]
              exact inv.1
            · rw [List.chain'_append]
              refine ⟨inv.2, List.chain'_singleton _, ?_⟩
              intro a ha b hb
              have hl : (s.2 ++ [s.1]).getLast? = some s.1 := by simp
              rw [hl] at ha
              simp only [Option.mem_def, Option.some.injEq] at ha
              simp only [List.head?_cons, Option.mem_def, Option.some.injEq] at hb
              subst ha; subst hb
              exact hp)
    fuel (endNode, []) walked ⟨by simp, by simp⟩ h
  obtain ⟨sl, ⟨hhead, hchain⟩, hexit⟩ := key
  unfold reconstructStep at hexit
  split at hexit
  · simp only [Sum.inr.injEq] at hexit
    subst hexit
    by_cases hnil : sl.2 = []
    · left; exact hnil
    · right
      rw [List.head?_append_of_ne_nil _ hnil] at hhead
      exact ⟨hhead, (List.chain'_append.mp hchain).1⟩
  · simp only at hexit
    split at hexit
    · simp only [Sum.inr.injEq] at hexit
      subst hexit
      right; exact ⟨hhead, hchain⟩
    · split at hexit
      · simp only [Sum.inr.injEq] at hexit
        subst hexit
        right; exact ⟨hhead, hchain⟩
      · cases hexit

theorem reconstruct_result_shape (parent : NodeMap Node) (start endNode : Node) (fuel : Nat)
    (path : List Node) (h : reconstructPathInternal fuel parent start endNode = some path) :
    path = [] ∨ (path.head? = some start ∧ path.getLast? = some endNode ∧
      List.Chain' (fun a b => parent b = some a) path) := by
  unfold reconstructPathInternal at h
  cases hw : iterate (reconstructStep parent start) fuel (endNode, []) with
  | none => rw [hw] at h; cases h
  | some walked =>
    rw [hw] at h
    simp only at h
    have shape := reconstruct_walk_shape parent start endNode fuel walked hw
    cases hrev : walked.reverse with
    | nil =>
      rw [hrev] at h
      simp only [Option.some.injEq] at h
      left; exact h.symm
    | cons first rest =>
      rw [hrev] at h
      simp only at h
      by_cases hf : first = start
      · rw [if_neg (by simpa using hf)] at h
        simp only [Option.some.injEq] at h
        subst h
        right
        rcases shape with hnil | ⟨hhead, hchain⟩
        · rw [hnil] at hrev; simp at hrev
        · refine ⟨by simp [hf], ?_, ?_⟩
          · rw [← hrev, List.getLast?_reverse]; exact hhead
          · rw [← hrev, List.chain'_reverse]
            exact hchain
      · rw [if_pos (by simpa using hf)] at h
        simp only [Option.some.injEq] at h
        left; exact h.symm

theorem backWalk_iterate (parent : NodeMap Node) (start : Node) (v x : Node)
    (hw : BackWalk parent start v x) (hx : x = -1 ∨ (x ≠ start ∧ parent x = none)) :
    ∀ acc : List Node, ∃ (n : Nat) (walked : List Node),
      iterate (reconstructStep parent start) n (v, acc) = some walked ∧
      ((walked = acc ∧ v = -1) ∨ ∃ w y, walked = w ++ [y] ∧ y ≠ start) := by
  induction hw with
  | here v =>
    intro acc
    by_cases hs : v = -1
    · refine ⟨1, acc, ?_, Or.inl ⟨rfl, hs⟩⟩
      simp [iterate, reconstructStep, hs]
    · rcases hx with h | ⟨hne, hnone⟩
      · exact absurd h hs
      · refine ⟨1, acc ++ [v], ?_, Or.inr ⟨acc, v, rfl, hne⟩⟩
        simp [iterate, reconstructStep, hs, hne, hnone]
  | next v p x hv1 hv2 hp _ ih =>
    intro acc
    obtain ⟨n, walked, hrun, hshape⟩ := ih hx (acc ++ [v])
    refine ⟨n + 1, walked, ?_, ?_⟩
    · simp only [iterate, reconstructStep, hv1, hv2, hp, if_false]
      exact hrun
    · rcases hshape with ⟨hwk, _⟩ | h
      · exact Or.inr ⟨acc, v, hwk, hv2⟩
      · exact Or.inr h

theorem backWalk_empty (parent : NodeMap Node) (start endNode x : Node)
    (hw : BackWalk parent start endNode x) (hx : x = -1 ∨ (x ≠ start ∧ parent x = none)) :
    ∃ fuel, reconstructPathInternal fuel parent start endNode = some [] := by
  obtain ⟨n, walked, hrun, hshape⟩ := backWalk_iterate parent start endNode x hw hx []
  refine ⟨n, ?_⟩
  unfold reconstructPathInternal
  rw [hrun]
  rcases hshape with ⟨hwk, _⟩ | ⟨w, y, hwk, hy⟩
  · subst hwk; rfl
  · subst hwk
    simp [hy]

/-- C24: for a start node and an end node other than −1, whenever
`reconstructPathInternal` returns, it returns the empty list or a list that begins with
`start`, ends with the end node and in which each element is the parent entry of the
element after it; and when the backward walk arrives at the sentinel −1 without passing
`start`, or at a node other than `start` that has no parent entry, the function returns,
and what it returns is the empty list. -/
theorem reconstructPathInternal_spec (parent : NodeMap Node) (start endNode : Node)
    (hs : start ≠ -1) (he : endNode ≠ -1) :
    (∀ (fuel : Nat) (path : List Node),
      reconstructPathInternal fuel parent start endNode = some path →
        path = [] ∨ (path.head? = some start ∧ path.getLast? = some endNode ∧
          List.Chain' (fun a b => parent b = some a) path)) ∧
    (∀ x : Node, BackWalk parent start endNode x →
      (x = -1 ∨ (x ≠ start ∧ parent x = none)) →
        (∃ fuel, reconstructPathInternal fuel parent start endNode = some []) ∧
        ∀ (fuel : Nat) (path : List Node),
          reconstructPathInternal fuel parent start endNode = some path → path = []) := by
  refine ⟨fun fuel path h => reconstruct_result_shape parent start endNode fuel path h, ?_⟩
  intro x hw hx
  obtain ⟨n, hn⟩ := backWalk_empty parent start endNode x hw hx
  exact ⟨⟨n, hn⟩, fun fuel path h => reconstruct_unique parent start endNode fuel n path [] h hn⟩

/-- C24 at a concrete input: the parent map 0 ↦ −1, 1 ↦ 0, 2 ↦ 1, 7 ↦ 6, walked back
from 2 to the start 0 and from 7 (whose walk ends at 6, which has no entry). -/
theorem reconstructPathInternal_spec_witness :
    reconstructPathInternal 5 sampleParent 0 2 = some [0, 1, 2] ∧
    reconstructPathInternal 5 sampleParent 0 7 = some [] ∧
    BackWalk sampleParent 0 7 6 ∧
    ((∀ (fuel : Nat) (path : List Node),
      reconstructPathInternal fuel sampleParent 0 7 = some path →
        path = [] ∨ (path.head? = some 0 ∧ path.getLast? = some 7 ∧
          List.Chain' (fun a b => sampleParent b = some a) path)) ∧
    (∀ x : Node, BackWalk sampleParent 0 7 x →
      (x = -1 ∨ (x ≠ 0 ∧ sampleParent x = none)) →
        (∃ fuel, reconstructPathInternal fuel sampleParent 0 7 = some []) ∧
        ∀ (fuel : Nat) (path : List Node),
          reconstructPathInternal fuel sampleParent 0 7 = some path → path = [])) :=
  ⟨by decide, by decide,
   BackWalk.next 7 6 6 (by decide) (by decide) (by decide) (BackWalk.here 6),
   reconstructPathInternal_spec sampleParent 0 7 (by decide) (by decide)⟩


/-! ## Termination on grids; the cost of the returned path -/

theorem matGet_weights_nonneg (m : List (List Int)) (x y : Int)
    (hm : ∀ row ∈ m, ∀ v ∈ row, 0 ≤ v) : 0 ≤ matGet m x y 1 := by
  unfold matGet
  by_cases hx : x.toNat < m.length
  · rw [List.getD_eq_getElem _ _ hx]
    by_cases hy : y.toNat < (m[x.toNat]).length
    · rw [List.getD_eq_getElem _ _ hy]
      exact hm _ (List.getElem_mem _) _ (List.getElem_mem _)
    · rw [List.getD_eq_default _ _ (by omega)]
      decide
  · have hrow : m.getD x.toNat [] = [] := List.getD_eq_default _ _ (by omega)
    rw [hrow]
    simp

theorem grid_nonneg_of_nonneg (g : Grid) (hfit : g.EdgesFit)
    (hm : ∀ row ∈ g.weights, ∀ v ∈ row, 0 ≤ v) : NonNegWeights g.toGraph g.nodes := by
  intro u _ e he
  obtain ⟨dx, dy, base, hb, _, _, _, hwt⟩ := mem_getNeighbors_fit g hfit u e he
  have h0 : 0 ≤ g.getWeight ((g.toPoint u).x + dx) ((g.toPoint u).y + dy) := by
    unfold Grid.getWeight
    by_cases hvv : g.isValid ((g.toPoint u).x + dx) ((g.toPoint u).y + dy) = true
    · rw [if_pos hvv]
      exact matGet_weights_nonneg g.weights _ _ hm
    · rw [if_neg hvv]
      norm_num
  rw [hwt]
  rcases hb with ⟨rfl, _⟩ | ⟨rfl, _⟩ <;> omega

/-- With exact sums, on a grid whose terrain weights are all non-negative and whose
products fit, for in-bounds start and end nodes: each of `runBFS`, `runDijkstraExact`
and `runAStarExact` returns a result. -/
theorem gridExact_searches_terminate (g : Grid) (start endNode : Node)
    (hm : ∀ row ∈ g.weights, ∀ v ∈ row, 0 ≤ v) (hfit : g.EdgesFit)
    (hs : 0 ≤ start ∧ start < g.height * g.width)
    (he : 0 ≤ endNode ∧ endNode < g.height * g.width) :
    (∃ (fuel : Nat) (r : AlgoResult), runBFS fuel g.toGraph start endNode = some r) ∧
    (∃ (fuel : Nat) (r : AlgoResult), runDijkstraExact fuel g.toGraph start endNode = some r) ∧
    (∃ (fuel : Nat) (r : AlgoResult), runAStarExact fuel g.toGraph start endNode = some r) := by
  have hsV : start ∈ g.nodes := (mem_nodes_iff g start).mpr hs
  have hV := grid_closed g
  have hw := grid_nonneg_of_nonneg g hfit hm
  exact ⟨(runBFS_spec g.toGraph g.nodes start endNode hsV hV).1,
    (runDijkstraExact_spec g.toGraph g.nodes start endNode hsV hV hw).1,
    (runAStarExact_spec g.toGraph g.nodes start endNode hsV hV hw).1⟩


theorem stepWeight_eq (graph : IGraph) (huniq : UniqueTargets graph) (u v : Node) (e : Edge)
    (he : e ∈ graph.getNeighbors u) (ht : e.target = v) : stepWeight graph u v = e.weight := by
  unfold stepWeight
  cases hf : (graph.getNeighbors u).find? fun e => decide (e.target = v) with
  | none =>
    have := List.find?_eq_none.mp hf e he
    simp [ht] at this
  | some e2 =>
    have hmem := List.mem_of_find?_eq_some hf
    have hprop := List.find?_some hf
    simp only [decide_eq_true_eq] at hprop
    have : e2 = e := huniq u e2 hmem e he (by rw [hprop, ht])
    rw [this]

theorem pathCost_concat (graph : IGraph) (v : Node) :
    ∀ (l : List Node) (u : Node), l.getLast? = some u →
      pathCost graph (l ++ [v]) = pathCost graph l + stepWeight graph u v := by
  intro l
  induction l with
  | nil => intro u h; simp at h
  | cons a rest ih =>
    intro u h
    cases rest with
    | nil =>
      simp only [List.getLast?_singleton, Option.some.injEq] at h
      subst h
      simp [pathCost]
    | cons b rest2 =>
      have h2 : (b :: rest2).getLast? = some u := by
        rw [List.getLast?_cons_cons] at h; exact h
      have := ih u h2
      simp only [List.cons_append] at this ⊢
      simp only [pathCost]
      rw [this]
      ring

theorem ParentChain.cost_le {graph : IGraph} {start : Node}
    {parent : NodeMap Node} {g : NodeMap Int} {v : Node} {l : List Node}
    (h : ParentChain graph Edge.weight start parent g v l) (huniq : UniqueTargets graph) :
    ∀ d0 dv, g start = some d0 → g v = some dv → d0 + pathCost graph l ≤ dv := by
  induction h with
  | base d0 h0 =>
    intro d1 dv h1 hv
    rw [h1] at hv
    simp only [Option.some.injEq] at hv
    simp [pathCost, hv]
  | step u v l e du dv hne hp he ht hu hv h0 hle hprev ih =>
    intro d0 dv2 hd0 hdv2
    rw [hv] at hdv2
    simp only [Option.some.injEq] at hdv2
    have h1 := ih d0 du hd0 hu
    rw [pathCost_concat graph v l u hprev.getLast, stepWeight_eq graph huniq u v e he ht]
    omega

theorem ParentChain.cost_walk {graph : IGraph} {start : Node}
    {parent : NodeMap Node} {g : NodeMap Int} {v : Node} {l : List Node}
    (h : ParentChain graph Edge.weight start parent g v l) (huniq : UniqueTargets graph) :
    ∃ es, isWalk graph start es = true ∧ walkEnd start es = v ∧
      walkCost es = pathCost graph l := by
  induction h with
  | base d0 h0 => exact ⟨[], rfl, rfl, by simp [walkCost, pathCost]⟩
  | step u v l e du dv hne hp he ht hu hv h0 hle hprev ih =>
    obtain ⟨es, h1, h2, h3⟩ := ih
    refine ⟨es ++ [e], ?_, ?_, ?_⟩
    · rw [isWalk_append, h1, h2]
      simp [isWalk, he]
    · rw [walkEnd_append, h2]
      simp [walkEnd, ht]
    · rw [walkCost_append, h3, pathCost_concat graph v l u hprev.getLast,
        stepWeight_eq graph huniq u v e he ht]
      simp [walkCost]

theorem toNode_injective (g : Grid) (x y x2 y2 : Int) (h1 : g.isValid x y = true)
    (h2 : g.isValid x2 y2 = true) (h : g.toNode x y = g.toNode x2 y2) : x = x2 ∧ y = y2 := by
  have b1 := (isValid_iff g x y).mp h1
  have b2 := (isValid_iff g x2 y2).mp h2
  have p1 := toPoint_toNode g x y b1.1 b1.2.2.1 b1.2.2.2
  have p2 := toPoint_toNode g x2 y2 b2.1 b2.2.2.1 b2.2.2.2
  rw [h, p2] at p1
  simp only [Point.mk.injEq] at p1
  exact ⟨p1.1.symm, p1.2.symm⟩

theorem grid_unique_targets (g : Grid) : UniqueTargets g.toGraph := by
  intro u e1 he1 e2 he2 ht
  obtain ⟨dx, dy, base, hb, hv, _, htg, hwt⟩ := mem_getNeighbors g u e1 he1
  obtain ⟨dx2, dy2, base2, hb2, hv2, _, htg2, hwt2⟩ := mem_getNeighbors g u e2 he2
  rw [htg, htg2] at ht
  obtain ⟨hx, hy⟩ := toNode_injective g _ _ _ _ hv hv2 ht
  have hdx : dx = dx2 := by omega
  have hdy : dy = dy2 := by omega
  subst hdx; subst hdy
  have hbase : base = base2 := by
    rcases hb with ⟨rfl, h⟩ | ⟨rfl, _, h3, h4⟩ <;>
      rcases hb2 with ⟨rfl, h5⟩ | ⟨rfl, _, h6, h7⟩ <;> first | rfl | omega
  subst hbase
  cases e1; cases e2
  simp only at htg htg2 hwt hwt2
  simp only [Edge.mk.injEq]
  exact ⟨by rw [htg, htg2], by rw [hwt, hwt2]⟩

theorem grid_step_weight (g : Grid) (hfit : g.EdgesFit) (a b : Node)
    (h : ∃ e ∈ g.toGraph.getNeighbors a, e.target = b) :
    stepWeight g.toGraph a b = 10 * g.getWeight (g.toPoint b).x (g.toPoint b).y ∨
    stepWeight g.toGraph a b = 14 * g.getWeight (g.toPoint b).x (g.toPoint b).y := by
  obtain ⟨e, he, ht⟩ := h
  rw [stepWeight_eq g.toGraph (grid_unique_targets g) a b e he ht]
  obtain ⟨dx, dy, base, hb, hv, _, htg, hwt⟩ := mem_getNeighbors_fit g hfit a e he
  have bv := (isValid_iff g _ _).mp hv
  have hp : g.toPoint b = { x := (g.toPoint a).x + dx, y := (g.toPoint a).y + dy } := by
    rw [← ht, htg]
    exact toPoint_toNode g _ _ bv.1 bv.2.2.1 bv.2.2.2
  rw [hp, hwt]
  rcases hb with ⟨rfl, _⟩ | ⟨rfl, _⟩
  · left; rfl
  · right; rfl

theorem dijkstraFinalExact_start (graph : IGraph) (V : List Node) (start endNode : Node)
    (hV : ClosedUnder graph V) (hw : NonNegWeights graph V) (hs : start ∈ V)
    (n : Nat) (r : DijkstraState) (h : dijkstraFinalExact n graph start endNode = some r) :
    r.dist start = some 0 := by
  obtain ⟨sl, inv, hexit⟩ := iterate_invariant (dijkstraStepExact graph endNode)
    (DijkstraInv graph V start endNode)
    (fun s s1 i hst => (dijkstraStepExact_inv graph V start endNode hV hw s s1 i hst).1)
    n (dijkstraInit start) r (dijkstraInit_inv graph V start endNode hs) h
  rcases dijkstraStepExact_exit graph V start endNode sl r inv hexit with ⟨_, rfl⟩ | ⟨d, _, _, hd, _⟩
  · exact inv.core.start_dist
  · rw [hd]; exact inv.core.start_dist

theorem aStarFinalExact_start (graph : IGraph) (V : List Node) (start endNode : Node)
    (hV : ClosedUnder graph V) (hw : NonNegWeights graph V) (hs : start ∈ V)
    (n : Nat) (r : AStarState) (h : aStarFinalExact n graph start endNode = some r) :
    r.gScore start = some 0 := by
  obtain ⟨sl, inv, hexit⟩ := iterate_invariant (aStarStepExact graph endNode)
    (AStarInv graph V start endNode)
    (fun s s1 i hst => (aStarStepExact_inv graph V start endNode hV hw s s1 i hst).1)
    n (aStarInit graph start endNode) r (aStarInit_inv graph V start endNode hs) h
  rcases aStarStepExact_exit graph V start endNode sl r inv hexit with
    ⟨_, rfl⟩ | ⟨f, ge, _, _, _, hd, _⟩
  · exact inv.core.start_g
  · rw [hd]; exact inv.core.start_g

/-- The cost reported by `runDijkstraExact` is the cost of the path it returns. -/
theorem runDijkstraExact_path_cost (graph : IGraph) (V : List Node) (start endNode : Node)
    (hs : start ∈ V) (hV : ClosedUnder graph V) (hw : NonNegWeights graph V)
    (hsent : (-1 : Node) ∉ V) (huniq : UniqueTargets graph)
    (fuel : Nat) (r : AlgoResult) (h : runDijkstraExact fuel graph start endNode = some r)
    (hsucc : r.success = true) :
    r.totalCost = pathCost graph r.path ∧ IsPath graph r.path := by
  obtain ⟨s, p, hfin, hrec, rfl⟩ := runDijkstraExact_eq_some graph start endNode fuel r h
  simp only at hsucc ⊢
  have h0 := dijkstraFinalExact_start graph V start endNode hV hw hs fuel s hfin
  rcases (dijkstraFinalExact_spec graph V start endNode hV hw hs).2 fuel s hfin with
    ⟨_, hf, _⟩ | ⟨_, d, hd, _, hmin, l, hchain, hlV⟩
  · rw [hf] at hsucc; cases hsucc
  · have hnot : (-1 : Node) ∉ l := fun hm => hsent (hlV _ hm)
    obtain ⟨n2, hn2⟩ := reconstruct_chain hchain hnot
    have hpl : p = l := reconstruct_unique _ _ _ _ _ _ _ hrec hn2
    subst hpl
    rw [hsucc, hd]
    simp only [if_true, Option.getD_some]
    have hle := hchain.cost_le huniq 0 d h0 hd
    obtain ⟨es, w1, w2, w3⟩ := hchain.cost_walk huniq
    have hge := hmin es w1 w2
    exact ⟨by omega, hchain.isPath⟩

/-- The cost reported by `runAStarExact` under an admissible heuristic is the cost of the
path it returns. -/
theorem runAStarExact_path_cost (graph : IGraph) (V : List Node) (start endNode : Node)
    (hs : start ∈ V) (hV : ClosedUnder graph V) (hw : NonNegWeights graph V)
    (hsent : (-1 : Node) ∉ V) (huniq : UniqueTargets graph)
    (hadm : Admissible graph V endNode) (hh0 : 0 ≤ graph.getHeuristic endNode endNode)
    (fuel : Nat) (r : AlgoResult) (h : runAStarExact fuel graph start endNode = some r)
    (hsucc : r.success = true) :
    r.totalCost = pathCost graph r.path ∧ IsPath graph r.path := by
  obtain ⟨s, p, hfin, hrec, rfl⟩ := runAStarExact_eq_some graph start endNode fuel r h
  simp only at hsucc ⊢
  have h0 := aStarFinalExact_start graph V start endNode hV hw hs fuel s hfin
  rcases (aStarFinalExact_spec graph V start endNode hV hw hs).2 fuel s hfin with
    ⟨_, hf, _⟩ | ⟨_, d, hd, _, hmin, l, hchain, hlV⟩
  · rw [hf] at hsucc; cases hsucc
  · have hnot : (-1 : Node) ∉ l := fun hm => hsent (hlV _ hm)
    obtain ⟨n2, hn2⟩ := reconstruct_chain hchain hnot
    have hpl : p = l := reconstruct_unique _ _ _ _ _ _ _ hrec hn2
    subst hpl
    rw [hsucc, hd]
    simp only [if_true, Option.getD_some]
    have hle := hchain.cost_le huniq 0 d h0 hd
    obtain ⟨es, w1, w2, w3⟩ := hchain.cost_walk huniq
    have hge := hmin hadm hh0 es w1 w2
    exact ⟨by omega, hchain.isPath⟩

theorem grid_no_sentinel (g : Grid) : (-1 : Node) ∉ g.nodes := by
  intro h
  have h1 : (0 : Int) ≤ -1 := ((mem_nodes_iff g (-1)).mp h).1
  omega

/-- With exact sums, on a grid whose terrain weights are all at least 1 and whose
products fit, for in-bounds start and end nodes: `runDijkstraExact` and `runAStarExact`
return, and when the result has `success = true` its `totalCost` is the sum over the
consecutive steps of the returned path of the weight of the `getNeighbors` edge of
that step, which is 10 or 14 times the terrain weight of the cell entered. -/
theorem gridExact_cost_is_path_sum (g : Grid) (start endNode : Node)
    (hm : ∀ row ∈ g.weights, ∀ v ∈ row, 1 ≤ v) (hfit : g.EdgesFit)
    (hs : 0 ≤ start ∧ start < g.height * g.width)
    (he : 0 ≤ endNode ∧ endNode < g.height * g.width) :
    ((∃ (fuel : Nat) (r : AlgoResult), runDijkstraExact fuel g.toGraph start endNode = some r) ∧
      ∀ (fuel : Nat) (r : AlgoResult), runDijkstraExact fuel g.toGraph start endNode = some r →
        r.success = true →
        r.totalCost = pathCost g.toGraph r.path ∧ IsPath g.toGraph r.path ∧
        List.Chain' (fun a b =>
          stepWeight g.toGraph a b = 10 * g.getWeight (g.toPoint b).x (g.toPoint b).y ∨
          stepWeight g.toGraph a b = 14 * g.getWeight (g.toPoint b).x (g.toPoint b).y)
          r.path) ∧
    ((∃ (fuel : Nat) (r : AlgoResult), runAStarExact fuel g.toGraph start endNode = some r) ∧
      ∀ (fuel : Nat) (r : AlgoResult), runAStarExact fuel g.toGraph start endNode = some r →
        r.success = true →
        r.totalCost = pathCost g.toGraph r.path ∧ IsPath g.toGraph r.path ∧
        List.Chain' (fun a b =>
          stepWeight g.toGraph a b = 10 * g.getWeight (g.toPoint b).x (g.toPoint b).y ∨
          stepWeight g.toGraph a b = 14 * g.getWeight (g.toPoint b).x (g.toPoint b).y)
          r.path) := by
  have hsV : start ∈ g.nodes := (mem_nodes_iff g start).mpr hs
  have hV := grid_closed g
  have hw := grid_nonneg g hfit hm
  have hadm := grid_admissible g hfit hm endNode
  have hh0 : 0 ≤ g.toGraph.getHeuristic endNode endNode := by
    show 0 ≤ g.getHeuristic endNode endNode
    rw [heuristic_self]
  have huniq := grid_unique_targets g
  have hsent := grid_no_sentinel g
  refine ⟨⟨(runDijkstraExact_spec g.toGraph g.nodes start endNode hsV hV hw).1, ?_⟩,
    ⟨(runAStarExact_spec g.toGraph g.nodes start endNode hsV hV hw).1, ?_⟩⟩
  · intro fuel r hr hsucc
    obtain ⟨h1, h2⟩ := runDijkstraExact_path_cost g.toGraph g.nodes start endNode hsV hV hw hsent
      huniq fuel r hr hsucc
    exact ⟨h1, h2, List.Chain'.imp (fun a b hab => grid_step_weight g hfit a b hab) h2⟩
  · intro fuel r hr hsucc
    obtain ⟨h1, h2⟩ := runAStarExact_path_cost g.toGraph g.nodes start endNode hsV hV hw hsent
      huniq hadm hh0 fuel r hr hsucc
    exact ⟨h1, h2, List.Chain'.imp (fun a b hab => grid_step_weight g hfit a b hab) h2⟩


/-! ## The count of visited nodes in `runAStarExact` -/

theorem aStarRelaxExact_visited (graph : IGraph) (endNode curr : Node) :
    ∀ (es : List Edge) (s : AStarState),
      (aStarRelaxExact graph endNode curr es s).visitedCount = s.visitedCount ∧
      (aStarRelaxExact graph endNode curr es s).visited = s.visited := by
  intro es
  induction es with
  | nil => intro s; exact ⟨rfl, rfl⟩
  | cons e rest ih =>
    intro s
    unfold aStarRelaxExact
    simp only
    split
    · exact ih _
    · split
      · exact ih _
      · exact ih _

theorem aStarFinalExact_count (graph : IGraph) (start endNode : Node) (n : Nat) (r : AStarState)
    (h : aStarFinalExact n graph start endNode = some r) :
    r.visitedCount = (r.visited.length : Int) := by
  obtain ⟨sl, inv, hexit⟩ := iterate_invariant (aStarStepExact graph endNode)
    (fun s : AStarState => s.visitedCount = (s.visited.length : Int))
    (by
      intro s s1 inv hstep
      unfold aStarStepExact at hstep
      split at hstep
      · cases hstep
      · simp only at hstep
        split at hstep
        · cases hstep
        · simp only [Sum.inl.injEq] at hstep
          subst hstep
          obtain ⟨h1, h2⟩ := aStarRelaxExact_visited graph endNode _ (graph.getNeighbors _)
            { s with pq := s.pq.erase _, visitedCount := s.visitedCount + 1,
                     visited := s.visited ++ [_] }
          rw [h1, h2]
          simp only [List.length_append, List.length_singleton, Nat.cast_add, Nat.cast_one]
          rw [inv])
    n (aStarInit graph start endNode) r (by simp [aStarInit]) h
  unfold aStarStepExact at hexit
  split at hexit
  · simp only [Sum.inr.injEq] at hexit
    subst hexit
    exact inv
  · simp only at hexit
    split at hexit
    · simp only [Sum.inr.injEq] at hexit
      subst hexit
      simp only [List.length_append, List.length_singleton, Nat.cast_add, Nat.cast_one]
      rw [inv]
    · cases hexit

theorem pairLt_of_le_ne (a b : Int × Node) (h : pairLe a b = true) (hne : a ≠ b) :
    pairLt a b := by
  unfold pairLe at h
  unfold pairLt
  simp only [Bool.or_eq_true, Bool.and_eq_true, decide_eq_true_eq] at h
  rcases h with h | ⟨h1, h2⟩
  · exact Or.inl h
  · right
    refine ⟨h1, lt_of_le_of_ne h2 ?_⟩
    intro h3
    exact hne (Prod.ext h1 h3)

theorem dijkstraRelaxExact_visited (d : Int) (curr : Node) :
    ∀ (es : List Edge) (s : DijkstraState),
      (dijkstraRelaxExact d curr es s).visitedCount = s.visitedCount ∧
      (dijkstraRelaxExact d curr es s).visited = s.visited := by
  intro es
  induction es with
  | nil => intro s; exact ⟨rfl, rfl⟩
  | cons e rest ih =>
    intro s
    unfold dijkstraRelaxExact
    simp only
    split
    · exact ih _
    · split
      · exact ih _
      · exact ih _

theorem dijkstraVisit_init (graph : IGraph) (V : List Node) (start : Node) (pos : Prop)
    (hs : start ∈ V) : DijkstraVisitInv graph V start pos [] (dijkstraInit start) := by
  refine ⟨rfl, rfl, List.nodup_nil, ?_, ?_, ?_, ?_, ?_, ?_, ?_, ?_, ?_⟩
  · intro v d h
    simp only [dijkstraInit, NodeMap.insert, NodeMap.empty] at h
    split at h
    · rename_i hv; rw [hv]; exact hs
    · cases h
  · intro p hp
    simp only [dijkstraInit, List.mem_singleton] at hp
    subst hp
    exact ⟨0, by simp [dijkstraInit, NodeMap.insert], le_refl _⟩
  · intro v dv _
    calc List.count (dv, v) (dijkstraInit start).pq
        ≤ (dijkstraInit start).pq.length := List.count_le_length _ _
      _ = 1 := rfl
  · intro k hk; cases hk
  · intro k hk; cases hk
  · intro k hk; cases hk
  · intro k hk; cases hk
  · intro _ k hk; cases hk
  · intro _; exact List.Pairwise.nil

/-- A stale queue entry is dropped: the invariant stays. -/
theorem dijkstraVisit_drop (graph : IGraph) (V : List Node) (start : Node) (pos : Prop)
    (ks : List (Int × Node)) (s s1 : DijkstraState) (t : Int × Node)
    (inv : DijkstraVisitInv graph V start pos ks s)
    (hdist : s1.dist = s.dist) (hpq : s1.pq = s.pq.erase t)
    (hvis : s1.visited = s.visited) (hcnt : s1.visitedCount = s.visitedCount) :
    DijkstraVisitInv graph V start pos ks s1 := by
  have hsub : ∀ p ∈ s1.pq, p ∈ s.pq := by
    intro p hp; rw [hpq] at hp; exact List.mem_of_mem_erase hp
  refine ⟨?_, ?_, ?_, ?_, ?_, ?_, ?_, ?_, ?_, inv.shortest, ?_, inv.sorted⟩
  · rw [hvis]; exact inv.keys
  · rw [hvis, hcnt]; exact inv.count
  · rw [hvis]; exact inv.nodup
  · intro v d h; rw [hdist] at h; exact inv.dom_V v d h
  · intro p hp; rw [hdist]; exact inv.pq_sound p (hsub p hp)
  · intro v dv h
    rw [hdist] at h
    rw [hpq]
    exact le_trans (List.Sublist.count_le (List.erase_sublist _ _) _) (inv.fresh_once v dv h)
  · intro k hk; rw [hdist]; exact inv.frozen k hk
  · intro k hk p hp; exact inv.later k hk p (hsub p hp)
  · intro k hk p hp; exact inv.stale k hk p (hsub p hp)
  · intro h k hk p hp; exact inv.lex h k hk p (hsub p hp)

/-- A queue entry that is not stale is dequeued: its node is visited for the first
time, with its least distance, and every entry left in the queue comes after it. -/
theorem dijkstraVisit_pop (graph : IGraph) (V : List Node) (start endNode : Node) (pos : Prop)
    (hV : ClosedUnder graph V) (hw : NonNegWeights graph V) (hs : start ∈ V)
    (ks : List (Int × Node)) (s s1 : DijkstraState) (d : Int) (curr : Node)
    (dinv : DijkstraInv graph V start endNode s)
    (inv : DijkstraVisitInv graph V start pos ks s)
    (htop : pqTop s.pq = some (d, curr))
    (hns : dijkstraStale s.dist d curr = false)
    (hdist : s1.dist = s.dist) (hpq : s1.pq = s.pq.erase (d, curr))
    (hvis : s1.visited = s.visited ++ [curr])
    (hcnt : s1.visitedCount = s.visitedCount + 1) :
    DijkstraVisitInv graph V start pos (ks ++ [(d, curr)]) s1 ∧
    (∀ k ∈ ks ++ [(d, curr)], k.1 ≤ d) := by
  have hmem : (d, curr) ∈ s.pq := pqTop_mem _ _ htop
  have hsub : ∀ p ∈ s1.pq, p ∈ s.pq := by
    intro p hp; rw [hpq] at hp; exact List.mem_of_mem_erase hp
  obtain ⟨dc, hdc, hle⟩ := inv.pq_sound _ hmem
  simp only at hdc hle
  have hdeq : dc = d := by
    by_contra hne
    have hlt : dc < d := lt_of_le_of_ne hle hne
    have := (dijkstraStale_iff s.dist d curr).mpr ⟨dc, hdc, hlt⟩
    rw [this] at hns; cases hns
  subst hdeq
  have hnotin : (dc, curr) ∉ s1.pq := by
    rw [hpq]
    intro hin
    have h1 := inv.fresh_once curr dc hdc
    have h2 : List.count (dc, curr) (s.pq.erase (dc, curr)) = List.count (dc, curr) s.pq - 1 := by
      rw [List.count_erase_self]
    have h3 : 0 < List.count (dc, curr) (s.pq.erase (dc, curr)) := List.count_pos_iff.mpr hin
    omega
  have hbelow : ∀ k ∈ ks ++ [(dc, curr)], k.1 ≤ dc := by
    intro k hk
    rcases List.mem_append.mp hk with h | h
    · exact inv.later k h _ hmem
    · simp only [List.mem_singleton] at h
      rw [h]
  have hshort : IsShortestDist graph start curr dc := by
    refine ⟨dinv.core.achieved curr dc hdc, ?_⟩
    intro es hwalk hend
    rcases dijkstra_frontier graph V start endNode hV hw hs s dinv es hwalk with
      ⟨dx, hdx, hle2⟩ | ⟨p, hp, hle2⟩
    · rw [hend, hdc] at hdx
      simp only [Option.some.injEq] at hdx
      omega
    · have := pqTop_key_le _ _ htop p hp
      simp only at this
      omega
  refine ⟨⟨?_, ?_, ?_, ?_, ?_, ?_, ?_, ?_, ?_, ?_, ?_, ?_⟩, hbelow⟩
  · rw [hvis, List.map_append, inv.keys]; rfl
  · rw [hvis, hcnt, inv.count]
    simp
  · rw [hvis]
    refine List.Nodup.append inv.nodup (List.nodup_singleton _) ?_
    intro x hx hx2
    simp only [List.mem_singleton] at hx2
    subst hx2
    rw [← inv.keys] at hx
    obtain ⟨k, hk, hk2⟩ := List.mem_map.mp hx
    have h1 := inv.stale k hk _ hmem (by simp [hk2])
    have h2 := inv.frozen k hk
    rw [hk2, hdc] at h2
    simp only [Option.some.injEq] at h2
    simp only at h1
    omega
  · intro v dv h; rw [hdist] at h; exact inv.dom_V v dv h
  · intro p hp; rw [hdist]; exact inv.pq_sound p (hsub p hp)
  · intro v dv h
    rw [hdist] at h
    rw [hpq]
    exact le_trans (List.Sublist.count_le (List.erase_sublist _ _) _) (inv.fresh_once v dv h)
  · intro k hk
    rw [hdist]
    rcases List.mem_append.mp hk with h | h
    · exact inv.frozen k h
    · simp only [List.mem_singleton] at h
      rw [h]; exact hdc
  · intro k hk p hp
    rcases List.mem_append.mp hk with h | h
    · exact inv.later k h p (hsub p hp)
    · simp only [List.mem_singleton] at h
      rw [h]
      exact pqTop_key_le _ _ htop p (hsub p hp)
  · intro k hk p hp hp2
    rcases List.mem_append.mp hk with h | h
    · exact inv.stale k h p (hsub p hp) hp2
    · simp only [List.mem_singleton] at h
      rw [h] at hp2 ⊢
      simp only at hp2 ⊢
      have h1 := pqTop_key_le _ _ htop p (hsub p hp)
      simp only at h1
      have hne : p.1 ≠ dc := by
        intro he
        apply hnotin
        have : p = (dc, curr) := Prod.ext he hp2
        rw [← this]; exact hp
      omega
  · intro k hk
    rcases List.mem_append.mp hk with h | h
    · exact inv.shortest k h
    · simp only [List.mem_singleton] at h
      rw [h]; exact hshort
  · intro hpos k hk p hp
    rcases List.mem_append.mp hk with h | h
    · exact inv.lex hpos k h p (hsub p hp)
    · simp only [List.mem_singleton] at h
      rw [h]
      apply pairLt_of_le_ne _ _ (pqTop_le _ _ htop p (hsub p hp))
      intro he
      apply hnotin
      rw [he]; exact hp
  · intro hpos
    rw [List.pairwise_append]
    refine ⟨inv.sorted hpos, List.pairwise_singleton _ _, ?_⟩
    intro a ha b hb
    simp only [List.mem_singleton] at hb
    rw [hb]
    exact inv.lex hpos a ha _ hmem

/-- An edge of the node just visited improves a distance: the invariant stays. -/
theorem dijkstraVisit_improve (graph : IGraph) (V : List Node) (start : Node) (pos : Prop)
    (hV : ClosedUnder graph V) (hw : NonNegWeights graph V)
    (hpos : pos → PosWeights graph V)
    (ks : List (Int × Node)) (s : DijkstraState) (d : Int) (curr : Node) (e : Edge)
    (inv : DijkstraVisitInv graph V start pos ks s)
    (hmem : (d, curr) ∈ ks) (hbelow : ∀ k ∈ ks, k.1 ≤ d)
    (he : e ∈ graph.getNeighbors curr)
    (hold : ∀ old, s.dist e.target = some old → d + e.weight < old) :
    DijkstraVisitInv graph V start pos ks
      { s with dist := s.dist.insert e.target (d + e.weight),
               parent := s.parent.insert e.target curr,
               pq := (d + e.weight, e.target) :: s.pq } := by
  have hcd : s.dist curr = some d := inv.frozen _ hmem
  have hcV : curr ∈ V := inv.dom_V curr d hcd
  have hw0 : 0 ≤ e.weight := hw curr hcV e he
  have htne : ∀ k ∈ ks, k.2 ≠ e.target := by
    intro k hk heq
    have h1 := inv.frozen k hk
    rw [heq] at h1
    have h2 := hold _ h1
    have h3 := hbelow k hk
    omega
  have hnotin : (d + e.weight, e.target) ∉ s.pq := by
    intro hin
    obtain ⟨dv, hdv, hle⟩ := inv.pq_sound _ hin
    have := hold dv hdv
    simp only at hle
    omega
  refine ⟨inv.keys, inv.count, inv.nodup, ?_, ?_, ?_, ?_, ?_, ?_, inv.shortest, ?_, inv.sorted⟩
  · intro v dv h
    simp only [NodeMap.insert] at h
    split at h
    · rename_i hv; rw [hv]; exact hV curr hcV e he
    · exact inv.dom_V v dv h
  · intro p hp
    simp only [List.mem_cons] at hp
    rcases hp with rfl | hp
    · exact ⟨d + e.weight, by simp [NodeMap.insert], le_refl _⟩
    · obtain ⟨dv, hdv, hle⟩ := inv.pq_sound p hp
      by_cases hpt : p.2 = e.target
      · refine ⟨d + e.weight, by simp [NodeMap.insert, hpt], ?_⟩
        rw [hpt] at hdv
        have := hold dv hdv
        omega
      · exact ⟨dv, by simp [NodeMap.insert, hpt, hdv], hle⟩
  · intro v dv h
    simp only [NodeMap.insert] at h
    split at h
    · rename_i hv
      simp only [Option.some.injEq] at h
      subst hv; subst h
      rw [List.count_cons_self, List.count_eq_zero.mpr hnotin]
    · rename_i hv
      rw [List.count_cons_of_ne (fun hh => hv (congrArg Prod.snd hh))]
      exact inv.fresh_once v dv h
  · intro k hk
    have := htne k hk
    simp only [NodeMap.insert, this, if_false]
    exact inv.frozen k hk
  · intro k hk p hp
    simp only [List.mem_cons] at hp
    rcases hp with rfl | hp
    · have := hbelow k hk
      simp only
      omega
    · exact inv.later k hk p hp
  · intro k hk p hp hp2
    simp only [List.mem_cons] at hp
    rcases hp with rfl | hp
    · exact absurd hp2.symm (htne k hk)
    · exact inv.stale k hk p hp hp2
  · intro hp k hk p hpm
    simp only [List.mem_cons] at hpm
    rcases hpm with rfl | hpm
    · have h1 := hbelow k hk
      have h2 := hpos hp curr hcV e he
      left
      simp only
      omega
    · exact inv.lex hp k hk p hpm

theorem dijkstraVisit_relax (graph : IGraph) (V : List Node) (start : Node) (pos : Prop)
    (hV : ClosedUnder graph V) (hw : NonNegWeights graph V)
    (hpos : pos → PosWeights graph V)
    (ks : List (Int × Node)) (d : Int) (curr : Node)
    (hmem : (d, curr) ∈ ks) (hbelow : ∀ k ∈ ks, k.1 ≤ d) :
    ∀ (es : List Edge) (s : DijkstraState), (∀ e ∈ es, e ∈ graph.getNeighbors curr) →
      DijkstraVisitInv graph V start pos ks s →
      DijkstraVisitInv graph V start pos ks (dijkstraRelaxExact d curr es s) := by
  intro es
  induction es with
  | nil => intro s _ inv; exact inv
  | cons e rest ih =>
    intro s hes inv
    have he : e ∈ graph.getNeighbors curr := hes e (List.mem_cons_self _ _)
    have hrest : ∀ x ∈ rest, x ∈ graph.getNeighbors curr :=
      fun x hx => hes x (List.mem_cons_of_mem _ hx)
    unfold dijkstraRelaxExact
    simp only
    split
    · rename_i hnone
      apply ih _ hrest
      apply dijkstraVisit_improve graph V start pos hV hw hpos ks s d curr e inv hmem hbelow he
      intro old ho
      rw [hnone] at ho; cases ho
    · rename_i old hsome
      split
      · rename_i hlt
        apply ih _ hrest
        apply dijkstraVisit_improve graph V start pos hV hw hpos ks s d curr e inv hmem hbelow he
        intro old2 ho
        rw [hsome] at ho
        simp only [Option.some.injEq] at ho
        omega
      · exact ih _ hrest inv

/-- The invariants of the loop of `runDijkstraExact`, taken together. -/
theorem dijkstraVisit_step (graph : IGraph) (V : List Node) (start endNode : Node) (pos : Prop)
    (hV : ClosedUnder graph V) (hw : NonNegWeights graph V) (hs : start ∈ V)
    (hpos : pos → PosWeights graph V) (s s1 : DijkstraState)
    (inv : DijkstraInv graph V start endNode s ∧
      ∃ ks, DijkstraVisitInv graph V start pos ks s)
    (hstep : dijkstraStepExact graph endNode s = Sum.inl s1) :
    DijkstraInv graph V start endNode s1 ∧
      ∃ ks, DijkstraVisitInv graph V start pos ks s1 := by
  obtain ⟨dinv, ks, vinv⟩ := inv
  refine ⟨(dijkstraStepExact_inv graph V start endNode hV hw s s1 dinv hstep).1, ?_⟩
  unfold dijkstraStepExact at hstep
  cases htop : pqTop s.pq with
  | none => rw [htop] at hstep; cases hstep
  | some t =>
    obtain ⟨d, curr⟩ := t
    rw [htop] at hstep
    simp only at hstep
    cases hst : dijkstraStale s.dist d curr with
    | true =>
      rw [hst] at hstep
      simp only [if_true, Sum.inl.injEq] at hstep
      subst hstep
      exact ⟨ks, dijkstraVisit_drop graph V start pos ks s _ (d, curr) vinv rfl rfl rfl rfl⟩
    | false =>
      rw [hst] at hstep
      simp only [Bool.false_eq_true, if_false] at hstep
      split at hstep
      · cases hstep
      · simp only [Sum.inl.injEq] at hstep
        subst hstep
        obtain ⟨pinv, hbelow⟩ := dijkstraVisit_pop graph V start endNode pos hV hw hs ks s
          { s with pq := s.pq.erase (d, curr), visitedCount := s.visitedCount + 1,
                   visited := s.visited ++ [curr] }
          d curr dinv vinv htop hst rfl rfl rfl rfl
        refine ⟨ks ++ [(d, curr)], ?_⟩
        exact dijkstraVisit_relax graph V start pos hV hw hpos (ks ++ [(d, curr)]) d curr
          (by simp) hbelow (graph.getNeighbors curr) _ (fun e he => he) pinv

theorem dijkstraVisit_exit (graph : IGraph) (V : List Node) (start endNode : Node) (pos : Prop)
    (hV : ClosedUnder graph V) (hw : NonNegWeights graph V) (hs : start ∈ V)
    (s r : DijkstraState)
    (inv : DijkstraInv graph V start endNode s ∧
      ∃ ks, DijkstraVisitInv graph V start pos ks s)
    (hstep : dijkstraStepExact graph endNode s = Sum.inr r) :
    ∃ ks, DijkstraVisitInv graph V start pos ks r := by
  obtain ⟨dinv, ks, vinv⟩ := inv
  unfold dijkstraStepExact at hstep
  cases htop : pqTop s.pq with
  | none =>
    rw [htop] at hstep
    simp only [Sum.inr.injEq] at hstep
    subst hstep
    exact ⟨ks, vinv⟩
  | some t =>
    obtain ⟨d, curr⟩ := t
    rw [htop] at hstep
    simp only at hstep
    cases hst : dijkstraStale s.dist d curr with
    | true =>
      rw [hst] at hstep
      simp only [if_true] at hstep
      cases hstep
    | false =>
      rw [hst] at hstep
      simp only [Bool.false_eq_true, if_false] at hstep
      split at hstep
      · simp only [Sum.inr.injEq] at hstep
        subst hstep
        exact ⟨ks ++ [(d, curr)],
          (dijkstraVisit_pop graph V start endNode pos hV hw hs ks s
            { s with pq := s.pq.erase (d, curr), visitedCount := s.visitedCount + 1,
                     visited := s.visited ++ [curr], success := true }
            d curr dinv vinv htop hst rfl rfl rfl rfl).1⟩
      · cases hstep

theorem dijkstraFinalExact_visit (graph : IGraph) (V : List Node) (start endNode : Node) (pos : Prop)
    (hV : ClosedUnder graph V) (hw : NonNegWeights graph V) (hs : start ∈ V)
    (hpos : pos → PosWeights graph V)
    (n : Nat) (r : DijkstraState) (h : dijkstraFinalExact n graph start endNode = some r) :
    ∃ ks, DijkstraVisitInv graph V start pos ks r := by
  obtain ⟨sl, inv, hexit⟩ := iterate_invariant (dijkstraStepExact graph endNode)
    (fun s => DijkstraInv graph V start endNode s ∧
      ∃ ks, DijkstraVisitInv graph V start pos ks s)
    (fun s s1 i hst => dijkstraVisit_step graph V start endNode pos hV hw hs hpos s s1 i hst)
    n (dijkstraInit start) r
    ⟨dijkstraInit_inv graph V start endNode hs, [], dijkstraVisit_init graph V start pos hs⟩ h
  exact dijkstraVisit_exit graph V start endNode pos hV hw hs sl r inv hexit

/-- A queue entry of a node that has been visited is stale. -/
theorem dijkstraVisit_stale (graph : IGraph) (V : List Node) (start : Node) (pos : Prop)
    (ks : List (Int × Node)) (s : DijkstraState)
    (inv : DijkstraVisitInv graph V start pos ks s) (p : Int × Node) (hp : p ∈ s.pq)
    (hv : p.2 ∈ s.visited) : dijkstraStale s.dist p.1 p.2 = true := by
  rw [← inv.keys] at hv
  obtain ⟨k, hk, hk2⟩ := List.mem_map.mp hv
  rw [dijkstraStale_iff]
  refine ⟨k.1, ?_, inv.stale k hk p hp hk2.symm⟩
  rw [← hk2]; exact inv.frozen k hk

/-- With exact sums, on a finite graph with non-negative edge weights:
`runDijkstraExact` returns, the sequence of nodes it passes to `onNodeVisited` has no
repetition, `visitedCount` is the length of that sequence, and at every head of the
loop a queue entry on top whose node has already been visited is stale. -/
theorem runDijkstraExact_visits_once (graph : IGraph) (V : List Node) (start endNode : Node)
    (hs : start ∈ V) (hV : ClosedUnder graph V) (hw : NonNegWeights graph V) :
    (∃ (fuel : Nat) (r : AlgoResult), runDijkstraExact fuel graph start endNode = some r) ∧
    (∀ (fuel : Nat) (r : AlgoResult), runDijkstraExact fuel graph start endNode = some r →
      ∃ s : DijkstraState, dijkstraFinalExact fuel graph start endNode = some s ∧
        s.visited.Nodup ∧ r.visitedCount = (s.visited.length : Int) ∧
        r.visitedCount = (s.visited.dedup.length : Int)) ∧
    (∀ (n : Nat) (s : DijkstraState),
      loopState (dijkstraStepExact graph endNode) n (dijkstraInit start) = some s →
        s.visited.Nodup ∧
        ∀ (d : Int) (curr : Node), pqTop s.pq = some (d, curr) → curr ∈ s.visited →
          dijkstraStale s.dist d curr = true ∧
          dijkstraStepExact graph endNode s = Sum.inl { s with pq := s.pq.erase (d, curr) }) := by
  refine ⟨(runDijkstraExact_spec graph V start endNode hs hV hw).1, ?_, ?_⟩
  · intro fuel r hr
    obtain ⟨s, p, hfin, _, rfl⟩ := runDijkstraExact_eq_some graph start endNode fuel r hr
    obtain ⟨ks, inv⟩ := dijkstraFinalExact_visit graph V start endNode False hV hw hs
      (fun h => h.elim) fuel s hfin
    refine ⟨s, hfin, inv.nodup, inv.count, ?_⟩
    rw [inv.nodup.dedup]
    exact inv.count
  · intro n s hloop
    obtain ⟨_, ks, inv⟩ := loopState_invariant (dijkstraStepExact graph endNode)
      (fun s => DijkstraInv graph V start endNode s ∧
        ∃ ks, DijkstraVisitInv graph V start False ks s)
      (fun s s1 i hst =>
        dijkstraVisit_step graph V start endNode False hV hw hs (fun h => h.elim) s s1 i hst)
      n (dijkstraInit start) s
      ⟨dijkstraInit_inv graph V start endNode hs, [], dijkstraVisit_init graph V start False hs⟩
      hloop
    refine ⟨inv.nodup, ?_⟩
    intro d curr htop hvis
    have hst := dijkstraVisit_stale graph V start False ks s inv (d, curr)
      (pqTop_mem _ _ htop) hvis
    simp only at hst
    refine ⟨hst, ?_⟩
    unfold dijkstraStepExact
    rw [htop]
    simp only [hst, if_true]


/-- With exact sums, on a finite graph whose edge weights are all positive: the loop of
`runDijkstraExact` ends, and the nodes it has visited, each paired with its least
distance from `start`, form a sequence that is strictly increasing in the order by
distance and then by node id. -/
theorem dijkstraExact_visit_order (graph : IGraph) (V : List Node) (start endNode : Node)
    (hs : start ∈ V) (hV : ClosedUnder graph V) (hpos : PosWeights graph V) :
    (∃ (fuel : Nat) (r : AlgoResult), runDijkstraExact fuel graph start endNode = some r) ∧
    (∃ (fuel : Nat) (s : DijkstraState), dijkstraFinalExact fuel graph start endNode = some s) ∧
    ∀ (fuel : Nat) (s : DijkstraState), dijkstraFinalExact fuel graph start endNode = some s →
      ∃ ks : List (Int × Node), ks.map Prod.snd = s.visited ∧
        (∀ k ∈ ks, IsShortestDist graph start k.2 k.1) ∧
        ks.Pairwise (fun a b => a.1 < b.1 ∨ (a.1 = b.1 ∧ a.2 < b.2)) := by
  have hw : NonNegWeights graph V := fun u hu e he => le_of_lt (hpos u hu e he)
  refine ⟨(runDijkstraExact_spec graph V start endNode hs hV hw).1,
    (dijkstraFinalExact_spec graph V start endNode hV hw hs).1, ?_⟩
  intro fuel s hfin
  obtain ⟨ks, inv⟩ := dijkstraFinalExact_visit graph V start endNode True hV hw hs
    (fun _ => hpos) fuel s hfin
  exact ⟨ks, inv.keys, inv.shortest, inv.sorted trivial⟩


/-! ## `runAStarExact` with the default heuristic -/

/-- With the heuristic 0, the edge loops of `runAStarExact` and `runDijkstraExact` do the same
when the key of the dequeued entry is the recorded distance of its node. -/
theorem sameSearch_relax (graph : IGraph) (endNode : Node)
    (hh : ∀ a b, graph.getHeuristic a b = 0) (d : Int) (curr : Node) :
    ∀ (es : List Edge) (sd : DijkstraState) (sa : AStarState),
      SameSearch sd sa → sd.dist curr = some d → (∀ e ∈ es, 0 ≤ e.weight) →
      SameSearch (dijkstraRelaxExact d curr es sd) (aStarRelaxExact graph endNode curr es sa) := by
  intro es
  induction es with
  | nil => intro sd sa h _ _; exact h
  | cons e rest ih =>
    intro sd sa hsame hd hw
    obtain ⟨hg, hp, hq, hsu⟩ := hsame
    have hga : sa.gScore curr = some d := by rw [hg]; exact hd
    have hw0 : 0 ≤ e.weight := hw e (List.mem_cons_self _ _)
    have hrest : ∀ x ∈ rest, 0 ≤ x.weight := fun x hx => hw x (List.mem_cons_of_mem _ hx)
    unfold dijkstraRelaxExact aStarRelaxExact
    simp only [touch_of_some sa.gScore curr d hga, hga, Option.getD_some, hh, add_zero]
    have hne : ∀ old, sd.dist e.target = some old → d + e.weight < old → e.target ≠ curr := by
      intro old ho hlt heq
      rw [heq, hd] at ho
      simp only [Option.some.injEq] at ho
      omega
    cases hdt : sd.dist e.target with
    | none =>
      have hgt : sa.gScore e.target = none := by rw [hg]; exact hdt
      simp only [hgt]
      apply ih
      · exact ⟨by simp only [hg], by simp only [hp], by simp only [hq], hsu⟩
      · have : curr ≠ e.target := by
          intro heq; rw [← heq, hd] at hdt; cases hdt
        simp only [NodeMap.insert, this, if_false]
        exact hd
      · exact hrest
    | some old =>
      have hgt : sa.gScore e.target = some old := by rw [hg]; exact hdt
      simp only [hgt]
      by_cases hlt : d + e.weight < old
      · simp only [hlt, if_true]
        apply ih
        · exact ⟨by simp only [hg], by simp only [hp], by simp only [hq], hsu⟩
        · have : curr ≠ e.target := fun heq => hne old hdt hlt heq.symm
          simp only [NodeMap.insert, this, if_false]
          exact hd
        · exact hrest
      · simp only [hlt, if_false]
        exact ih _ _ ⟨hg, hp, hq, hsu⟩ hd hrest

/-- The edge loop of `runAStarExact` changes nothing when no edge of `curr` improves a
score. -/
theorem aStarRelaxExact_noop (graph : IGraph) (endNode curr : Node) (dc : Int) :
    ∀ (es : List Edge) (sa : AStarState), sa.gScore curr = some dc →
      (∀ e ∈ es, ∃ dx, sa.gScore e.target = some dx ∧ dx ≤ dc + e.weight) →
      (aStarRelaxExact graph endNode curr es sa).gScore = sa.gScore ∧
      (aStarRelaxExact graph endNode curr es sa).parent = sa.parent ∧
      (aStarRelaxExact graph endNode curr es sa).pq = sa.pq ∧
      (aStarRelaxExact graph endNode curr es sa).success = sa.success := by
  intro es
  induction es with
  | nil => intro sa _ _; exact ⟨rfl, rfl, rfl, rfl⟩
  | cons e rest ih =>
    intro sa hga hrel
    obtain ⟨dx, hdx, hle⟩ := hrel e (List.mem_cons_self _ _)
    unfold aStarRelaxExact
    simp only [touch_of_some sa.gScore curr dc hga, hga, Option.getD_some, hdx]
    rw [if_neg (by omega)]
    exact ih { sa with gScore := sa.gScore } hga
      (fun x hx => hrel x (List.mem_cons_of_mem _ hx))

/-- One iteration of the two loops from states that agree: both continue, to states
that agree, or both leave, with states that agree. -/
theorem sameSearch_step (graph : IGraph) (V : List Node) (start endNode : Node)
    (hw : NonNegWeights graph V)
    (hh : ∀ a b, graph.getHeuristic a b = 0) (sd : DijkstraState) (sa : AStarState)
    (dinv : DijkstraInv graph V start endNode sd) (hsame : SameSearch sd sa) :
    (∃ sd1 sa1, dijkstraStepExact graph endNode sd = Sum.inl sd1 ∧
      aStarStepExact graph endNode sa = Sum.inl sa1 ∧ SameSearch sd1 sa1) ∨
    (∃ rd ra, dijkstraStepExact graph endNode sd = Sum.inr rd ∧
      aStarStepExact graph endNode sa = Sum.inr ra ∧ SameSearch rd ra) := by
  obtain ⟨hg, hp, hq, hsu⟩ := hsame
  cases htop : pqTop sd.pq with
  | none =>
    right
    refine ⟨sd, sa, ?_, ?_, ⟨hg, hp, hq, hsu⟩⟩
    · unfold dijkstraStepExact; simp only [htop]
    · unfold aStarStepExact; simp only [hq, htop]
  | some t =>
    obtain ⟨d, curr⟩ := t
    have hmem : (d, curr) ∈ sd.pq := pqTop_mem _ _ htop
    obtain ⟨dc, hdc, hle⟩ := dinv.core.pq_sound _ hmem
    simp only at hdc hle
    have hgc : sa.gScore curr = some dc := by rw [hg]; exact hdc
    cases hst : dijkstraStale sd.dist d curr with
    | true =>
      obtain ⟨dc2, hdc2, hlt⟩ := (dijkstraStale_iff sd.dist d curr).mp hst
      rw [hdc] at hdc2
      simp only [Option.some.injEq] at hdc2
      subst hdc2
      have hnotin : (dc, curr) ∉ sd.pq := by
        intro hin
        have := pqTop_key_le _ _ htop _ hin
        simp only at this
        omega
      have hne : curr ≠ endNode := by
        intro heq
        apply hnotin
        rw [heq]
        exact dinv.core.end_queued dc (by rw [← heq]; exact hdc)
      have hrel : RelaxedAt graph sd.dist curr dc := by
        rcases dinv.settled curr dc hdc with h | h
        · exact absurd h hnotin
        · exact h
      left
      refine ⟨{ sd with pq := sd.pq.erase (d, curr) },
        aStarRelaxExact graph endNode curr (graph.getNeighbors curr)
          { sa with pq := sa.pq.erase (d, curr), visitedCount := sa.visitedCount + 1,
                    visited := sa.visited ++ [curr] }, ?_, ?_, ?_⟩
      · unfold dijkstraStepExact
        simp only [htop, hst, if_true]
      · unfold aStarStepExact
        simp only [hq, htop, hne, if_false]
      · obtain ⟨n1, n2, n3, n4⟩ := aStarRelaxExact_noop graph endNode curr dc
          (graph.getNeighbors curr)
          { sa with pq := sa.pq.erase (d, curr), visitedCount := sa.visitedCount + 1,
                    visited := sa.visited ++ [curr] } hgc
          (by
            intro e he
            simp only [hg]
            exact hrel e he)
        exact ⟨by rw [n1]; exact hg, by rw [n2]; exact hp, by rw [n3]; simp only [hq],
          by rw [n4]; exact hsu⟩
    | false =>
      have hdeq : dc = d := by
        by_contra hne
        have hlt : dc < d := lt_of_le_of_ne hle hne
        have := (dijkstraStale_iff sd.dist d curr).mpr ⟨dc, hdc, hlt⟩
        rw [this] at hst; cases hst
      subst hdeq
      by_cases hend : curr = endNode
      · right
        subst hend
        refine ⟨{ sd with pq := sd.pq.erase (dc, curr), visitedCount := sd.visitedCount + 1,
                          visited := sd.visited ++ [curr], success := true },
          { sa with pq := sa.pq.erase (dc, curr), visitedCount := sa.visitedCount + 1,
                    visited := sa.visited ++ [curr], success := true }, ?_, ?_, ?_⟩
        · unfold dijkstraStepExact
          simp only [htop, hst, Bool.false_eq_true, if_false, if_true]
        · unfold aStarStepExact
          simp only [hq, htop, if_true]
        · exact ⟨hg, hp, by simp only [hq], rfl⟩
      · left
        refine ⟨dijkstraRelaxExact dc curr (graph.getNeighbors curr)
            { sd with pq := sd.pq.erase (dc, curr), visitedCount := sd.visitedCount + 1,
                      visited := sd.visited ++ [curr] },
          aStarRelaxExact graph endNode curr (graph.getNeighbors curr)
            { sa with pq := sa.pq.erase (dc, curr), visitedCount := sa.visitedCount + 1,
                      visited := sa.visited ++ [curr] }, ?_, ?_, ?_⟩
        · unfold dijkstraStepExact
          simp only [htop, hst, hend, Bool.false_eq_true, if_false]
        · unfold aStarStepExact
          simp only [hq, htop, hend, if_false]
        · apply sameSearch_relax graph endNode hh dc curr
          · exact ⟨hg, hp, by simp only [hq], hsu⟩
          · exact hdc
          · intro e he
            exact hw curr (dinv.core.dom_V curr dc hdc) e he

theorem sameSearch_iterate (graph : IGraph) (V : List Node) (start endNode : Node)
    (hV : ClosedUnder graph V) (hw : NonNegWeights graph V)
    (hh : ∀ a b, graph.getHeuristic a b = 0) :
    ∀ (n : Nat) (sd : DijkstraState) (sa : AStarState),
      DijkstraInv graph V start endNode sd → SameSearch sd sa →
      (iterate (dijkstraStepExact graph endNode) n sd = none ∧
        iterate (aStarStepExact graph endNode) n sa = none) ∨
      ∃ rd ra, iterate (dijkstraStepExact graph endNode) n sd = some rd ∧
        iterate (aStarStepExact graph endNode) n sa = some ra ∧ SameSearch rd ra := by
  intro n
  induction n with
  | zero => intro sd sa _ _; exact Or.inl ⟨rfl, rfl⟩
  | succ k ih =>
    intro sd sa dinv hsame
    rcases sameSearch_step graph V start endNode hw hh sd sa dinv hsame with
      ⟨sd1, sa1, h1, h2, h3⟩ | ⟨rd, ra, h1, h2, h3⟩
    · have dinv1 := (dijkstraStepExact_inv graph V start endNode hV hw sd sd1 dinv h1).1
      simp only [iterate, h1, h2]
      exact ih sd1 sa1 dinv1 h3
    · right
      exact ⟨rd, ra, by simp only [iterate, h1], by simp only [iterate, h2], h3⟩

/-- With exact sums, on a finite graph with non-negative edge weights whose
`getHeuristic` is the default: `runAStarExact` and `runDijkstraExact` both return, and
they return the same success flag, the same path and the same total cost. -/
theorem searchesExact_default_heuristic (graph : IGraph) (V : List Node)
    (start endNode : Node) (hs : start ∈ V) (hV : ClosedUnder graph V)
    (hw : NonNegWeights graph V) (hh : ∀ a b, graph.getHeuristic a b = 0) :
    (∃ (fuel : Nat) (ra rd : AlgoResult),
      runAStarExact fuel graph start endNode = some ra ∧
      runDijkstraExact fuel graph start endNode = some rd) ∧
    ∀ (fa fd : Nat) (ra rd : AlgoResult),
      runAStarExact fa graph start endNode = some ra →
      runDijkstraExact fd graph start endNode = some rd →
      ra.success = rd.success ∧ ra.path = rd.path ∧ ra.totalCost = rd.totalCost := by
  obtain ⟨na, ra0, hra0⟩ := (runAStarExact_spec graph V start endNode hs hV hw).1
  obtain ⟨nd, rd0, hrd0⟩ := (runDijkstraExact_spec graph V start endNode hs hV hw).1
  constructor
  · exact ⟨max na nd, ra0, rd0,
      runAStarExact_mono _ _ _ na _ ra0 hra0 (le_max_left _ _),
      runDijkstraExact_mono _ _ _ nd _ rd0 hrd0 (le_max_right _ _)⟩
  · intro fa fd ra rd hra hrd
    have hra2 := runAStarExact_mono _ _ _ fa (max fa fd) ra hra (le_max_left _ _)
    have hrd2 := runDijkstraExact_mono _ _ _ fd (max fa fd) rd hrd (le_max_right _ _)
    obtain ⟨sA, pA, hfa, hpa, rfl⟩ := runAStarExact_eq_some graph start endNode _ ra hra2
    obtain ⟨sD, pD, hfd, hpd, rfl⟩ := runDijkstraExact_eq_some graph start endNode _ rd hrd2
    have hinit : SameSearch (dijkstraInit start) (aStarInit graph start endNode) :=
      ⟨rfl, rfl, by simp only [aStarInit, dijkstraInit, hh], rfl⟩
    rcases sameSearch_iterate graph V start endNode hV hw hh (max fa fd) (dijkstraInit start)
      (aStarInit graph start endNode) (dijkstraInit_inv graph V start endNode hs) hinit with
      ⟨h1, _⟩ | ⟨rd1, ra1, h1, h2, hsame⟩
    · unfold dijkstraFinalExact at hfd
      rw [h1] at hfd; cases hfd
    · unfold dijkstraFinalExact at hfd
      unfold aStarFinalExact at hfa
      rw [h1] at hfd
      rw [h2] at hfa
      simp only [Option.some.injEq] at hfd hfa
      subst hfd; subst hfa
      obtain ⟨hg, hp, _, hsu⟩ := hsame
      rw [hp, hpd] at hpa
      simp only [Option.some.injEq] at hpa
      exact ⟨hsu, hpa.symm, by simp only [hsu, hg]⟩


/-! ## The diagonal flag and the text format -/

/-- C32: the diagonal flag is not part of the serialized form: a grid gives the same
`serialize` output whatever its flag is set to, so two grids that differ only in the flag
serialize alike; and `load`, whether it returns true or false, leaves the flag of the
grid it is called on as it was. -/
theorem diagonal_flag_not_serialized :
    (∀ (g : Grid) (allow : Bool), (g.setAllowDiagonals allow).serialize = g.serialize) ∧
    (∀ g1 g2 : Grid, g1.width = g2.width → g1.height = g2.height → g1.map = g2.map →
      g1.weights = g2.weights → g1.source = g2.source → g1.destination = g2.destination →
      g1.serialize = g2.serialize) ∧
    (∀ (g : Grid) (data : List Char), (g.load data).2.m_allowDiagonals = g.m_allowDiagonals) := by
  refine ⟨fun g allow => rfl, ?_, ?_⟩
  · intro g1 g2 h1 h2 h3 h4 h5 h6
    unfold Grid.serialize Grid.cell
    rw [h1, h2, h3, h4, h5, h6]
  · intro g data
    unfold Grid.load
    simp only
    split
    · split
      · rfl
      · split
        · rfl
        · split
          · rfl
          · rfl
    · rfl

/-- C32 at concrete inputs: the 3×3 grid with the flag set, and `load` of a well-formed
text and of a rejected text on the wall grid, whose flag is set. -/
theorem diagonal_flag_not_serialized_witness :
    grid3x3.m_allowDiagonals = false ∧
    (grid3x3.setAllowDiagonals true).serialize = grid3x3.serialize ∧
    gridWall.m_allowDiagonals = true ∧
    (gridWall.load "2,2,0,0,1,1|....|1 1 1 1 ".toList).1 = true ∧
    (gridWall.load "2,2,0,0,1,1|....|1 1 1 1 ".toList).2.m_allowDiagonals
      = gridWall.m_allowDiagonals ∧
    (gridWall.load "2,2,0,0,1,1|..|".toList).1 = false ∧
    (gridWall.load "2,2,0,0,1,1|..|".toList).2.m_allowDiagonals = gridWall.m_allowDiagonals :=
  ⟨by decide, diagonal_flag_not_serialized.1 grid3x3 true, by decide, by decide,
   diagonal_flag_not_serialized.2.2 gridWall _, by decide,
   diagonal_flag_not_serialized.2.2 gridWall _⟩

/-! ## `Grid::load`: a weight section with too few integers -/

theorem skipWs_all_space : ∀ ws : List Char, (∀ c ∈ ws, isSpace c = true) → skipWs ws = [] := by
  intro ws
  induction ws with
  | nil => intro _; rfl
  | cons c cs ih =>
    intro h
    rw [skipWs, if_pos (h c (List.mem_cons_self _ _))]
    exact ih (fun x hx => h x (List.mem_cons_of_mem _ hx))

theorem isSpace_not_digit (c : Char) (h : isSpace c = true) : charDigit c = none := by
  unfold isSpace at h
  simp only [Bool.or_eq_true, beq_iff_eq] at h
  rcases h with ((((h | h) | h) | h) | h) | h <;> (rw [h]; decide)

theorem loadWeightsRow_failed :
    ∀ (olds : List Int) (s : IStream), s.failed = true → loadWeightsRow s olds = (s, olds) := by
  intro olds s hs
  cases olds with
  | nil => rfl
  | cons o os =>
    have e : s.extractInt = (s, none) := by
      unfold IStream.extractInt
      simp [hs]
    rw [loadWeightsRow, e]
    simp [hs]

theorem loadWeights_failed :
    ∀ (rows : List (List Int)) (s : IStream), s.failed = true → loadWeights s rows = rows := by
  intro rows
  induction rows with
  | nil => intro s _; rfl
  | cons row rest ih =>
    intro s hs
    rw [loadWeights, loadWeightsRow_failed row s hs]
    simp only
    rw [ih s hs]

theorem loadWeightsRow_length :
    ∀ (olds : List Int) (s : IStream), (loadWeightsRow s olds).2.length = olds.length := by
  intro olds
  induction olds with
  | nil => intro s; rfl
  | cons o os ih =>
    intro s
    rw [loadWeightsRow]
    simp only
    split
    · rfl
    · simp only [List.length_cons, ih]

theorem loadWeights_shape :
    ∀ (rows : List (List Int)) (s : IStream),
      (loadWeights s rows).map List.length = rows.map List.length := by
  intro rows
  induction rows with
  | nil => intro s; rfl
  | cons row rest ih =>
    intro s
    rw [loadWeights]
    simp only [List.map_cons, loadWeightsRow_length, ih]

/-- The weight loop over one row, on a text that holds the integers `vs`: the cells
take the integers in order; when the integers run out the stream fails and the rest of
the row keeps its values. -/
theorem loadWeightsRow_fewer :
    ∀ (olds : List Int) (vs : List Int) (b : List Char), WeightText vs b →
      ∃ s2, loadWeightsRow { buf := b, failed := false } olds
          = (s2, vs.take olds.length ++ olds.drop vs.length) ∧
        ((s2.failed = true ∧ vs.length < olds.length) ∨
          (olds.length ≤ vs.length ∧ ∃ b2, s2 = { buf := b2, failed := false } ∧
            WeightText (vs.drop olds.length) b2)) := by
  intro olds
  induction olds with
  | nil =>
    intro vs b hwt
    exact ⟨{ buf := b, failed := false }, by simp [loadWeightsRow],
      Or.inr ⟨by simp, b, rfl, by simpa using hwt⟩⟩
  | cons o os ih =>
    intro vs b hwt
    cases hwt with
    | done ws hws =>
      have e : IStream.extractInt { buf := b, failed := false }
          = ({ buf := [], failed := true }, none) := by
        unfold IStream.extractInt
        simp [skipWs_all_space b hws]
      refine ⟨{ buf := [], failed := true }, ?_, Or.inl ⟨rfl, by simp⟩⟩
      rw [loadWeightsRow, e]
      simp
    | more v vs2 b2 tail hv hb ht hrest =>
      have e := extractInt_showInt b v tail hv hb
        (fun c hc => isSpace_not_digit c (ht c hc))
      obtain ⟨s2, hs2, hcase⟩ := ih vs2 tail hrest
      refine ⟨s2, ?_, ?_⟩
      · rw [loadWeightsRow, e]
        simp only [Bool.false_eq_true, if_false, Option.getD_some, hs2]
        simp
      · rcases hcase with ⟨h1, h2⟩ | ⟨h1, b3, h2, h3⟩
        · exact Or.inl ⟨h1, by simp only [List.length_cons]; omega⟩
        · exact Or.inr ⟨by simp only [List.length_cons]; omega, b3, h2, by simpa using h3⟩

/-- The weight loops over the matrix, on a text that holds the integers `vs`: in
row-major order the cells take the integers, and the cells after the last integer keep
their values. -/
theorem loadWeights_fewer :
    ∀ (rows : List (List Int)) (vs : List Int) (b : List Char), WeightText vs b →
      (loadWeights { buf := b, failed := false } rows).flatten
        = vs.take rows.flatten.length ++ rows.flatten.drop vs.length := by
  intro rows
  induction rows with
  | nil => intro vs b _; simp [loadWeights]
  | cons row rest ih =>
    intro vs b hwt
    obtain ⟨s2, hs2, hcase⟩ := loadWeightsRow_fewer row vs b hwt
    rw [loadWeights, hs2]
    simp only [List.flatten_cons, List.length_append]
    rcases hcase with ⟨hf, hlt⟩ | ⟨hle, b2, rfl, hrest⟩
    · rw [loadWeights_failed rest s2 hf]
      rw [List.take_of_length_le (by omega), List.take_of_length_le (by omega),
        List.drop_append_of_le_length (by omega), List.append_assoc]
    · rw [ih (vs.drop row.length) b2 hrest]
      rw [List.drop_eq_nil_of_le hle, List.append_nil, List.take_add, List.length_drop,
        List.append_assoc]
      congr 2
      rw [List.drop_append_eq_append_drop, List.drop_eq_nil_of_le hle, List.nil_append]

theorem flatten_replicate_ones (n m : Nat) :
    (List.replicate n (List.replicate m (1 : Int))).flatten = List.replicate (n * m) 1 := by
  induction n with
  | zero => simp
  | succ k ih =>
    rw [List.replicate_succ, List.flatten_cons, ih, Nat.succ_mul, Nat.add_comm (k * m) m,
      List.replicate_add]

theorem rows_of_shape (Wt rows : List (List Int)) (n : Nat)
    (hshape : Wt.map List.length = rows.map List.length)
    (hrows : ∀ row ∈ rows, row.length = n) : ∀ row ∈ Wt, row.length = n := by
  intro row hrow
  have h1 : row.length ∈ Wt.map List.length := List.mem_map_of_mem _ hrow
  rw [hshape] at h1
  obtain ⟨r2, hr2, he⟩ := List.mem_map.mp h1
  rw [← he]
  exact hrows r2 hr2

/-- C33: for a text `hd|M|W` whose header extracts to six integers with non-negative
height `h` and width `w`, whose map section `M` has at least `h * w` characters and
whose weight section `W` holds only the `k < h * w` integers `vs`, separated by white
space, `load` returns true; in row-major order the first `k` cells get the weights `vs`
and every other cell has the weight 1. -/
theorem load_fewer_weights (g : Grid) (hd M W : List Char) (h w sx sy dx dy : Int)
    (vs : List Int) (hpipe : '|' ∉ hd) (hM : '|' ∉ M)
    (hhd : parseHeader hd = some (h, w, sx, sy, dx, dy))
    (hh : 0 ≤ h) (hw : 0 ≤ w) (hlen : h * w ≤ (M.length : Int))
    (hwt : WeightText vs W) (hk : (vs.length : Int) < h * w) :
    (g.load (hd ++ '|' :: (M ++ '|' :: W))).1 = true ∧
    (g.load (hd ++ '|' :: (M ++ '|' :: W))).2.weights.flatten
      = vs ++ List.replicate ((h * w).toNat - vs.length) 1 ∧
    ∀ i j : Int, 0 ≤ i → i < h → 0 ≤ j → j < w →
      ((i * w + j).toNat < vs.length →
        (g.load (hd ++ '|' :: (M ++ '|' :: W))).2.getWeight i j = vs.getD (i * w + j).toNat 1) ∧
      (vs.length ≤ (i * w + j).toNat →
        (g.load (hd ++ '|' :: (M ++ '|' :: W))).2.getWeight i j = 1) := by
  rw [load_sections g h w sx sy dx dy hd M W hhd hpipe hM hh hw]
  have hnot : ¬ M.length < (h * w).toNat := by omega
  rw [if_neg hnot]
  simp only
  obtain ⟨H, rfl⟩ := Int.eq_ofNat_of_zero_le hh
  obtain ⟨Wd, rfl⟩ := Int.eq_ofNat_of_zero_le hw
  have hmul : ((H : Int) * (Wd : Int)).toNat = H * Wd := by
    rw [← Nat.cast_mul]; exact Int.toNat_natCast _
  simp only [hmul, Int.toNat_natCast] at hk ⊢
  have hk2 : vs.length < H * Wd := by
    have : ((vs.length : Nat) : Int) < ((H * Wd : Nat) : Int) := by
      rw [Nat.cast_mul]; exact hk
    exact_mod_cast this
  have hflat : (loadWeights { buf := W, failed := false }
      (List.replicate H (List.replicate Wd 1))).flatten
      = vs ++ List.replicate (H * Wd - vs.length) 1 := by
    rw [loadWeights_fewer _ vs W hwt, flatten_replicate_ones, List.length_replicate,
      List.take_of_length_le (by omega), List.drop_replicate]
  have hshape := loadWeights_shape (List.replicate H (List.replicate Wd 1))
    { buf := W, failed := false }
  have hrowlen := rows_of_shape _ _ Wd hshape (by
    intro row hrow
    rw [List.eq_of_mem_replicate hrow, List.length_replicate])
  have hnrows : (loadWeights { buf := W, failed := false }
      (List.replicate H (List.replicate Wd 1))).length = H := by
    have := congrArg List.length hshape
    simpa using this
  refine ⟨trivial, hflat, ?_⟩
  intro i j hi0 hi hj0 hj
  obtain ⟨I, rfl⟩ := Int.eq_ofNat_of_zero_le hi0
  obtain ⟨J, rfl⟩ := Int.eq_ofNat_of_zero_le hj0
  have hI : I < H := by exact_mod_cast hi
  have hJ : J < Wd := by exact_mod_cast hj
  have hidx : ((I : Int) * (Wd : Int) + (J : Int)).toNat = I * Wd + J := by
    rw [← Nat.cast_mul, ← Nat.cast_add]; exact Int.toNat_natCast _
  have hcell : Grid.getWeight
      { g with height := (H : Int), width := (Wd : Int),
               map := rowMajor (H : Int) (Wd : Int)
                 fun i j => M.getD (i * (Wd : Int) + j).toNat '.',
               weights := loadWeights { buf := W, failed := false }
                 (List.replicate H (List.replicate Wd 1)),
               source := { x := sx, y := sy }, destination := { x := dx, y := dy } }
      (I : Int) (J : Int)
      = (vs ++ List.replicate (H * Wd - vs.length) 1).getD (I * Wd + J) 1 := by
    unfold Grid.getWeight Grid.isValid
    simp only [hi, hj, hi0, hj0, ge_iff_le, decide_True, Bool.and_self, if_true]
    rw [show ((I : Int)) = Int.ofNat I from rfl, show ((J : Int)) = Int.ofNat J from rfl,
      matGet_natCast, ← hflat]
    exact (flatten_getD Wd 1 _ hrowlen I J (by rw [hnrows]; exact hI) hJ).symm
  rw [hidx]
  constructor
  · intro hlt
    rw [hcell, List.getD_append _ _ _ _ hlt]
  · intro hge
    rw [hcell, List.getD_append_right _ _ _ _ hge]
    rw [List.getD_eq_getElem?_getD, List.getElem?_replicate]
    split <;> rfl

/-- C33 at a concrete input: a 2×2 grid with the three weights 5, 6 and 7, separated by
a space and a tab. -/
theorem load_fewer_weights_witness :
    '|' ∉ "2,2,0,0,1,1".toList ∧ '|' ∉ "....".toList ∧
    parseHeader "2,2,0,0,1,1".toList = some (2, 2, 0, 0, 1, 1) ∧
    WeightText [5, 6, 7] "5 6\t7".toList ∧
    (grid3x3.load ("2,2,0,0,1,1".toList ++ '|' :: ("....".toList ++ '|' :: "5 6\t7".toList))).2.weights
      = [[5, 6], [7, 1]] ∧
    ((grid3x3.load ("2,2,0,0,1,1".toList ++ '|' :: ("....".toList ++ '|' :: "5 6\t7".toList))).1
      = true ∧
    (grid3x3.load ("2,2,0,0,1,1".toList ++ '|' :: ("....".toList ++ '|' :: "5 6\t7".toList))).2.weights.flatten
      = [5, 6, 7] ++ List.replicate (((2 : Int) * 2).toNat - [(5 : Int), 6, 7].length) 1 ∧
    ∀ i j : Int, 0 ≤ i → i < 2 → 0 ≤ j → j < 2 →
      ((i * 2 + j).toNat < [(5 : Int), 6, 7].length →
        (grid3x3.load ("2,2,0,0,1,1".toList ++ '|' :: ("....".toList ++ '|' :: "5 6\t7".toList))).2.getWeight
          i j = [(5 : Int), 6, 7].getD (i * 2 + j).toNat 1) ∧
      ([(5 : Int), 6, 7].length ≤ (i * 2 + j).toNat →
        (grid3x3.load ("2,2,0,0,1,1".toList ++ '|' :: ("....".toList ++ '|' :: "5 6\t7".toList))).2.getWeight
          i j = 1)) :=
  ⟨by decide, by decide, by decide,
   WeightText.more 5 [6, 7] _ " 6\t7".toList (by decide) (by decide) (by decide)
     (WeightText.more 6 [7] _ "\t7".toList (by decide) (by decide) (by decide)
       (WeightText.more 7 [] _ [] (by decide) (by decide) (by simp)
         (WeightText.done [] (by simp)))),
   by decide,
   load_fewer_weights grid3x3 _ _ _ 2 2 0 0 1 1 [5, 6, 7] (by decide) (by decide) (by decide)
     (by decide) (by decide) (by decide)
     (WeightText.more 5 [6, 7] _ " 6\t7".toList (by decide) (by decide) (by decide)
       (WeightText.more 6 [7] _ "\t7".toList (by decide) (by decide) (by decide)
         (WeightText.more 7 [] _ [] (by decide) (by decide) (by simp)
           (WeightText.done [] (by simp)))))
     (by decide)⟩


/-! ## The visited nodes when the end node cannot be reached -/

theorem dijkstraRelaxExact_queued (d : Int) (curr : Node) :
    ∀ (es : List Edge) (s : DijkstraState), DijkstraQueued s →
      DijkstraQueued (dijkstraRelaxExact d curr es s) := by
  intro es
  induction es with
  | nil => intro s h; exact h
  | cons e rest ih =>
    intro s h
    have himp : DijkstraQueued
        { s with dist := s.dist.insert e.target (d + e.weight),
                 parent := s.parent.insert e.target curr,
                 pq := (d + e.weight, e.target) :: s.pq } := by
      intro v dv hv
      simp only [NodeMap.insert] at hv
      split at hv
      · rename_i hvt
        simp only [Option.some.injEq] at hv
        left
        rw [hvt, ← hv]
        exact List.mem_cons_self _ _
      · rcases h v dv hv with h1 | h1
        · exact Or.inl (List.mem_cons_of_mem _ h1)
        · exact Or.inr h1
    unfold dijkstraRelaxExact
    simp only
    split
    · exact ih _ himp
    · split
      · exact ih _ himp
      · exact ih _ h

theorem dijkstraQueued_step (graph : IGraph) (endNode : Node) (s s1 : DijkstraState)
    (h : DijkstraQueued s) (hstep : dijkstraStepExact graph endNode s = Sum.inl s1) :
    DijkstraQueued s1 := by
  unfold dijkstraStepExact at hstep
  cases htop : pqTop s.pq with
  | none => rw [htop] at hstep; cases hstep
  | some t =>
    obtain ⟨d, curr⟩ := t
    rw [htop] at hstep
    simp only at hstep
    cases hst : dijkstraStale s.dist d curr with
    | true =>
      rw [hst] at hstep
      simp only [if_true, Sum.inl.injEq] at hstep
      subst hstep
      obtain ⟨dc, hdc, hlt⟩ := (dijkstraStale_iff s.dist d curr).mp hst
      intro v dv hv
      rcases h v dv hv with h1 | h1
      · left
        apply mem_erase_of_ne_top _ _ _ h1
        intro heq
        simp only [Prod.mk.injEq] at heq
        obtain ⟨rfl, rfl⟩ := heq
        simp only at hv
        rw [hdc] at hv
        simp only [Option.some.injEq] at hv
        omega
      · exact Or.inr h1
    | false =>
      rw [hst] at hstep
      simp only [Bool.false_eq_true, if_false] at hstep
      split at hstep
      · cases hstep
      · simp only [Sum.inl.injEq] at hstep
        subst hstep
        apply dijkstraRelaxExact_queued
        intro v dv hv
        by_cases hvc : v = curr
        · right
          simp only [hvc, List.mem_append, List.mem_singleton, or_true]
        · rcases h v dv hv with h1 | h1
          · left
            apply mem_erase_of_ne_top _ _ _ h1
            intro heq
            exact hvc (congrArg Prod.snd heq)
          · right
            simp only [List.mem_append]
            exact Or.inl h1

/-- When the end node cannot be reached, the loop of `runDijkstraExact` is left with an empty
queue, and the nodes visited are the nodes that can be reached, each once. -/
theorem dijkstraFinalExact_unreachable (graph : IGraph) (V : List Node) (start endNode : Node)
    (hV : ClosedUnder graph V) (hw : NonNegWeights graph V) (hs : start ∈ V)
    (hunr : ¬ Reachable graph start endNode)
    (n : Nat) (r : DijkstraState) (h : dijkstraFinalExact n graph start endNode = some r) :
    r.visited.Nodup ∧ r.visitedCount = (r.visited.length : Int) ∧
    ∀ v, v ∈ r.visited ↔ Reachable graph start v := by
  obtain ⟨sl, ⟨⟨dinv, ks, vinv⟩, qinv⟩, hexit⟩ := iterate_invariant (dijkstraStepExact graph endNode)
    (fun s => (DijkstraInv graph V start endNode s ∧
      ∃ ks, DijkstraVisitInv graph V start False ks s) ∧ DijkstraQueued s)
    (fun s s1 i hst =>
      ⟨dijkstraVisit_step graph V start endNode False hV hw hs (fun hf => hf.elim) s s1 i.1 hst,
        dijkstraQueued_step graph endNode s s1 i.2 hst⟩)
    n (dijkstraInit start) r
    ⟨⟨dijkstraInit_inv graph V start endNode hs, [], dijkstraVisit_init graph V start False hs⟩,
      (by
        intro v dv hv
        left
        simp only [dijkstraInit, NodeMap.insert, NodeMap.empty] at hv ⊢
        split at hv
        · rename_i hvs
          simp only [Option.some.injEq] at hv
          rw [hvs, ← hv]
          exact List.mem_singleton.mpr rfl
        · cases hv)⟩ h
  rcases dijkstraStepExact_exit graph V start endNode sl r dinv hexit with
    ⟨hpq, rfl⟩ | ⟨d, _, hd, _⟩
  · refine ⟨vinv.nodup, vinv.count, ?_⟩
    intro v
    constructor
    · intro hv
      rw [← vinv.keys] at hv
      obtain ⟨k, hk, hk2⟩ := List.mem_map.mp hv
      obtain ⟨⟨es, h1, h2, _⟩, _⟩ := vinv.shortest k hk
      exact ⟨es, h1, by rw [h2, hk2]⟩
    · rintro ⟨es, h1, h2⟩
      rcases dijkstra_frontier graph V start endNode hV hw hs r dinv es h1 with
        ⟨dx, hdx, _⟩ | ⟨p, hp, _⟩
      · rw [h2] at hdx
        rcases qinv v dx hdx with h3 | h3
        · rw [hpq] at h3; cases h3
        · exact h3
      · rw [hpq] at hp; cases hp
  · exfalso
    obtain ⟨es, h1, h2, _⟩ := dinv.core.achieved endNode d hd
    exact hunr ⟨es, h1, h2⟩

theorem bfsEnqueue_visit (curr : Node) :
    ∀ (es : List Edge) (s : BFSState), BFSVisitInv s → BFSVisitInv (bfsEnqueue curr es s) := by
  intro es
  induction es with
  | nil => intro s h; exact h
  | cons e rest ih =>
    intro s h
    unfold bfsEnqueue
    split
    · rename_i hnone
      apply ih
      have hnot : ¬ (e.target ∈ s.visited ∨ e.target ∈ s.q) := by
        intro hin
        exact (h.covered e.target).mpr hin hnone
      refine ⟨h.count, ?_, ?_⟩
      · show (s.visited ++ (s.q ++ [e.target])).Nodup
        rw [← List.append_assoc]
        refine List.Nodup.append h.nodup (List.nodup_singleton _) ?_
        intro x hx hx2
        simp only [List.mem_singleton] at hx2
        subst hx2
        exact hnot (List.mem_append.mp hx)
      · intro v
        show (s.parent.insert e.target curr) v ≠ none ↔ v ∈ s.visited ∨ v ∈ s.q ++ [e.target]
        by_cases hv : v = e.target
        · subst hv
          simp [NodeMap.insert]
        · simp only [NodeMap.insert, hv, if_false, List.mem_append, List.mem_singleton, or_false]
          exact h.covered v
    · exact ih _ h

theorem bfsVisit_pop (s s1 : BFSState) (curr : Node) (rest : List Node)
    (h : BFSVisitInv s) (hq : s.q = curr :: rest)
    (hp : s1.parent = s.parent) (hq1 : s1.q = rest)
    (hvis : s1.visited = s.visited ++ [curr]) (hcnt : s1.visitedCount = s.visitedCount + 1) :
    BFSVisitInv s1 := by
  refine ⟨?_, ?_, ?_⟩
  · rw [hcnt, hvis, h.count]; simp
  · rw [hvis, hq1, List.append_assoc]
    have := h.nodup
    rw [hq] at this
    exact this
  · intro v
    rw [hp, hvis, hq1, h.covered v, hq]
    simp only [List.mem_append, List.mem_singleton, List.mem_cons]
    tauto

theorem bfsVisit_step (graph : IGraph) (endNode : Node) (s s1 : BFSState)
    (h : BFSVisitInv s) (hstep : bfsStep graph endNode s = Sum.inl s1) : BFSVisitInv s1 := by
  unfold bfsStep at hstep
  cases hq : s.q with
  | nil => rw [hq] at hstep; cases hstep
  | cons curr rest =>
    rw [hq] at hstep
    simp only at hstep
    split at hstep
    · cases hstep
    · simp only [Sum.inl.injEq] at hstep
      subst hstep
      apply bfsEnqueue_visit
      exact bfsVisit_pop s _ curr rest h hq rfl rfl rfl rfl

/-- When the end node cannot be reached, the loop of `runBFS` is left with an empty
queue, and the nodes visited are the nodes that can be reached, each once. -/
theorem bfsFinal_unreachable (graph : IGraph) (V : List Node) (start endNode : Node)
    (hV : ClosedUnder graph V) (hs : start ∈ V)
    (hunr : ¬ Reachable graph start endNode)
    (n : Nat) (r : BFSState) (h : bfsFinal n graph start endNode = some r) :
    r.visited.Nodup ∧ r.visitedCount = (r.visited.length : Int) ∧
    ∀ v, v ∈ r.visited ↔ Reachable graph start v := by
  obtain ⟨sl, ⟨⟨dep, binv⟩, vinv⟩, hexit⟩ := iterate_invariant (bfsStep graph endNode)
    (fun s => BFSInv graph V start endNode s ∧ BFSVisitInv s)
    (fun s s1 i hst =>
      ⟨(bfsStep_inv graph V start endNode hV s s1 i.1 hst).1,
        bfsVisit_step graph endNode s s1 i.2 hst⟩)
    n (bfsInit start) r
    ⟨bfsInit_inv graph V start endNode hs,
      ⟨rfl, by simp [bfsInit], by
        intro v
        simp only [bfsInit, NodeMap.insert, NodeMap.empty, List.not_mem_nil, false_or,
          List.mem_singleton]
        by_cases hv : v = start <;> simp [hv]⟩⟩ h
  unfold bfsStep at hexit
  cases hq : sl.q with
  | nil =>
    rw [hq] at hexit
    simp only [Sum.inr.injEq] at hexit
    subst hexit
    have hnd := vinv.nodup
    rw [hq, List.append_nil] at hnd
    refine ⟨hnd, vinv.count, ?_⟩
    intro v
    constructor
    · intro hv
      have hpar : sl.parent v ≠ none := (vinv.covered v).mpr (Or.inl hv)
      cases hdep : dep v with
      | none => exact absurd ((binv.core.dom_parent v).mp hdep) hpar
      | some d =>
        obtain ⟨es, h1, h2, _⟩ := binv.core.achieved v d hdep
        exact ⟨es, h1, h2⟩
    · rintro ⟨es, h1, h2⟩
      rcases bfs_frontier graph V start endNode dep sl binv es h1 with
        ⟨dx, hdx, _⟩ | ⟨y, hy, _⟩
      · rw [h2] at hdx
        have hpar : sl.parent v ≠ none := by
          intro hnone
          have := (binv.core.dom_parent v).mpr hnone
          rw [this] at hdx; cases hdx
        rcases (vinv.covered v).mp hpar with h3 | h3
        · exact h3
        · rw [hq] at h3; cases h3
      · rw [hq] at hy; cases hy
  | cons curr rest =>
    rw [hq] at hexit
    simp only at hexit
    split at hexit
    · rename_i hce
      exfalso
      obtain ⟨d, hd⟩ := binv.core.q_dom curr (by rw [hq]; exact List.mem_cons_self _ _)
      obtain ⟨es, h1, h2, _⟩ := binv.core.achieved curr d hd
      exact hunr ⟨es, h1, by rw [h2, hce]⟩
    · cases hexit

/-- With exact sums, on a finite graph with non-negative edge weights, when the end
node cannot be reached from the start node: `runBFS` and `runDijkstraExact` both return,
and the `visitedCount` of each is the number of nodes that can be reached from the
start node. -/
theorem searchesExact_visit_reachable (graph : IGraph) (V : List Node) (start endNode : Node)
    (hs : start ∈ V) (hV : ClosedUnder graph V) (hw : NonNegWeights graph V)
    (hunr : ¬ Reachable graph start endNode) :
    ((∃ (fuel : Nat) (r : AlgoResult), runBFS fuel graph start endNode = some r) ∧
      ∀ (fuel : Nat) (r : AlgoResult), runBFS fuel graph start endNode = some r →
        ∃ R : Finset Node, (∀ v, v ∈ R ↔ Reachable graph start v) ∧
          r.visitedCount = (R.card : Int)) ∧
    ((∃ (fuel : Nat) (r : AlgoResult), runDijkstraExact fuel graph start endNode = some r) ∧
      ∀ (fuel : Nat) (r : AlgoResult), runDijkstraExact fuel graph start endNode = some r →
        ∃ R : Finset Node, (∀ v, v ∈ R ↔ Reachable graph start v) ∧
          r.visitedCount = (R.card : Int)) := by
  refine ⟨⟨(runBFS_spec graph V start endNode hs hV).1, ?_⟩,
    ⟨(runDijkstraExact_spec graph V start endNode hs hV hw).1, ?_⟩⟩
  · intro fuel r hr
    obtain ⟨s, p, hfin, _, rfl⟩ := runBFS_eq_some graph start endNode fuel r hr
    obtain ⟨hnd, hcnt, hmem⟩ := bfsFinal_unreachable graph V start endNode hV hs hunr fuel s hfin
    refine ⟨s.visited.toFinset, fun v => by rw [List.mem_toFinset]; exact hmem v, ?_⟩
    rw [List.toFinset_card_of_nodup hnd]
    exact hcnt
  · intro fuel r hr
    obtain ⟨s, p, hfin, _, rfl⟩ := runDijkstraExact_eq_some graph start endNode fuel r hr
    obtain ⟨hnd, hcnt, hmem⟩ :=
      dijkstraFinalExact_unreachable graph V start endNode hV hw hs hunr fuel s hfin
    refine ⟨s.visited.toFinset, fun v => by rw [List.mem_toFinset]; exact hmem v, ?_⟩
    rw [List.toFinset_card_of_nodup hnd]
    exact hcnt

/-! ## Grids on which no sum leaves the range of `int` -/

theorem nodes_length (g : Grid) : g.nodes.length = (g.height * g.width).toNat := by
  unfold Grid.nodes
  simp

/-- The heuristic between two in-bounds cells is at most `10 * (height + width)`. -/
theorem heuristic_bound (g : Grid) (x y : Int) (t : Node) (hv : g.isValid x y = true)
    (ht : 0 ≤ t ∧ t < g.height * g.width) :
    0 ≤ g.getHeuristic (g.toNode x y) t ∧
    g.getHeuristic (g.toNode x y) t ≤ 10 * (g.height + g.width) := by
  have hb := (isValid_iff g x y).mp hv
  have hp := toPoint_toNode g x y hb.1 hb.2.2.1 hb.2.2.2
  have hvt := (isValid_iff g _ _).mp (toPoint_valid g t ht.1 ht.2 (by omega))
  unfold Grid.getHeuristic
  rw [hp]
  simp only
  generalize (g.toPoint t).x = qx at hvt
  generalize (g.toPoint t).y = qy at hvt
  unfold cAbs
  by_cases hdiag : g.m_allowDiagonals = true
  · simp only [hdiag, if_true]
    constructor <;> (split <;> split <;> omega)
  · simp only [hdiag, if_false]
    constructor <;> (split <;> split <;> omega)

/-- An edge of `getNeighbors` exists only on a grid with in-bounds cells. -/
theorem dims_of_edge (g : Grid) (u : Node) (e : Edge) (he : e ∈ g.getNeighbors u) :
    1 ≤ g.height ∧ 1 ≤ g.width := by
  obtain ⟨dx, dy, base, _, hv, _⟩ := mem_getNeighbors g u e he
  have hb := (isValid_iff g _ _).mp hv
  omega

theorem getWeight_le (g : Grid) (wmax : Int) (h1 : 1 ≤ wmax)
    (hmax : ∀ row ∈ g.weights, ∀ v ∈ row, v ≤ wmax) (x y : Int) (hv : g.isValid x y = true) :
    g.getWeight x y ≤ wmax := by
  unfold Grid.getWeight
  rw [if_pos hv]
  rcases matGet_mem_or_default g.weights x y 1 with h | ⟨row, hrow, h⟩
  · rw [h]; exact h1
  · exact hmax row hrow _ h

theorem getWeight_nonneg (g : Grid) (hm : ∀ row ∈ g.weights, ∀ v ∈ row, 0 ≤ v) (x y : Int) :
    0 ≤ g.getWeight x y := by
  unfold Grid.getWeight
  split
  · exact matGet_weights_nonneg _ _ _ hm
  · decide

/-- On a grid with non-negative terrain weights whose sums fit, the products fit, and
the graph of the grid meets the bounds under which the searches compute exact sums. -/
theorem grid_sums_fit (g : Grid) (wmax : Int) (endNode : Node)
    (hm : ∀ row ∈ g.weights, ∀ v ∈ row, 0 ≤ v) (hfit : g.SumsFit wmax)
    (he : 0 ≤ endNode ∧ endNode < g.height * g.width) :
    g.EdgesFit ∧ ∃ W : Int, 0 ≤ W ∧ WeightsAtMost g.toGraph g.nodes W ∧
      (g.nodes.length : Int) * W ≤ 2147483647 ∧ HeuristicFits g.toGraph g.nodes W endNode := by
  obtain ⟨h1, hmax, hsum⟩ := hfit
  by_cases hdim : 1 ≤ g.height ∧ 1 ≤ g.width
  · have hcells : 1 ≤ g.height * g.width := by
      have := Int.mul_le_mul hdim.1 hdim.2 (by omega) (by omega)
      omega
    have hprod : 14 * wmax ≤ 14 * wmax * (g.height * g.width) :=
      le_mul_of_one_le_right (by omega) hcells
    have hef : g.EdgesFit := by
      intro x y hv
      have hle := getWeight_le g wmax h1 hmax x y hv
      have h0 := getWeight_nonneg g hm x y
      unfold IsInt32
      refine ⟨⟨by omega, by omega⟩, fun _ => ⟨by omega, by omega⟩⟩
    refine ⟨hef, 14 * wmax, by omega, ?_, ?_, ?_⟩
    · intro u _ e hedge
      obtain ⟨dx, dy, base, hb, hv, _, _, hwt⟩ := mem_getNeighbors_fit g hef u e hedge
      have hle := getWeight_le g wmax h1 hmax _ _ hv
      have h0 := getWeight_nonneg g hm ((g.toPoint u).x + dx) ((g.toPoint u).y + dy)
      rw [hwt]
      rcases hb with ⟨rfl, _⟩ | ⟨rfl, _⟩ <;> omega
    · rw [nodes_length]
      have : ((g.height * g.width).toNat : Int) = g.height * g.width := Int.toNat_of_nonneg (by omega)
      rw [this]
      have e : g.height * g.width * (14 * wmax) = 14 * wmax * (g.height * g.width) := by ring
      omega
    · intro u _ e hedge
      obtain ⟨dx, dy, base, _, hv, _, ht, _⟩ := mem_getNeighbors g u e hedge
      have hh := heuristic_bound g _ _ endNode hv he
      show -2147483648 ≤ g.getHeuristic e.target endNode ∧
        (g.nodes.length : Int) * (14 * wmax) + g.getHeuristic e.target endNode ≤ 2147483647
      rw [ht, nodes_length]
      have : ((g.height * g.width).toNat : Int) = g.height * g.width := Int.toNat_of_nonneg (by omega)
      rw [this]
      have e : g.height * g.width * (14 * wmax) = 14 * wmax * (g.height * g.width) := by ring
      omega
  · have hno : ∀ (u : Node) (e : Edge), e ∈ g.getNeighbors u → False :=
      fun u e hedge => hdim (dims_of_edge g u e hedge)
    refine ⟨?_, 0, le_refl 0, ?_, by omega, ?_⟩
    · intro x y hv
      have hb := (isValid_iff g x y).mp hv
      exact absurd ⟨by omega, by omega⟩ hdim
    · intro u _ e hedge
      exact (hno u e hedge).elim
    · intro u _ e hedge
      exact (hno u e hedge).elim

/-- On a grid with non-negative terrain weights whose sums fit, between in-bounds nodes,
`runDijkstra` and `runAStar` and their loops are the ones with exact sums. -/
theorem grid_runs_exact (g : Grid) (wmax : Int) (start endNode : Node)
    (hm : ∀ row ∈ g.weights, ∀ v ∈ row, 0 ≤ v) (hfit : g.SumsFit wmax)
    (hs : 0 ≤ start ∧ start < g.height * g.width)
    (he : 0 ≤ endNode ∧ endNode < g.height * g.width) :
    g.EdgesFit ∧
    (∀ fuel, runDijkstra fuel g.toGraph start endNode
      = runDijkstraExact fuel g.toGraph start endNode) ∧
    (∀ fuel, runAStar fuel g.toGraph start endNode
      = runAStarExact fuel g.toGraph start endNode) ∧
    (∀ fuel, aStarFinal fuel g.toGraph start endNode
      = aStarFinalExact fuel g.toGraph start endNode) ∧
    (∀ n, loopState (aStarStep g.toGraph endNode) n (aStarInit g.toGraph start endNode)
      = loopState (aStarStepExact g.toGraph endNode) n (aStarInit g.toGraph start endNode)) := by
  obtain ⟨hef, W, h0, hW, hlen, hh⟩ := grid_sums_fit g wmax endNode hm hfit he
  have hsV : start ∈ g.nodes := (mem_nodes_iff g start).mpr hs
  have hV := grid_closed g
  have hw := grid_nonneg_of_nonneg g hef hm
  exact ⟨hef,
    runDijkstra_exact g.toGraph g.nodes W start endNode hsV hV hw h0 hW hlen,
    runAStar_exact g.toGraph g.nodes W start endNode hsV hV hw h0 hW hlen hh,
    aStarFinal_exact g.toGraph g.nodes W start endNode hsV hV hw h0 hW hlen hh,
    aStarLoop_exact g.toGraph g.nodes W start endNode hsV hV hw h0 hW hlen hh⟩

/-! ## The searches when the sums fit in an `int` -/

/-- A bound on non-negative weights can be taken non-negative: when it is negative the
graph has no edge out of `V`, and 0 is a bound as well. -/
theorem weightBound_nonneg (graph : IGraph) (V : List Node) (W : Int)
    (hw : NonNegWeights graph V) (hW : WeightsAtMost graph V W)
    (hfit : (V.length : Int) * W ≤ 2147483647) :
    ∃ W0 : Int, 0 ≤ W0 ∧ WeightsAtMost graph V W0 ∧ (V.length : Int) * W0 ≤ 2147483647 ∧
      ∀ endNode, HeuristicFits graph V W endNode → HeuristicFits graph V W0 endNode := by
  by_cases h0 : 0 ≤ W
  · exact ⟨W, h0, hW, hfit, fun _ h => h⟩
  · refine ⟨0, le_refl 0, ?_, by simp, ?_⟩
    · intro u hu e he
      have h1 := hw u hu e he
      have h2 := hW u hu e he
      omega
    · intro endNode _ u hu e he
      have h1 := hw u hu e he
      have h2 := hW u hu e he
      omega

/-- C1 (as stated, at terrain weights whose sums do not fit in an `int`): on `Grid(2,2)`
after `setWeight(1,0,150000000)` and `setWeight(1,1,150000000)` every terrain weight is
at least 1 and every product `10 * weight` fits in an `int`; from node 1 to node 2 both
searches return success, `runAStar` with total cost 1500000010 along 1, 0, 2 and
`runDijkstra` with total cost −1294967296 along 1, 3, 2: the sum
`1500000000 + 1500000000` has wrapped around. -/
theorem grid_astar_dijkstra_differ :
    (Grid.create 2 2).map (fun g => (g.setWeight 1 0 150000000).setWeight 1 1 150000000)
      = some gridHeavyPair ∧
    (∀ row ∈ gridHeavyPair.weights, ∀ v ∈ row, 1 ≤ v) ∧ gridHeavyPair.ProductsFit ∧
    ((0 : Node) ≤ 1 ∧ (1 : Node) < gridHeavyPair.height * gridHeavyPair.width) ∧
    ((0 : Node) ≤ 2 ∧ (2 : Node) < gridHeavyPair.height * gridHeavyPair.width) ∧
    runAStar 6 gridHeavyPair.toGraph 1 2
      = some { path := [1, 0, 2], visitedCount := 3, totalCost := 1500000010, success := true } ∧
    runDijkstra 6 gridHeavyPair.toGraph 1 2
      = some { path := [1, 3, 2], visitedCount := 4, totalCost := -1294967296,
               success := true } :=
  ⟨by decide, by decide, by decide, by decide, by decide, by decide, by decide⟩

/-- C1 (amended): on a grid whose terrain weights are all at least 1 and at most `wmax`,
where 14 times `wmax` times the number of cells plus `10 * (height + width)` is at most
the largest `int`, from an in-bounds start to an in-bounds end node, `runAStar` and
`runDijkstra` both return, with the same success flag and, when successful, the same
total cost. -/
theorem grid_astar_dijkstra_agree (g : Grid) (start endNode : Node) (wmax : Int)
    (hm : ∀ row ∈ g.weights, ∀ v ∈ row, 1 ≤ v) (hfit : g.SumsFit wmax)
    (hs : 0 ≤ start ∧ start < g.height * g.width)
    (he : 0 ≤ endNode ∧ endNode < g.height * g.width) :
    (∃ (fuel : Nat) (ra rd : AlgoResult),
      runAStar fuel g.toGraph start endNode = some ra ∧
      runDijkstra fuel g.toGraph start endNode = some rd) ∧
    ∀ (fa fd : Nat) (ra rd : AlgoResult),
      runAStar fa g.toGraph start endNode = some ra →
      runDijkstra fd g.toGraph start endNode = some rd →
      ra.success = rd.success ∧ (ra.success = true → ra.totalCost = rd.totalCost) := by
  obtain ⟨hef, hD, hA, _, _⟩ := grid_runs_exact g wmax start endNode
    (fun row hr v hv => le_trans (by decide) (hm row hr v hv)) hfit hs he
  simp only [hD, hA]
  exact gridExact_searches_agree g start endNode hm hef hs he

/-- C1 (amended) at a concrete input: the edited 3×3 grid (an obstacle at (1,1), weight 7
at (0,1)), from node 0 to node 8. -/
theorem grid_astar_dijkstra_agree_witness :
    (∀ row ∈ grid3x3Edited.weights, ∀ v ∈ row, 1 ≤ v) ∧ grid3x3Edited.SumsFit 7 ∧
    ((0 : Node) ≤ 0 ∧ (0 : Node) < grid3x3Edited.height * grid3x3Edited.width) ∧
    ((0 : Node) ≤ 8 ∧ (8 : Node) < grid3x3Edited.height * grid3x3Edited.width) ∧
    ((∃ (fuel : Nat) (ra rd : AlgoResult),
      runAStar fuel grid3x3Edited.toGraph 0 8 = some ra ∧
      runDijkstra fuel grid3x3Edited.toGraph 0 8 = some rd) ∧
    ∀ (fa fd : Nat) (ra rd : AlgoResult),
      runAStar fa grid3x3Edited.toGraph 0 8 = some ra →
      runDijkstra fd grid3x3Edited.toGraph 0 8 = some rd →
      ra.success = rd.success ∧ (ra.success = true → ra.totalCost = rd.totalCost)) :=
  ⟨by decide, by decide, by decide, by decide,
    grid_astar_dijkstra_agree grid3x3Edited 0 8 7 (by decide) (by decide) (by decide)
      (by decide)⟩

/-- C2 (as stated, at edge weights whose sum does not fit in an `int`): on the chain
0→1→2 with two edges of weight 2^30, which are non-negative, `runDijkstra` from 0 to 2
returns success with total cost −2147483648, while the walk along the two edges costs
2147483648 and no walk from 0 to 2 costs less than 0. -/
theorem runDijkstra_cost_wraps :
    (0 : Node) ∈ [0, 1, 2] ∧ ClosedUnder chainGraph [0, 1, 2] ∧
    NonNegWeights chainGraph [0, 1, 2] ∧
    runDijkstra 5 chainGraph 0 2
      = some { path := [0, 1, 2], visitedCount := 3, totalCost := -2147483648,
               success := true } ∧
    isWalk chainGraph 0 [{ target := 1, weight := 1073741824 },
      { target := 2, weight := 1073741824 }] = true ∧
    walkCost [{ target := 1, weight := 1073741824 }, { target := 2, weight := 1073741824 }]
      = 2147483648 ∧
    ∀ es, isWalk chainGraph 0 es = true → walkEnd 0 es = 2 → (-2147483648 : Int) < walkCost es := by
  refine ⟨by decide, by decide, by decide, by decide, by decide, by decide, ?_⟩
  intro es hwalk _
  have := walkCost_nonneg chainGraph [0, 1, 2] (by decide) (by decide) es 0 (by decide) hwalk
  omega

/-- C2 (amended): on a finite graph (a node list `V` closed under `getNeighbors`, holding
the start) with non-negative edge weights of at most `W`, where the number of nodes
times `W` is at most the largest `int`, `runDijkstra` returns, and whenever it returns
success its total cost is the cost of some walk from start to end and at most the cost
of every such walk: the minimum of the sums of edge weights. -/
theorem runDijkstra_cost_minimal (graph : IGraph) (V : List Node) (start endNode : Node)
    (W : Int) (hs : start ∈ V) (hV : ClosedUnder graph V) (hw : NonNegWeights graph V)
    (hW : WeightsAtMost graph V W) (hfit : (V.length : Int) * W ≤ 2147483647) :
    (∃ (fuel : Nat) (r : AlgoResult), runDijkstra fuel graph start endNode = some r) ∧
    ∀ (fuel : Nat) (r : AlgoResult), runDijkstra fuel graph start endNode = some r →
      r.success = true →
      (∃ es, isWalk graph start es = true ∧ walkEnd start es = endNode ∧
        walkCost es = r.totalCost) ∧
      (∀ es, isWalk graph start es = true → walkEnd start es = endNode →
        r.totalCost ≤ walkCost es) := by
  obtain ⟨W0, h0, hW0, hfit0, _⟩ := weightBound_nonneg graph V W hw hW hfit
  simp only [runDijkstra_exact graph V W0 start endNode hs hV hw h0 hW0 hfit0]
  exact runDijkstraExact_cost_minimal graph V start endNode hs hV hw

/-- C2 (amended) at a concrete input: the sample graph, from node 0 to node 3. -/
theorem runDijkstra_cost_minimal_witness :
    (0 : Node) ∈ [0, 1, 2, 3] ∧ ClosedUnder sampleGraph [0, 1, 2, 3] ∧
    NonNegWeights sampleGraph [0, 1, 2, 3] ∧
    WeightsAtMost sampleGraph [0, 1, 2, 3] 4 ∧
    (([0, 1, 2, 3] : List Node).length : Int) * 4 ≤ 2147483647 ∧
    ((∃ (fuel : Nat) (r : AlgoResult), runDijkstra fuel sampleGraph 0 3 = some r) ∧
    ∀ (fuel : Nat) (r : AlgoResult), runDijkstra fuel sampleGraph 0 3 = some r →
      r.success = true →
      (∃ es, isWalk sampleGraph 0 es = true ∧ walkEnd 0 es = 3 ∧ walkCost es = r.totalCost) ∧
      (∀ es, isWalk sampleGraph 0 es = true → walkEnd 0 es = 3 → r.totalCost ≤ walkCost es)) :=
  ⟨by decide, by decide, by decide, by decide, by decide,
    runDijkstra_cost_minimal sampleGraph [0, 1, 2, 3] 0 3 4 (by decide) (by decide) (by decide)
      (by decide) (by decide)⟩

/-- C5 (as stated).  At a graph with a node of id −1: on the graph with the single edge
0→−1 of weight 1, the end −1 is reachable from the start 0, and each of `runBFS`,
`runDijkstra` and `runAStar` returns success with an empty path.  At edge weights whose
sums do not fit in an `int`: on the graph 0→1 (2^30), 1→2 (2^30), 1→3 (5), 2→1 (0),
whose weights are non-negative and none of whose nodes has the id −1, the end 3 is
reachable from the start 0; the loop of `runDijkstra` ends with success after visiting
0, 1, 2, 1, 3 and leaves the parent entries 1 ↦ 2, 2 ↦ 1, 3 ↦ 1, so that the backward
walk of `reconstructPathInternal` never ends: `runDijkstra` and `runAStar` return for no
fuel. -/
theorem reachable_end_without_path :
    (ClosedUnder sentinelGraph [0, -1] ∧ NonNegWeights sentinelGraph [0, -1] ∧
      Reachable sentinelGraph 0 (-1) ∧
      runBFS 5 sentinelGraph 0 (-1)
        = some { path := [], visitedCount := 2, totalCost := -1, success := true } ∧
      runDijkstra 5 sentinelGraph 0 (-1)
        = some { path := [], visitedCount := 2, totalCost := 1, success := true } ∧
      runAStar 5 sentinelGraph 0 (-1)
        = some { path := [], visitedCount := 2, totalCost := 1, success := true }) ∧
    ((0 : Node) ∈ [0, 1, 2, 3] ∧ ClosedUnder wrapCycleGraph [0, 1, 2, 3] ∧
      NonNegWeights wrapCycleGraph [0, 1, 2, 3] ∧ (-1 : Node) ∉ [0, 1, 2, 3] ∧
      Reachable wrapCycleGraph 0 3 ∧
      (dijkstraFinal 8 wrapCycleGraph 0 3).map
          (fun s => (s.visited, s.success, s.parent 1, s.parent 2, s.parent 3))
        = some ([0, 1, 2, 1, 3], true, some 2, some 1, some 1) ∧
      (∀ fuel, runDijkstra fuel wrapCycleGraph 0 3 = none) ∧
      (∀ fuel, runAStar fuel wrapCycleGraph 0 3 = none)) :=
  ⟨⟨by decide, by decide, ⟨[{ target := -1, weight := 1 }], by decide, by decide⟩,
      by decide, by decide, by decide⟩,
    ⟨by decide, by decide, by decide, by decide,
      ⟨[{ target := 1, weight := 1073741824 }, { target := 3, weight := 5 }],
        by decide, by decide⟩,
      by decide,
      runDijkstra_never wrapCycleGraph 0 3 8 [3, 1, 2] (by decide) (by decide),
      runAStar_never wrapCycleGraph 0 3 8 [3, 1, 2] (by decide) (by decide)⟩⟩

/-- C5 (amended): on a finite graph with non-negative edge weights none of whose nodes
has the id −1, with the end reachable from the start, `runBFS` returns, with success
true and a non-empty path that starts at the start, ends at the end, and in which every
node after the first is the target of an edge returned by `getNeighbors` of the node
before it; so does `runDijkstra` when the edge weights are at most `W` and the number of
nodes times `W` is at most the largest `int`; and so does `runAStar` when moreover the
f-scores fit in an `int`. -/
theorem reachable_returns_path (graph : IGraph) (V : List Node) (start endNode : Node)
    (hs : start ∈ V) (hV : ClosedUnder graph V) (hw : NonNegWeights graph V)
    (hsent : (-1 : Node) ∉ V) (hreach : Reachable graph start endNode) :
    ((∃ (fuel : Nat) (r : AlgoResult), runBFS fuel graph start endNode = some r) ∧
      ∀ (fuel : Nat) (r : AlgoResult), runBFS fuel graph start endNode = some r →
        r.success = true ∧ r.path ≠ [] ∧ r.path.head? = some start ∧
        r.path.getLast? = some endNode ∧ IsPath graph r.path) ∧
    ∀ W : Int, WeightsAtMost graph V W → (V.length : Int) * W ≤ 2147483647 →
      ((∃ (fuel : Nat) (r : AlgoResult), runDijkstra fuel graph start endNode = some r) ∧
        ∀ (fuel : Nat) (r : AlgoResult), runDijkstra fuel graph start endNode = some r →
          r.success = true ∧ r.path ≠ [] ∧ r.path.head? = some start ∧
          r.path.getLast? = some endNode ∧ IsPath graph r.path) ∧
      (HeuristicFits graph V W endNode →
        (∃ (fuel : Nat) (r : AlgoResult), runAStar fuel graph start endNode = some r) ∧
        ∀ (fuel : Nat) (r : AlgoResult), runAStar fuel graph start endNode = some r →
          r.success = true ∧ r.path ≠ [] ∧ r.path.head? = some start ∧
          r.path.getLast? = some endNode ∧ IsPath graph r.path) := by
  obtain ⟨hB, hD, hA⟩ := searchesExact_return_path graph V start endNode hs hV hw hsent hreach
  refine ⟨hB, fun W hW hfit => ?_⟩
  obtain ⟨W0, h0, hW0, hfit0, hh0⟩ := weightBound_nonneg graph V W hw hW hfit
  refine ⟨?_, fun hh => ?_⟩
  · simp only [runDijkstra_exact graph V W0 start endNode hs hV hw h0 hW0 hfit0]
    exact hD
  · simp only [runAStar_exact graph V W0 start endNode hs hV hw h0 hW0 hfit0 (hh0 endNode hh)]
    exact hA

/-- C5 (amended) at a concrete input: the sample graph, from node 0 to node 3, with the
bound `W = 4` on its edge weights. -/
theorem reachable_returns_path_witness :
    (0 : Node) ∈ [0, 1, 2, 3] ∧ ClosedUnder sampleGraph [0, 1, 2, 3] ∧
    NonNegWeights sampleGraph [0, 1, 2, 3] ∧ (-1 : Node) ∉ [0, 1, 2, 3] ∧
    Reachable sampleGraph 0 3 ∧
    (WeightsAtMost sampleGraph [0, 1, 2, 3] 4 ∧
      (([0, 1, 2, 3] : List Node).length : Int) * 4 ≤ 2147483647 ∧
      HeuristicFits sampleGraph [0, 1, 2, 3] 4 3) ∧
    (((∃ (fuel : Nat) (r : AlgoResult), runBFS fuel sampleGraph 0 3 = some r) ∧
      ∀ (fuel : Nat) (r : AlgoResult), runBFS fuel sampleGraph 0 3 = some r →
        r.success = true ∧ r.path ≠ [] ∧ r.path.head? = some 0 ∧
        r.path.getLast? = some 3 ∧ IsPath sampleGraph r.path) ∧
    ((∃ (fuel : Nat) (r : AlgoResult), runDijkstra fuel sampleGraph 0 3 = some r) ∧
      ∀ (fuel : Nat) (r : AlgoResult), runDijkstra fuel sampleGraph 0 3 = some r →
        r.success = true ∧ r.path ≠ [] ∧ r.path.head? = some 0 ∧
        r.path.getLast? = some 3 ∧ IsPath sampleGraph r.path) ∧
    ((∃ (fuel : Nat) (r : AlgoResult), runAStar fuel sampleGraph 0 3 = some r) ∧
      ∀ (fuel : Nat) (r : AlgoResult), runAStar fuel sampleGraph 0 3 = some r →
        r.success = true ∧ r.path ≠ [] ∧ r.path.head? = some 0 ∧
        r.path.getLast? = some 3 ∧ IsPath sampleGraph r.path)) :=
  ⟨by decide, by decide, by decide, by decide, sampleGraph_reachable,
    ⟨by decide, by decide, by decide⟩,
    (reachable_returns_path sampleGraph [0, 1, 2, 3] 0 3 (by decide) (by decide) (by decide)
      (by decide) sampleGraph_reachable).1,
    ((reachable_returns_path sampleGraph [0, 1, 2, 3] 0 3 (by decide) (by decide) (by decide)
      (by decide) sampleGraph_reachable).2 4 (by decide) (by decide)).1,
    ((reachable_returns_path sampleGraph [0, 1, 2, 3] 0 3 (by decide) (by decide) (by decide)
      (by decide) sampleGraph_reachable).2 4 (by decide) (by decide)).2
      (by decide)⟩

/-- C25 (as stated, at edge weights whose sums do not fit in an `int`): on the graph
0→1 (2^30), 1→2 (2^30), 1→3 (5), 2→1 (0), whose weights are non-negative, `runDijkstra`
from 0 for the absent node 9 passes the nodes 0, 1, 2, 1, 3 to `onNodeVisited` and
returns `visitedCount = 5` for 4 distinct nodes: the distance of node 2 wraps to −2^31,
the edge 2→1 then lowers the distance of node 1, and the new queue entry of node 1
passes the stale-entry guard. -/
theorem runDijkstra_visits_twice :
    (0 : Node) ∈ [0, 1, 2, 3] ∧ ClosedUnder wrapCycleGraph [0, 1, 2, 3] ∧
    NonNegWeights wrapCycleGraph [0, 1, 2, 3] ∧
    (dijkstraFinal 8 wrapCycleGraph 0 9).map (fun s => (s.visited, s.dist 1, s.dist 2))
      = some ([0, 1, 2, 1, 3], some (-2147483648), some (-2147483648)) ∧
    runDijkstra 8 wrapCycleGraph 0 9
      = some { path := [], visitedCount := 5, totalCost := 0, success := false } ∧
    ¬ ([0, 1, 2, 1, 3] : List Node).Nodup ∧ ([0, 1, 2, 1, 3] : List Node).dedup.length = 4 :=
  ⟨by decide, by decide, by decide, by decide, by decide, by decide, by decide⟩

/-- C25 (amended): on a finite graph with non-negative edge weights of at most `W`, where
the number of nodes times `W` is at most the largest `int`, `runDijkstra` returns, the
sequence of nodes it passes to `onNodeVisited` has no repetition, and `visitedCount` is
the length of that sequence, hence the number of distinct nodes visited; and at every
head of the loop, a queue entry on top whose node has already been visited is stale:
the iteration only removes it from the queue. -/
theorem runDijkstra_visits_once (graph : IGraph) (V : List Node) (start endNode : Node)
    (W : Int) (hs : start ∈ V) (hV : ClosedUnder graph V) (hw : NonNegWeights graph V)
    (hW : WeightsAtMost graph V W) (hfit : (V.length : Int) * W ≤ 2147483647) :
    (∃ (fuel : Nat) (r : AlgoResult), runDijkstra fuel graph start endNode = some r) ∧
    (∀ (fuel : Nat) (r : AlgoResult), runDijkstra fuel graph start endNode = some r →
      ∃ s : DijkstraState, dijkstraFinal fuel graph start endNode = some s ∧
        s.visited.Nodup ∧ r.visitedCount = (s.visited.length : Int) ∧
        r.visitedCount = (s.visited.dedup.length : Int)) ∧
    (∀ (n : Nat) (s : DijkstraState),
      loopState (dijkstraStep graph endNode) n (dijkstraInit start) = some s →
        s.visited.Nodup ∧
        ∀ (d : Int) (curr : Node), pqTop s.pq = some (d, curr) → curr ∈ s.visited →
          dijkstraStale s.dist d curr = true ∧
          dijkstraStep graph endNode s = Sum.inl { s with pq := s.pq.erase (d, curr) }) := by
  obtain ⟨h1, h2, h3⟩ := runDijkstraExact_visits_once graph V start endNode hs hV hw
  obtain ⟨W0, h0, hW0, hfit0, _⟩ := weightBound_nonneg graph V W hw hW hfit
  simp only [runDijkstra_exact graph V W0 start endNode hs hV hw h0 hW0 hfit0,
    dijkstraFinal_exact graph V W0 start endNode hs hV hw h0 hW0 hfit0,
    dijkstraLoop_exact graph V W0 start endNode hs hV hw h0 hW0 hfit0]
  refine ⟨h1, h2, fun n s hloop => ?_⟩
  obtain ⟨a, b⟩ := h3 n s hloop
  refine ⟨a, fun d curr htop hvis => ?_⟩
  obtain ⟨c1, c2⟩ := b d curr htop hvis
  rw [dijkstraStep_exact_at graph V W0 start endNode hs hV hw h0 hW0 hfit0 n s hloop]
  exact ⟨c1, c2⟩

/-- C25 (amended) at a concrete input: the sample graph, in which node 1 is queued twice
(with the keys 4 and 3), searched from node 0 for the absent node 5: the visited nodes
are 0, 2, 1, 3. -/
theorem runDijkstra_visits_once_witness :
    (0 : Node) ∈ [0, 1, 2, 3] ∧ ClosedUnder sampleGraph [0, 1, 2, 3] ∧
    NonNegWeights sampleGraph [0, 1, 2, 3] ∧
    WeightsAtMost sampleGraph [0, 1, 2, 3] 4 ∧
    (([0, 1, 2, 3] : List Node).length : Int) * 4 ≤ 2147483647 ∧
    (dijkstraFinal 10 sampleGraph 0 5).map (fun s => (s.visited, s.visitedCount))
      = some ([0, 2, 1, 3], 4) ∧
    ((∃ (fuel : Nat) (r : AlgoResult), runDijkstra fuel sampleGraph 0 5 = some r) ∧
    (∀ (fuel : Nat) (r : AlgoResult), runDijkstra fuel sampleGraph 0 5 = some r →
      ∃ s : DijkstraState, dijkstraFinal fuel sampleGraph 0 5 = some s ∧
        s.visited.Nodup ∧ r.visitedCount = (s.visited.length : Int) ∧
        r.visitedCount = (s.visited.dedup.length : Int)) ∧
    (∀ (n : Nat) (s : DijkstraState),
      loopState (dijkstraStep sampleGraph 5) n (dijkstraInit 0) = some s →
        s.visited.Nodup ∧
        ∀ (d : Int) (curr : Node), pqTop s.pq = some (d, curr) → curr ∈ s.visited →
          dijkstraStale s.dist d curr = true ∧
          dijkstraStep sampleGraph 5 s = Sum.inl { s with pq := s.pq.erase (d, curr) })) :=
  ⟨by decide, by decide, by decide, by decide, by decide, by decide,
   runDijkstra_visits_once sampleGraph [0, 1, 2, 3] 0 5 4 (by decide) (by decide) (by decide)
     (by decide) (by decide)⟩

/-- C26 (as stated, at edge weights whose sums do not fit in an `int`): on the graph
0→0 (2^31 − 1), 0→1 (2^31 − 1), 1→0 (5), 1→2 (5), whose weights are non-negative and
whose heuristic is the default, from node 1 to node 2 `runAStar` returns the total cost
5 and `runDijkstra` the total cost −2147483639: the loop edge of node 0 makes the sum
`5 + (2^31 − 1)` wrap; for the next edge `runDijkstra` adds the weight to the key it
dequeued and `runAStar` to the score it has just lowered. -/
theorem astar_default_heuristic_differs :
    (1 : Node) ∈ [0, 1, 2] ∧ ClosedUnder selfLoopGraph [0, 1, 2] ∧
    NonNegWeights selfLoopGraph [0, 1, 2] ∧ (∀ a b, selfLoopGraph.getHeuristic a b = 0) ∧
    runAStar 6 selfLoopGraph 1 2
      = some { path := [1, 2], visitedCount := 4, totalCost := 5, success := true } ∧
    runDijkstra 6 selfLoopGraph 1 2
      = some { path := [1, 2], visitedCount := 5, totalCost := -2147483639, success := true } :=
  ⟨by decide, by decide, by decide, fun _ _ => rfl, by decide, by decide⟩

/-- C26 (amended): on a finite graph with non-negative edge weights of at most `W`, where
the number of nodes times `W` is at most the largest `int`, whose `getHeuristic` is the
default, which returns 0, `runAStar` and `runDijkstra` both return, and they return the
same success flag, the same path and the same total cost. -/
theorem astar_default_heuristic_is_dijkstra (graph : IGraph) (V : List Node)
    (start endNode : Node) (W : Int) (hs : start ∈ V) (hV : ClosedUnder graph V)
    (hw : NonNegWeights graph V) (hh : ∀ a b, graph.getHeuristic a b = 0)
    (hW : WeightsAtMost graph V W) (hfit : (V.length : Int) * W ≤ 2147483647) :
    (∃ (fuel : Nat) (ra rd : AlgoResult),
      runAStar fuel graph start endNode = some ra ∧
      runDijkstra fuel graph start endNode = some rd) ∧
    ∀ (fa fd : Nat) (ra rd : AlgoResult),
      runAStar fa graph start endNode = some ra →
      runDijkstra fd graph start endNode = some rd →
      ra.success = rd.success ∧ ra.path = rd.path ∧ ra.totalCost = rd.totalCost := by
  obtain ⟨W0, h0, hW0, hfit0, _⟩ := weightBound_nonneg graph V W hw hW hfit
  simp only [runDijkstra_exact graph V W0 start endNode hs hV hw h0 hW0 hfit0,
    runAStar_exact graph V W0 start endNode hs hV hw h0 hW0 hfit0
      (heuristicFits_of_zero graph V W0 endNode hh hfit0)]
  exact searchesExact_default_heuristic graph V start endNode hs hV hw hh

/-- C26 (amended) at a concrete input: the sample graph, which has a zero-weight edge and
queues node 1 twice, from node 0 to node 3. -/
theorem astar_default_heuristic_is_dijkstra_witness :
    (0 : Node) ∈ [0, 1, 2, 3] ∧ ClosedUnder sampleGraph [0, 1, 2, 3] ∧
    NonNegWeights sampleGraph [0, 1, 2, 3] ∧ (∀ a b, sampleGraph.getHeuristic a b = 0) ∧
    WeightsAtMost sampleGraph [0, 1, 2, 3] 4 ∧
    (([0, 1, 2, 3] : List Node).length : Int) * 4 ≤ 2147483647 ∧
    runAStar 10 sampleGraph 0 3
      = some { path := [0, 2, 1, 3], visitedCount := 4, totalCost := 3, success := true } ∧
    runDijkstra 10 sampleGraph 0 3
      = some { path := [0, 2, 1, 3], visitedCount := 4, totalCost := 3, success := true } ∧
    ((∃ (fuel : Nat) (ra rd : AlgoResult),
      runAStar fuel sampleGraph 0 3 = some ra ∧ runDijkstra fuel sampleGraph 0 3 = some rd) ∧
    ∀ (fa fd : Nat) (ra rd : AlgoResult),
      runAStar fa sampleGraph 0 3 = some ra →
      runDijkstra fd sampleGraph 0 3 = some rd →
      ra.success = rd.success ∧ ra.path = rd.path ∧ ra.totalCost = rd.totalCost) :=
  ⟨by decide, by decide, by decide, fun _ _ => rfl, by decide, by decide,
   by decide, by decide,
   astar_default_heuristic_is_dijkstra sampleGraph [0, 1, 2, 3] 0 3 4 (by decide) (by decide)
     (by decide) (fun _ _ => rfl) (by decide) (by decide)⟩

/-- C28 (as stated, at terrain weights whose sums do not fit in an `int`): on `Grid(1,4)`
with every terrain weight set to 100000000 (every edge weighs 1000000000), from node 3
to node 0, the loop of `runDijkstra` ends with success after visiting 3, 2, 1, 0, and
leaves the parent entries 0 ↦ 1, 1 ↦ 2, 2 ↦ 1: the distance of node 2 was lowered
from node 1 once the sum had wrapped.  The backward walk of `reconstructPathInternal`
from node 0 never ends, and `runDijkstra` and `runAStar` return for no fuel.  Likewise
on `Grid(3,3)` after `setWeight(1,1,300000000)`, from node 0 to node 8: the edges into
node 4 weigh −1294967296, the loop of `runDijkstra` ends with success and leaves the
parent entries 8 ↦ 5, 5 ↦ 4, 4 ↦ 1, 1 ↦ 4, and neither search returns. -/
theorem grid_search_never_returns :
    (Grid.create 1 4).map (fun g =>
      (((g.setWeight 0 0 100000000).setWeight 0 1 100000000).setWeight 0 2 100000000).setWeight
        0 3 100000000) = some gridHeavyRow ∧
    (∀ row ∈ gridHeavyRow.weights, ∀ v ∈ row, 0 ≤ v) ∧ gridHeavyRow.ProductsFit ∧
    ((0 : Node) ≤ 3 ∧ (3 : Node) < gridHeavyRow.height * gridHeavyRow.width) ∧
    ((0 : Node) ≤ 0 ∧ (0 : Node) < gridHeavyRow.height * gridHeavyRow.width) ∧
    (dijkstraFinal 6 gridHeavyRow.toGraph 3 0).map
        (fun s => (s.visited, s.success, s.parent 0, s.parent 1, s.parent 2))
      = some ([3, 2, 1, 0], true, some 1, some 2, some 1) ∧
    (∀ fuel, reconstructPathInternal fuel
      (((NodeMap.empty.insert 0 1).insert 1 2).insert 2 1) 3 0 = none) ∧
    (∀ fuel, runDijkstra fuel gridHeavyRow.toGraph 3 0 = none) ∧
    (∀ fuel, runAStar fuel gridHeavyRow.toGraph 3 0 = none) ∧
    gridHeavyCentre = grid3x3.setWeight 1 1 300000000 ∧
    (∀ row ∈ gridHeavyCentre.weights, ∀ v ∈ row, 0 ≤ v) ∧
    ((0 : Node) ≤ 8 ∧ (8 : Node) < gridHeavyCentre.height * gridHeavyCentre.width) ∧
    ({ target := 4, weight := -1294967296 } : Edge) ∈ gridHeavyCentre.getNeighbors 1 ∧
    (dijkstraFinal 20 gridHeavyCentre.toGraph 0 8).map (fun s => (s.visited, s.success))
      = some ([0, 1, 4, 1, 3, 5, 7, 0, 2, 6, 8], true) ∧
    (dijkstraFinal 20 gridHeavyCentre.toGraph 0 8).map
        (fun s => (s.parent 8, s.parent 5, s.parent 4, s.parent 1))
      = some (some 5, some 4, some 1, some 4) ∧
    (∀ fuel, runDijkstra fuel gridHeavyCentre.toGraph 0 8 = none) ∧
    (∀ fuel, runAStar fuel gridHeavyCentre.toGraph 0 8 = none) :=
  ⟨by decide, by decide, by decide, by decide, by decide, by decide,
    reconstruct_never _ 3 0 [0, 1, 2] (by decide) (by decide),
    runDijkstra_never gridHeavyRow.toGraph 3 0 6 [0, 1, 2] (by decide) (by decide),
    runAStar_never gridHeavyRow.toGraph 3 0 6 [0, 1, 2] (by decide) (by decide),
    by decide, by decide, by decide, by decide, by decide, by decide,
    runDijkstra_never gridHeavyCentre.toGraph 0 8 20 [8, 5, 4, 1] (by decide) (by decide),
    runAStar_never gridHeavyCentre.toGraph 0 8 20 [8, 5, 4, 1] (by decide) (by decide)⟩

/-- C28 (amended): on a grid whose terrain weights are all non-negative, for in-bounds
start and end nodes, `runBFS` returns a result and the main loops of `runDijkstra` and
`runAStar` end; when the terrain weights are moreover at most `wmax`, where 14 times
`wmax` times the number of cells plus `10 * (height + width)` is at most the largest
`int`, the backward walk of `reconstructPathInternal` ends as well and each of
`runDijkstra` and `runAStar` returns a result. -/
theorem grid_searches_terminate (g : Grid) (start endNode : Node)
    (hm : ∀ row ∈ g.weights, ∀ v ∈ row, 0 ≤ v)
    (hs : 0 ≤ start ∧ start < g.height * g.width)
    (he : 0 ≤ endNode ∧ endNode < g.height * g.width) :
    (∃ (fuel : Nat) (r : AlgoResult), runBFS fuel g.toGraph start endNode = some r) ∧
    (∃ (fuel : Nat) (s : DijkstraState), dijkstraFinal fuel g.toGraph start endNode = some s) ∧
    (∃ (fuel : Nat) (s : AStarState), aStarFinal fuel g.toGraph start endNode = some s) ∧
    ∀ wmax : Int, g.SumsFit wmax →
      (∃ (fuel : Nat) (r : AlgoResult), runDijkstra fuel g.toGraph start endNode = some r) ∧
      (∃ (fuel : Nat) (r : AlgoResult), runAStar fuel g.toGraph start endNode = some r) := by
  have hsV : start ∈ g.nodes := (mem_nodes_iff g start).mpr hs
  have hV := grid_closed g
  refine ⟨(runBFS_spec g.toGraph g.nodes start endNode hsV hV).1,
    (dijkstraFinal_weak g.toGraph g.nodes start endNode hsV hV).1,
    (aStarFinal_weak g.toGraph g.nodes start endNode hsV hV).1, fun wmax hfit => ?_⟩
  obtain ⟨hef, hD, hA, _, _⟩ := grid_runs_exact g wmax start endNode hm hfit hs he
  simp only [hD, hA]
  exact (gridExact_searches_terminate g start endNode hm hef hs he).2

/-- C28 (amended) at a concrete input: the wall grid with the weight 0 at the cell (2,0),
from node 0 to node 8, with `wmax = 1`. -/
theorem grid_searches_terminate_witness :
    (∀ row ∈ (gridWall.setWeight 2 0 0).weights, ∀ v ∈ row, 0 ≤ v) ∧
    (gridWall.setWeight 2 0 0).getWeight 2 0 = 0 ∧
    ((0 : Node) ≤ 0 ∧ (0 : Node) <
      (gridWall.setWeight 2 0 0).height * (gridWall.setWeight 2 0 0).width) ∧
    ((0 : Node) ≤ 8 ∧ (8 : Node) <
      (gridWall.setWeight 2 0 0).height * (gridWall.setWeight 2 0 0).width) ∧
    (gridWall.setWeight 2 0 0).SumsFit 1 ∧
    (∃ (fuel : Nat) (r : AlgoResult),
      runBFS fuel (gridWall.setWeight 2 0 0).toGraph 0 8 = some r) ∧
    (∃ (fuel : Nat) (r : AlgoResult),
      runDijkstra fuel (gridWall.setWeight 2 0 0).toGraph 0 8 = some r) ∧
    (∃ (fuel : Nat) (r : AlgoResult),
      runAStar fuel (gridWall.setWeight 2 0 0).toGraph 0 8 = some r) :=
  ⟨by decide, by decide, by decide, by decide, by decide,
   (grid_searches_terminate (gridWall.setWeight 2 0 0) 0 8 (by decide) (by decide)
     (by decide)).1,
   ((grid_searches_terminate (gridWall.setWeight 2 0 0) 0 8 (by decide) (by decide)
     (by decide)).2.2.2 1 (by decide)).1,
   ((grid_searches_terminate (gridWall.setWeight 2 0 0) 0 8 (by decide) (by decide)
     (by decide)).2.2.2 1 (by decide)).2⟩

/-- C29 (as stated, at terrain weights whose sums do not fit in an `int`): on `Grid(1,3)`
after `setWeight(0,1,150000000)` and `setWeight(0,2,150000000)` every terrain weight is
at least 1 and every product `10 * weight` fits in an `int`; `runDijkstra` and `runAStar`
from node 0 to node 2 return success with the path 0, 1, 2 and total cost −1294967296,
while the weights of the two edges of the path sum to 3000000000. -/
theorem grid_cost_wraps :
    (Grid.create 1 3).map (fun g => (g.setWeight 0 1 150000000).setWeight 0 2 150000000)
      = some gridHeavyTriple ∧
    (∀ row ∈ gridHeavyTriple.weights, ∀ v ∈ row, 1 ≤ v) ∧ gridHeavyTriple.ProductsFit ∧
    ((0 : Node) ≤ 0 ∧ (0 : Node) < gridHeavyTriple.height * gridHeavyTriple.width) ∧
    ((0 : Node) ≤ 2 ∧ (2 : Node) < gridHeavyTriple.height * gridHeavyTriple.width) ∧
    runDijkstra 5 gridHeavyTriple.toGraph 0 2
      = some { path := [0, 1, 2], visitedCount := 3, totalCost := -1294967296,
               success := true } ∧
    runAStar 5 gridHeavyTriple.toGraph 0 2
      = some { path := [0, 1, 2], visitedCount := 3, totalCost := -1294967296,
               success := true } ∧
    stepWeight gridHeavyTriple.toGraph 0 1 = 1500000000 ∧
    stepWeight gridHeavyTriple.toGraph 1 2 = 1500000000 ∧
    pathCost gridHeavyTriple.toGraph [0, 1, 2] = 3000000000 :=
  ⟨by decide, by decide, by decide, by decide, by decide, by decide, by decide, by decide,
    by decide, by decide⟩

/-- C29 (amended): on a grid whose terrain weights are all at least 1 and at most `wmax`,
where 14 times `wmax` times the number of cells plus `10 * (height + width)` is at most
the largest `int`, for in-bounds start and end nodes, `runDijkstra` and `runAStar`
return, and when the result has `success = true` its `totalCost` is the sum over the
consecutive steps of the returned path of the weight of the `getNeighbors` edge of that
step; every step of the path is such an edge, and its weight is 10 or 14 times the
terrain weight of the cell entered. -/
theorem grid_cost_is_path_sum (g : Grid) (start endNode : Node) (wmax : Int)
    (hm : ∀ row ∈ g.weights, ∀ v ∈ row, 1 ≤ v) (hfit : g.SumsFit wmax)
    (hs : 0 ≤ start ∧ start < g.height * g.width)
    (he : 0 ≤ endNode ∧ endNode < g.height * g.width) :
    ((∃ (fuel : Nat) (r : AlgoResult), runDijkstra fuel g.toGraph start endNode = some r) ∧
      ∀ (fuel : Nat) (r : AlgoResult), runDijkstra fuel g.toGraph start endNode = some r →
        r.success = true →
        r.totalCost = pathCost g.toGraph r.path ∧ IsPath g.toGraph r.path ∧
        List.Chain' (fun a b =>
          stepWeight g.toGraph a b = 10 * g.getWeight (g.toPoint b).x (g.toPoint b).y ∨
          stepWeight g.toGraph a b = 14 * g.getWeight (g.toPoint b).x (g.toPoint b).y)
          r.path) ∧
    ((∃ (fuel : Nat) (r : AlgoResult), runAStar fuel g.toGraph start endNode = some r) ∧
      ∀ (fuel : Nat) (r : AlgoResult), runAStar fuel g.toGraph start endNode = some r →
        r.success = true →
        r.totalCost = pathCost g.toGraph r.path ∧ IsPath g.toGraph r.path ∧
        List.Chain' (fun a b =>
          stepWeight g.toGraph a b = 10 * g.getWeight (g.toPoint b).x (g.toPoint b).y ∨
          stepWeight g.toGraph a b = 14 * g.getWeight (g.toPoint b).x (g.toPoint b).y)
          r.path) := by
  obtain ⟨hef, hD, hA, _, _⟩ := grid_runs_exact g wmax start endNode
    (fun row hr v hv => le_trans (by decide) (hm row hr v hv)) hfit hs he
  simp only [hD, hA]
  exact gridExact_cost_is_path_sum g start endNode hm hef hs he

/-- C29 (amended) at a concrete input: the edited 3×3 grid (an obstacle at (1,1), weight 7
at (0,1)), from node 0 to node 8, where `runDijkstra` returns the path 0, 3, 6, 7, 8 of
cost 40. -/
theorem grid_cost_is_path_sum_witness :
    (∀ row ∈ grid3x3Edited.weights, ∀ v ∈ row, 1 ≤ v) ∧ grid3x3Edited.SumsFit 7 ∧
    ((0 : Node) ≤ 0 ∧ (0 : Node) < grid3x3Edited.height * grid3x3Edited.width) ∧
    ((0 : Node) ≤ 8 ∧ (8 : Node) < grid3x3Edited.height * grid3x3Edited.width) ∧
    runDijkstra 12 grid3x3Edited.toGraph 0 8
      = some { path := [0, 3, 6, 7, 8], visitedCount := 5, totalCost := 40, success := true } ∧
    pathCost grid3x3Edited.toGraph [0, 3, 6, 7, 8] = 40 ∧
    ((∃ (fuel : Nat) (r : AlgoResult),
        runDijkstra fuel grid3x3Edited.toGraph 0 8 = some r) ∧
      ∀ (fuel : Nat) (r : AlgoResult), runDijkstra fuel grid3x3Edited.toGraph 0 8 = some r →
        r.success = true →
        r.totalCost = pathCost grid3x3Edited.toGraph r.path ∧
        IsPath grid3x3Edited.toGraph r.path ∧
        List.Chain' (fun a b =>
          stepWeight grid3x3Edited.toGraph a b
            = 10 * grid3x3Edited.getWeight (grid3x3Edited.toPoint b).x
                (grid3x3Edited.toPoint b).y ∨
          stepWeight grid3x3Edited.toGraph a b
            = 14 * grid3x3Edited.getWeight (grid3x3Edited.toPoint b).x
                (grid3x3Edited.toPoint b).y)
          r.path) ∧
    ((∃ (fuel : Nat) (r : AlgoResult),
        runAStar fuel grid3x3Edited.toGraph 0 8 = some r) ∧
      ∀ (fuel : Nat) (r : AlgoResult), runAStar fuel grid3x3Edited.toGraph 0 8 = some r →
        r.success = true →
        r.totalCost = pathCost grid3x3Edited.toGraph r.path ∧
        IsPath grid3x3Edited.toGraph r.path ∧
        List.Chain' (fun a b =>
          stepWeight grid3x3Edited.toGraph a b
            = 10 * grid3x3Edited.getWeight (grid3x3Edited.toPoint b).x
                (grid3x3Edited.toPoint b).y ∨
          stepWeight grid3x3Edited.toGraph a b
            = 14 * grid3x3Edited.getWeight (grid3x3Edited.toPoint b).x
                (grid3x3Edited.toPoint b).y)
          r.path) :=
  ⟨by decide, by decide, by decide, by decide, by decide, by decide,
   grid_cost_is_path_sum grid3x3Edited 0 8 7 (by decide) (by decide) (by decide) (by decide)⟩

theorem isShortestDist_unique (graph : IGraph) (start v : Node) (d1 d2 : Int)
    (h1 : IsShortestDist graph start v d1) (h2 : IsShortestDist graph start v d2) : d1 = d2 := by
  obtain ⟨⟨es1, a1, b1, c1⟩, m1⟩ := h1
  obtain ⟨⟨es2, a2, b2, c2⟩, m2⟩ := h2
  have := m1 es2 a2 b2
  have := m2 es1 a1 b1
  omega

/-- C30 (as stated, at edge weights whose sums do not fit in an `int`): on the graph
0→1 (2^30), 1→2 (2^30), 2→1 (1), whose weights are positive, `runDijkstra` from 0 (for
the absent node 9) visits the nodes 0, 1, 2, 1 in this order: the distance of node 2
wraps to −2^31 and the edge 2→1 then puts node 1 back in the queue.  A sequence in
which node 1 comes twice is not strictly increasing in the order by least distance and
then node id, whatever the distances are. -/
theorem dijkstra_visits_out_of_order :
    (0 : Node) ∈ [0, 1, 2] ∧ ClosedUnder wrapCyclePosGraph [0, 1, 2] ∧
    PosWeights wrapCyclePosGraph [0, 1, 2] ∧
    (dijkstraFinal 8 wrapCyclePosGraph 0 9).map (fun s => s.visited) = some [0, 1, 2, 1] ∧
    ¬ ∃ ks : List (Int × Node), ks.map Prod.snd = [0, 1, 2, 1] ∧
        (∀ k ∈ ks, IsShortestDist wrapCyclePosGraph 0 k.2 k.1) ∧
        ks.Pairwise (fun a b => a.1 < b.1 ∨ (a.1 = b.1 ∧ a.2 < b.2)) := by
  refine ⟨by decide, by decide, by decide, by decide, ?_⟩
  rintro ⟨ks, hk, hd, hp⟩
  rcases ks with _ | ⟨a, _ | ⟨b, _ | ⟨c, _ | ⟨d, _ | ⟨e, ks⟩⟩⟩⟩⟩
  · simp at hk
  · simp at hk
  · simp at hk
  · simp at hk
  · simp only [List.map_cons, List.map_nil, List.cons.injEq, and_true] at hk
    obtain ⟨_, hb, _, hdd⟩ := hk
    have h1 := hd b (by simp)
    have h2 := hd d (by simp)
    rw [hb] at h1
    rw [hdd] at h2
    have heq := isShortestDist_unique _ _ _ _ _ h1 h2
    rcases (List.pairwise_cons.mp (List.pairwise_cons.mp hp).2).1 d (by simp) with h | ⟨_, h⟩
    · exact absurd heq (ne_of_lt h)
    · rw [hb, hdd] at h
      exact lt_irrefl _ h
  · simp at hk

/-- C30 (amended): on a finite graph whose edge weights are all positive and at most `W`,
where the number of nodes times `W` is at most the largest `int`, the loop of
`runDijkstra` ends, and the nodes it has visited, each paired with its least distance
from `start`, form a sequence that is strictly increasing in the order by distance and
then by node id. -/
theorem dijkstra_visit_order (graph : IGraph) (V : List Node) (start endNode : Node)
    (W : Int) (hs : start ∈ V) (hV : ClosedUnder graph V) (hpos : PosWeights graph V)
    (hW : WeightsAtMost graph V W) (hfit : (V.length : Int) * W ≤ 2147483647) :
    (∃ (fuel : Nat) (r : AlgoResult), runDijkstra fuel graph start endNode = some r) ∧
    (∃ (fuel : Nat) (s : DijkstraState), dijkstraFinal fuel graph start endNode = some s) ∧
    ∀ (fuel : Nat) (s : DijkstraState), dijkstraFinal fuel graph start endNode = some s →
      ∃ ks : List (Int × Node), ks.map Prod.snd = s.visited ∧
        (∀ k ∈ ks, IsShortestDist graph start k.2 k.1) ∧
        ks.Pairwise (fun a b => a.1 < b.1 ∨ (a.1 = b.1 ∧ a.2 < b.2)) := by
  have hw : NonNegWeights graph V := fun u hu e he => le_of_lt (hpos u hu e he)
  obtain ⟨W0, h0, hW0, hfit0, _⟩ := weightBound_nonneg graph V W hw hW hfit
  simp only [runDijkstra_exact graph V W0 start endNode hs hV hw h0 hW0 hfit0,
    dijkstraFinal_exact graph V W0 start endNode hs hV hw h0 hW0 hfit0]
  exact dijkstraExact_visit_order graph V start endNode hs hV hpos

/-- C30 (amended) at a concrete input: the edited 3×3 grid (an obstacle at (1,1), weight
7 at (0,1)), searched from node 0 for node 2: the nodes are visited in the order
0, 3, 6, 7, 8, 5, 2 with the distances 0, 10, 20, 30, 40, 50, 60. -/
theorem dijkstra_visit_order_witness :
    (0 : Node) ∈ grid3x3Edited.nodes ∧
    ClosedUnder grid3x3Edited.toGraph grid3x3Edited.nodes ∧
    PosWeights grid3x3Edited.toGraph grid3x3Edited.nodes ∧
    WeightsAtMost grid3x3Edited.toGraph grid3x3Edited.nodes 70 ∧
    (grid3x3Edited.nodes.length : Int) * 70 ≤ 2147483647 ∧
    (dijkstraFinal 12 grid3x3Edited.toGraph 0 2).map (fun s => s.visited)
      = some [0, 3, 6, 7, 8, 5, 2] ∧
    ((∃ (fuel : Nat) (r : AlgoResult), runDijkstra fuel grid3x3Edited.toGraph 0 2 = some r) ∧
    (∃ (fuel : Nat) (s : DijkstraState),
      dijkstraFinal fuel grid3x3Edited.toGraph 0 2 = some s) ∧
    ∀ (fuel : Nat) (s : DijkstraState), dijkstraFinal fuel grid3x3Edited.toGraph 0 2 = some s →
      ∃ ks : List (Int × Node), ks.map Prod.snd = s.visited ∧
        (∀ k ∈ ks, IsShortestDist grid3x3Edited.toGraph 0 k.2 k.1) ∧
        ks.Pairwise (fun a b => a.1 < b.1 ∨ (a.1 = b.1 ∧ a.2 < b.2))) :=
  ⟨by decide, by decide, by decide, by decide, by decide, by decide,
   dijkstra_visit_order grid3x3Edited.toGraph grid3x3Edited.nodes 0 2 70 (by decide)
     (by decide) (by decide) (by decide) (by decide)⟩

/-- C31 (as stated, at edge weights whose sums do not fit in an `int`): on the wall grid
after `setWeight(0,0,100000000)`, `setWeight(1,0,100000000)` and
`setWeight(2,0,100000000)`, whose edge weights are non-negative, node 2 cannot be
reached from node 0 and exactly the nodes 0, 3 and 6 can; `runBFS` from 0 to 2 returns
`visitedCount = 3`, while `runDijkstra` visits 0, 3, 6, 3, 0, 6 and returns
`visitedCount = 6`. -/
theorem dijkstra_visits_more_than_reachable :
    gridWallHeavy = ((gridWall.setWeight 0 0 100000000).setWeight 1 0 100000000).setWeight
      2 0 100000000 ∧
    (0 : Node) ∈ [0, 3, 6] ∧ ClosedUnder gridWallHeavy.toGraph [0, 3, 6] ∧
    NonNegWeights gridWallHeavy.toGraph [0, 3, 6] ∧
    ¬ Reachable gridWallHeavy.toGraph 0 2 ∧
    (∀ v, v ∈ ({0, 3, 6} : Finset Node) ↔ Reachable gridWallHeavy.toGraph 0 v) ∧
    runBFS 10 gridWallHeavy.toGraph 0 2
      = some { path := [], visitedCount := 3, totalCost := 0, success := false } ∧
    (dijkstraFinal 10 gridWallHeavy.toGraph 0 2).map (fun s => s.visited)
      = some [0, 3, 6, 3, 0, 6] ∧
    runDijkstra 10 gridWallHeavy.toGraph 0 2
      = some { path := [], visitedCount := 6, totalCost := 0, success := false } := by
  have hcl : ClosedUnder gridWallHeavy.toGraph [0, 3, 6] := by decide
  refine ⟨by decide, by decide, hcl, by decide,
    not_reachable_of_closed _ [0, 3, 6] 0 2 hcl (by decide) (by decide), ?_,
    by decide, by decide, by decide⟩
  intro v
  constructor
  · intro hv
    simp only [Finset.mem_insert, Finset.mem_singleton] at hv
    rcases hv with rfl | rfl | rfl
    · exact reachable_self _ _
    · exact ⟨[{ target := 3, weight := 1000000000 }], by decide, by decide⟩
    · exact ⟨[{ target := 3, weight := 1000000000 }, { target := 6, weight := 1000000000 }],
        by decide, by decide⟩
  · intro hr
    by_contra hv
    simp only [Finset.mem_insert, Finset.mem_singleton] at hv
    exact not_reachable_of_closed _ [0, 3, 6] 0 v hcl (by decide) (by simpa using hv) hr

/-- C31 (amended): on a finite graph with non-negative edge weights, when the end node
cannot be reached from the start node, `runBFS` returns and its `visitedCount` is the
number of nodes that can be reached from the start node (itself included); so does
`runDijkstra` when the edge weights are at most `W` and the number of nodes times `W`
is at most the largest `int`. -/
theorem unreachable_visits_reachable (graph : IGraph) (V : List Node) (start endNode : Node)
    (hs : start ∈ V) (hV : ClosedUnder graph V) (hw : NonNegWeights graph V)
    (hunr : ¬ Reachable graph start endNode) :
    ((∃ (fuel : Nat) (r : AlgoResult), runBFS fuel graph start endNode = some r) ∧
      ∀ (fuel : Nat) (r : AlgoResult), runBFS fuel graph start endNode = some r →
        ∃ R : Finset Node, (∀ v, v ∈ R ↔ Reachable graph start v) ∧
          r.visitedCount = (R.card : Int)) ∧
    ∀ W : Int, WeightsAtMost graph V W → (V.length : Int) * W ≤ 2147483647 →
      (∃ (fuel : Nat) (r : AlgoResult), runDijkstra fuel graph start endNode = some r) ∧
      ∀ (fuel : Nat) (r : AlgoResult), runDijkstra fuel graph start endNode = some r →
        ∃ R : Finset Node, (∀ v, v ∈ R ↔ Reachable graph start v) ∧
          r.visitedCount = (R.card : Int) := by
  obtain ⟨hB, hD⟩ := searchesExact_visit_reachable graph V start endNode hs hV hw hunr
  refine ⟨hB, fun W hW hfit => ?_⟩
  obtain ⟨W0, h0, hW0, hfit0, _⟩ := weightBound_nonneg graph V W hw hW hfit
  simp only [runDijkstra_exact graph V W0 start endNode hs hV hw h0 hW0 hfit0]
  exact hD

/-- C31 (amended) at a concrete input: the wall grid, from node 0 to node 2 behind the
wall; the nodes 0, 3 and 6 can be reached and both searches return `visitedCount = 3`. -/
theorem unreachable_visits_reachable_witness :
    (0 : Node) ∈ [0, 3, 6] ∧ ClosedUnder gridWall.toGraph [0, 3, 6] ∧
    NonNegWeights gridWall.toGraph [0, 3, 6] ∧ ¬ Reachable gridWall.toGraph 0 2 ∧
    (WeightsAtMost gridWall.toGraph [0, 3, 6] 14 ∧
      (([0, 3, 6] : List Node).length : Int) * 14 ≤ 2147483647) ∧
    runBFS 10 gridWall.toGraph 0 2
      = some { path := [], visitedCount := 3, totalCost := 0, success := false } ∧
    runDijkstra 10 gridWall.toGraph 0 2
      = some { path := [], visitedCount := 3, totalCost := 0, success := false } ∧
    (((∃ (fuel : Nat) (r : AlgoResult), runBFS fuel gridWall.toGraph 0 2 = some r) ∧
      ∀ (fuel : Nat) (r : AlgoResult), runBFS fuel gridWall.toGraph 0 2 = some r →
        ∃ R : Finset Node, (∀ v, v ∈ R ↔ Reachable gridWall.toGraph 0 v) ∧
          r.visitedCount = (R.card : Int)) ∧
    ((∃ (fuel : Nat) (r : AlgoResult), runDijkstra fuel gridWall.toGraph 0 2 = some r) ∧
      ∀ (fuel : Nat) (r : AlgoResult), runDijkstra fuel gridWall.toGraph 0 2 = some r →
        ∃ R : Finset Node, (∀ v, v ∈ R ↔ Reachable gridWall.toGraph 0 v) ∧
          r.visitedCount = (R.card : Int))) :=
  ⟨by decide, by decide, by decide, gridWall_unreachable,
    ⟨by decide, by decide⟩, by decide, by decide,
    (unreachable_visits_reachable gridWall.toGraph [0, 3, 6] 0 2 (by decide) (by decide)
      (by decide) gridWall_unreachable).1,
    (unreachable_visits_reachable gridWall.toGraph [0, 3, 6] 0 2 (by decide) (by decide)
      (by decide) gridWall_unreachable).2 14 (by decide) (by decide)⟩

/-! ## The queue entries that `runAStar` dequeues -/

theorem loopState_snoc {S R : Type} (step : S → S ⊕ R) :
    ∀ (n : Nat) (s0 s s1 : S), loopState step n s0 = some s → step s = Sum.inl s1 →
      loopState step (n + 1) s0 = some s1 := by
  intro n
  induction n with
  | zero =>
    intro s0 s s1 h hs
    simp only [loopState, Option.some.injEq] at h
    subst h
    simp only [loopState, hs]
  | succ k ih =>
    intro s0 s s1 h hs
    rw [loopState] at h ⊢
    cases h0 : step s0 with
    | inl t =>
      rw [h0] at h
      simp only at h ⊢
      exact ih t s s1 h hs
    | inr r =>
      rw [h0] at h
      cases h

theorem dequeueTrace_snoc {S R : Type} (step : S → S ⊕ R) (pq : S → List (Int × Node))
    (s0 s : S) (ks : List (Int × Node)) (top : Int × Node)
    (htr : DequeueTrace step pq s0 ks) (hs : loopState step ks.length s0 = some s)
    (htop : pqTop (pq s) = some top) : DequeueTrace step pq s0 (ks ++ [top]) := by
  intro i hi
  by_cases hlt : i < ks.length
  · obtain ⟨si, h1, h2⟩ := htr i hlt
    refine ⟨si, h1, ?_⟩
    rw [h2]
    congr 1
    simp [List.getElem_append_left, hlt]
  · have hi2 : i = ks.length := by
      simp only [List.length_append, List.length_singleton] at hi
      omega
    subst hi2
    refine ⟨s, hs, ?_⟩
    rw [htop]
    congr 1
    simp

/-- The edge loop of `runAStar` with exact sums queues no entry twice. -/
theorem aStarRelaxExact_dequeued (graph : IGraph) (endNode curr : Node)
    (ks : List (Int × Node)) :
    ∀ (es : List Edge) (s : AStarState),
      AStarDequeued graph endNode ks s → (∃ gc, s.gScore curr = some gc) →
      AStarDequeued graph endNode ks (aStarRelaxExact graph endNode curr es s) := by
  intro es
  induction es with
  | nil => intro s inv _; exact inv
  | cons e rest ih =>
    intro s inv hcurr
    obtain ⟨gc, hgc⟩ := hcurr
    have htouch : s.gScore.touch curr = s.gScore := touch_of_some s.gScore curr gc hgc
    have himp : (∀ old, s.gScore e.target = some old → gc + e.weight < old) →
        AStarDequeued graph endNode ks
          { s with parent := s.parent.insert e.target curr,
                   gScore := s.gScore.insert e.target (gc + e.weight),
                   pq := (gc + e.weight + graph.getHeuristic e.target endNode, e.target)
                     :: s.pq } ∧
        ∃ gc2, (s.gScore.insert e.target (gc + e.weight)) curr = some gc2 := by
      intro hold
      have hnew : ((gc + e.weight + graph.getHeuristic e.target endNode, e.target) : Int × Node)
          ∉ ks ++ s.pq := by
        intro hmem
        obtain ⟨gv, hgv, hle⟩ := inv.sound _ hmem
        simp only at hgv hle
        have := hold gv hgv
        omega
      refine ⟨⟨inv.keys, inv.count, ?_, ?_⟩, ?_⟩
      · show (ks ++ (gc + e.weight + graph.getHeuristic e.target endNode, e.target)
            :: s.pq).Nodup
        rw [List.nodup_middle]
        exact List.nodup_cons.mpr ⟨hnew, inv.nodup⟩
      · intro p hp
        have hp2 : p = (gc + e.weight + graph.getHeuristic e.target endNode, e.target) ∨
            p ∈ ks ++ s.pq := by
          simp only [List.mem_append, List.mem_cons] at hp ⊢
          tauto
        by_cases hpt : p.2 = e.target
        · refine ⟨gc + e.weight, by simp [NodeMap.insert, hpt], ?_⟩
          rcases hp2 with rfl | hp2
          · exact le_refl _
          · obtain ⟨gv, hgv, hle⟩ := inv.sound p hp2
            rw [hpt] at hgv hle ⊢
            have := hold gv hgv
            omega
        · rcases hp2 with rfl | hp2
          · exact absurd rfl hpt
          · obtain ⟨gv, hgv, hle⟩ := inv.sound p hp2
            exact ⟨gv, by simp [NodeMap.insert, hpt, hgv], hle⟩
      · by_cases hct : curr = e.target
        · exact ⟨gc + e.weight, by simp [NodeMap.insert, hct]⟩
        · exact ⟨gc, by simp [NodeMap.insert, hct, hgc]⟩
    simp only [aStarRelaxExact, htouch, hgc, Option.getD_some]
    cases hm : s.gScore e.target with
    | none =>
      simp only
      obtain ⟨h1, h2⟩ := himp (fun old h => by rw [hm] at h; cases h)
      exact ih _ h1 h2
    | some old =>
      simp only
      by_cases hlt : gc + e.weight < old
      · rw [if_pos hlt]
        obtain ⟨h1, h2⟩ := himp (fun old2 h => by
          rw [hm] at h
          simp only [Option.some.injEq] at h
          omega)
        exact ih _ h1 h2
      · rw [if_neg hlt]
        exact ih s inv ⟨gc, hgc⟩

theorem aStarInit_dequeued (graph : IGraph) (start endNode : Node) :
    AStarDequeued graph endNode [] (aStarInit graph start endNode) := by
  refine ⟨rfl, rfl, ?_, ?_⟩
  · simp [aStarInit]
  · intro p hp
    simp only [aStarInit, List.nil_append, List.mem_singleton] at hp
    subst hp
    exact ⟨0, by simp [aStarInit, NodeMap.insert], by simp⟩

theorem dequeued_pop (graph : IGraph) (endNode : Node) (ks : List (Int × Node))
    (s : AStarState) (top : Int × Node) (inv : AStarDequeued graph endNode ks s)
    (htop : pqTop s.pq = some top) :
    AStarDequeued graph endNode (ks ++ [top])
      { s with pq := s.pq.erase top, visitedCount := s.visitedCount + 1,
               visited := s.visited ++ [top.2] } := by
  have hmem := pqTop_mem _ _ htop
  obtain ⟨hk, hq, hdis⟩ := List.nodup_append.mp inv.nodup
  have hsub : ∀ p, p ∈ (ks ++ [top]) ++ s.pq.erase top → p ∈ ks ++ s.pq := by
    intro p hp
    simp only [List.mem_append, List.mem_singleton] at hp ⊢
    rcases hp with (h | h) | h
    · exact Or.inl h
    · exact Or.inr (h ▸ hmem)
    · exact Or.inr (List.mem_of_mem_erase h)
  refine ⟨?_, ?_, ?_, fun p hp => inv.sound p (hsub p hp)⟩
  · simp only [List.map_append, List.map_cons, List.map_nil, inv.keys]
  · simp only [List.length_append, List.length_singleton, Nat.cast_add, Nat.cast_one, inv.count]
  · show ((ks ++ [top]) ++ s.pq.erase top).Nodup
    rw [List.nodup_append]
    refine ⟨?_, hq.erase top, ?_⟩
    · rw [List.nodup_append]
      refine ⟨hk, List.nodup_singleton top, ?_⟩
      intro x hx hx2
      simp only [List.mem_singleton] at hx2
      subst hx2
      exact hdis hx hmem
    · intro x hx hx2
      have hx3 := (List.Nodup.mem_erase_iff hq).mp hx2
      simp only [List.mem_append, List.mem_singleton] at hx
      rcases hx with h | h
      · exact hdis h hx3.2
      · exact hx3.1 h

/-- An iteration of the loop of `runAStar` with exact sums dequeues the entry on top of the
queue, which was not dequeued before. -/
theorem aStarStepExact_dequeued (graph : IGraph) (endNode : Node) (ks : List (Int × Node))
    (s : AStarState) (inv : AStarDequeued graph endNode ks s) :
    (∀ s1, aStarStepExact graph endNode s = Sum.inl s1 →
      ∃ top, pqTop s.pq = some top ∧ AStarDequeued graph endNode (ks ++ [top]) s1) ∧
    (∀ r, aStarStepExact graph endNode s = Sum.inr r →
      (AStarDequeued graph endNode ks r ∧ r = s) ∨
      ∃ top, pqTop s.pq = some top ∧ AStarDequeued graph endNode (ks ++ [top]) r) := by
  unfold aStarStepExact
  cases htop : pqTop s.pq with
  | none =>
    refine ⟨fun s1 h => (by cases h), fun r h => ?_⟩
    simp only [Sum.inr.injEq] at h
    subst h
    exact Or.inl ⟨inv, rfl⟩
  | some top =>
    obtain ⟨f, curr⟩ := top
    have hpop := dequeued_pop graph endNode ks s (f, curr) inv htop
    simp only at hpop ⊢
    by_cases hce : curr = endNode
    · simp only [hce, if_true]
      refine ⟨fun s1 h => (by cases h), fun r h => ?_⟩
      simp only [Sum.inr.injEq] at h
      subst h
      right
      refine ⟨(f, endNode), rfl, ?_⟩
      rw [hce] at hpop
      exact ⟨hpop.keys, hpop.count, hpop.nodup, hpop.sound⟩
    · simp only [hce, if_false]
      refine ⟨fun s1 h => ?_, fun r h => by cases h⟩
      simp only [Sum.inl.injEq] at h
      subst h
      refine ⟨(f, curr), rfl, ?_⟩
      obtain ⟨gv, hgv, _⟩ := inv.sound (f, curr)
        (List.mem_append_right _ (pqTop_mem _ _ htop))
      exact aStarRelaxExact_dequeued graph endNode curr (ks ++ [(f, curr)])
        (graph.getNeighbors curr) _ hpop ⟨gv, hgv⟩

/-- The loop of `runAStar` with exact sums: the entries dequeued are the tops of the queue
at the heads of the iterations, and no entry is dequeued twice. -/
theorem aStarFinalExact_dequeued (graph : IGraph) (start endNode : Node) :
    ∀ (fuel : Nat) (s : AStarState) (ks : List (Int × Node)) (r : AStarState),
      loopState (aStarStepExact graph endNode) ks.length (aStarInit graph start endNode)
        = some s →
      AStarDequeued graph endNode ks s →
      DequeueTrace (aStarStepExact graph endNode) (fun t => t.pq)
        (aStarInit graph start endNode) ks →
      iterate (aStarStepExact graph endNode) fuel s = some r →
      ∃ ks2, AStarDequeued graph endNode ks2 r ∧
        DequeueTrace (aStarStepExact graph endNode) (fun t => t.pq)
          (aStarInit graph start endNode) ks2 := by
  intro fuel
  induction fuel with
  | zero => intro s ks r _ _ _ h; simp [iterate] at h
  | succ k ih =>
    intro s ks r hloop inv htr h
    simp only [iterate] at h
    obtain ⟨hinl, hinr⟩ := aStarStepExact_dequeued graph endNode ks s inv
    cases hst : aStarStepExact graph endNode s with
    | inl s1 =>
      rw [hst] at h
      obtain ⟨top, htop, inv1⟩ := hinl s1 hst
      have hloop1 := loopState_snoc _ ks.length _ s s1 hloop hst
      have htr1 := dequeueTrace_snoc (aStarStepExact graph endNode) (fun t => t.pq) _ s ks top
        htr hloop htop
      refine ih s1 (ks ++ [top]) r ?_ inv1 htr1 h
      simp only [List.length_append, List.length_singleton]
      exact hloop1
    | inr r1 =>
      rw [hst] at h
      simp only [Option.some.injEq] at h
      subst h
      rcases hinr r1 hst with ⟨inv1, _⟩ | ⟨top, htop, inv1⟩
      · exact ⟨ks, inv1, htr⟩
      · exact ⟨ks ++ [top], inv1,
          dequeueTrace_snoc (aStarStepExact graph endNode) (fun t => t.pq) _ s ks top
            htr hloop htop⟩

/-- With exact sums: the count returned by `runAStarExact` is the number of queue entries
dequeued, which are pairwise distinct. -/
theorem runAStarExact_dequeued (graph : IGraph) (start endNode : Node) (fuel : Nat)
    (r : AlgoResult) (hr : runAStarExact fuel graph start endNode = some r) :
    ∃ (s : AStarState) (ks : List (Int × Node)),
      aStarFinalExact fuel graph start endNode = some s ∧
      ks.map Prod.snd = s.visited ∧
      DequeueTrace (aStarStepExact graph endNode) (fun t => t.pq)
        (aStarInit graph start endNode) ks ∧
      ks.Nodup ∧ r.visitedCount = (ks.length : Int) ∧
      (s.visited.dedup.length : Int) ≤ r.visitedCount := by
  obtain ⟨s, p, hfin, _, rfl⟩ := runAStarExact_eq_some graph start endNode fuel r hr
  obtain ⟨ks, inv, htr⟩ := aStarFinalExact_dequeued graph start endNode fuel
    (aStarInit graph start endNode) [] s rfl (aStarInit_dequeued graph start endNode)
    (fun i hi => by simp at hi) hfin
  refine ⟨s, ks, hfin, inv.keys, htr, (List.nodup_append.mp inv.nodup).1, inv.count, ?_⟩
  simp only [inv.count]
  have h1 := (List.dedup_sublist s.visited).length_le
  rw [← inv.keys, List.length_map] at h1
  rw [← inv.keys]
  exact_mod_cast h1

/-- C27 (as stated, at a grid on which a node is dequeued twice): on the 2×3 grid with
diagonals and the terrain weights 1 1 4 / 4 3 3, `runAStar` from node 0 to node 5
reports the nodes 0, 1, 4, 4, 5 in this order and returns `visitedCount = 5`, while it
explored 4 distinct nodes: node 4 is first reached diagonally from node 0 (cost 42) and
then more cheaply by way of node 1 (cost 40), and both queue entries are dequeued. -/
theorem aStar_counts_node_twice :
    (Grid.create 2 3).map (fun g =>
      ((((g.setAllowDiagonals true).setWeight 0 2 4).setWeight 1 0 4).setWeight 1 1 3).setWeight
        1 2 3) = some gridDetour ∧
    (∀ row ∈ gridDetour.weights, ∀ v ∈ row, 1 ≤ v) ∧
    (aStarFinal 10 gridDetour.toGraph 0 5).map (fun s => s.visited) = some [0, 1, 4, 4, 5] ∧
    runAStar 10 gridDetour.toGraph 0 5
      = some { path := [0, 1, 5], visitedCount := 5, totalCost := 52, success := true } ∧
    [(0 : Node), 1, 4, 4, 5].dedup.length = 4 := by
  refine ⟨by decide, by decide, by decide, by decide, by decide⟩

/-- C27 (amended): on a grid whose terrain weights are all at least 1 and at most `wmax`,
where 14 times `wmax` times the number of cells plus `10 * (height + width)` is at most
the largest `int`, for in-bounds start and end nodes, `runAStar` returns, and its
`visitedCount` is the number of queue entries it dequeued, each of them counted and
reported through `onNodeVisited` once: the list `ks` of the entries on top of the queue
at the heads of the iterations names the nodes reported, has `visitedCount` elements
and holds no entry twice (a node is queued once for every strict improvement of its
score).  So `visitedCount` counts distinct queue entries and is at least the number of
distinct nodes explored. -/
theorem aStar_visitedCount_counts_dequeues (g : Grid) (start endNode : Node) (wmax : Int)
    (hm : ∀ row ∈ g.weights, ∀ v ∈ row, 1 ≤ v) (hfit : g.SumsFit wmax)
    (hs : 0 ≤ start ∧ start < g.height * g.width)
    (he : 0 ≤ endNode ∧ endNode < g.height * g.width) :
    (∃ (fuel : Nat) (r : AlgoResult), runAStar fuel g.toGraph start endNode = some r) ∧
    ∀ (fuel : Nat) (r : AlgoResult), runAStar fuel g.toGraph start endNode = some r →
      ∃ (s : AStarState) (ks : List (Int × Node)),
        aStarFinal fuel g.toGraph start endNode = some s ∧
        ks.map Prod.snd = s.visited ∧
        DequeueTrace (aStarStep g.toGraph endNode) (fun t => t.pq)
          (aStarInit g.toGraph start endNode) ks ∧
        ks.Nodup ∧ r.visitedCount = (ks.length : Int) ∧
        (s.visited.dedup.length : Int) ≤ r.visitedCount := by
  have hm0 : ∀ row ∈ g.weights, ∀ v ∈ row, 0 ≤ v :=
    fun row hr v hv => le_trans (by decide) (hm row hr v hv)
  obtain ⟨hef, _, hA, hF, hL⟩ := grid_runs_exact g wmax start endNode hm0 hfit hs he
  simp only [hA, hF, DequeueTrace, hL]
  refine ⟨(gridExact_searches_terminate g start endNode hm0 hef hs he).2.2, ?_⟩
  intro fuel r hr
  exact runAStarExact_dequeued g.toGraph start endNode fuel r hr

/-- C27 (amended) at a concrete input: the 2×3 grid of the counterexample, from node 0 to
node 5, where the entries dequeued are (24, 0), (24, 1), (50, 4), (52, 4), (52, 5): node 4
is dequeued twice, under two different f-scores. -/
theorem aStar_visitedCount_counts_dequeues_witness :
    (∀ row ∈ gridDetour.weights, ∀ v ∈ row, 1 ≤ v) ∧ gridDetour.SumsFit 4 ∧
    ((0 : Node) ≤ 0 ∧ (0 : Node) < gridDetour.height * gridDetour.width) ∧
    ((0 : Node) ≤ 5 ∧ (5 : Node) < gridDetour.height * gridDetour.width) ∧
    ((∃ (fuel : Nat) (r : AlgoResult), runAStar fuel gridDetour.toGraph 0 5 = some r) ∧
    ∀ (fuel : Nat) (r : AlgoResult), runAStar fuel gridDetour.toGraph 0 5 = some r →
      ∃ (s : AStarState) (ks : List (Int × Node)),
        aStarFinal fuel gridDetour.toGraph 0 5 = some s ∧
        ks.map Prod.snd = s.visited ∧
        DequeueTrace (aStarStep gridDetour.toGraph 5) (fun t => t.pq)
          (aStarInit gridDetour.toGraph 0 5) ks ∧
        ks.Nodup ∧ r.visitedCount = (ks.length : Int) ∧
        (s.visited.dedup.length : Int) ≤ r.visitedCount) :=
  ⟨by decide, by decide, by decide, by decide,
   aStar_visitedCount_counts_dequeues gridDetour 0 5 4 (by decide) (by decide) (by decide)
     (by decide)⟩

/-! ## `Grid::load`: the headers that are rejected -/

theorem skipWs_append (ws : List Char) (c : Char) (rest : List Char)
    (hws : ∀ w ∈ ws, isSpace w = true) (hc : isSpace c = false) :
    skipWs (ws ++ c :: rest) = c :: rest := by
  induction ws with
  | nil => simp [skipWs, hc]
  | cons w ws ih =>
    rw [List.cons_append, skipWs, if_pos (hws w (List.mem_cons_self _ _))]
    exact ih (fun x hx => hws x (List.mem_cons_of_mem _ hx))

theorem skipWs_decomp : ∀ cs : List Char, ∃ ws, cs = ws ++ skipWs cs ∧
    (∀ w ∈ ws, isSpace w = true) ∧ (∀ c ∈ (skipWs cs).head?, isSpace c = false) := by
  intro cs
  induction cs with
  | nil => exact ⟨[], rfl, fun w hw => (List.not_mem_nil _ hw).elim, fun c hc => (by cases hc)⟩
  | cons c cs ih =>
    by_cases hc : isSpace c = true
    · obtain ⟨ws, h1, h2, h3⟩ := ih
      refine ⟨c :: ws, ?_, ?_, ?_⟩
      · rw [skipWs, if_pos hc, List.cons_append, ← h1]
      · intro w hw
        rcases List.mem_cons.mp hw with rfl | hw
        · exact hc
        · exact h2 w hw
      · rw [skipWs, if_pos hc]; exact h3
    · refine ⟨[], ?_, fun w hw => (List.not_mem_nil _ hw).elim, ?_⟩
      · rw [skipWs, if_neg hc]; rfl
      · rw [skipWs, if_neg hc]
        intro x hx
        simp only [List.head?_cons, Option.mem_def, Option.some.injEq] at hx
        subst hx
        simpa using hc

theorem readDigits_append : ∀ (digits : List Char) (acc : Nat) (rest : List Char),
    (∀ c ∈ digits, charDigit c ≠ none) → (∀ c ∈ rest.head?, charDigit c = none) →
    readDigits (digits ++ rest) acc
      = (digits.foldl (fun a c => a * 10 + (charDigit c).getD 0) acc, rest) := by
  intro digits
  induction digits with
  | nil =>
    intro acc rest _ hrest
    cases rest with
    | nil => rfl
    | cons c cs =>
      have := hrest c (by simp)
      simp [readDigits, this]
  | cons d ds ih =>
    intro acc rest hd hrest
    cases hdd : charDigit d with
    | none => exact absurd hdd (hd d (List.mem_cons_self _ _))
    | some v =>
      simp only [List.cons_append, readDigits, hdd, List.foldl_cons, Option.getD_some]
      exact ih _ rest (fun c hc => hd c (List.mem_cons_of_mem _ hc)) hrest

theorem readDigits_decomp : ∀ (cs : List Char) (acc : Nat), ∃ digits,
    cs = digits ++ (readDigits cs acc).2 ∧ (∀ c ∈ digits, charDigit c ≠ none) ∧
    (∀ c ∈ (readDigits cs acc).2.head?, charDigit c = none) ∧
    (readDigits cs acc).1 = digits.foldl (fun a c => a * 10 + (charDigit c).getD 0) acc := by
  intro cs
  induction cs with
  | nil =>
    intro acc
    exact ⟨[], rfl, fun c hc => (List.not_mem_nil _ hc).elim, fun c hc => (by cases hc), rfl⟩
  | cons c cs ih =>
    intro acc
    cases hc : charDigit c with
    | none =>
      refine ⟨[], ?_, fun x hx => (List.not_mem_nil _ hx).elim, ?_, ?_⟩
      · simp [readDigits, hc]
      · intro x hx
        simp only [readDigits, hc, List.head?_cons, Option.mem_def, Option.some.injEq] at hx
        subst hx; exact hc
      · simp [readDigits, hc]
    | some v =>
      obtain ⟨ds, h1, h2, h3, h4⟩ := ih (acc * 10 + v)
      refine ⟨c :: ds, ?_, ?_, ?_, ?_⟩
      · simp only [readDigits, hc, List.cons_append]
        rw [← h1]
      · intro x hx
        rcases List.mem_cons.mp hx with rfl | hx
        · rw [hc]; simp
        · exact h2 x hx
      · simpa only [readDigits, hc] using h3
      · simp only [readDigits, hc, List.foldl_cons, Option.getD_some]
        exact h4

/-- The digits of an integer field are extracted when they are there and the number fits. -/
theorem extractDigits_ok (neg : Bool) (digits rest : List Char) (hne : digits ≠ [])
    (hd : ∀ c ∈ digits, charDigit c ≠ none) (hrest : ∀ c ∈ rest.head?, charDigit c = none)
    (hv : IsInt32 (if neg = true then -(decimalValue digits : Int) else (decimalValue digits : Int))) :
    (IStream.extractDigits neg (digits ++ rest)).1 = { buf := rest, failed := false } := by
  cases digits with
  | nil => exact absurd rfl hne
  | cons d ds =>
    cases hdd : charDigit d with
    | none => exact absurd hdd (hd d (List.mem_cons_self _ _))
    | some v =>
      have hr := readDigits_append (d :: ds) 0 rest hd hrest
      unfold IsInt32 at hv
      unfold decimalValue at hv
      simp only [List.cons_append] at hr
      simp only [IStream.extractDigits, List.cons_append, hdd, hr]
      rw [if_neg (by omega), if_neg (by omega)]

theorem extractDigits_decomp (neg : Bool) (cs : List Char)
    (h : (IStream.extractDigits neg cs).1.failed = false) :
    ∃ digits, cs = digits ++ (IStream.extractDigits neg cs).1.buf ∧ digits ≠ [] ∧
      (∀ c ∈ digits, charDigit c ≠ none) ∧
      (∀ c ∈ (IStream.extractDigits neg cs).1.buf.head?, charDigit c = none) ∧
      IsInt32 (if neg = true then -(decimalValue digits : Int) else (decimalValue digits : Int)) := by
  cases cs with
  | nil => simp [IStream.extractDigits] at h
  | cons c rest =>
    cases hc : charDigit c with
    | none => simp [IStream.extractDigits, hc] at h
    | some v =>
      obtain ⟨ds, h1, h2, h3, h4⟩ := readDigits_decomp (c :: rest) 0
      simp only [IStream.extractDigits, hc] at h ⊢
      have hne : ds ≠ [] := by
        intro hnil
        subst hnil
        simp only [List.nil_append] at h1
        have h5 := h3 c (by rw [← h1]; simp)
        rw [hc] at h5
        cases h5
      have hval : ((readDigits (c :: rest) 0).1 : Int) = (decimalValue ds : Int) := by
        rw [h4]; rfl
      generalize hg : (if neg = true then -((readDigits (c :: rest) 0).1 : Int)
        else ((readDigits (c :: rest) 0).1 : Int)) = val at h ⊢
      by_cases hlo : val < -2147483648
      · rw [if_pos hlo] at h; cases h
      · rw [if_neg hlo] at h ⊢
        by_cases hhi : val > 2147483647
        · rw [if_pos hhi] at h; cases h
        · rw [if_neg hhi]
          refine ⟨ds, h1, hne, h2, h3, ?_⟩
          unfold IsInt32
          rw [← hval, hg]
          constructor <;> omega

theorem charDigit_ne_space (c : Char) (h : charDigit c ≠ none) : isSpace c = false := by
  cases hs : isSpace c with
  | false => rfl
  | true => exact absurd (isSpace_not_digit c hs) h

/-- An integer field is extracted, and the stream is left at the text after it. -/
theorem extractInt_ok (cs rest : List Char) (h : IntegerField cs rest) :
    (IStream.extractInt { buf := cs, failed := false }).1 = { buf := rest, failed := false } := by
  obtain ⟨ws, sign, digits, rfl, hws, hsign, hne, hd, hrest, hv⟩ := h
  cases digits with
  | nil => exact absurd rfl hne
  | cons d ds =>
    have hdd := hd d (List.mem_cons_self _ _)
    have hdm : d ≠ '-' := fun h => hdd (h ▸ by decide)
    have hdp : d ≠ '+' := fun h => hdd (h ▸ by decide)
    unfold IStream.extractInt
    simp only [Bool.false_eq_true, if_false]
    rcases hsign with rfl | rfl | rfl
    · rw [List.nil_append, List.cons_append, skipWs_append ws d _ hws (charDigit_ne_space d hdd)]
      simp only [hdm, hdp, if_false]
      rw [← List.cons_append]
      exact extractDigits_ok false (d :: ds) rest hne hd hrest (by simpa using hv)
    · rw [List.singleton_append, skipWs_append ws '-' _ hws (by decide)]
      simp only [if_true]
      exact extractDigits_ok true (d :: ds) rest hne hd hrest (by simpa using hv)
    · rw [List.singleton_append, skipWs_append ws '+' _ hws (by decide)]
      simp only [show ('+' : Char) ≠ '-' by decide, if_false, if_true]
      exact extractDigits_ok false (d :: ds) rest hne hd hrest (by simpa using hv)

/-- When an extraction of an `int` succeeds, the text began with an integer field. -/
theorem extractInt_decomp (cs : List Char)
    (h : (IStream.extractInt { buf := cs, failed := false }).1.failed = false) :
    IntegerField cs (IStream.extractInt { buf := cs, failed := false }).1.buf := by
  obtain ⟨ws, h1, h2, _⟩ := skipWs_decomp cs
  unfold IStream.extractInt at h ⊢
  simp only [Bool.false_eq_true, if_false] at h ⊢
  cases hsk : skipWs cs with
  | nil => rw [hsk] at h; simp at h
  | cons c rest =>
    rw [hsk] at h h1
    simp only at h ⊢
    by_cases hm : c = '-'
    · rw [if_pos hm] at h ⊢
      obtain ⟨ds, e1, e2, e3, e4, e5⟩ := extractDigits_decomp true rest h
      refine ⟨ws, ['-'], ds, ?_, h2, Or.inr (Or.inl rfl), e2, e3, e4, by simpa using e5⟩
      rw [h1, hm, ← e1]; rfl
    · rw [if_neg hm] at h ⊢
      by_cases hp : c = '+'
      · rw [if_pos hp] at h ⊢
        obtain ⟨ds, e1, e2, e3, e4, e5⟩ := extractDigits_decomp false rest h
        refine ⟨ws, ['+'], ds, ?_, h2, Or.inr (Or.inr rfl), e2, e3, e4, by simpa using e5⟩
        rw [h1, hp, ← e1]; rfl
      · rw [if_neg hp] at h ⊢
        obtain ⟨ds, e1, e2, e3, e4, e5⟩ := extractDigits_decomp false (c :: rest) h
        refine ⟨ws, [], ds, ?_, h2, Or.inl rfl, e2, e3, e4, by simpa using e5⟩
        rw [h1, List.nil_append, ← e1]

theorem extractChar_ok (cs rest : List Char) (h : SeparatorChar cs rest) :
    (IStream.extractChar { buf := cs, failed := false }).1 = { buf := rest, failed := false } := by
  obtain ⟨ws, c, rfl, hws, hc⟩ := h
  unfold IStream.extractChar
  simp only [Bool.false_eq_true, if_false]
  rw [skipWs_append ws c rest hws hc]

theorem extractChar_decomp (cs : List Char)
    (h : (IStream.extractChar { buf := cs, failed := false }).1.failed = false) :
    SeparatorChar cs (IStream.extractChar { buf := cs, failed := false }).1.buf := by
  obtain ⟨ws, h1, h2, h3⟩ := skipWs_decomp cs
  unfold IStream.extractChar at h ⊢
  simp only [Bool.false_eq_true, if_false] at h ⊢
  cases hsk : skipWs cs with
  | nil => rw [hsk] at h; simp at h
  | cons c rest =>
    rw [hsk] at h1 h3
    exact ⟨ws, c, h1, h2, h3 c (by simp)⟩

theorem stream_eta (s : IStream) (h : s.failed = false) : s = { buf := s.buf, failed := false } := by
  cases s
  simp only at h
  subst h
  rfl

/-- The rest of the header extraction succeeds exactly on the texts of the loose form. -/
theorem headerTail_ok_iff : ∀ (k : Nat) (cs : List Char),
    (headerTail k { buf := cs, failed := false }).failed = false ↔ LooseTail k cs := by
  intro k
  induction k with
  | zero => intro cs; simp [headerTail, LooseTail]
  | succ k ih =>
    intro cs
    unfold headerTail LooseTail
    constructor
    · intro h
      have hc : (IStream.extractChar { buf := cs, failed := false }).1.failed = false := by
        by_contra hf
        have hf2 : (IStream.extractChar { buf := cs, failed := false }).1.failed = true := by
          simpa using hf
        rw [headerTail_failed k _ (extractInt_failed _ hf2)] at h
        cases h
      have hsep := extractChar_decomp cs hc
      have e1 := stream_eta _ hc
      have hi : (IStream.extractInt (IStream.extractChar { buf := cs, failed := false }).1).1.failed
          = false := by
        by_contra hf
        have hf2 : (IStream.extractInt
            (IStream.extractChar { buf := cs, failed := false }).1).1.failed = true := by
          simpa using hf
        rw [headerTail_failed k _ hf2] at h
        cases h
      have e2 := stream_eta _ hi
      rw [e1] at hi e2 h
      have hint := extractInt_decomp _ hi
      rw [e2] at h
      exact ⟨_, _, hsep, hint, (ih _).mp h⟩
    · rintro ⟨s, r, hsep, hint, htail⟩
      rw [extractChar_ok cs s hsep, extractInt_ok s r hint]
      exact (ih r).mpr htail

/-- The header check of `Grid::load` passes exactly on the headers of the loose form. -/
theorem parseHeader_some_iff (hd : List Char) : parseHeader hd ≠ none ↔ LooseHeader hd := by
  rw [Ne, parseHeader_none_iff]
  unfold LooseHeader
  constructor
  · intro h
    have hi : (IStream.extractInt { buf := hd, failed := false }).1.failed = false := by
      by_contra hf
      have hf2 : (IStream.extractInt { buf := hd, failed := false }).1.failed = true := by
        simpa using hf
      exact h (headerTail_failed 5 _ hf2)
    have e := stream_eta _ hi
    have hint := extractInt_decomp hd hi
    rw [e] at h
    exact ⟨_, hint, (headerTail_ok_iff 5 _).mp (by simpa using h)⟩
  · rintro ⟨r, hint, htail⟩
    rw [extractInt_ok hd r hint, (headerTail_ok_iff 5 r).mpr htail]
    simp

/-- C13 (as stated, at headers that are not six comma-separated integers): with ';' in
place of every comma, and with text after the sixth integer, `load` returns true and
installs the 2×2 grid. -/
theorem load_loose_header_accepted :
    (grid3x3.load "2;2;0;0;1;1|....|1 1 1 1 ".toList).1 = true ∧
    (grid3x3.load "2;2;0;0;1;1|....|1 1 1 1 ".toList).2.height = 2 ∧
    (grid3x3.load "2,2,0,0,1,1 and more|....|1 1 1 1 ".toList).1 = true ∧
    (grid3x3.load "2,2,0,0,1,1 and more|....|1 1 1 1 ".toList).2.destination = { x := 1, y := 1 } :=
  ⟨by decide, by decide, by decide, by decide⟩

/-- C13 (amended): a header in which `load` does not find six integers makes it return
false: the header (the text before the first `|`) is not of the form of six decimal
integers in the range of `int`, each two of them separated by one character that is not
white space, with optional white space before every integer and every separator and
any text after the sixth integer.  A header that is of this form passes the header
check, whatever its separator characters are and whatever follows the sixth integer. -/
theorem load_rejects_malformed_header (g : Grid) (hd rest : List Char) (hpipe : '|' ∉ hd) :
    (¬ LooseHeader hd → (g.load (hd ++ '|' :: rest)).1 = false) ∧
    (LooseHeader hd → parseHeader hd ≠ none) := by
  refine ⟨fun hbad => ?_, (parseHeader_some_iff hd).mpr⟩
  have hnone : parseHeader hd = none := by
    by_contra h
    exact hbad ((parseHeader_some_iff hd).mp h)
  rw [load_header_rejected g hd rest hpipe hnone]

/-- C13 (amended) at concrete inputs: a non-numeric third field between other
separators, a non-numeric fifth field after leading white space, a header of five
integers, and a field beyond the range of `int`. -/
theorem load_rejects_malformed_header_witness :
    ('|' ∉ "2;2;x;0;1;1".toList ∧ ¬ LooseHeader "2;2;x;0;1;1".toList ∧
      (grid3x3.load ("2;2;x;0;1;1".toList ++ '|' :: "....|1 1 1 1 ".toList)).1 = false) ∧
    ('|' ∉ " 2,2,0,0,x,1".toList ∧ ¬ LooseHeader " 2,2,0,0,x,1".toList ∧
      (grid3x3.load (" 2,2,0,0,x,1".toList ++ '|' :: "....|1 1 1 1 ".toList)).1 = false) ∧
    ('|' ∉ "2,2,0,0,1".toList ∧ ¬ LooseHeader "2,2,0,0,1".toList ∧
      (grid3x3.load ("2,2,0,0,1".toList ++ '|' :: "....|1 1 1 1 ".toList)).1 = false) ∧
    ('|' ∉ "2,2,0,0,1,4000000000".toList ∧ ¬ LooseHeader "2,2,0,0,1,4000000000".toList ∧
      (grid3x3.load ("2,2,0,0,1,4000000000".toList ++ '|' :: "....|1 1 1 1 ".toList)).1
        = false) ∧
    (LooseHeader "2;2;0;0;1;1".toList ∧ LooseHeader "2,2,0,0,1,1 and more".toList) :=
  ⟨⟨by decide, fun h => absurd ((parseHeader_some_iff _).mpr h) (by decide),
      (load_rejects_malformed_header grid3x3 "2;2;x;0;1;1".toList "....|1 1 1 1 ".toList
        (by decide)).1
        (fun h => absurd ((parseHeader_some_iff _).mpr h) (by decide))⟩,
    ⟨by decide, fun h => absurd ((parseHeader_some_iff _).mpr h) (by decide),
      (load_rejects_malformed_header grid3x3 " 2,2,0,0,x,1".toList "....|1 1 1 1 ".toList
        (by decide)).1
        (fun h => absurd ((parseHeader_some_iff _).mpr h) (by decide))⟩,
    ⟨by decide, fun h => absurd ((parseHeader_some_iff _).mpr h) (by decide),
      (load_rejects_malformed_header grid3x3 "2,2,0,0,1".toList "....|1 1 1 1 ".toList
        (by decide)).1
        (fun h => absurd ((parseHeader_some_iff _).mpr h) (by decide))⟩,
    ⟨by decide, fun h => absurd ((parseHeader_some_iff _).mpr h) (by decide),
      (load_rejects_malformed_header grid3x3 "2,2,0,0,1,4000000000".toList
        "....|1 1 1 1 ".toList (by decide)).1
        (fun h => absurd ((parseHeader_some_iff _).mpr h) (by decide))⟩,
    ⟨(parseHeader_some_iff _).mp (by decide), (parseHeader_some_iff _).mp (by decide)⟩⟩

end ShortestPath
